import Mathlib

/-!
# Ball–Larus path profiling: encoder and path regeneration

A shallow embedding of `ball_larus/ball_larus_pass.cpp` (class `Graph`) and of
`regen/regen.cpp` (class `BallLarusRegen`).

* A basic block is identified with its index in `nodes`; the `BasicBlock*`
  handle of a `Node` and the `bbId` map are the identity on indices.
* A `BackEdge*` stored in an edge is the index of the record in `backedges`
  (the pointers are taken only after the last `push_back`).
* `std::vector` is `List`, read with `getD`/`[i]?` and written with `set`.
* `uint64_t` values are natural numbers; the additions of `gen_incs` and the
  subtraction of `regeneratePath` wrap modulo `2 ^ 64`, the decrement of
  `topological_sort` wraps at zero.
* Reading `entrybb`/`exitbb` before any assignment, indexing a vector out of
  range and running out of fuel are failures (`none`).
-/

namespace BallLarus

/-! ## Data model -/

/-- The input of the pass: for every basic block, in function order, the
successors of its terminator, in successor order. -/
abbrev CFG := List (List Nat)

/-- Every successor is a block of the same function. -/
abbrev CFG.WF (cfg : CFG) : Prop := ∀ l ∈ cfg, ∀ s ∈ l, s < cfg.length

/-- Record `BackEdge` of the pass; `src` and `dest` are block indices. -/
structure BackEdge where
  src : Nat
  dest : Nat
  backedge_inc : Nat
  backedge_reset : Nat
deriving DecidableEq, Repr

/-- Record `To` of the pass: an outgoing edge. -/
structure To where
  next : Nat
  inc : Nat
  be : Option Nat
deriving DecidableEq, Repr

/-- Class `Graph`: `nodes[i]` is the vector `tos` of node `i`. -/
structure Graph where
  nodes : List (List To)
  backedges : List BackEdge
  entrybb : Nat
  exitbb : Nat
  numPath : Nat
deriving DecidableEq, Repr

/-- Width of `uint64_t`. -/
def W64 : Nat := 2 ^ 64

/-! ## Constructor: CFG, entry and exit -/

/-- The edges pushed in the first loop of the constructor: `To{succ, 0, nullptr}`. -/
def initNodes (cfg : CFG) : List (List To) :=
  cfg.map (fun succs => succs.map (fun s => To.mk s 0 none))

/-- One pass of `++inDegree[t.next]` over the edges of a node. -/
def countEdges (deg : List Nat) (tos : List To) : List Nat :=
  tos.foldl (fun d t => d.set t.next (d.getD t.next 0 + 1)) deg

/-- The vector `inDegree` (constructor and `topological_sort`). -/
def countInDegree (nodes : List (List To)) : List Nat :=
  nodes.foldl countEdges (List.replicate nodes.length 0)

/-- The value of `exitbb` after the first loop: the last `i` with `tos.empty()`. -/
def findExit (nodes : List (List To)) : Option Nat :=
  (List.range nodes.length).foldl
    (fun e i => if (nodes.getD i []).isEmpty then some i else e) none

/-- The value of `entrybb` after the second loop: the first `i` with `inDegree[i] == 0`. -/
def findEntry (inDegree : List Nat) : Option Nat :=
  (List.range inDegree.length).find? (fun i => inDegree.getD i 0 == 0)

/-! ## `detect_replace_backedges` -/

/-- The variables captured by the lambda `dfs`. -/
structure DfsState where
  color : List Nat
  backedges : List BackEdge
  toErase : List (List Nat)
deriving DecidableEq, Repr

/-- The branch `color[next] == 1`: push the record, insert into `toErase[curr]`. -/
def DfsState.record (st : DfsState) (curr next : Nat) : DfsState :=
  { st with
    backedges := st.backedges ++ [BackEdge.mk curr next 0 0]
    toErase := st.toErase.set curr ((st.toErase.getD curr []).insert next) }

/-- Assignment `color[curr] = c`. -/
def DfsState.paint (st : DfsState) (curr c : Nat) : DfsState :=
  { st with color := st.color.set curr c }

/-- The `for` loop of `dfs` over the remaining edges of `curr`; `self` is the
recursive call. -/
def dfsEdges (self : DfsState → Nat → Option DfsState) (curr : Nat) :
    List To → DfsState → Option DfsState
  | [], st => some st
  | t :: rest, st =>
    if st.color.getD t.next 0 ≠ 0 then
      if st.color.getD t.next 0 = 1 then
        dfsEdges self curr rest (st.record curr t.next)
      else
        dfsEdges self curr rest st
    else
      match self st t.next with
      | none => none
      | some st1 => dfsEdges self curr rest st1

/-- The lambda `dfs`; the first argument bounds the recursion depth. -/
def dfs (nodes : List (List To)) : Nat → DfsState → Nat → Option DfsState
  | 0, _, _ => none
  | fuel + 1, st, curr =>
    match dfsEdges (dfs nodes fuel) curr (nodes.getD curr []) (st.paint curr 1) with
    | none => none
    | some st1 => some (st1.paint curr 2)

/-- The loop "Erase backedges from graph". -/
def eraseBackedges (nodes : List (List To)) (toErase : List (List Nat)) : List (List To) :=
  (List.range nodes.length).map
    (fun i => (nodes.getD i []).filter (fun t => !(toErase.getD i []).contains t.next))

/-- Statement `nodes[i].tos.push_back(to)`. -/
def pushEdge (nodes : List (List To)) (i : Nat) (t : To) : List (List To) :=
  nodes.set i (nodes.getD i [] ++ [t])

/-- The loop "Insert new edges from the backedges"; `k` is the index of the
first record of the list, standing for `&be`. -/
def insertSynthetic (entrybb exitbb : Nat) :
    List BackEdge → Nat → List (List To) → List (List To)
  | [], _, nodes => nodes
  | be :: rest, k, nodes =>
    insertSynthetic entrybb exitbb rest (k + 1)
      (pushEdge (pushEdge nodes be.src (To.mk exitbb 0 (some k))) entrybb
        (To.mk be.dest 0 (some k)))

/-- The state in which `dfs` is first called. -/
def dfsInit (g : Graph) : DfsState :=
  DfsState.mk (List.replicate g.nodes.length 0) g.backedges
    (List.replicate g.nodes.length [])

/-- Method `Graph::detect_replace_backedges`. -/
def detect_replace_backedges (g : Graph) : Option Graph :=
  match dfs g.nodes g.nodes.length (dfsInit g) g.entrybb with
  | none => none
  | some st =>
    some { g with
      backedges := st.backedges
      nodes := insertSynthetic g.entrybb g.exitbb st.backedges 0
        (eraseBackedges g.nodes st.toErase) }

/-! ## `topological_sort` -/

/-- Local variables of `topological_sort`. -/
structure TopoState where
  inDegree : List Nat
  bfs : List Nat
  sorted : List Nat
deriving DecidableEq, Repr

/-- Unsigned `--x` for `x < 2 ^ 64`; the counters of `inDegree` never exceed
the number of edges. -/
def decr64 (x : Nat) : Nat := if x = 0 then W64 - 1 else x - 1

/-- The inner `for` loop of `topological_sort`. -/
def topoEdges : List To → TopoState → TopoState
  | [], s => s
  | t :: rest, s =>
    let d := decr64 (s.inDegree.getD t.next 0)
    let s1 : TopoState := { s with inDegree := s.inDegree.set t.next d }
    if d = 0 then
      topoEdges rest { s1 with bfs := s1.bfs ++ [t.next], sorted := s1.sorted ++ [t.next] }
    else
      topoEdges rest s1

/-- The `while (!bfs.empty())` loop; the first argument bounds the iterations. -/
def topoLoop (nodes : List (List To)) : Nat → TopoState → Option TopoState
  | 0, _ => none
  | fuel + 1, s =>
    match s.bfs with
    | [] => some s
    | curr :: q => topoLoop nodes fuel (topoEdges (nodes.getD curr []) { s with bfs := q })

/-- Method `Graph::topological_sort`. -/
def topological_sort (g : Graph) : Option (List Nat) :=
  (topoLoop g.nodes (g.nodes.length + 1)
    (TopoState.mk (countInDegree g.nodes) [g.entrybb] [g.entrybb])).map (fun s => s.sorted)

/-! ## `gen_incs` -/

/-- The inner loop of `gen_incs` for node `it`: `t.inc = numPaths[it]`, then
`numPaths[it] += numPaths[t.next]`. -/
def incEdges (it : Nat) : List To → List Nat → List To × List Nat
  | [], np => ([], np)
  | t :: rest, np =>
    let r := incEdges it rest
      (np.set it ((np.getD it 0 + np.getD t.next 0) % W64))
    ({ t with inc := np.getD it 0 } :: r.1, r.2)

/-- One iteration of the outer loop of `gen_incs`. -/
def incNode (it : Nat) (s : List (List To) × List Nat) : List (List To) × List Nat :=
  if (s.1.getD it []).isEmpty then
    (s.1, s.2.set it 1)
  else
    let r := incEdges it (s.1.getD it []) (s.2.set it 0)
    (s.1.set it r.1, r.2)

/-- The sweep of `gen_incs` over `rbegin(sorted) .. rend(sorted)`. -/
def incSweep (sorted : List Nat) (nodes : List (List To)) : List (List To) × List Nat :=
  sorted.reverse.foldl (fun s it => incNode it s) (nodes, List.replicate nodes.length 0)

/-- The assignment to `t.be->backedge_reset` or `t.be->backedge_inc`. -/
def setField (entrybb src : Nat) (bes : List BackEdge) (t : To) : List BackEdge :=
  match t.be with
  | none => bes
  | some k =>
    match bes[k]? with
    | none => bes
    | some b =>
      if src = entrybb then bes.set k { b with backedge_reset := t.inc }
      else bes.set k { b with backedge_inc := t.inc }

/-- The loop "Set inc and reset for each backedge". -/
def setFields (entrybb : Nat) (nodes : List (List To)) (bes : List BackEdge) : List BackEdge :=
  (List.range nodes.length).foldl
    (fun b src => (nodes.getD src []).foldl (setField entrybb src) b) bes

/-- Method `Graph::gen_incs`. -/
def gen_incs (g : Graph) (sorted : List Nat) : Graph :=
  let r := incSweep sorted g.nodes
  { g with
    nodes := r.1
    numPath := r.2.getD g.entrybb 0
    backedges := setFields g.entrybb r.1 g.backedges }

/-- The constructor `Graph::Graph` up to the entry and exit selection. -/
def Graph.init (cfg : CFG) : Option Graph :=
  match findExit (initNodes cfg), findEntry (countInDegree (initNodes cfg)) with
  | some x, some e => some (Graph.mk (initNodes cfg) [] e x 0)
  | _, _ => none

/-- The graph after `detect_replace_backedges` in the constructor. -/
def Graph.dag (cfg : CFG) : Option Graph :=
  match Graph.init cfg with
  | none => none
  | some g => detect_replace_backedges g

/-- The constructor `Graph::Graph`. -/
def Graph.ofCFG (cfg : CFG) : Option Graph :=
  match Graph.dag cfg with
  | none => none
  | some g =>
    match topological_sort g with
    | none => none
    | some sorted => some (gen_incs g sorted)

/-! ## Vocabulary of the properties -/

/-- Colour of node `x` in a state of `dfs`. -/
def DfsState.col (st : DfsState) (x : Nat) : Nat := st.color.getD x 0

/-- The set `toErase[x]` in a state of `dfs`. -/
def DfsState.er (st : DfsState) (x : Nat) : List Nat := st.toErase.getD x []

/-- Number of white nodes. -/
def DfsState.whites (st : DfsState) : Nat := st.color.count 0

/-- The vectors of a state of `dfs` have one slot per node and hold colours. -/
structure DfsState.Good (n : Nat) (st : DfsState) : Prop where
  hc : st.color.length = n
  he : st.toErase.length = n
  hle : ∀ x, st.col x ≤ 2

/-- Every edge of the edge lists leads to a node. -/
def NodesWF (nodes : List (List To)) : Prop :=
  ∀ u, ∀ t ∈ nodes.getD u [], t.next < nodes.length

/-- Big-step description of the loop of `dfs` over the remaining edges `es`
of `curr`; the recursive call on a white successor is unfolded in `tree`. -/
inductive EdgesRun (nodes : List (List To)) : Nat → List To → DfsState → DfsState → Prop
  | done (curr : Nat) (st : DfsState) : EdgesRun nodes curr [] st st
  | back (curr : Nat) (t : To) (rest : List To) (st st' : DfsState) :
      st.col t.next = 1 →
      EdgesRun nodes curr rest (st.record curr t.next) st' →
      EdgesRun nodes curr (t :: rest) st st'
  | skip (curr : Nat) (t : To) (rest : List To) (st st' : DfsState) :
      st.col t.next ≠ 0 → st.col t.next ≠ 1 →
      EdgesRun nodes curr rest st st' →
      EdgesRun nodes curr (t :: rest) st st'
  | tree (curr : Nat) (t : To) (rest : List To) (st st1 st' : DfsState) :
      st.col t.next = 0 →
      EdgesRun nodes t.next (nodes.getD t.next []) (st.paint t.next 1) st1 →
      EdgesRun nodes curr rest (st1.paint t.next 2) st' →
      EdgesRun nodes curr (t :: rest) st st'

/-- An edge of the graph: `v` is the target of an edge stored at `u`. -/
def Edge (nodes : List (List To)) (u v : Nat) : Prop :=
  ∃ t ∈ nodes.getD u [], t.next = v

/-- Rank witness of a state of `dfs`: every black node has a rank below `M`,
and each of its edges leads to a visited node and is either marked for erasure
or leads to a black node of smaller rank. -/
def DfsState.Ranked (nodes : List (List To)) (st : DfsState) (r : Nat → Nat) (M : Nat) : Prop :=
  ∀ x, st.col x = 2 → r x < M ∧ ∀ t ∈ nodes.getD x [],
    st.col t.next ≠ 0 ∧ (t.next ∈ st.er x ∨ (st.col t.next = 2 ∧ r t.next < r x))

/-- The state in which `dfs` is first called, for a graph without records. -/
def dfsStart (n : Nat) : DfsState := DfsState.mk (List.replicate n 0) [] (List.replicate n [])

/-- Facts about the state returned by the outermost call of `dfs`. -/
structure DfsFinal (nodes : List (List To)) (e : Nat) (st : DfsState) : Prop where
  good : st.Good nodes.length
  nogray : ∀ x, st.col x ≠ 1
  entry : st.col e = 2
  ranked : ∃ r M, st.Ranked nodes r M
  recs : ∀ b ∈ st.backedges, Edge nodes b.src b.dest ∧ b.dest ∈ st.er b.src ∧
    nodes.getD b.dest [] ≠ [] ∧ b.src ≠ e ∧ b.dest ≠ e ∧
    b.backedge_inc = 0 ∧ b.backedge_reset = 0 ∧ b.src < nodes.length
  ers : ∀ u v, v ∈ st.er u → ∃ b ∈ st.backedges, b.src = u ∧ b.dest = v
  erblack : ∀ u v, v ∈ st.er u → st.col v = 2
  leaf : nodes.getD e [] = [] → st.backedges = []

/-- The synthetic edges that `insertSynthetic` appends to the edge list of `u`,
for the records `bes` numbered from `k`. -/
def synthAt (entrybb exitbb u : Nat) : List BackEdge → Nat → List To
  | [], _ => []
  | be :: rest, k =>
    (if be.src = u then [To.mk exitbb 0 (some k)] else []) ++
      ((if entrybb = u then [To.mk be.dest 0 (some k)] else []) ++
        synthAt entrybb exitbb u rest (k + 1))

/-- The edge lists produced by the erase and insert loops of
`detect_replace_backedges` from the state returned by `dfs`. -/
def dagNodes (nodes : List (List To)) (e x : Nat) (st : DfsState) : List (List To) :=
  insertSynthetic e x st.backedges 0 (eraseBackedges nodes st.toErase)

/-- Number of edges from `u` to `v`. -/
def edgeCount (nodes : List (List To)) (u v : Nat) : Nat :=
  (nodes.getD u []).countP (fun t => t.next == v)

/-- Number of edges into `v`. -/
def indeg (nodes : List (List To)) (v : Nat) : Nat :=
  ((List.range nodes.length).map (fun u => edgeCount nodes u v)).sum

/-- Invariant of `topological_sort`: `popped` are the nodes taken from the
queue so far, `rest` the edges of the last of them that are still to be
processed. -/
structure TopoInv (nodes : List (List To)) (s : TopoState) (popped : List Nat)
    (rest : List To) : Prop where
  len : s.inDegree.length = nodes.length
  split : s.sorted = popped ++ s.bfs
  nodup : s.sorted.Nodup
  bound : ∀ u ∈ s.sorted, u < nodes.length
  count : ∀ v, v < nodes.length →
    s.inDegree.getD v 0 + (popped.map (fun u => edgeCount nodes u v)).sum =
      indeg nodes v + rest.countP (fun t => t.next == v)
  zero : ∀ v ∈ s.sorted, s.inDegree.getD v 0 = 0
  order : ∀ l1 v l2, s.sorted = l1 ++ v :: l2 → ∀ u, Edge nodes u v → u ∈ l1
  pos : ∀ v, v < nodes.length → v ∉ s.sorted → 0 < indeg nodes v → 0 < s.inDegree.getD v 0

/-- The increments that the inner loop of `gen_incs` gives to an edge list when
the running value of `numPaths[it]` is `acc` and the path counts of the targets
are `c`; the second component is the final value of `numPaths[it]`. -/
def stamp (c : Nat → Nat) : Nat → List To → List To × Nat
  | acc, [] => ([], acc)
  | acc, t :: rest =>
    let r := stamp c ((acc + c t.next) % W64) rest
    ({ t with inc := acc } :: r.1, r.2)

/-- Sum of the `inc` fields along the edges chosen by position from `u`. -/
def sumAlong (nodes : List (List To)) : Nat → List Nat → Nat
  | _, [] => 0
  | u, i :: cs =>
    ((nodes.getD u []).getD i (To.mk 0 0 none)).inc +
      sumAlong nodes ((nodes.getD u []).getD i (To.mk 0 0 none)).next cs

/-- The graph that `detect_replace_backedges` leaves in the constructor, from
the entry, the exit and the state returned by `dfs`. -/
def dagGraph (cfg : CFG) (e x : Nat) (st : DfsState) : Graph :=
  Graph.mk (dagNodes (initNodes cfg) e x st) st.backedges e x 0

/-- A successor in the input CFG. -/
def CFG.Succ (cfg : CFG) (u v : Nat) : Prop := v ∈ cfg.getD u []

instance (cfg : CFG) (u v : Nat) : Decidable (cfg.Succ u v) := by
  unfold CFG.Succ
  infer_instance

/-- Node `e` has no predecessor and every block is reachable from it. -/
def CFG.Rooted (cfg : CFG) (e : Nat) : Prop :=
  e < cfg.length ∧ (∀ u, ¬ cfg.Succ u e) ∧
    ∀ v, v < cfg.length → Relation.ReflTransGen cfg.Succ e v

/-- Node `x` is the only block without successors. -/
def CFG.SingleExit (cfg : CFG) (x : Nat) : Prop :=
  x < cfg.length ∧ ∀ i, i < cfg.length → (cfg.getD i [] = [] ↔ i = x)

/-- The intermediate results of a run of the constructor on `cfg`: entry `e`,
exit `x`, final state `st` of `dfs` and result `sorted` of `topological_sort`. -/
structure Build (cfg : CFG) (e x : Nat) (st : DfsState) (sorted : List Nat) : Prop where
  he : e < cfg.length
  hx : x < cfg.length
  noin : ∀ u, ¬ cfg.Succ u e
  sink : cfg.getD x [] = []
  last : ∀ j, x < j → j < cfg.length → cfg.getD j [] ≠ []
  initEq : Graph.init cfg = some (Graph.mk (initNodes cfg) [] e x 0)
  final : DfsFinal (initNodes cfg) e st
  dagEq : Graph.dag cfg = some (dagGraph cfg e x st)
  topoEq : topological_sort (dagGraph cfg e x st) = some sorted
  ofEq : Graph.ofCFG cfg = some (gen_incs (dagGraph cfg e x st) sorted)
  nodup : sorted.Nodup
  bound : ∀ u ∈ sorted, u < cfg.length
  head : ∃ tl, sorted = e :: tl
  order : ∀ l1 v l2, sorted = l1 ++ v :: l2 →
    ∀ u, Edge (dagNodes (initNodes cfg) e x st) u v → u ∈ l1

/-- A numbered DAG: the rank decreases along every edge, a node without edges
has path count 1, and every edge list carries the increments that `gen_incs`
computes from the path counts `c`. -/
structure Numbered (nodes : List (List To)) (c : Nat → Nat) : Prop where
  wf : NodesWF nodes
  rank : ∃ R : Nat → Nat, (∀ u v, Edge nodes u v → R v < R u) ∧ ∀ u, R u < nodes.length
  leaf : ∀ u, u < nodes.length → nodes.getD u [] = [] → c u = 1
  stamped : ∀ u, u < nodes.length → nodes.getD u [] ≠ [] →
    stamp c 0 (nodes.getD u []) = (nodes.getD u [], c u)

/-- The path counts computed by `gen_incs`, as a function of the node. -/
def pathCounts (cfg : CFG) (e x : Nat) (st : DfsState) (sorted : List Nat) (v : Nat) : Nat :=
  (incSweep sorted (dagNodes (initNodes cfg) e x st)).2.getD v 0

/-- The graph that the constructor returns, from the intermediate results. -/
def finalGraph (cfg : CFG) (e x : Nat) (st : DfsState) (sorted : List Nat) : Graph :=
  gen_incs (dagGraph cfg e x st) sorted

/-- Follow, from `u`, the edges chosen by their positions in the edge lists;
the result is the node reached and the sum of the `inc` fields. -/
def walk (nodes : List (List To)) : Nat → List Nat → Option (Nat × Nat)
  | u, [] => some (u, 0)
  | u, i :: cs =>
    match (nodes.getD u [])[i]? with
    | none => none
    | some t =>
      match walk nodes t.next cs with
      | none => none
      | some r => some (r.1, t.inc + r.2)

/-- Exhaustive enumeration, to depth `fuel`, of the paths from `u` that end at
`exitbb`, each as the list of edge positions taken. -/
def pathsToExit (nodes : List (List To)) (exitbb : Nat) : Nat → Nat → List (List Nat)
  | 0, u => if u = exitbb then [[]] else []
  | fuel + 1, u =>
    (if u = exitbb then [[]] else []) ++
      (List.range (nodes.getD u []).length).flatMap
        (fun i => (pathsToExit nodes exitbb fuel ((nodes.getD u []).getD i (To.mk 0 0 none)).next).map
          (fun cs => i :: cs))

/-- Exhaustive enumeration, to depth `fuel`, of the maximal paths from `u`
(those that end at a node without edges), each as the list of edge positions
taken. -/
def maxPaths (nodes : List (List To)) : Nat → Nat → List (List Nat)
  | 0, u => if (nodes.getD u []).isEmpty then [[]] else []
  | fuel + 1, u =>
    if (nodes.getD u []).isEmpty then [[]]
    else
      (List.range (nodes.getD u []).length).flatMap
        (fun i => (maxPaths nodes fuel ((nodes.getD u []).getD i (To.mk 0 0 none)).next).map
          (fun cs => i :: cs))

/-! ## The decoder `BallLarusRegen` -/

/-- Record `BallLarusRegen::To`. -/
structure RTo where
  dest : Nat
  inc : Nat
  fromBE : Bool
deriving DecidableEq, Repr

/-- One line `src, dest, inc, true|false` of the section "DAG Edges" of the
artifact, as written by `writeOutput` and read back by the constructor of
`BallLarusRegen`. -/
structure EdgeLine where
  src : Nat
  dest : Nat
  inc : Nat
  fromBE : Bool
deriving DecidableEq, Repr

/-- The members of `BallLarusRegen` that `regeneratePath` reads. -/
structure BallLarusRegen where
  numPath : Nat
  entrybb : Nat
  exitbb : Nat
  tos : List (List RTo)
deriving DecidableEq, Repr

/-- The edge lines that `Graph::writeOutput` writes: grouped by source, in
source order; the last column is `to.be != nullptr`. -/
def edgeLines (g : Graph) : List EdgeLine :=
  (List.range g.nodes.length).flatMap
    (fun i => (g.nodes.getD i []).map (fun t => EdgeLine.mk i t.next t.inc t.be.isSome))

/-- The body of the loop that reads the edge lines: `tos.resize(src + 1)` when
`src >= tos.size()`, then `tos[src].push_back`. -/
def addEdge (tos : List (List RTo)) (l : EdgeLine) : List (List RTo) :=
  let tos1 := if tos.length ≤ l.src then tos ++ List.replicate (l.src + 1 - tos.length) [] else tos
  tos1.set l.src (tos1.getD l.src [] ++ [RTo.mk l.dest l.inc l.fromBE])

/-- The constructor of `BallLarusRegen` on the header values and edge lines of
an artifact. -/
def BallLarusRegen.parse (numPath entrybb exitbb : Nat) (lines : List EdgeLine) :
    BallLarusRegen :=
  BallLarusRegen.mk numPath entrybb exitbb (lines.foldl addEdge [])

/-- The decoder built from the artifact that the encoder writes for `g`. -/
def BallLarusRegen.ofGraph (g : Graph) : BallLarusRegen :=
  BallLarusRegen.parse g.numPath g.entrybb g.exitbb (edgeLines g)

/-- The selection loop of `regeneratePath`: `best` holds `next`, `maxInc`,
`fromBE`. -/
def selectEdge (pathId : Nat) : List RTo → RTo → RTo
  | [], best => best
  | t :: rest, best =>
    selectEdge pathId rest (if t.inc ≤ pathId ∧ t.inc > best.inc then t else best)

/-- The `while (curr != exitbb)` loop of `regeneratePath`; the first argument
bounds the iterations. The second component of the result lists the selected
edges, which the code does not store. -/
def regenLoop (r : BallLarusRegen) : Nat → Nat → Nat → List Nat → List RTo →
    Option (List Nat × List RTo)
  | 0, _, _, _, _ => none
  | fuel + 1, curr, pathId, path, chosen =>
    if curr = r.exitbb then some (path, chosen)
    else
      match r.tos[curr]? with
      | none => none
      | some [] => none
      | some (t0 :: ts) =>
        let c := selectEdge pathId (t0 :: ts) t0
        let path1 := if curr = r.entrybb ∧ c.fromBE = false then path ++ [r.entrybb] else path
        let path2 := if c.dest ≠ r.exitbb ∨ c.fromBE = false then path1 ++ [c.dest] else path1
        regenLoop r fuel c.dest ((pathId + W64 - c.inc) % W64) path2 (chosen ++ [c])

/-- Method `BallLarusRegen::regeneratePath` together with the edges it selects. -/
def regenRun (r : BallLarusRegen) (fuel pathId : Nat) : Option (List Nat × List RTo) :=
  match regenLoop r fuel r.entrybb pathId [] [] with
  | none => none
  | some p => some (if r.entrybb = r.exitbb then p.1 ++ [r.entrybb] else p.1, p.2)

/-- Method `BallLarusRegen::regeneratePath`. -/
def regeneratePath (r : BallLarusRegen) (fuel pathId : Nat) : Option (List Nat) :=
  (regenRun r fuel pathId).map Prod.fst

/-- The edges selected by `regeneratePath`, in order. -/
def chosenEdges (r : BallLarusRegen) (fuel pathId : Nat) : Option (List RTo) :=
  (regenRun r fuel pathId).map Prod.snd

/-- The edge of the decoder that an edge of the encoder is written as. -/
def To.line (t : To) : RTo := RTo.mk t.next t.inc t.be.isSome

/-- The edges at the positions `cs` along a walk from `u`. -/
def edgesAlong (nodes : List (List To)) : Nat → List Nat → List To
  | _, [] => []
  | u, i :: cs =>
    (nodes.getD u []).getD i (To.mk 0 0 none) ::
      edgesAlong nodes ((nodes.getD u []).getD i (To.mk 0 0 none)).next cs

/-- The effect of `setField` on record `k` alone. -/
def fieldStep (entrybb k src : Nat) (b : BackEdge) (t : To) : BackEdge :=
  if t.be = some k then
    if src = entrybb then { b with backedge_reset := t.inc } else { b with backedge_inc := t.inc }
  else b

/-! ## `instrument` and the instrumented function -/

/-- A successor of a terminator of the function being instrumented: an
original block, or a block created by `instrument`, named by its position in
the order of creation. -/
inductive Target where
  | block (v : Nat)
  | added (n : Nat)
deriving DecidableEq, Repr

/-- A block created by `instrument`. An "increment" block loads
`path_register`, adds `inc`, stores and branches to `dest` (`reset = none`); an
"increment_reset" block also calls `__increment_path_count` with the sum and
stores `backedge_reset` before the branch (`reset = some backedge_reset`). -/
structure NewBlock where
  inc : Nat
  reset : Option Nat
  dest : Nat
deriving DecidableEq, Repr

/-- The function during `instrument`: `terms[i]` are the successors of the
terminator of original block `i`, `added` the blocks created so far. -/
structure Func where
  terms : List (List Target)
  added : List NewBlock
deriving DecidableEq, Repr

/-- The function before `instrument`: the terminators are those of the CFG. -/
def initFunc (cfg : CFG) : Func :=
  Func.mk (cfg.map (fun ss => ss.map Target.block)) []

/-- LLVM method `Instruction::replaceSuccessorWith(dest, newbb)`: every successor
of the terminator that is `dest` becomes `newbb`. -/
def replaceSuccessorWith (dest newbb : Nat) (term : List Target) : List Target :=
  term.map (fun s => if s = Target.block dest then Target.added newbb else s)

/-- Body of the loop "Instrument normal edge" for edge `t` of node `src`. -/
def instrumentEdge (src : Nat) (F : Func) (t : To) : Func :=
  if 0 < t.inc ∧ t.be = none then
    Func.mk
      (F.terms.set src (replaceSuccessorWith t.next F.added.length (F.terms.getD src [])))
      (F.added ++ [NewBlock.mk t.inc none t.next])
  else F

/-- Body of the loop "Instrument back edge" for record `be`. -/
def instrumentBackedge (F : Func) (be : BackEdge) : Func :=
  Func.mk
    (F.terms.set be.src
      (replaceSuccessorWith be.dest F.added.length (F.terms.getD be.src [])))
    (F.added ++ [NewBlock.mk be.backedge_inc (some be.backedge_reset) be.dest])

/-- The loop "Instrument normal edge" of `instrument`. -/
def instrumentEdges (nodes : List (List To)) (F : Func) : Func :=
  (List.range nodes.length).foldl
    (fun F src => (nodes.getD src []).foldl (instrumentEdge src) F) F

/-- Method `Graph::instrument`, on the function with control-flow graph `cfg`:
the terminators after the two loops and the blocks created. The store of 0 to
`path_register` in the entry block and the call before the terminator of
`nodes[exitbb].bb` are executed by `run` and `enter`. -/
def instrument (g : Graph) (cfg : CFG) : Func :=
  g.backedges.foldl instrumentBackedge (instrumentEdges g.nodes (initFunc cfg))

/-- State of a run of the instrumented function: `reg` is `path_register`,
`calls` the calls of `__increment_path_count` so far, each with its argument
and the original blocks executed since the previous call; `seg` are the
original blocks executed since the last call. -/
structure RunState where
  reg : Nat
  seg : List Nat
  calls : List (Nat × List Nat)
deriving DecidableEq, Repr

/-- Execution of original block `u`; in `nodes[exitbb].bb` the call inserted
before the terminator passes `path_register`. -/
def enter (exitbb u : Nat) (s : RunState) : RunState :=
  if u = exitbb then
    RunState.mk s.reg [] (s.calls ++ [(s.reg, s.seg ++ [u])])
  else
    RunState.mk s.reg (s.seg ++ [u]) s.calls

/-- Execution of a block created by `instrument`; the addition is on `uint64_t`. -/
def runAdded (b : NewBlock) (s : RunState) : RunState :=
  match b.reset with
  | none => RunState.mk ((s.reg + b.inc) % W64) s.seg s.calls
  | some r => RunState.mk r [] (s.calls ++ [((s.reg + b.inc) % W64, s.seg)])

/-- Continue a run after original block `u`: each element of the list selects
a successor of the terminator of the current original block. -/
def exec (F : Func) (exitbb : Nat) : Nat → List Nat → RunState → Option RunState
  | _, [], s => some s
  | u, i :: cs, s =>
    match (F.terms.getD u [])[i]? with
    | none => none
    | some (Target.block v) => exec F exitbb v cs (enter exitbb v s)
    | some (Target.added n) =>
      match F.added[n]? with
      | none => none
      | some b => exec F exitbb b.dest cs (enter exitbb b.dest (runAdded b s))

/-- A run of the instrumented function from the entry block, where
`path_register` is initialised to 0, along the successor choices `cs`. -/
def run (g : Graph) (cfg : CFG) (cs : List Nat) : Option RunState :=
  exec (instrument g cfg) g.exitbb g.entrybb cs
    (enter g.exitbb g.entrybb (RunState.mk 0 [] []))

/-- Follow, from block `u`, the successors chosen by position in the CFG. -/
def cfgWalk (cfg : CFG) : Nat → List Nat → Option Nat
  | u, [] => some u
  | u, i :: cs =>
    match (cfg.getD u [])[i]? with
    | none => none
    | some v => cfgWalk cfg v cs

/-- The nodes on the path that follows from `u` the edges chosen by position. -/
def nodesAlong (nodes : List (List To)) : Nat → List Nat → List Nat
  | u, [] => [u]
  | u, i :: cs => u :: nodesAlong nodes ((nodes.getD u []).getD i (To.mk 0 0 none)).next cs

/-- The nodes of the path of the DAG that stands for the executed segment
`seg`: the entry in front unless the segment starts there (the edge from the
entry to the target of a back-edge), the exit behind unless the segment ends
there (the edge from the source of a back-edge to the exit). -/
def padSegment (entrybb exitbb : Nat) (seg : List Nat) : List Nat :=
  (if seg.head? = some entrybb then [] else [entrybb]) ++ seg ++
    (if seg.getLast? = some exitbb then [] else [exitbb])

/-- The call `cl` of `__increment_path_count`, made after the segment `cl.2`,
reports the number of a path of the DAG for that segment: `cl.1` is the sum of
`inc` along a path `p` from the entry to the exit whose nodes are those of the
segment, with the entry in front and the exit behind where the segment lacks
them. The first edge of `p` is synthetic exactly when the segment does not
start at the entry, the last exactly when it does not end at the exit, and no
other edge is. A synthetic first edge refers to a record from the last block
`prev` of the previous segment to the first block of this one; a synthetic
last edge refers to a record from the last block of this segment to the first
block `next` of the following one. -/
def CallPath (nodes : List (List To)) (bes : List BackEdge) (e x : Nat)
    (prev : Option Nat) (cl : Nat × List Nat) (next : Option Nat) : Prop :=
  ∃ p, walk nodes e p = some (x, cl.1) ∧
    nodesAlong nodes e p = padSegment e x cl.2 ∧
    ∀ j t, (edgesAlong nodes e p)[j]? = some t →
      (t.be ≠ none ↔ (j = 0 ∧ cl.2.head? ≠ some e) ∨
        (j + 1 = p.length ∧ cl.2.getLast? ≠ some x)) ∧
      ∀ k, t.be = some k → ∃ b, bes[k]? = some b ∧
        (j = 0 → prev = some b.src ∧ cl.2.head? = some b.dest) ∧
        (j ≠ 0 → cl.2.getLast? = some b.src ∧ next = some b.dest)

/-- Slot `i` of the terminator of node `u`, which leads to `v` in the CFG, once
the loop "Instrument normal edge" has handled the edges `T` of `u`: either it
still leads to `v` and no edge of `T` to `v` has a positive increment, or it
leads to the "increment" block of an edge of `T` to `v`. -/
def SlotOK (F : Func) (T : List To) (u i v : Nat) : Prop :=
  ((F.terms.getD u [])[i]? = some (Target.block v) ∧
      ∀ t ∈ T, t.next = v → t.be = none → t.inc = 0) ∨
    ∃ n t, (F.terms.getD u [])[i]? = some (Target.added n) ∧
      F.added[n]? = some (NewBlock.mk t.inc none v) ∧ t ∈ T ∧ t.next = v ∧ t.be = none

/-! ## Depth-first traversal with explicit ancestors

The traversal of the specification of back-edge detection: it visits the
successors of a node in stored order, keeps the list `anc` of the node being
visited and its ancestors in the traversal, and reports an edge `u -> v` when `v`
is `u` or an ancestor of `u`. -/

/-- State of the traversal: the nodes discovered so far and the edges reported
so far, in order. -/
structure AncState where
  visited : List Nat
  found : List (Nat × Nat)
deriving DecidableEq, Repr

/-- The successors of `curr` still to be examined; `anc` holds `curr` and its
ancestors, `self` visits an undiscovered successor. -/
def ancEdges (self : AncState → Nat → Option AncState) (anc : List Nat) (curr : Nat) :
    List Nat → AncState → Option AncState
  | [], s => some s
  | v :: rest, s =>
    if v ∈ anc then
      ancEdges self anc curr rest { s with found := s.found ++ [(curr, v)] }
    else if v ∈ s.visited then
      ancEdges self anc curr rest s
    else
      match self s v with
      | none => none
      | some s1 => ancEdges self anc curr rest s1

/-- Visit `curr`, whose ancestors are `anc`; the first argument bounds the depth. -/
def ancDfs (cfg : CFG) : Nat → List Nat → AncState → Nat → Option AncState
  | 0, _, _, _ => none
  | fuel + 1, anc, s, curr =>
    ancEdges (ancDfs cfg fuel (curr :: anc)) (curr :: anc) curr (cfg.getD curr [])
      { s with visited := curr :: s.visited }

/-- Simulation between a state of `dfs` and a state of the traversal with
explicit ancestors: gray nodes are the ancestors, non-white nodes are the
discovered nodes, and the records are the reported edges. -/
def Sim (n : Nat) (st : DfsState) (anc : List Nat) (s : AncState) : Prop :=
  (∀ v, v < n → (st.col v = 1 ↔ v ∈ anc)) ∧
  (∀ v, v < n → (st.col v ≠ 0 ↔ v ∈ s.visited)) ∧
  st.backedges = s.found.map (fun p => BackEdge.mk p.1 p.2 0 0)

/-! ## `output` and `printRecord` of the decoder

The text of the blocks, `bbs`, is not modelled: a record is the vector of
blocks whose text `printRecord` writes, with the count written behind it. -/

/-- One record written by `printRecord`. The identifier that was regenerated
is kept with it although the code does not write it. -/
structure Record where
  pathId : Nat
  path : List Nat
  cnt : Nat
deriving DecidableEq, Repr

/-- The records written so far and the local variable `currColdPaths` of
`output`. -/
structure OutState where
  records : List Record
  currColdPaths : Nat
deriving DecidableEq, Repr

/-- Method `printRecord`: it reads `path[0]`, so the vector must not be empty;
`currColdPaths += !isHotPath` with `isHotPath = cnt >= hot_path_threshold`. The
counter is incremented at most once per key of the map and, in the second
loop, only while it is below `numColdPaths`. -/
def printRecord (threshold : Nat) (s : OutState) (pathId : Nat) (path : List Nat)
    (cnt : Nat) : Option OutState :=
  match path with
  | [] => none
  | _ :: _ =>
    some (OutState.mk (s.records ++ [Record.mk pathId path cnt])
      (s.currColdPaths + (if cnt ≥ threshold then 0 else 1)))

/-- The first loop of `output`, over the entries of `pathCnts` in iteration
order. -/
def outputObserved (r : BallLarusRegen) (fuel threshold : Nat) :
    List (Nat × Nat) → OutState → Option OutState
  | [], s => some s
  | kv :: rest, s =>
    match regeneratePath r fuel kv.1 with
    | none => none
    | some path =>
      match printRecord threshold s kv.1 path kv.2 with
      | none => none
      | some s1 => outputObserved r fuel threshold rest s1

/-- The loop `while (pathCnts.count(nextPath)) ++nextPath`; the first
argument bounds the iterations. -/
def skipObserved (observed : List (Nat × Nat)) : Nat → Nat → Option Nat
  | 0, _ => none
  | n + 1, nextPath =>
    if observed.any (fun kv => kv.1 == nextPath) then
      skipObserved observed n ((nextPath + 1) % W64)
    else some nextPath

/-- The second loop of `output`; the first argument bounds the iterations. -/
def sampleCold (r : BallLarusRegen) (fuel threshold numColdPaths : Nat)
    (observed : List (Nat × Nat)) : Nat → Nat → OutState → Option OutState
  | 0, _, _ => none
  | n + 1, nextPath, s =>
    if s.currColdPaths < numColdPaths then
      match skipObserved observed (observed.length + 1) nextPath with
      | none => none
      | some np =>
        if np ≥ r.numPath then some s
        else
          match regeneratePath r fuel np with
          | none => none
          | some path =>
            match printRecord threshold s np path 0 with
            | none => none
            | some s1 =>
              sampleCold r fuel threshold numColdPaths observed n ((np + 1) % W64) s1
    else some s

/-- Method `output(numColdPaths)` with the global `hot_path_threshold`;
`observed` are the entries of `pathCnts` in iteration order, `fuel` bounds the
iterations of each call of `regeneratePath`. -/
def output (r : BallLarusRegen) (fuel threshold numColdPaths : Nat)
    (observed : List (Nat × Nat)) : Option OutState :=
  match outputObserved r fuel threshold observed (OutState.mk [] 0) with
  | none => none
  | some s => sampleCold r fuel threshold numColdPaths observed (r.numPath + 1) 0 s

/-- The edges `cs` form a walk of the decoder from `curr` that stops at its
first visit of the exit. -/
def RWalk (r : BallLarusRegen) : Nat → List RTo → Prop
  | curr, [] => curr = r.exitbb
  | curr, c :: cs => curr ≠ r.exitbb ∧ c ∈ r.tos.getD curr [] ∧ RWalk r c.dest cs

/-! ## The artifact as text

`Graph::writeOutput` and the constructor of `BallLarusRegen`, on characters. -/

/-- The line feed. -/
def newline : Char := Char.ofNat 10

/-- `file << n` for an unsigned integer: decimal digits. -/
def decimal (n : Nat) : List Char := Nat.toDigits 10 n

/-- The characters of one line of the section "DAG Edges", before the line
feed: `file << i << ", " << to.next << ", " << to.inc << ", " << (to.be != nullptr ? "true" : "false")`. -/
def edgeText (i : Nat) (t : To) : List Char :=
  decimal i ++ ", ".toList ++ decimal t.next ++ ", ".toList ++ decimal t.inc ++ ", ".toList ++
    (if t.be.isSome then "true".toList else "false".toList)

/-- One line of the section "DAG Edges". -/
def writeEdge (i : Nat) (t : To) : List Char := edgeText i t ++ [newline]

/-- The text of one block in the section "Basic Blocks": the header `b<i>:`,
each instruction behind two blanks, and an empty line. -/
def writeBlock (i : Nat) (instrs : List (List Char)) : List Char :=
  "b".toList ++ decimal i ++ ":".toList ++ [newline] ++
    instrs.flatMap (fun s => "  ".toList ++ s ++ [newline]) ++ [newline]

/-- Method `Graph::writeOutput`: the text written to the file; `blocks[i]` are
the printed instructions of block `i`. -/
def writeOutput (g : Graph) (blocks : List (List (List Char))) : List Char :=
  "Num of Possible Paths: ".toList ++ decimal g.numPath ++ [newline] ++
    "Entry Basic Block: ".toList ++ decimal g.entrybb ++ [newline] ++
    "Exit Basic Block: ".toList ++ decimal g.exitbb ++ [newline] ++
    "DAG Edges:".toList ++ [newline] ++
    (List.range g.nodes.length).flatMap
      (fun i => (g.nodes.getD i []).flatMap (writeEdge i)) ++
    [newline] ++ "Basic Blocks:".toList ++ [newline] ++
    (List.range g.nodes.length).flatMap (fun i => writeBlock i (blocks.getD i []))

/-- The lines that successive calls of `std::getline` return until the end of
the text. -/
def splitLines : List Char → List (List Char)
  | [] => []
  | c :: cs =>
    if c = newline then [] :: splitLines cs
    else
      match splitLines cs with
      | [] => [[c]]
      | l :: ls => (c :: l) :: ls

/-- Predicate `std::isspace` in the "C" locale. -/
def isSpace (c : Char) : Bool :=
  c.toNat = 32 || (9 ≤ c.toNat && c.toNat ≤ 13)

/-- Extraction `>>` of a `uint64_t`: leading white space is skipped, the
decimal digits that follow are read, and the extraction fails when there is no
digit or the value does not fit. Signs are not modelled. -/
def readNat (s : List Char) : Option (Nat × List Char) :=
  let s1 := s.dropWhile isSpace
  let ds := s1.takeWhile Char.isDigit
  if ds = [] then none
  else
    let v := ds.foldl (fun acc c => 10 * acc + (c.toNat - 48)) 0
    if v < W64 then some (v, s1.dropWhile Char.isDigit) else none

/-- Extraction `>>` of a `char`: the first character after white space. -/
def readChar (s : List Char) : Option (Char × List Char) :=
  match s.dropWhile isSpace with
  | [] => none
  | c :: rest => some (c, rest)

/-- Extraction `>>` of a `std::string`: the characters after white space up to
the next white space. -/
def readWord (s : List Char) : Option (List Char × List Char) :=
  let s1 := s.dropWhile isSpace
  let w := s1.takeWhile (fun c => !isSpace c)
  if w = [] then none else some (w, s1.dropWhile (fun c => !isSpace c))

/-- The expression `line.substr(line.find(':') + 2)`: `find` returns the
position of the first colon, or `npos`, for which the sum wraps around to 1;
`substr` throws when the position is beyond the end. -/
def afterColon (line : List Char) : Option (List Char) :=
  let pos := if ':' ∈ line then (line.takeWhile (fun c => c != ':')).length + 2 else 1
  if pos > line.length then none else some (line.drop pos)

/-- A header value: `std::istringstream(line.substr(line.find(':') + 2)) >> x`;
`none` when `substr` throws or the extraction fails (the code does not test the
stream). -/
def readHeader (line : List Char) : Option Nat :=
  match afterColon line with
  | none => none
  | some s => (readNat s).map Prod.fst

/-- The extraction `iss >> src >> comma >> dest >> comma >> inc >> comma >> fromBEStr`
and `fromBE = (fromBEStr == "true")`. The code does not test the stream: when
an extraction fails it goes on with variables that were never assigned. The
model has no value for that case and returns `none`; on a line written by
`writeOutput` every extraction succeeds. -/
def readEdgeLine (line : List Char) : Option EdgeLine :=
  match readNat line with
  | none => none
  | some (src, s1) =>
    match readChar s1 with
    | none => none
    | some (_, s2) =>
      match readNat s2 with
      | none => none
      | some (dest, s3) =>
        match readChar s3 with
        | none => none
        | some (_, s4) =>
          match readNat s4 with
          | none => none
          | some (inc, s5) =>
            match readChar s5 with
            | none => none
            | some (_, s6) =>
              match readWord s6 with
              | none => none
              | some (w, _) => some (EdgeLine.mk src dest inc (decide (w = "true".toList)))

/-- The loop `while (std::getline(stream, line) && !line.empty())` over the
remaining lines. -/
def readEdges : List (List Char) → List (List RTo) → Option (List (List RTo))
  | [], tos => some tos
  | l :: rest, tos =>
    if l = [] then some tos
    else
      match readEdgeLine l with
      | none => none
      | some e => readEdges rest (addEdge tos e)

/-- The constructor of `BallLarusRegen` on the text of the artifact, up to the
members that `regeneratePath` reads. The result is `none` when the text has
fewer than four lines, a header has no number that fits `uint64_t` after its
colon, or an edge line does not have its four fields: the code makes no such
test and goes on with default or unassigned values there, which the model does
not describe. On the text that `writeOutput` writes the result is `some`. -/
def BallLarusRegen.read (text : List Char) : Option BallLarusRegen :=
  match splitLines text with
  | l1 :: l2 :: l3 :: _ :: rest =>
    match readHeader l1, readHeader l2, readHeader l3, readEdges rest [] with
    | some numPath, some entrybb, some exitbb, some tos =>
      some (BallLarusRegen.mk numPath entrybb exitbb tos)
    | _, _, _, _ => none
  | _ => none

/-- The numbers of the graph are values of `uint64_t`. -/
def Graph.Fits (g : Graph) : Prop :=
  g.numPath < W64 ∧ g.entrybb < W64 ∧ g.exitbb < W64 ∧ g.nodes.length ≤ W64 ∧
    ∀ u, ∀ t ∈ g.nodes.getD u [], t.next < W64 ∧ t.inc < W64

/-! ## Sample inputs -/

/-- The simple loop: entry 0, loop header 1, body 2, exit 3. -/
def loopCfg : CFG := [[1], [2, 3], [1], []]

/-- A function with two returning blocks. -/
def twoExitCfg : CFG := [[1, 2], [], []]

/-- A returning entry block followed by an unreachable self-loop. -/
def deadLoopCfg : CFG := [[], [1]]

/-- A returning entry block followed by an unreachable returning block. -/
def deadBlockCfg : CFG := [[], []]

/-- An unreachable block that branches to the exit. -/
def deadBranchCfg : CFG := [[1], [], [1]]

/-- A conditional branch with both successors the same block. -/
def parallelCfg : CFG := [[1, 1], []]

/-- A single block without successors. -/
def singleCfg : CFG := [[]]

/-- The self-loop of the specification: A -> A, A -> B. -/
def selfLoopCfg : CFG := [[0, 1], []]

/-- A self-loop on a block behind the entry: E -> A, A -> A, A -> B. -/
def innerSelfLoopCfg : CFG := [[1], [1, 2], []]

/-- Two returning blocks, the first also entered from an unreachable block. -/
def deadJoinCfg : CFG := [[1, 3], [], [1], []]

/-- A diamond from block 0 to block 5 next to a second block without
predecessors, block 3, which branches to the returning block 4. -/
def twoEntryCfg : CFG := [[1, 2], [5], [5], [4], [], []]

/-- A decoder whose walk for identifier 3 returns to the entry. -/
def reentryRegen : BallLarusRegen :=
  BallLarusRegen.mk 4 0 2 [[RTo.mk 2 0 false, RTo.mk 1 3 false], [RTo.mk 0 0 false]]

/-- The graph that the constructor builds for `loopCfg`. -/
def loopGraph : Graph :=
  Graph.mk
    [[To.mk 1 0 none, To.mk 1 2 (some 0)], [To.mk 2 0 none, To.mk 3 1 none],
      [To.mk 3 0 (some 0)], []]
    [BackEdge.mk 2 1 0 2] 0 3 4

end BallLarus

namespace BallLarus

/-! ## Vectors -/

theorem getD_set_self {α : Type} {l : List α} {i : Nat} (h : i < l.length) (v d : α) :
    (l.set i v).getD i d = v := by
  simp [List.getD_eq_getElem?_getD, List.getElem?_set, h]

theorem getD_set_other {α : Type} {l : List α} {i j : Nat} (h : i ≠ j) (v d : α) :
    (l.set i v).getD j d = l.getD j d := by
  simp [List.getD_eq_getElem?_getD, List.getElem?_set, h]

theorem getD_set_ge {α : Type} {l : List α} {i : Nat} (h : l.length ≤ i) (v d : α) (j : Nat) :
    (l.set i v).getD j d = l.getD j d := by
  rw [List.set_eq_of_length_le h]

theorem getD_replicate_self {α : Type} (n i : Nat) (a : α) :
    (List.replicate n a).getD i a = a := by
  simp [List.getD_eq_getElem?_getD, List.getElem?_replicate]
  split <;> simp

theorem getD_mem {α : Type} {l : List α} {i : Nat} (h : i < l.length) (d : α) :
    l.getD i d ∈ l := by
  rw [List.getD_eq_getElem _ _ h]; exact List.getElem_mem _

theorem getD_ge {α : Type} {l : List α} {i : Nat} (h : l.length ≤ i) (d : α) :
    l.getD i d = d := by
  simp [List.getD_eq_getElem?_getD, List.getElem?_eq_none h]

theorem count_set_of_ne {l : List Nat} {i : Nat} (v a : Nat) (hv : v ≠ a) :
    (l.set i v).count a ≤ l.count a := by
  induction l generalizing i with
  | nil => simp
  | cons x xs ih =>
    cases i with
    | zero =>
      simp only [List.set_cons_zero, List.count_cons]
      have : (v == a) = false := by simpa using hv
      simp [this]
    | succ i =>
      simp only [List.set_cons_succ, List.count_cons]
      have := ih (i := i)
      omega

theorem count_set_lt {l : List Nat} {i : Nat} (v a : Nat) (hv : v ≠ a) (hi : i < l.length)
    (ha : l.getD i a = a) : (l.set i v).count a + 1 ≤ l.count a := by
  induction l generalizing i with
  | nil => simp at hi
  | cons x xs ih =>
    cases i with
    | zero =>
      simp only [List.set_cons_zero, List.count_cons]
      have h1 : (v == a) = false := by simpa using hv
      have h2 : x = a := by simpa using ha
      simp [h1, h2]
    | succ i =>
      simp only [List.set_cons_succ, List.count_cons]
      have := ih (i := i) (by simpa using hi) (by simpa using ha)
      omega

end BallLarus

namespace BallLarus

/-! ## The depth-first traversal -/

@[simp] theorem col_paint (st : DfsState) (c k x : Nat) :
    (st.paint c k).col x = if x = c ∧ c < st.color.length then k else st.col x := by
  unfold DfsState.col DfsState.paint
  by_cases h : x = c
  · subst h
    by_cases h2 : x < st.color.length
    · rw [if_pos ⟨rfl, h2⟩]; exact getD_set_self h2 _ _
    · rw [if_neg (fun hh => h2 hh.2)]; exact getD_set_ge (Nat.le_of_not_lt h2) _ _ _
  · rw [if_neg (fun hh => h hh.1)]; exact getD_set_other (Ne.symm h) _ _

@[simp] theorem er_paint (st : DfsState) (c k x : Nat) : (st.paint c k).er x = st.er x := rfl

@[simp] theorem col_record (st : DfsState) (c v x : Nat) : (st.record c v).col x = st.col x := rfl

@[simp] theorem er_record (st : DfsState) (c v x : Nat) :
    (st.record c v).er x =
      if x = c ∧ c < st.toErase.length then (st.er c).insert v else st.er x := by
  unfold DfsState.er DfsState.record
  by_cases h : x = c
  · subst h
    by_cases h2 : x < st.toErase.length
    · rw [if_pos ⟨rfl, h2⟩]; exact getD_set_self h2 _ _
    · rw [if_neg (fun hh => h2 hh.2)]; exact getD_set_ge (Nat.le_of_not_lt h2) _ _ _
  · rw [if_neg (fun hh => h hh.1)]; exact getD_set_other (Ne.symm h) _ _

@[simp] theorem backedges_paint (st : DfsState) (c k : Nat) :
    (st.paint c k).backedges = st.backedges := rfl

@[simp] theorem backedges_record (st : DfsState) (c v : Nat) :
    (st.record c v).backedges = st.backedges ++ [BackEdge.mk c v 0 0] := rfl

theorem good_paint {n : Nat} {st : DfsState} (h : st.Good n) (c k : Nat) (hk : k ≤ 2) :
    (st.paint c k).Good n := by
  refine ⟨?_, ?_, ?_⟩
  · simp [DfsState.paint, h.hc]
  · simp [DfsState.paint, h.he]
  · intro x
    rw [col_paint]
    split
    · exact hk
    · exact h.hle x

theorem good_record {n : Nat} {st : DfsState} (h : st.Good n) (c v : Nat) :
    (st.record c v).Good n := by
  refine ⟨?_, ?_, ?_⟩
  · simp [DfsState.record, h.hc]
  · simp [DfsState.record, h.he]
  · intro x
    rw [col_record]
    exact h.hle x

theorem dfsEdges_run_of (nodes : List (List To)) (self : DfsState → Nat → Option DfsState)
    (hself : ∀ st c st1, self st c = some st1 →
      ∃ s, EdgesRun nodes c (nodes.getD c []) (st.paint c 1) s ∧ st1 = s.paint c 2)
    (curr : Nat) (es : List To) (st st' : DfsState)
    (h : dfsEdges self curr es st = some st') : EdgesRun nodes curr es st st' := by
  induction es generalizing st with
  | nil =>
    simp only [dfsEdges, Option.some.injEq] at h
    subst h
    exact EdgesRun.done _ _
  | cons t rest ih =>
    unfold dfsEdges at h
    by_cases h0 : st.color.getD t.next 0 ≠ 0
    · rw [if_pos h0] at h
      by_cases h1 : st.color.getD t.next 0 = 1
      · rw [if_pos h1] at h
        exact EdgesRun.back _ _ _ _ _ h1 (ih _ h)
      · rw [if_neg h1] at h
        exact EdgesRun.skip _ _ _ _ _ h0 h1 (ih _ h)
    · rw [if_neg h0] at h
      cases hs : self st t.next with
      | none => rw [hs] at h; cases h
      | some st1 =>
        rw [hs] at h
        obtain ⟨s, hrun, rfl⟩ := hself _ _ _ hs
        exact EdgesRun.tree _ _ _ _ _ _ (by simpa [DfsState.col] using h0) hrun (ih _ h)

theorem dfs_spec (nodes : List (List To)) (f : Nat) (st : DfsState) (c : Nat) (st1 : DfsState)
    (h : dfs nodes f st c = some st1) :
    ∃ s, EdgesRun nodes c (nodes.getD c []) (st.paint c 1) s ∧ st1 = s.paint c 2 := by
  induction f generalizing st c st1 with
  | zero => simp [dfs] at h
  | succ f ih =>
    unfold dfs at h
    cases hs : dfsEdges (dfs nodes f) c (nodes.getD c []) (st.paint c 1) with
    | none => rw [hs] at h; cases h
    | some s =>
      rw [hs] at h
      simp only [Option.some.injEq] at h
      exact ⟨s, dfsEdges_run_of nodes _ (fun a b d hd => ih a b d hd) _ _ _ _ hs, h.symm⟩

end BallLarus

namespace BallLarus

theorem run_good {nodes : List (List To)} {n curr : Nat} {es : List To} {st st' : DfsState}
    (h : EdgesRun nodes curr es st st') (hg : st.Good n) : st'.Good n := by
  induction h with
  | done => exact hg
  | back curr t rest st st' _ _ ih => exact ih (good_record hg _ _)
  | skip curr t rest st st' _ _ _ ih => exact ih hg
  | tree curr t rest st st1 st' _ _ _ ih1 ih2 =>
    exact ih2 (good_paint (ih1 (good_paint hg _ _ (by omega))) _ _ (by omega))

/-- Colours only move from white to black across a run: a node that is gray
or black keeps its colour, a white node stays white or ends black. -/
theorem run_col {nodes : List (List To)} {curr : Nat} {es : List To} {st st' : DfsState}
    (h : EdgesRun nodes curr es st st') (x : Nat) :
    (st.col x ≠ 0 → st'.col x = st.col x) ∧ (st.col x = 0 → st'.col x = 0 ∨ st'.col x = 2) := by
  induction h with
  | done => exact ⟨fun _ => rfl, fun h => Or.inl h⟩
  | back curr t rest st st' _ _ ih => simpa using ih
  | skip curr t rest st st' _ _ _ ih => exact ih
  | tree curr t rest st st1 st' h0 _ _ ih1 ih2 =>
    simp only [col_paint] at ih1 ih2
    by_cases hx : x = t.next
    · subst hx
      refine ⟨fun hne => absurd h0 hne, fun _ => ?_⟩
      by_cases hl : t.next < st.color.length
      · have h1 : st1.col t.next = 1 := by
          have := ih1.1
          simp only [hl, and_self, if_true] at this
          exact this (by omega)
        by_cases hl1 : t.next < st1.color.length
        · have := ih2.1
          simp only [hl1, and_self, if_true] at this
          exact Or.inr (this (by omega))
        · have h3 : st1.col t.next = 0 := getD_ge (Nat.le_of_not_lt hl1) 0
          omega
      · have h1 := ih1.2
        simp only [hl, and_false, if_false] at h1
        have h1 := h1 h0
        by_cases hl1 : t.next < st1.color.length
        · have := ih2.1
          simp only [hl1, and_self, if_true] at this
          exact Or.inr (this (by omega))
        · have h2 := ih2
          simp only [hl1, and_false, if_false] at h2
          rcases h1 with h1 | h1
          · exact h2.2 h1
          · exact Or.inr ((h2.1 (by omega)).trans h1)
    · simp only [hx, false_and, if_false] at ih1 ih2
      constructor
      · intro hne
        have := ih1.1 hne
        rw [ih2.1 (by rw [this]; exact hne), this]
      · intro hz
        rcases ih1.2 hz with h1 | h1
        · exact ih2.2 h1
        · exact Or.inr ((ih2.1 (by omega)).trans h1)

theorem run_er_mono {nodes : List (List To)} {curr : Nat} {es : List To} {st st' : DfsState}
    (h : EdgesRun nodes curr es st st') (x v : Nat) (hv : v ∈ st.er x) : v ∈ st'.er x := by
  induction h with
  | done => exact hv
  | back curr t rest st st' _ _ ih =>
    apply ih
    rw [er_record]
    split
    · rename_i hc
      rw [List.mem_insert_iff]
      exact Or.inr (hc.1 ▸ hv)
    · exact hv
  | skip curr t rest st st' _ _ _ ih => exact ih hv
  | tree curr t rest st st1 st' _ _ _ ih1 ih2 => exact ih2 (ih1 hv)

theorem run_whites {nodes : List (List To)} {curr : Nat} {es : List To} {st st' : DfsState}
    (h : EdgesRun nodes curr es st st') : st'.whites ≤ st.whites := by
  induction h with
  | done => exact Nat.le_refl _
  | back curr t rest st st' _ _ ih => exact ih
  | skip curr t rest st st' _ _ _ ih => exact ih
  | tree curr t rest st st1 st' _ _ _ ih1 ih2 =>
    have a : (st.paint t.next 1).whites ≤ st.whites := count_set_of_ne 1 0 (by omega)
    have b : (st1.paint t.next 2).whites ≤ st1.whites := count_set_of_ne 2 0 (by omega)
    omega

/-- With as much fuel as there are white nodes, the loop of `dfs` returns. -/
theorem dfsEdges_total {nodes : List (List To)} (hwf : NodesWF nodes) (f : Nat) :
    ∀ (curr : Nat) (es : List To) (st : DfsState), st.Good nodes.length →
      (∀ t ∈ es, t.next < nodes.length) → st.whites ≤ f →
      ∃ st', dfsEdges (dfs nodes f) curr es st = some st' := by
  induction f with
  | zero =>
    intro curr es st hg hes hw
    induction es generalizing st with
    | nil => exact ⟨st, rfl⟩
    | cons t rest ih =>
      have hlt : t.next < st.color.length := by rw [hg.hc]; exact hes t (List.mem_cons_self _ _)
      have hc : st.color.getD t.next 0 ≠ 0 := by
        intro h0
        have := count_set_lt (l := st.color) 1 0 (by omega) hlt h0
        unfold DfsState.whites at hw
        omega
      unfold dfsEdges
      rw [if_pos hc]
      split
      · exact ih _ (good_record hg _ _) (fun t ht => hes t (List.mem_cons_of_mem _ ht)) hw
      · exact ih _ hg (fun t ht => hes t (List.mem_cons_of_mem _ ht)) hw
  | succ f ihf =>
    intro curr es st hg hes hw
    induction es generalizing st with
    | nil => exact ⟨st, rfl⟩
    | cons t rest ih =>
      have hrest : ∀ t ∈ rest, t.next < nodes.length :=
        fun t ht => hes t (List.mem_cons_of_mem _ ht)
      have hlt : t.next < st.color.length := by rw [hg.hc]; exact hes t (List.mem_cons_self _ _)
      unfold dfsEdges
      by_cases hc : st.color.getD t.next 0 ≠ 0
      · rw [if_pos hc]
        split
        · exact ih _ (good_record hg _ _) hrest hw
        · exact ih _ hg hrest hw
      · rw [if_neg hc]
        have h0 : st.color.getD t.next 0 = 0 := by omega
        have hp : (st.paint t.next 1).whites ≤ f := by
          have := count_set_lt (l := st.color) 1 0 (by omega) hlt h0
          unfold DfsState.whites at hw ⊢
          unfold DfsState.paint
          simp only
          omega
        obtain ⟨s, hs⟩ := ihf t.next (nodes.getD t.next []) (st.paint t.next 1)
          (good_paint hg _ _ (by omega)) (hwf t.next) hp
        have hd : dfs nodes (f + 1) st t.next = some (s.paint t.next 2) := by
          rw [dfs, hs]
        rw [hd]
        simp only
        have hrun := dfsEdges_run_of nodes _ (dfs_spec nodes f) _ _ _ _ hs
        have hgs : s.Good nodes.length := run_good hrun (good_paint hg _ _ (by omega))
        have hws : (s.paint t.next 2).whites ≤ f + 1 := by
          have a := run_whites hrun
          have b : (s.paint t.next 2).whites ≤ s.whites := count_set_of_ne 2 0 (by omega)
          omega
        exact ih _ (good_paint hgs _ _ (by omega)) hrest hws

end BallLarus

namespace BallLarus

theorem ranked_record {nodes : List (List To)} {st : DfsState} {r : Nat → Nat} {M : Nat}
    (h : st.Ranked nodes r M) (c v : Nat) : (st.record c v).Ranked nodes r M := by
  intro x hx
  obtain ⟨h1, h2⟩ := h x hx
  refine ⟨h1, fun t ht => ?_⟩
  obtain ⟨h3, h4⟩ := h2 t ht
  refine ⟨h3, ?_⟩
  rcases h4 with h4 | h4
  · left
    rw [er_record]
    split
    · rename_i hc
      rw [List.mem_insert_iff]
      exact Or.inr (hc.1 ▸ h4)
    · exact h4
  · exact Or.inr h4

theorem ranked_paint_gray {nodes : List (List To)} {st : DfsState} {r : Nat → Nat} {M : Nat}
    (h : st.Ranked nodes r M) (c : Nat) (hc : st.col c = 0) : (st.paint c 1).Ranked nodes r M := by
  intro x hx
  rw [col_paint] at hx
  split at hx
  · omega
  obtain ⟨h1, h2⟩ := h x hx
  refine ⟨h1, fun t ht => ?_⟩
  obtain ⟨h3, h4⟩ := h2 t ht
  constructor
  · rw [col_paint]; split
    · omega
    · exact h3
  · rcases h4 with h4 | h4
    · exact Or.inl h4
    · right
      refine ⟨?_, h4.2⟩
      rw [col_paint]; split
      · rename_i hh; rw [hh.1] at h4; omega
      · exact h4.1

/-- The rank witness is maintained by the loop of `dfs`, and each edge of the
list is afterwards marked for erasure or leads to a black node. -/
theorem run_ranked {nodes : List (List To)} (hwf : NodesWF nodes)
    {curr : Nat} {es : List To} {st st' : DfsState}
    (h : EdgesRun nodes curr es st st') :
    st.Good nodes.length → curr < nodes.length → (∀ t ∈ es, t.next < nodes.length) →
    ∀ r M, st.Ranked nodes r M →
      (∃ r' M', st'.Ranked nodes r' M') ∧
        ∀ t ∈ es, st'.col t.next ≠ 0 ∧ (t.next ∈ st'.er curr ∨ st'.col t.next = 2) := by
  induction h with
  | done => intro _ _ _ r M hr; exact ⟨⟨r, M, hr⟩, fun t ht => by cases ht⟩
  | back curr t rest st st' h1 hrun ih =>
    intro hg hc hes r M hr
    obtain ⟨hR, hP⟩ := ih (good_record hg _ _) hc
      (fun t ht => hes t (List.mem_cons_of_mem _ ht)) r M (ranked_record hr _ _)
    refine ⟨hR, fun t' ht' => ?_⟩
    rcases List.mem_cons.1 ht' with rfl | ht'
    · constructor
      · rw [(run_col hrun _).1 (by simp [h1])]; simp [h1]
      · left
        apply run_er_mono hrun
        rw [er_record, if_pos ⟨rfl, by rw [hg.he]; exact hc⟩]
        exact List.mem_insert_self _ _
    · exact hP t' ht'
  | skip curr t rest st st' h0 h1 hrun ih =>
    intro hg hc hes r M hr
    obtain ⟨hR, hP⟩ := ih hg hc (fun t ht => hes t (List.mem_cons_of_mem _ ht)) r M hr
    refine ⟨hR, fun t' ht' => ?_⟩
    rcases List.mem_cons.1 ht' with rfl | ht'
    · have h2 : st.col t'.next = 2 := by have := hg.hle t'.next; omega
      have := (run_col hrun t'.next).1 h0
      rw [h2] at this
      exact ⟨by omega, Or.inr this⟩
    · exact hP t' ht'
  | tree curr t rest st st1 st' h0 hrun1 hrun2 ih1 ih2 =>
    intro hg hc hes r M hr
    have hn : t.next < nodes.length := hes t (List.mem_cons_self _ _)
    have hgp : (st.paint t.next 1).Good nodes.length := good_paint hg _ _ (by omega)
    obtain ⟨⟨r1, M1, hr1⟩, hP1⟩ := ih1 hgp hn (hwf t.next) r M (ranked_paint_gray hr _ h0)
    have hg1 : st1.Good nodes.length := run_good hrun1 hgp
    have hgray : st1.col t.next = 1 := by
      have := (run_col hrun1 t.next).1
      simp only [col_paint, hg.hc, hn, and_self, if_true] at this
      exact this (by omega)
    have hr2 : (st1.paint t.next 2).Ranked nodes (Function.update r1 t.next M1) (M1 + 1) := by
      intro x hx
      by_cases hxn : x = t.next
      · subst hxn
        refine ⟨by simp, fun t' ht' => ?_⟩
        obtain ⟨a, b⟩ := hP1 t' ht'
        constructor
        · rw [col_paint]; split
          · omega
          · exact a
        · rcases b with b | b
          · exact Or.inl b
          · right
            have hne : t'.next ≠ t.next := by intro hh; rw [hh] at b; omega
            refine ⟨by rw [col_paint, if_neg (fun hh => hne hh.1)]; exact b, ?_⟩
            rw [Function.update_noteq hne, Function.update_same]
            exact (hr1 _ b).1
      · rw [col_paint, if_neg (fun hh => hxn hh.1)] at hx
        obtain ⟨a, b⟩ := hr1 x hx
        refine ⟨by rw [Function.update_noteq hxn]; omega, fun t' ht' => ?_⟩
        obtain ⟨c, d⟩ := b t' ht'
        constructor
        · rw [col_paint]; split
          · omega
          · exact c
        · rcases d with d | d
          · exact Or.inl d
          · right
            have hne : t'.next ≠ t.next := by intro hh; rw [hh] at d; omega
            refine ⟨by rw [col_paint, if_neg (fun hh => hne hh.1)]; exact d.1, ?_⟩
            rw [Function.update_noteq hne, Function.update_noteq hxn]
            exact d.2
    obtain ⟨hR, hP⟩ := ih2 (good_paint hg1 _ _ (by omega)) hc
      (fun t ht => hes t (List.mem_cons_of_mem _ ht)) _ _ hr2
    refine ⟨hR, fun t' ht' => ?_⟩
    rcases List.mem_cons.1 ht' with rfl | ht'
    · have h2 : (st1.paint t'.next 2).col t'.next = 2 := by
        rw [col_paint, if_pos ⟨rfl, by rw [hg1.hc]; exact hn⟩]
      have := (run_col hrun2 t'.next).1 (by omega)
      rw [h2] at this
      exact ⟨by omega, Or.inr this⟩
    · exact hP t' ht'

end BallLarus

namespace BallLarus

/-- Gray nodes before and after a run are the same. -/
theorem run_gray {nodes : List (List To)} {curr : Nat} {es : List To} {st st' : DfsState}
    (h : EdgesRun nodes curr es st st') (x : Nat) : st'.col x = 1 ↔ st.col x = 1 := by
  have := run_col h x
  by_cases h0 : st.col x = 0
  · rcases this.2 h0 with h1 | h1 <;> omega
  · rw [this.1 h0]

/-- White nodes after a run were white before. -/
theorem run_white {nodes : List (List To)} {curr : Nat} {es : List To} {st st' : DfsState}
    (h : EdgesRun nodes curr es st st') (x : Nat) (hx : st'.col x = 0) : st.col x = 0 := by
  have := run_col h x
  by_cases h0 : st.col x = 0
  · exact h0
  · rw [this.1 h0] at hx; exact absurd hx h0

/-- The records pushed by a run: each is an edge `src -> dest` of the graph whose
target was gray when it was examined. -/
theorem run_records {nodes : List (List To)} (hwf : NodesWF nodes)
    {curr : Nat} {es : List To} {st st' : DfsState}
    (h : EdgesRun nodes curr es st st') :
    st.Good nodes.length → curr < nodes.length → (∀ t ∈ es, t ∈ nodes.getD curr []) →
    (es ≠ [] → ∀ x, st.col x = 1 → nodes.getD x [] ≠ []) →
    ∃ new, st'.backedges = st.backedges ++ new ∧ ∀ b ∈ new,
      ((b.src = curr ∧ st.col b.dest = 1) ∨
        (st.col b.src = 0 ∧ (st.col b.dest = 1 ∨ st.col b.dest = 0))) ∧
      Edge nodes b.src b.dest ∧ b.dest ∈ st'.er b.src ∧ nodes.getD b.dest [] ≠ [] ∧
      b.backedge_inc = 0 ∧ b.backedge_reset = 0 ∧ b.src < nodes.length := by
  induction h with
  | done => intro _ _ _ _; exact ⟨[], by simp, fun b hb => by cases hb⟩
  | back curr t rest st st' h1 hrun ih =>
    intro hg hc hes hsink
    obtain ⟨new, hnew, hall⟩ := ih (good_record hg _ _) hc
      (fun t ht => hes t (List.mem_cons_of_mem _ ht))
      (fun _ x hx => hsink (by simp) x (by simpa using hx))
    refine ⟨BackEdge.mk curr t.next 0 0 :: new, by simp [hnew], fun b hb => ?_⟩
    rcases List.mem_cons.1 hb with rfl | hb
    · refine ⟨Or.inl ⟨rfl, h1⟩, ⟨t, hes t (List.mem_cons_self _ _), rfl⟩, ?_,
        hsink (by simp) _ h1, rfl, rfl, hc⟩
      apply run_er_mono hrun
      rw [er_record, if_pos ⟨rfl, by rw [hg.he]; exact hc⟩]
      exact List.mem_insert_self _ _
    · simpa using hall b hb
  | skip curr t rest st st' h0 h1 hrun ih =>
    intro hg hc hes hsink
    exact ih hg hc (fun t ht => hes t (List.mem_cons_of_mem _ ht)) (fun _ => hsink (by simp))
  | tree curr t rest st st1 st' h0 hrun1 hrun2 ih1 ih2 =>
    intro hg hc hes hsink
    have hn : t.next < nodes.length := hwf curr t (hes t (List.mem_cons_self _ _))
    have hgp : (st.paint t.next 1).Good nodes.length := good_paint hg _ _ (by omega)
    have hg1 : st1.Good nodes.length := run_good hrun1 hgp
    have hcomp := EdgesRun.tree curr t [] st st1 _ h0 hrun1 (EdgesRun.done _ _)
    have hpc : ∀ x, (st.paint t.next 1).col x = if x = t.next then 1 else st.col x := by
      intro x; rw [col_paint, hg.hc]; simp [hn]
    obtain ⟨new1, hnew1, hall1⟩ := ih1 hgp hn (fun t ht => ht) (by
      intro hne x hx
      rw [hpc] at hx
      split at hx
      · rename_i hh; rw [hh]; exact hne
      · exact hsink (by simp) x hx)
    obtain ⟨new2, hnew2, hall2⟩ := ih2 (good_paint hg1 _ _ (by omega)) hc
      (fun t ht => hes t (List.mem_cons_of_mem _ ht)) (by
      intro _ x hx
      exact hsink (by simp) x ((run_gray hcomp x).1 hx))
    refine ⟨new1 ++ new2, by rw [hnew2]; simp [hnew1], fun b hb => ?_⟩
    rcases List.mem_append.1 hb with hb | hb
    · obtain ⟨a1, a2, a3, a4, a5, a6, a7⟩ := hall1 b hb
      refine ⟨Or.inr ?_, a2, run_er_mono hrun2 _ _ (by simpa using a3), a4, a5, a6, a7⟩
      have hd : ∀ y, (st.paint t.next 1).col y = 1 → st.col y = 1 ∨ st.col y = 0 := by
        intro y hy
        rw [hpc] at hy
        split at hy
        · rename_i hh; rw [hh]; exact Or.inr h0
        · exact Or.inl hy
      have hw : ∀ y, (st.paint t.next 1).col y = 0 → st.col y = 0 := by
        intro y hy
        rw [hpc] at hy
        split at hy
        · omega
        · exact hy
      rcases a1 with ⟨b1, b2⟩ | ⟨b1, b2⟩
      · exact ⟨by rw [b1]; exact h0, hd _ b2⟩
      · refine ⟨hw _ b1, ?_⟩
        rcases b2 with b2 | b2
        · exact hd _ b2
        · exact Or.inr (hw _ b2)
    · obtain ⟨a1, a2, a3, a4, a5, a6, a7⟩ := hall2 b hb
      refine ⟨?_, a2, a3, a4, a5, a6, a7⟩
      rcases a1 with ⟨b1, b2⟩ | ⟨b1, b2⟩
      · exact Or.inl ⟨b1, (run_gray hcomp _).1 b2⟩
      · refine Or.inr ⟨run_white hcomp _ b1, ?_⟩
        rcases b2 with b2 | b2
        · exact Or.inl ((run_gray hcomp _).1 b2)
        · exact Or.inr (run_white hcomp _ b2)

end BallLarus

namespace BallLarus

/-- Every member of a set `toErase[u]` has a record. -/
theorem run_er_records {nodes : List (List To)} {curr : Nat} {es : List To} {st st' : DfsState}
    (h : EdgesRun nodes curr es st st')
    (hst : ∀ u v, v ∈ st.er u → ∃ b ∈ st.backedges, b.src = u ∧ b.dest = v) :
    ∀ u v, v ∈ st'.er u → ∃ b ∈ st'.backedges, b.src = u ∧ b.dest = v := by
  induction h with
  | done => exact hst
  | back curr t rest st st' _ _ ih =>
    apply ih
    intro u v hv
    rw [er_record] at hv
    rw [backedges_record]
    split at hv
    · rename_i hc
      rcases List.mem_insert_iff.1 hv with rfl | hv
      · exact ⟨_, List.mem_append_right _ (List.mem_singleton_self _), hc.1.symm, rfl⟩
      · obtain ⟨b, hb, h1, h2⟩ := hst curr v hv
        exact ⟨b, List.mem_append_left _ hb, h1.trans hc.1.symm, h2⟩
    · obtain ⟨b, hb, h1, h2⟩ := hst u v hv
      exact ⟨b, List.mem_append_left _ hb, h1, h2⟩
  | skip curr t rest st st' _ _ _ ih => exact ih hst
  | tree curr t rest st st1 st' _ _ _ ih1 ih2 =>
    exact ih2 (fun u v hv => by simpa using ih1 (by simpa using hst) u v (by simpa using hv))

/-- The members of the sets `toErase[u]` are visited nodes. -/
theorem run_er_visited {nodes : List (List To)} {curr : Nat} {es : List To} {st st' : DfsState}
    (h : EdgesRun nodes curr es st st')
    (hst : ∀ u v, v ∈ st.er u → st.col v ≠ 0) :
    ∀ u v, v ∈ st'.er u → st'.col v ≠ 0 := by
  induction h with
  | done => exact hst
  | back curr t rest st st' h1 _ ih =>
    apply ih
    intro u v hv
    rw [er_record] at hv
    rw [col_record]
    split at hv
    · rcases List.mem_insert_iff.1 hv with rfl | hv
      · omega
      · exact hst curr v hv
    · exact hst u v hv
  | skip curr t rest st st' _ _ _ ih => exact ih hst
  | tree curr t rest st st1 st' _ _ _ ih1 ih2 =>
    have hp : ∀ (s : DfsState) (c k : Nat), k ≠ 0 → (∀ u v, v ∈ s.er u → s.col v ≠ 0) →
        ∀ u v, v ∈ (s.paint c k).er u → (s.paint c k).col v ≠ 0 := by
      intro s c k hk hs u v hv
      rw [col_paint]
      split
      · exact hk
      · exact hs u v hv
    exact ih2 (hp _ _ _ (by omega) (ih1 (hp _ _ _ (by omega) hst)))

theorem dfsStart_col (n x : Nat) : (dfsStart n).col x = 0 := getD_replicate_self _ _ _

theorem dfsStart_er (n x : Nat) : (dfsStart n).er x = [] := getD_replicate_self _ _ _

theorem dfsStart_good (n : Nat) : (dfsStart n).Good n :=
  ⟨by simp [dfsStart], by simp [dfsStart], fun x => by rw [dfsStart_col]; omega⟩

/-- The outermost call of `dfs` returns, with the facts of `DfsFinal`. -/
theorem dfs_top {nodes : List (List To)} (hwf : NodesWF nodes) {e : Nat}
    (he : e < nodes.length) (hin : ∀ u, ¬ Edge nodes u e) :
    ∃ st, dfs nodes nodes.length (dfsStart nodes.length) e = some st ∧ DfsFinal nodes e st := by
  obtain ⟨f, hf⟩ : ∃ f, nodes.length = f + 1 := ⟨nodes.length - 1, by omega⟩
  have hg0 := dfsStart_good nodes.length
  have hgp : ((dfsStart nodes.length).paint e 1).Good nodes.length := good_paint hg0 _ _ (by omega)
  have hpc : ∀ x, ((dfsStart nodes.length).paint e 1).col x = if x = e then 1 else 0 := by
    intro x; rw [col_paint, hg0.hc, dfsStart_col]; simp [he]
  have hw : ((dfsStart nodes.length).paint e 1).whites ≤ f := by
    have := count_set_lt (l := (dfsStart nodes.length).color) (i := e) 1 0 (by omega)
      (by rw [hg0.hc]; exact he) (dfsStart_col _ _)
    have h2 : (dfsStart nodes.length).color.count 0 = nodes.length := by
      simp [dfsStart]
    unfold DfsState.whites DfsState.paint
    simp only
    omega
  obtain ⟨s, hs⟩ := dfsEdges_total hwf f e (nodes.getD e []) _ hgp (hwf e) hw
  have hrun := dfsEdges_run_of nodes _ (dfs_spec nodes f) _ _ _ _ hs
  have hgs := run_good hrun hgp
  refine ⟨s.paint e 2, by rw [hf, dfs, ← hf, hs], ?_⟩
  have hcomp := EdgesRun.tree e (To.mk e 0 none) [] (dfsStart nodes.length) s _
    (dfsStart_col _ _) hrun (EdgesRun.done _ _)
  obtain ⟨new, hnew, hall⟩ := run_records hwf hrun hgp he (fun t ht => ht) (by
    intro hne x hx
    rw [hpc] at hx
    split at hx
    · rename_i hh; rw [hh]; exact hne
    · omega)
  have hnew : s.backedges = new := by rw [hnew]; simp [dfsStart]
  refine ⟨good_paint hgs _ _ (by omega), ?_, ?_, ?_, ?_, ?_, ?_, ?_⟩
  · intro x hx
    have := (run_gray hcomp x).1 hx
    rw [dfsStart_col] at this
    omega
  · rw [col_paint, if_pos ⟨rfl, by rw [hgs.hc]; exact he⟩]
  · exact (run_ranked hwf hcomp hg0 he (by simpa using he) (fun _ => 0) 0
      (fun x hx => by rw [dfsStart_col] at hx; omega)).1
  · intro b hb
    rw [backedges_paint, hnew] at hb
    obtain ⟨a1, a2, a3, a4, a5, a6, a7⟩ := hall b hb
    have key : b.src ≠ e ∧ b.dest ≠ e := by
      rcases a1 with ⟨b1, b2⟩ | ⟨b1, b2⟩
      · rw [hpc] at b2
        split at b2
        · rename_i hh; rw [hh] at a2; exact absurd a2 (hin _)
        · omega
      · rw [hpc] at b1
        constructor
        · intro hh; rw [if_pos hh] at b1; omega
        · intro hh
          rw [hh] at a2; exact absurd a2 (hin _)
    exact ⟨a2, by simpa using a3, a4, key.1, key.2, a5, a6, a7⟩
  · intro u v hv
    have := run_er_records hrun (by
      intro u v hv
      rw [er_paint, dfsStart_er] at hv
      cases hv) u v (by simpa using hv)
    simpa using this
  · intro u v hv
    have h1 : (s.paint e 2).col v ≠ 0 := run_er_visited hcomp (by
      intro u v hv
      rw [dfsStart_er] at hv
      cases hv) u v hv
    have h2 : (s.paint e 2).col v ≠ 1 := by
      intro hx
      have := (run_gray hcomp v).1 hx
      rw [dfsStart_col] at this
      omega
    have h3 := (good_paint hgs e 2 (by omega)).hle v
    omega
  · intro hl
    rw [hl] at hrun
    cases hrun
    rfl

/-- Every node reachable from the entry is black when `dfs` returns. -/
theorem dfs_reach_black {nodes : List (List To)} {e : Nat} {st : DfsState}
    (h : DfsFinal nodes e st) (v : Nat) (hv : Relation.ReflTransGen (Edge nodes) e v) :
    st.col v = 2 := by
  induction hv with
  | refl => exact h.entry
  | @tail b c _ hbc ih =>
    obtain ⟨r, M, hr⟩ := h.ranked
    obtain ⟨t, ht, rfl⟩ := hbc
    have h1 := ((hr b ih).2 t ht).1
    have h2 := h.nogray t.next
    have h3 := h.good.hle t.next
    omega

end BallLarus

namespace BallLarus

/-! ## The graph after back-edge replacement -/

theorem length_eraseBackedges (nodes : List (List To)) (er : List (List Nat)) :
    (eraseBackedges nodes er).length = nodes.length := by
  simp [eraseBackedges]

theorem getD_eraseBackedges (nodes : List (List To)) (er : List (List Nat)) (u : Nat) :
    (eraseBackedges nodes er).getD u [] =
      (nodes.getD u []).filter (fun t => !(er.getD u []).contains t.next) := by
  by_cases h : u < nodes.length
  · rw [List.getD_eq_getElem _ _ (by rw [length_eraseBackedges]; exact h)]
    simp [eraseBackedges]
  · rw [getD_ge (by rw [length_eraseBackedges]; omega), getD_ge (l := nodes) (by omega)]
    rfl

theorem length_pushEdge (nodes : List (List To)) (i : Nat) (t : To) :
    (pushEdge nodes i t).length = nodes.length := by
  simp [pushEdge]

theorem getD_pushEdge (nodes : List (List To)) (i : Nat) (t : To) (u : Nat) :
    (pushEdge nodes i t).getD u [] =
      nodes.getD u [] ++ (if i = u ∧ i < nodes.length then [t] else []) := by
  unfold pushEdge
  by_cases h : i = u
  · subst h
    by_cases h2 : i < nodes.length
    · rw [getD_set_self h2, if_pos ⟨rfl, h2⟩]
    · rw [getD_set_ge (by omega), if_neg (fun hh => h2 hh.2), List.append_nil]
  · rw [getD_set_other h, if_neg (fun hh => h hh.1), List.append_nil]

theorem length_insertSynthetic (e x : Nat) (bes : List BackEdge) (k : Nat)
    (nodes : List (List To)) : (insertSynthetic e x bes k nodes).length = nodes.length := by
  induction bes generalizing k nodes with
  | nil => rfl
  | cons b rest ih => rw [insertSynthetic, ih, length_pushEdge, length_pushEdge]

theorem getD_insertSynthetic (e x : Nat) (bes : List BackEdge) (k : Nat)
    (nodes : List (List To)) (he : e < nodes.length) (hsrc : ∀ b ∈ bes, b.src < nodes.length)
    (u : Nat) :
    (insertSynthetic e x bes k nodes).getD u [] = nodes.getD u [] ++ synthAt e x u bes k := by
  induction bes generalizing k nodes with
  | nil => simp [insertSynthetic, synthAt]
  | cons b rest ih =>
    rw [insertSynthetic, ih _ _ (by rw [length_pushEdge, length_pushEdge]; exact he)
      (fun b' hb' => by
        rw [length_pushEdge, length_pushEdge]; exact hsrc b' (List.mem_cons_of_mem _ hb')),
      getD_pushEdge, getD_pushEdge, length_pushEdge, synthAt]
    have h1 := hsrc b (List.mem_cons_self _ _)
    simp [h1, he, List.append_assoc]

theorem mem_synthAt (e x u : Nat) (bes : List BackEdge) (k : Nat) (t : To) :
    t ∈ synthAt e x u bes k ↔
      ∃ j b, bes[j]? = some b ∧
        ((b.src = u ∧ t = To.mk x 0 (some (k + j))) ∨
          (e = u ∧ t = To.mk b.dest 0 (some (k + j)))) := by
  induction bes generalizing k with
  | nil => simp [synthAt]
  | cons b rest ih =>
    rw [synthAt, List.mem_append, List.mem_append, ih]
    constructor
    · rintro (h | h | ⟨j, b', hj, h⟩)
      · split at h
        · exact ⟨0, b, by simp, Or.inl ⟨by assumption, by simpa using h⟩⟩
        · cases h
      · split at h
        · exact ⟨0, b, by simp, Or.inr ⟨by assumption, by simpa using h⟩⟩
        · cases h
      · exact ⟨j + 1, b', by simpa using hj, by
          rcases h with h | h
          · exact Or.inl ⟨h.1, by rw [h.2]; congr 2; omega⟩
          · exact Or.inr ⟨h.1, by rw [h.2]; congr 2; omega⟩⟩
    · rintro ⟨j, b', hj, h⟩
      cases j with
      | zero =>
        simp only [List.getElem?_cons_zero, Option.some.injEq] at hj
        subst hj
        rcases h with h | h
        · left; rw [if_pos h.1, h.2]; simp
        · right; left; rw [if_pos h.1, h.2]; simp
      | succ j =>
        right; right
        refine ⟨j, b', by simpa using hj, ?_⟩
        rcases h with h | h
        · exact Or.inl ⟨h.1, by rw [h.2]; congr 2; omega⟩
        · exact Or.inr ⟨h.1, by rw [h.2]; congr 2; omega⟩

end BallLarus

namespace BallLarus

theorem length_dagNodes (nodes : List (List To)) (e x : Nat) (st : DfsState) :
    (dagNodes nodes e x st).length = nodes.length := by
  rw [dagNodes, length_insertSynthetic, length_eraseBackedges]

theorem getD_dagNodes {nodes : List (List To)} {e x : Nat} {st : DfsState}
    (he : e < nodes.length) (hf : DfsFinal nodes e st) (u : Nat) :
    (dagNodes nodes e x st).getD u [] =
      (nodes.getD u []).filter (fun t => !(st.er u).contains t.next) ++
        synthAt e x u st.backedges 0 := by
  rw [dagNodes, getD_insertSynthetic _ _ _ _ _ (by rw [length_eraseBackedges]; exact he)
    (fun b hb => by rw [length_eraseBackedges]; exact (hf.recs b hb).2.2.2.2.2.2.2),
    getD_eraseBackedges]
  rfl

/-- The edges after replacement: a kept edge of the CFG, the edge to the exit
that replaces a back-edge, or the edge from the entry that replaces one. -/
theorem edge_dagNodes {nodes : List (List To)} {e x : Nat} {st : DfsState}
    (he : e < nodes.length) (hf : DfsFinal nodes e st) (u v : Nat) :
    Edge (dagNodes nodes e x st) u v ↔
      (∃ t ∈ nodes.getD u [], t.next ∉ st.er u ∧ t.next = v) ∨
      (∃ b ∈ st.backedges, b.src = u ∧ v = x) ∨
      (∃ b ∈ st.backedges, e = u ∧ v = b.dest) := by
  unfold Edge
  rw [getD_dagNodes he hf]
  constructor
  · rintro ⟨t, ht, rfl⟩
    rcases List.mem_append.1 ht with ht | ht
    · rw [List.mem_filter] at ht
      exact Or.inl ⟨t, ht.1, by simpa using ht.2, rfl⟩
    · obtain ⟨j, b, hj, h⟩ := (mem_synthAt _ _ _ _ _ _).1 ht
      have hb : b ∈ st.backedges := List.mem_iff_getElem?.2 ⟨j, hj⟩
      rcases h with h | h
      · exact Or.inr (Or.inl ⟨b, hb, h.1, by rw [h.2]⟩)
      · exact Or.inr (Or.inr ⟨b, hb, h.1, by rw [h.2]⟩)
  · rintro (⟨t, ht, h1, rfl⟩ | ⟨b, hb, h1, rfl⟩ | ⟨b, hb, h1, rfl⟩)
    · exact ⟨t, List.mem_append_left _ (List.mem_filter.2 ⟨ht, by simpa using h1⟩), rfl⟩
    · obtain ⟨j, hj⟩ := List.getElem?_of_mem hb
      exact ⟨_, List.mem_append_right _
        ((mem_synthAt _ _ _ _ _ _).2 ⟨j, b, hj, Or.inl ⟨h1, rfl⟩⟩), rfl⟩
    · obtain ⟨j, hj⟩ := List.getElem?_of_mem hb
      exact ⟨_, List.mem_append_right _
        ((mem_synthAt _ _ _ _ _ _).2 ⟨j, b, hj, Or.inr ⟨h1, rfl⟩⟩), rfl⟩

theorem dag_wf {nodes : List (List To)} (hwf : NodesWF nodes) {e x : Nat} {st : DfsState}
    (he : e < nodes.length) (hx : x < nodes.length) (hf : DfsFinal nodes e st) :
    NodesWF (dagNodes nodes e x st) := by
  intro u t ht
  rw [length_dagNodes]
  rcases (edge_dagNodes he hf u t.next).1 ⟨t, ht, rfl⟩ with
    ⟨t', ht', _, h⟩ | ⟨b, _, _, h⟩ | ⟨b, hb, _, h⟩
  · rw [← h]; exact hwf u t' ht'
  · rw [h]; exact hx
  · obtain ⟨t', ht', h'⟩ := (hf.recs b hb).1
    rw [h, ← h']; exact hwf _ t' ht'

theorem dag_noin {nodes : List (List To)} {e x : Nat} {st : DfsState}
    (he : e < nodes.length) (hxs : nodes.getD x [] = []) (hin : ∀ u, ¬ Edge nodes u e)
    (hf : DfsFinal nodes e st) (u : Nat) : ¬ Edge (dagNodes nodes e x st) u e := by
  intro h
  rcases (edge_dagNodes he hf u e).1 h with ⟨t, ht, _, h⟩ | ⟨b, hb, _, h⟩ | ⟨b, hb, _, h⟩
  · exact hin u ⟨t, ht, h⟩
  · rw [hf.leaf (by rw [h]; exact hxs)] at hb; cases hb
  · exact (hf.recs b hb).2.2.2.2.1 h.symm

/-- A node has an edge after replacement exactly when it has one in the CFG. -/
theorem dag_sink {nodes : List (List To)} {e x : Nat} {st : DfsState}
    (he : e < nodes.length) (hf : DfsFinal nodes e st) (u : Nat) :
    (dagNodes nodes e x st).getD u [] = [] ↔ nodes.getD u [] = [] := by
  constructor
  · intro h
    by_contra hne
    obtain ⟨t, ht⟩ := List.exists_mem_of_ne_nil _ hne
    have : Edge (dagNodes nodes e x st) u (if t.next ∈ st.er u then x else t.next) := by
      rw [edge_dagNodes he hf]
      by_cases hm : t.next ∈ st.er u
      · obtain ⟨b, hb, h1, _⟩ := hf.ers u _ hm
        rw [if_pos hm]
        exact Or.inr (Or.inl ⟨b, hb, h1, rfl⟩)
      · rw [if_neg hm]
        exact Or.inl ⟨t, ht, hm, rfl⟩
    obtain ⟨t', ht', _⟩ := this
    rw [h] at ht'; cases ht'
  · intro h
    by_contra hne
    obtain ⟨t, ht⟩ := List.exists_mem_of_ne_nil _ hne
    rcases (edge_dagNodes he hf u t.next).1 ⟨t, ht, rfl⟩ with
      ⟨t', ht', _, _⟩ | ⟨b, hb, h1, _⟩ | ⟨b, hb, h1, _⟩
    · rw [h] at ht'; cases ht'
    · obtain ⟨t', ht', _⟩ := (hf.recs b hb).1
      rw [h1, h] at ht'; cases ht'
    · rw [hf.leaf (by rw [h1]; exact h)] at hb; cases hb

/-- Rank of the graph after replacement: along every edge that leaves a black
node or the exit, the rank decreases and the target is black or the exit. -/
theorem dag_rank {nodes : List (List To)} {e x : Nat} {st : DfsState}
    (he : e < nodes.length) (hxs : nodes.getD x [] = []) (hin : ∀ u, ¬ Edge nodes u e)
    (hf : DfsFinal nodes e st) :
    ∃ R : Nat → Nat, ∀ u v, (st.col u = 2 ∨ u = x) → Edge (dagNodes nodes e x st) u v →
      (st.col v = 2 ∨ v = x) ∧ R v < R u := by
  obtain ⟨r, M, hr⟩ := hf.ranked
  refine ⟨fun v => if v = x then 0 else if v = e then M + 1 else r v + 1, ?_⟩
  intro u v hu huv
  have hux : u ≠ x := by
    intro hh
    have := (dag_sink (x := x) he hf u).2 (by rw [hh]; exact hxs)
    obtain ⟨t, ht, _⟩ := huv
    rw [this] at ht; cases ht
  have hub : st.col u = 2 := by
    rcases hu with h | h
    · exact h
    · exact absurd h hux
  have hve : v ≠ e := fun hh => dag_noin he hxs hin hf u (hh ▸ huv)
  simp only [hux, hve, if_false]
  rcases (edge_dagNodes he hf u v).1 huv with ⟨t, ht, h1, h⟩ | ⟨b, hb, _, h⟩ | ⟨b, hb, h1, h⟩
  · have h2 := ((hr u hub).2 t ht).2
    rcases h2 with h2 | h2
    · exact absurd h2 h1
    · rw [h] at h2
      refine ⟨Or.inl h2.1, ?_⟩
      have h3 := (hr v h2.1).1
      have h4 := (hr u hub).1
      split <;> split <;> omega
  · refine ⟨Or.inr h, ?_⟩
    rw [if_pos h]
    split <;> omega
  · have hb2 := hf.erblack _ _ (hf.recs b hb).2.1
    rw [← h] at hb2
    refine ⟨Or.inl hb2, ?_⟩
    have h3 := (hr v hb2).1
    rw [if_pos h1.symm]
    split <;> omega

end BallLarus

namespace BallLarus

/-! ## In-degrees, entry and exit -/

theorem sum_nodup_le (f : Nat → Nat) (l : List Nat) (n : Nat) (hn : l.Nodup)
    (hs : ∀ u ∈ l, u < n) : (l.map f).sum ≤ ((List.range n).map f).sum := by
  rw [← List.sum_toFinset f hn, ← List.sum_toFinset f (List.nodup_range n)]
  apply Finset.sum_le_sum_of_subset
  intro u hu
  simp only [List.mem_toFinset, List.mem_range] at hu ⊢
  exact hs u hu

theorem sum_nodup_lt (f : Nat → Nat) (l : List Nat) (n : Nat) (hn : l.Nodup)
    (hs : ∀ u ∈ l, u < n) (hlt : (l.map f).sum < ((List.range n).map f).sum) :
    ∃ u, u < n ∧ u ∉ l ∧ 0 < f u := by
  by_contra hcon
  push_neg at hcon
  rw [← List.sum_toFinset f hn, ← List.sum_toFinset f (List.nodup_range n)] at hlt
  have : (List.range n).toFinset.sum f = l.toFinset.sum f := by
    symm
    apply Finset.sum_subset
    · intro u hu
      simp only [List.mem_toFinset, List.mem_range] at hu ⊢
      exact hs u hu
    · intro u hu hnu
      simp only [List.mem_toFinset, List.mem_range] at hu hnu
      have := hcon u hu hnu
      omega
  omega

theorem map_range_getD {α β : Type} (l : List α) (d : α) (f : α → β) :
    (List.range l.length).map (fun u => f (l.getD u d)) = l.map f := by
  apply List.ext_getElem
  · simp
  · intro i h1 h2
    simp only [List.getElem_map, List.getElem_range]
    rw [List.getD_eq_getElem _ _ (by simpa using h2)]

theorem length_countEdges (deg : List Nat) (tos : List To) :
    (countEdges deg tos).length = deg.length := by
  unfold countEdges
  induction tos generalizing deg with
  | nil => rfl
  | cons t rest ih => rw [List.foldl_cons, ih]; simp

theorem getD_countEdges (deg : List Nat) (tos : List To) (v : Nat) (hv : v < deg.length) :
    (countEdges deg tos).getD v 0 = deg.getD v 0 + tos.countP (fun t => t.next == v) := by
  unfold countEdges
  induction tos generalizing deg with
  | nil => simp
  | cons t rest ih =>
    rw [List.foldl_cons, ih _ (by simpa using hv), List.countP_cons]
    by_cases h : t.next = v
    · subst h
      rw [getD_set_self hv]
      simp
      omega
    · rw [getD_set_other h]
      simp [h]

theorem getD_foldl_countEdges (ns : List (List To)) (deg : List Nat) (v : Nat)
    (hv : v < deg.length) :
    ((ns.foldl countEdges deg).length = deg.length) ∧
    (ns.foldl countEdges deg).getD v 0 =
      deg.getD v 0 + (ns.map (fun tos => tos.countP (fun t => t.next == v))).sum := by
  induction ns generalizing deg with
  | nil => simp
  | cons tos rest ih =>
    rw [List.foldl_cons]
    obtain ⟨h1, h2⟩ := ih (countEdges deg tos) (by rw [length_countEdges]; exact hv)
    refine ⟨by rw [h1, length_countEdges], ?_⟩
    rw [h2, getD_countEdges _ _ _ hv]
    simp
    omega

theorem length_foldl_countEdges (ns : List (List To)) (deg : List Nat) :
    (ns.foldl countEdges deg).length = deg.length := by
  induction ns generalizing deg with
  | nil => rfl
  | cons tos rest ih => rw [List.foldl_cons, ih, length_countEdges]

theorem length_countInDegree (nodes : List (List To)) :
    (countInDegree nodes).length = nodes.length := by
  unfold countInDegree
  rw [length_foldl_countEdges]
  simp

theorem getD_countInDegree (nodes : List (List To)) (v : Nat) (hv : v < nodes.length) :
    (countInDegree nodes).getD v 0 = indeg nodes v := by
  unfold countInDegree indeg edgeCount
  rw [(getD_foldl_countEdges nodes _ v (by simpa using hv)).2, getD_replicate_self,
    map_range_getD nodes [] (fun tos => tos.countP (fun t => t.next == v))]
  simp

theorem edgeCount_pos_iff (nodes : List (List To)) (u v : Nat) :
    0 < edgeCount nodes u v ↔ Edge nodes u v := by
  unfold edgeCount Edge
  rw [List.countP_pos_iff]
  simp

theorem indeg_pos_iff (nodes : List (List To)) (v : Nat) :
    0 < indeg nodes v ↔ ∃ u, Edge nodes u v := by
  unfold indeg
  constructor
  · intro h
    by_contra hcon
    push_neg at hcon
    have : ((List.range nodes.length).map (fun u => edgeCount nodes u v)).sum = 0 := by
      apply List.sum_eq_zero
      intro x hx
      obtain ⟨u, _, rfl⟩ := List.mem_map.1 hx
      have := (edgeCount_pos_iff nodes u v).not.2 (hcon u)
      omega
    omega
  · rintro ⟨u, hu⟩
    have hlt : u < nodes.length := by
      by_contra hge
      obtain ⟨t, ht, _⟩ := hu
      rw [getD_ge (by omega)] at ht
      cases ht
    have h1 := (edgeCount_pos_iff nodes u v).2 hu
    have h2 : edgeCount nodes u v ≤
        ((List.range nodes.length).map (fun u => edgeCount nodes u v)).sum :=
      List.single_le_sum (fun _ _ => Nat.zero_le _) _
        (List.mem_map.2 ⟨u, List.mem_range.2 hlt, rfl⟩)
    omega

end BallLarus

namespace BallLarus

theorem length_initNodes (cfg : CFG) : (initNodes cfg).length = cfg.length := by
  simp [initNodes]

theorem getD_initNodes (cfg : CFG) (u : Nat) :
    (initNodes cfg).getD u [] = (cfg.getD u []).map (fun s => To.mk s 0 none) := by
  unfold initNodes
  by_cases h : u < cfg.length
  · rw [List.getD_eq_getElem _ _ (by simpa using h), List.getD_eq_getElem _ _ h]
    simp
  · rw [getD_ge (by simpa using h), getD_ge (by omega)]
    rfl

theorem edge_initNodes (cfg : CFG) (u v : Nat) : Edge (initNodes cfg) u v ↔ cfg.Succ u v := by
  unfold Edge CFG.Succ
  rw [getD_initNodes]
  simp

theorem initNodes_wf (cfg : CFG) (h : cfg.WF) : NodesWF (initNodes cfg) := by
  intro u t ht
  rw [getD_initNodes] at ht
  obtain ⟨s, hs, rfl⟩ := List.mem_map.1 ht
  rw [length_initNodes]
  by_cases hu : u < cfg.length
  · exact h _ (getD_mem hu []) s hs
  · rw [getD_ge (by omega)] at hs; cases hs

theorem initNodes_nil_iff (cfg : CFG) (u : Nat) :
    (initNodes cfg).getD u [] = [] ↔ cfg.getD u [] = [] := by
  rw [getD_initNodes]
  simp

theorem findExit_aux (nodes : List (List To)) (n : Nat) :
    ((List.range n).foldl
        (fun e i => if (nodes.getD i []).isEmpty then some i else e) none = none ∧
      ∀ i, i < n → nodes.getD i [] ≠ []) ∨
    ∃ x, (List.range n).foldl
        (fun e i => if (nodes.getD i []).isEmpty then some i else e) none = some x ∧
      x < n ∧ nodes.getD x [] = [] ∧ ∀ i, x < i → i < n → nodes.getD i [] ≠ [] := by
  induction n with
  | zero => left; exact ⟨rfl, fun i hi => by omega⟩
  | succ n ih =>
    rw [List.range_succ, List.foldl_append]
    simp only [List.foldl_cons, List.foldl_nil]
    by_cases he : nodes.getD n [] = []
    · right
      refine ⟨n, by rw [he]; rfl, by omega, he, fun i h1 h2 => by omega⟩
    · have hemp : (nodes.getD n []).isEmpty = false := by
        cases h : nodes.getD n [] with
        | nil => exact absurd h he
        | cons a l => rfl
      rw [hemp]
      simp only [Bool.false_eq_true, if_false]
      rcases ih with ⟨h1, h2⟩ | ⟨x, h1, h2, h3, h4⟩
      · left
        refine ⟨h1, fun i hi => ?_⟩
        by_cases hin : i = n
        · rw [hin]; exact he
        · exact h2 i (by omega)
      · right
        refine ⟨x, h1, by omega, h3, fun i hi1 hi2 => ?_⟩
        by_cases hin : i = n
        · rw [hin]; exact he
        · exact h4 i hi1 (by omega)

/-- `findExit` returns the last node without edges, when there is one. -/
theorem findExit_spec (nodes : List (List To)) (i : Nat) (hi : i < nodes.length)
    (hs : nodes.getD i [] = []) :
    ∃ x, findExit nodes = some x ∧ x < nodes.length ∧ nodes.getD x [] = [] ∧
      ∀ j, x < j → j < nodes.length → nodes.getD j [] ≠ [] := by
  rcases findExit_aux nodes nodes.length with ⟨_, h2⟩ | h
  · exact absurd hs (h2 i hi)
  · exact h

/-- `findEntry` returns a node whose counter is zero, when there is one. -/
theorem findEntry_spec (deg : List Nat) (i : Nat) (hi : i < deg.length) (hz : deg.getD i 0 = 0) :
    ∃ e, findEntry deg = some e ∧ e < deg.length ∧ deg.getD e 0 = 0 := by
  unfold findEntry
  cases h : (List.range deg.length).find? (fun i => deg.getD i 0 == 0) with
  | none =>
    rw [List.find?_eq_none] at h
    have := h i (List.mem_range.2 hi)
    exact absurd (by rw [hz]; rfl) this
  | some e =>
    have h1 := List.find?_some h
    have h2 := List.mem_of_find?_eq_some h
    exact ⟨e, rfl, List.mem_range.1 h2, by simpa using h1⟩

end BallLarus

namespace BallLarus

/-! ## The topological order -/

theorem sum_nodup_add (f : Nat → Nat) (l : List Nat) (n u : Nat) (hn : l.Nodup)
    (hs : ∀ w ∈ l, w < n) (hu : u < n) (hul : u ∉ l) :
    (l.map f).sum + f u ≤ ((List.range n).map f).sum := by
  have := sum_nodup_le f (u :: l) n (List.nodup_cons.2 ⟨hul, hn⟩) (by
    intro w hw
    rcases List.mem_cons.1 hw with rfl | hw
    · exact hu
    · exact hs w hw)
  simp only [List.map_cons, List.sum_cons] at this
  omega

theorem append_singleton_eq_split {l l1 l2 : List Nat} {w v : Nat}
    (h : l ++ [w] = l1 ++ v :: l2) :
    (l2 = [] ∧ v = w ∧ l1 = l) ∨ ∃ l2', l2 = l2' ++ [w] ∧ l = l1 ++ v :: l2' := by
  rcases List.eq_nil_or_concat l2 with rfl | ⟨l2', a, rfl⟩
  · left
    have h' : l ++ [w] = l1 ++ [v] := h
    have := List.append_inj' h' rfl
    exact ⟨rfl, by simpa using this.2.symm, this.1.symm⟩
  · right
    have h' : l ++ [w] = (l1 ++ v :: l2') ++ [a] := by rw [h]; simp
    have := List.append_inj' h' rfl
    have ha : w = a := by simpa using this.2
    exact ⟨l2', by rw [ha, List.concat_eq_append], this.1⟩

theorem popped_nodup {nodes : List (List To)} {s : TopoState} {popped : List Nat}
    {rest : List To} (h : TopoInv nodes s popped rest) :
    popped.Nodup ∧ ∀ u ∈ popped, u < nodes.length ∧ u ∈ s.sorted := by
  have h1 := h.nodup
  rw [h.split] at h1
  refine ⟨(List.nodup_append.1 h1).1, fun u hu => ?_⟩
  have : u ∈ s.sorted := by rw [h.split]; exact List.mem_append_left _ hu
  exact ⟨h.bound u this, this⟩

/-- The inner loop of `topological_sort` keeps the invariant and only appends
to the queue and to the result. -/
theorem topoEdges_inv {nodes : List (List To)} (rest : List To) :
    ∀ (s : TopoState) (popped : List Nat), (∀ t ∈ rest, t.next < nodes.length) →
      TopoInv nodes s popped rest →
      TopoInv nodes (topoEdges rest s) popped [] ∧
        ∃ added, (topoEdges rest s).sorted = s.sorted ++ added ∧
          (topoEdges rest s).bfs = s.bfs ++ added := by
  induction rest with
  | nil => intro s popped _ h; exact ⟨h, [], by simp [topoEdges], by simp [topoEdges]⟩
  | cons t rest ih =>
    intro s popped hb h
    have hv : t.next < nodes.length := hb t (List.mem_cons_self _ _)
    have hrest : ∀ t ∈ rest, t.next < nodes.length := fun t ht => hb t (List.mem_cons_of_mem _ ht)
    obtain ⟨hpn, hpb⟩ := popped_nodup h
    have hle := sum_nodup_le (fun u => edgeCount nodes u t.next) popped nodes.length hpn
      (fun u hu => (hpb u hu).1)
    have hc := h.count t.next hv
    rw [List.countP_cons] at hc
    simp only [beq_self_eq_true, if_true] at hc
    have hind : ((List.range nodes.length).map (fun u => edgeCount nodes u t.next)).sum =
      indeg nodes t.next := rfl
    have hpos : 0 < s.inDegree.getD t.next 0 := by omega
    have hns : t.next ∉ s.sorted := fun hm => by have := h.zero _ hm; omega
    have hd : decr64 (s.inDegree.getD t.next 0) = s.inDegree.getD t.next 0 - 1 := by
      unfold decr64; rw [if_neg (by omega)]
    have hlen : t.next < s.inDegree.length := by rw [h.len]; exact hv
    have hcount : ∀ v, v < nodes.length →
        (s.inDegree.set t.next (s.inDegree.getD t.next 0 - 1)).getD v 0 +
          (popped.map (fun u => edgeCount nodes u v)).sum =
        indeg nodes v + rest.countP (fun t => t.next == v) := by
      intro v hvn
      have := h.count v hvn
      rw [List.countP_cons] at this
      by_cases hvt : t.next = v
      · subst hvt
        rw [getD_set_self hlen]
        simp only [beq_self_eq_true, if_true] at this
        omega
      · rw [getD_set_other hvt]
        simp only [beq_iff_eq, hvt, if_false] at this
        omega
    rw [topoEdges]
    simp only [hd]
    by_cases hz : s.inDegree.getD t.next 0 - 1 = 0
    · rw [if_pos hz]
      have hinv : TopoInv nodes
          { inDegree := s.inDegree.set t.next (s.inDegree.getD t.next 0 - 1),
            bfs := s.bfs ++ [t.next], sorted := s.sorted ++ [t.next] } popped rest := by
        refine ⟨by simp [h.len], by simp [h.split], ?_, ?_, hcount, ?_, ?_, ?_⟩
        · exact List.nodup_append.2 ⟨h.nodup, List.nodup_singleton _, by
            intro a ha hb; simp at hb; subst hb; exact hns ha⟩
        · intro u hu
          rcases List.mem_append.1 hu with hu | hu
          · exact h.bound u hu
          · simp at hu; subst hu; exact hv
        · intro v hvm
          simp only
          rcases List.mem_append.1 hvm with hvm | hvm
          · rw [getD_set_other (fun hh : t.next = v => hns (hh ▸ hvm))]
            exact h.zero v hvm
          · simp at hvm; subst hvm
            rw [getD_set_self hlen]; exact hz
        · intro l1 v l2 hsp u hu
          rcases append_singleton_eq_split hsp with ⟨_, hvw, hl1⟩ | ⟨l2', _, hsp'⟩
          · rw [hvw] at hu
            rw [hl1]
            by_contra hus
            have hun : u < nodes.length := by
              by_contra hge
              obtain ⟨t', ht', _⟩ := hu
              rw [getD_ge (by omega)] at ht'; cases ht'
            have hup : u ∉ popped := fun hh => hus (hpb u hh).2
            have h1 := sum_nodup_add (fun u => edgeCount nodes u t.next) popped nodes.length u hpn
              (fun u hu => (hpb u hu).1) hun hup
            have h2 := (edgeCount_pos_iff nodes u t.next).2 hu
            simp only at h1
            omega
          · exact h.order l1 v l2' hsp' u hu
        · intro v hvn hvs hvi
          simp only
          have h1 : v ∉ s.sorted := fun hh => hvs (List.mem_append_left _ hh)
          have h2 : t.next ≠ v := fun hh => hvs (by rw [← hh]; simp)
          rw [getD_set_other h2]
          exact h.pos v hvn h1 hvi
      obtain ⟨hI, added, ha1, ha2⟩ := ih _ popped hrest hinv
      exact ⟨hI, t.next :: added, by rw [ha1]; simp, by rw [ha2]; simp⟩
    · rw [if_neg hz]
      have hinv : TopoInv nodes
          { s with inDegree := s.inDegree.set t.next (s.inDegree.getD t.next 0 - 1) }
          popped rest := by
        refine ⟨by simp [h.len], h.split, h.nodup, h.bound, hcount, ?_, h.order, ?_⟩
        · intro v hvm
          simp only
          rw [getD_set_other (fun hh : t.next = v => hns (hh ▸ hvm))]
          exact h.zero v hvm
        · intro v hvn hvs hvi
          simp only
          by_cases hvt : t.next = v
          · subst hvt
            rw [getD_set_self hlen]; omega
          · rw [getD_set_other hvt]
            exact h.pos v hvn hvs hvi
      exact ih _ popped hrest hinv

end BallLarus

namespace BallLarus

theorem sorted_length_le {nodes : List (List To)} {s : TopoState} {popped : List Nat}
    {rest : List To} (h : TopoInv nodes s popped rest) : s.sorted.length ≤ nodes.length := by
  have hsub : List.Subperm s.sorted (List.range nodes.length) :=
    List.subperm_of_subset h.nodup (fun u hu => List.mem_range.2 (h.bound u hu))
  have := hsub.length_le
  simpa using this

/-- The `while` loop of `topological_sort` ends within the fuel and keeps the
invariant. -/
theorem topoLoop_inv {nodes : List (List To)} (hwf : NodesWF nodes) (f : Nat) :
    ∀ (s : TopoState) (popped : List Nat), TopoInv nodes s popped [] →
      s.bfs.length + (nodes.length - s.sorted.length) < f →
      ∃ s', topoLoop nodes f s = some s' ∧ s'.bfs = [] ∧ TopoInv nodes s' s'.sorted [] ∧
        ∃ added, s'.sorted = s.sorted ++ added := by
  induction f with
  | zero => intro s popped _ h; omega
  | succ f ih =>
    intro s popped hinv hm
    cases hq : s.bfs with
    | nil =>
      refine ⟨s, by rw [topoLoop, hq], hq, ?_, [], by simp⟩
      have hsp := hinv.split
      rw [hq, List.append_nil] at hsp
      rw [hsp]
      exact hinv
    | cons curr q =>
      have hsp := hinv.split
      rw [hq] at hsp
      have h0 : TopoInv nodes { s with bfs := q } (popped ++ [curr]) (nodes.getD curr []) := by
        refine ⟨hinv.len, by simp [hsp], hinv.nodup, hinv.bound, ?_, hinv.zero, hinv.order,
          hinv.pos⟩
        intro v hv
        have := hinv.count v hv
        simp only [List.countP_nil, List.map_append, List.sum_append, List.map_cons,
          List.map_nil, List.sum_cons, List.sum_nil] at this ⊢
        have h2 : edgeCount nodes curr v =
          (nodes.getD curr []).countP (fun t => t.next == v) := rfl
        omega
      obtain ⟨h1, added, ha1, ha2⟩ := topoEdges_inv (nodes.getD curr []) _ _ (hwf curr) h0
      have hl := sorted_length_le h1
      have hl0 := sorted_length_le hinv
      obtain ⟨s', hs', hb', hI', added', ha'⟩ := ih _ _ h1 (by
        rw [ha1, ha2]
        rw [ha1] at hl
        simp only [List.length_append] at hl ⊢
        rw [hq] at hm
        simp only [List.length_cons] at hm
        omega)
      refine ⟨s', by rw [topoLoop, hq]; exact hs', hb', hI', added ++ added', ?_⟩
      rw [ha', ha1]
      simp

/-- Facts about the result of `topological_sort`. -/
theorem topological_sort_spec (g : Graph) (hwf : NodesWF g.nodes)
    (he : g.entrybb < g.nodes.length) (hin : ∀ u, ¬ Edge g.nodes u g.entrybb) :
    ∃ sorted, topological_sort g = some sorted ∧ sorted.Nodup ∧
      (∀ u ∈ sorted, u < g.nodes.length) ∧ (∃ tl, sorted = g.entrybb :: tl) ∧
      (∀ l1 v l2, sorted = l1 ++ v :: l2 → ∀ u, Edge g.nodes u v → u ∈ l1) ∧
      ((∃ R : Nat → Nat, ∀ u v, Edge g.nodes u v → R v < R u) →
        (∀ v, v < g.nodes.length → v ≠ g.entrybb → ∃ u, Edge g.nodes u v) →
        ∀ v, v < g.nodes.length → v ∈ sorted) := by
  have hi0 : indeg g.nodes g.entrybb = 0 := by
    have := (indeg_pos_iff g.nodes g.entrybb).not.2 (by push_neg; exact hin)
    omega
  have hinit : TopoInv g.nodes (TopoState.mk (countInDegree g.nodes) [g.entrybb] [g.entrybb])
      [] [] := by
    refine ⟨length_countInDegree _, rfl, List.nodup_singleton _, ?_, ?_, ?_, ?_, ?_⟩
    · intro u hu; simp at hu; subst hu; exact he
    · intro v hv
      simp only [List.map_nil, List.sum_nil, List.countP_nil, Nat.add_zero]
      exact getD_countInDegree _ _ hv
    · intro v hv; simp at hv; subst hv
      simp only
      rw [getD_countInDegree _ _ he, hi0]
    · intro l1 v l2 hsp u hu
      have hl1 : l1 = [] := by
        cases l1 with
        | nil => rfl
        | cons a l => simp at hsp
      subst hl1
      simp at hsp
      rw [← hsp.1] at hu
      exact absurd hu (hin u)
    · intro v hv _ hp
      simp only
      rw [getD_countInDegree _ _ hv]; exact hp
  obtain ⟨s', hs', hb', hI', added, ha⟩ := topoLoop_inv hwf (g.nodes.length + 1) _ _ hinit (by
    simp only [List.length_singleton]; omega)
  refine ⟨s'.sorted, by rw [topological_sort, hs']; rfl, hI'.nodup, hI'.bound,
    ⟨added, by rw [ha]; rfl⟩, hI'.order, ?_⟩
  rintro ⟨R, hR⟩ hpred
  have hmem : g.entrybb ∈ s'.sorted := by rw [ha]; simp
  have hB : ∀ v, v < g.nodes.length → R v ≤ ((List.range g.nodes.length).map R).sum :=
    fun v hv => List.single_le_sum (fun _ _ => Nat.zero_le _) _
      (List.mem_map.2 ⟨v, List.mem_range.2 hv, rfl⟩)
  have key : ∀ k v, v < g.nodes.length → v ∉ s'.sorted →
      ((List.range g.nodes.length).map R).sum < R v + k → False := by
    intro k
    induction k with
    | zero => intro v hv _ hlt; have := hB v hv; omega
    | succ k ihk =>
      intro v hv hvs hlt
      have hve : v ≠ g.entrybb := fun hh => hvs (hh ▸ hmem)
      have hp := hI'.pos v hv hvs ((indeg_pos_iff _ _).2 (hpred v hv hve))
      have hc := hI'.count v hv
      simp only [List.countP_nil] at hc
      obtain ⟨u, hu, hus, hup⟩ := sum_nodup_lt (fun u => edgeCount g.nodes u v) s'.sorted
        g.nodes.length hI'.nodup hI'.bound (by
          have : ((List.range g.nodes.length).map (fun u => edgeCount g.nodes u v)).sum =
            indeg g.nodes v := rfl
          omega)
      have := hR u v ((edgeCount_pos_iff _ _ _).1 hup)
      exact ihk u hu hus (by omega)
  intro v hv
  by_contra hvs
  exact key (((List.range g.nodes.length).map R).sum + 1) v hv hvs (by omega)

end BallLarus

namespace BallLarus

/-! ## The increments -/

theorem stamp_congr (c c' : Nat → Nat) (acc : Nat) (es : List To)
    (h : ∀ t ∈ es, c t.next = c' t.next) : stamp c acc es = stamp c' acc es := by
  induction es generalizing acc with
  | nil => rfl
  | cons t rest ih =>
    simp only [stamp]
    rw [h t (List.mem_cons_self _ _), ih _ (fun t ht => h t (List.mem_cons_of_mem _ ht))]

/-- The inner loop of `gen_incs` on a node without self-loop. -/
theorem incEdges_spec (it : Nat) (es : List To) (np : List Nat) (hit : it < np.length)
    (hne : ∀ t ∈ es, t.next ≠ it) :
    (incEdges it es np).1 = (stamp (fun v => np.getD v 0) (np.getD it 0) es).1 ∧
    (incEdges it es np).2.length = np.length ∧
    (incEdges it es np).2.getD it 0 = (stamp (fun v => np.getD v 0) (np.getD it 0) es).2 ∧
    ∀ v, v ≠ it → (incEdges it es np).2.getD v 0 = np.getD v 0 := by
  induction es generalizing np with
  | nil => exact ⟨rfl, rfl, rfl, fun _ _ => rfl⟩
  | cons t rest ih =>
    have hrest : ∀ t ∈ rest, t.next ≠ it := fun t ht => hne t (List.mem_cons_of_mem _ ht)
    obtain ⟨h1, h2, h3, h4⟩ := ih (np.set it ((np.getD it 0 + np.getD t.next 0) % W64))
      (by simpa using hit) hrest
    have hc : stamp (fun v => (np.set it ((np.getD it 0 + np.getD t.next 0) % W64)).getD v 0)
        ((np.getD it 0 + np.getD t.next 0) % W64) rest =
        stamp (fun v => np.getD v 0) ((np.getD it 0 + np.getD t.next 0) % W64) rest :=
      stamp_congr _ _ _ _ (fun t' ht' => getD_set_other (fun hh => hrest t' ht' hh.symm) _ _)
    rw [getD_set_self hit, hc] at h1 h3
    simp only [incEdges, stamp]
    refine ⟨by rw [h1], by rw [h2]; simp, h3, fun v hv => ?_⟩
    rw [h4 v hv, getD_set_other (Ne.symm hv)]

/-- One iteration of the outer loop of `gen_incs`. -/
theorem incNode_spec (it : Nat) (nd : List (List To)) (np : List Nat)
    (hit : it < np.length) (hnd : it < nd.length) (hne : ∀ t ∈ nd.getD it [], t.next ≠ it) :
    (incNode it (nd, np)).1.length = nd.length ∧ (incNode it (nd, np)).2.length = np.length ∧
    (∀ v, v ≠ it → (incNode it (nd, np)).1.getD v [] = nd.getD v [] ∧
      (incNode it (nd, np)).2.getD v 0 = np.getD v 0) ∧
    (if nd.getD it [] = [] then
      (incNode it (nd, np)).1.getD it [] = [] ∧ (incNode it (nd, np)).2.getD it 0 = 1
    else
      ((incNode it (nd, np)).1.getD it [], (incNode it (nd, np)).2.getD it 0) =
        stamp (fun v => (incNode it (nd, np)).2.getD v 0) 0 (nd.getD it [])) := by
  unfold incNode
  by_cases he : nd.getD it [] = []
  · have : (nd.getD it []).isEmpty = true := by rw [he]; rfl
    simp only [this, if_true]
    refine ⟨trivial, by simp, fun v hv => ⟨trivial, getD_set_other (Ne.symm hv) _ _⟩, ?_⟩
    rw [if_pos he]
    exact ⟨he, getD_set_self hit _ _⟩
  · have : (nd.getD it []).isEmpty = false := by
      cases h : nd.getD it [] with
      | nil => exact absurd h he
      | cons a l => rfl
    simp only [this, Bool.false_eq_true, if_false]
    rw [if_neg he]
    obtain ⟨h1, h2, h3, h4⟩ := incEdges_spec it (nd.getD it []) (np.set it 0)
      (by simpa using hit) hne
    rw [getD_set_self hit] at h1 h3
    refine ⟨by simp, by rw [h2]; simp, fun v hv => ⟨getD_set_other (Ne.symm hv) _ _, ?_⟩, ?_⟩
    · rw [h4 v hv, getD_set_other (Ne.symm hv)]
    · rw [getD_set_self hnd, h1, h3]
      have hc := stamp_congr (fun v => (np.set it 0).getD v 0)
        (fun v => (incEdges it (nd.getD it []) (np.set it 0)).2.getD v 0) 0 (nd.getD it [])
        (fun t ht => (h4 t.next (hne t ht)).symm)
      rw [hc]

end BallLarus

namespace BallLarus

/-- The sweep of `gen_incs` over a list of distinct nodes in which every node
comes after its successors. -/
theorem sweep_inv (nodes : List (List To)) (L : List Nat) :
    L.Nodup → (∀ v ∈ L, v < nodes.length) →
    (∀ l1 v l2, L = l1 ++ v :: l2 → ∀ t ∈ nodes.getD v [], t.next ∈ l1) →
    (L.foldl (fun s it => incNode it s) (nodes, List.replicate nodes.length 0)).1.length =
      nodes.length ∧
    (L.foldl (fun s it => incNode it s) (nodes, List.replicate nodes.length 0)).2.length =
      nodes.length ∧
    (∀ u, u ∉ L →
      (L.foldl (fun s it => incNode it s) (nodes, List.replicate nodes.length 0)).1.getD u [] =
        nodes.getD u [] ∧
      (L.foldl (fun s it => incNode it s) (nodes, List.replicate nodes.length 0)).2.getD u 0 =
        0) ∧
    ∀ u ∈ L,
      if nodes.getD u [] = [] then
        (L.foldl (fun s it => incNode it s) (nodes, List.replicate nodes.length 0)).1.getD u []
          = [] ∧
        (L.foldl (fun s it => incNode it s) (nodes, List.replicate nodes.length 0)).2.getD u 0
          = 1
      else
        ((L.foldl (fun s it => incNode it s) (nodes, List.replicate nodes.length 0)).1.getD u [],
          (L.foldl (fun s it => incNode it s) (nodes, List.replicate nodes.length 0)).2.getD u 0)
          = stamp (fun v =>
            (L.foldl (fun s it => incNode it s)
              (nodes, List.replicate nodes.length 0)).2.getD v 0) 0 (nodes.getD u []) := by
  induction L using List.reverseRecOn with
  | nil =>
    intro _ _ _
    refine ⟨rfl, by simp, fun u _ => ⟨rfl, getD_replicate_self _ _ _⟩, fun u hu => by cases hu⟩
  | append_singleton L v ih =>
    intro hnd hb hcl
    have hnd' : L.Nodup := (List.nodup_append.1 hnd).1
    have hvL : v ∉ L := fun hh => (List.nodup_append.1 hnd).2.2 hh (List.mem_singleton_self v)
    obtain ⟨h1, h2, h3, h4⟩ := ih hnd' (fun w hw => hb w (List.mem_append_left _ hw))
      (fun l1 w l2 hsp t ht => hcl l1 w (l2 ++ [v]) (by rw [hsp]; simp) t ht)
    have hv : v < nodes.length := hb v (by simp)
    have hsucc : ∀ t ∈ nodes.getD v [], t.next ∈ L := hcl L v [] rfl
    rw [List.foldl_append]
    simp only [List.foldl_cons, List.foldl_nil]
    generalize L.foldl (fun s it => incNode it s) (nodes, List.replicate nodes.length 0) = r
      at h1 h2 h3 h4 ⊢
    obtain ⟨nd, np⟩ := r
    simp only at h1 h2 h3 h4
    have hndv : nd.getD v [] = nodes.getD v [] := (h3 v hvL).1
    obtain ⟨a1, a2, a3, a4⟩ := incNode_spec v nd np (by omega) (by omega) (by
      intro t ht hh
      rw [hndv] at ht
      exact hvL (hh ▸ hsucc t ht))
    refine ⟨by rw [a1, h1], by rw [a2, h2], fun u hu => ?_, fun u hu => ?_⟩
    · have hu1 : u ∉ L := fun hh => hu (List.mem_append_left _ hh)
      have hu2 : u ≠ v := fun hh => hu (by rw [hh]; simp)
      rw [(a3 u hu2).1, (a3 u hu2).2]
      exact h3 u hu1
    · rcases List.mem_append.1 hu with hu | hu
      · have hu2 : u ≠ v := fun hh => hvL (hh ▸ hu)
        have := h4 u hu
        rw [(a3 u hu2).1, (a3 u hu2).2]
        split
        · rename_i he; rw [if_pos he] at this; exact this
        · rename_i he
          rw [if_neg he] at this
          rw [this]
          apply stamp_congr
          intro t ht
          obtain ⟨l1, l2, hsp⟩ := List.append_of_mem hu
          have htl : t.next ∈ l1 := hcl l1 u (l2 ++ [v]) (by rw [hsp]; simp) t ht
          have : t.next ≠ v := fun hh => hvL (by rw [hsp, ← hh]; exact List.mem_append_left _ htl)
          exact ((a3 t.next this).2).symm
      · simp at hu
        subst hu
        rw [hndv] at a4
        exact a4

end BallLarus

namespace BallLarus

theorem incEdges_shape (it : Nat) (es : List To) (np : List Nat) :
    (incEdges it es np).1.map (fun t => (t.next, t.be)) = es.map (fun t => (t.next, t.be)) := by
  induction es generalizing np with
  | nil => rfl
  | cons t rest ih =>
    simp only [incEdges, List.map_cons]
    rw [ih]

theorem incNode_shape (it : Nat) (s : List (List To) × List Nat) (u : Nat) :
    (incNode it s).1.length = s.1.length ∧
    ((incNode it s).1.getD u []).map (fun t => (t.next, t.be)) =
      (s.1.getD u []).map (fun t => (t.next, t.be)) := by
  unfold incNode
  split
  · exact ⟨rfl, rfl⟩
  · simp only
    refine ⟨by simp, ?_⟩
    by_cases hu : it = u
    · subst hu
      by_cases hl : it < s.1.length
      · rw [getD_set_self hl, incEdges_shape]
      · rw [getD_set_ge (by omega)]
    · rw [getD_set_other hu]

theorem foldl_incNode_shape (L : List Nat) (u : Nat) :
    ∀ s : List (List To) × List Nat,
      (L.foldl (fun s it => incNode it s) s).1.length = s.1.length ∧
      ((L.foldl (fun s it => incNode it s) s).1.getD u []).map (fun t => (t.next, t.be)) =
        (s.1.getD u []).map (fun t => (t.next, t.be)) := by
  induction L with
  | nil => intro s; exact ⟨rfl, rfl⟩
  | cons a L ih =>
    intro s
    rw [List.foldl_cons]
    obtain ⟨h1, h2⟩ := ih (incNode a s)
    obtain ⟨h3, h4⟩ := incNode_shape a s u
    exact ⟨h1.trans h3, h2.trans h4⟩

/-- The sweep of `gen_incs` changes only the `inc` fields. -/
theorem incSweep_shape (sorted : List Nat) (nodes : List (List To)) (u : Nat) :
    (incSweep sorted nodes).1.length = nodes.length ∧
    ((incSweep sorted nodes).1.getD u []).map (fun t => (t.next, t.be)) =
      (nodes.getD u []).map (fun t => (t.next, t.be)) :=
  foldl_incNode_shape sorted.reverse u (nodes, List.replicate nodes.length 0)

end BallLarus

namespace BallLarus

/-! ## The constructor -/

/-- The constructor returns a graph for every well-formed CFG that has a block
without successors and a block without predecessors. -/
theorem build_exists (cfg : CFG) (hwf : cfg.WF)
    (hexit : ∃ i, i < cfg.length ∧ cfg.getD i [] = [])
    (hentry : ∃ i, i < cfg.length ∧ ∀ u, ¬ cfg.Succ u i) :
    ∃ e x st sorted, Build cfg e x st sorted := by
  obtain ⟨i, hi, his⟩ := hexit
  obtain ⟨j, hj, hjs⟩ := hentry
  have hlen := length_initNodes cfg
  obtain ⟨x, hx1, hx2, hx3, hx4⟩ := findExit_spec (initNodes cfg) i (by rw [hlen]; exact hi)
    ((initNodes_nil_iff cfg i).2 his)
  have hdj : (countInDegree (initNodes cfg)).getD j 0 = 0 := by
    rw [getD_countInDegree _ _ (by rw [hlen]; exact hj)]
    have := (indeg_pos_iff (initNodes cfg) j).not.2 (by
      rintro ⟨u, hu⟩
      exact hjs u ((edge_initNodes cfg u j).1 hu))
    omega
  obtain ⟨e, he1, he2, he3⟩ := findEntry_spec (countInDegree (initNodes cfg)) j
    (by rw [length_countInDegree, hlen]; exact hj) hdj
  rw [length_countInDegree] at he2
  have hnoin : ∀ u, ¬ Edge (initNodes cfg) u e := by
    intro u hu
    rw [getD_countInDegree _ _ he2] at he3
    have := (indeg_pos_iff (initNodes cfg) e).2 ⟨u, hu⟩
    omega
  have hnwf := initNodes_wf cfg hwf
  obtain ⟨st, hst, hfin⟩ := dfs_top hnwf he2 hnoin
  have hinit : Graph.init cfg = some (Graph.mk (initNodes cfg) [] e x 0) := by
    rw [Graph.init, hx1, he1]
  have hdag : Graph.dag cfg = some (dagGraph cfg e x st) := by
    rw [Graph.dag, hinit]
    simp only [detect_replace_backedges]
    have : dfsInit (Graph.mk (initNodes cfg) [] e x 0) = dfsStart (initNodes cfg).length := rfl
    rw [this, hst]
    rfl
  have hdlen : (dagGraph cfg e x st).nodes.length = (initNodes cfg).length :=
    length_dagNodes _ _ _ _
  obtain ⟨sorted, hs1, hs2, hs3, hs4, hs5, _⟩ := topological_sort_spec (dagGraph cfg e x st)
    (dag_wf hnwf he2 hx2 hfin) (by rw [hdlen]; exact he2) (dag_noin he2 hx3 hnoin hfin)
  refine ⟨e, x, st, sorted, ⟨by omega, by omega, fun u hu => hnoin u ((edge_initNodes _ _ _).2 hu),
    (initNodes_nil_iff cfg x).1 hx3, ?_, hinit, hfin, hdag, hs1, ?_, hs2, ?_, hs4, hs5⟩⟩
  · intro k hk1 hk2 hk3
    exact hx4 k hk1 (by omega) ((initNodes_nil_iff cfg k).2 hk3)
  · rw [Graph.ofCFG, hdag]
    simp only [hs1]
  · intro u hu
    have := hs3 u hu
    rw [hdlen, hlen] at this
    exact this

end BallLarus

namespace BallLarus

/-! ## CFGs in which every block is reachable and the exit is unique -/

theorem build_rooted (cfg : CFG) (hwf : cfg.WF) (e : Nat) (hr : cfg.Rooted e)
    (hexit : ∃ i, i < cfg.length ∧ cfg.getD i [] = []) :
    ∃ x st sorted, Build cfg e x st sorted := by
  obtain ⟨e', x, st, sorted, hB⟩ := build_exists cfg hwf hexit ⟨e, hr.1, hr.2.1⟩
  have he : e' = e := by
    rcases Relation.ReflTransGen.cases_tail (hr.2.2 e' hB.he) with h | ⟨b, _, hb⟩
    · exact h
    · exact absurd hb (hB.noin b)
  subst he
  exact ⟨x, st, sorted, hB⟩

theorem build_single {cfg : CFG} {e x x' : Nat} {st : DfsState} {sorted : List Nat}
    (hB : Build cfg e x' st sorted) (hs : cfg.SingleExit x) : x' = x :=
  (hs.2 x' hB.hx).1 hB.sink

theorem rooted_black {cfg : CFG} {e x : Nat} {st : DfsState} {sorted : List Nat}
    (hB : Build cfg e x st sorted) (hr : cfg.Rooted e) (v : Nat) (hv : v < cfg.length) :
    st.col v = 2 := by
  apply dfs_reach_black hB.final
  exact Relation.ReflTransGen.mono (fun a b hab => (edge_initNodes cfg a b).2 hab) (hr.2.2 v hv)

theorem build_facts {cfg : CFG} {e x : Nat} {st : DfsState} {sorted : List Nat}
    (hB : Build cfg e x st sorted) :
    e < (initNodes cfg).length ∧ x < (initNodes cfg).length ∧
      (initNodes cfg).getD x [] = [] ∧ ∀ u, ¬ Edge (initNodes cfg) u e :=
  ⟨by rw [length_initNodes]; exact hB.he, by rw [length_initNodes]; exact hB.hx,
    (initNodes_nil_iff cfg x).2 hB.sink, fun u hu => hB.noin u ((edge_initNodes _ _ _).1 hu)⟩

theorem edge_lt {nodes : List (List To)} {u v : Nat} (h : Edge nodes u v) : u < nodes.length := by
  by_contra hge
  obtain ⟨t, ht, _⟩ := h
  rw [getD_ge (by omega)] at ht
  cases ht

/-- In a rooted CFG the rank decreases along every edge after replacement. -/
theorem rooted_rank {cfg : CFG} {e x : Nat} {st : DfsState} {sorted : List Nat}
    (hB : Build cfg e x st sorted) (hr : cfg.Rooted e) :
    ∃ R : Nat → Nat, ∀ u v, Edge (dagNodes (initNodes cfg) e x st) u v → R v < R u := by
  obtain ⟨h1, h2, h3, h4⟩ := build_facts hB
  obtain ⟨R, hR⟩ := dag_rank (x := x) h1 h3 h4 hB.final
  refine ⟨R, fun u v huv => (hR u v (Or.inl ?_) huv).2⟩
  have := edge_lt huv
  rw [length_dagNodes, length_initNodes] at this
  exact rooted_black hB hr u this

/-- In a rooted CFG every block but the entry has an edge into it after
replacement. -/
theorem rooted_pred {cfg : CFG} {e x : Nat} {st : DfsState} {sorted : List Nat}
    (hB : Build cfg e x st sorted) (hr : cfg.Rooted e) (v : Nat) (hv : v < cfg.length)
    (hve : v ≠ e) : ∃ u, Edge (dagNodes (initNodes cfg) e x st) u v := by
  obtain ⟨h1, h2, h3, h4⟩ := build_facts hB
  rcases Relation.ReflTransGen.cases_tail (hr.2.2 v hv) with h | ⟨b, _, hb⟩
  · exact absurd h hve
  · obtain ⟨t, ht, htv⟩ := (edge_initNodes cfg b v).2 hb
    by_cases hm : t.next ∈ st.er b
    · obtain ⟨r, hr1, _, hr3⟩ := hB.final.ers b _ hm
      exact ⟨e, (edge_dagNodes h1 hB.final e v).2 (Or.inr (Or.inr ⟨r, hr1, rfl, by rw [hr3, htv]⟩))⟩
    · exact ⟨b, (edge_dagNodes h1 hB.final b v).2 (Or.inl ⟨t, ht, hm, htv⟩)⟩

/-- In a rooted CFG the result of `topological_sort` contains every block. -/
theorem rooted_complete {cfg : CFG} (hwf : cfg.WF) {e x : Nat} {st : DfsState}
    {sorted : List Nat} (hB : Build cfg e x st sorted) (hr : cfg.Rooted e) (v : Nat)
    (hv : v < cfg.length) : v ∈ sorted := by
  obtain ⟨h1, h2, h3, h4⟩ := build_facts hB
  have hdlen : (dagGraph cfg e x st).nodes.length = cfg.length := by
    rw [dagGraph, length_dagNodes, length_initNodes]
  obtain ⟨sorted', hs1, _, _, _, _, hs6⟩ := topological_sort_spec (dagGraph cfg e x st)
    (dag_wf (initNodes_wf cfg hwf) h1 h2 hB.final) (by rw [hdlen]; exact hB.he)
    (dag_noin h1 h3 h4 hB.final)
  rw [hB.topoEq] at hs1
  simp only [Option.some.injEq] at hs1
  subst hs1
  exact hs6 (rooted_rank hB hr) (fun w hw hwe => rooted_pred hB hr w (by rw [← hdlen]; exact hw) hwe)
    v (by rw [hdlen]; exact hv)

end BallLarus

namespace BallLarus

theorem stamp_idem (c : Nat → Nat) (acc : Nat) (es : List To) :
    stamp c acc (stamp c acc es).1 = stamp c acc es := by
  induction es generalizing acc with
  | nil => rfl
  | cons t rest ih =>
    simp only [stamp]
    rw [ih]

theorem stamp_shape (c : Nat → Nat) (acc : Nat) (es : List To) :
    (stamp c acc es).1.map (fun t => (t.next, t.be)) = es.map (fun t => (t.next, t.be)) := by
  induction es generalizing acc with
  | nil => rfl
  | cons t rest ih =>
    simp only [stamp, List.map_cons]
    rw [ih]

theorem indexOf_split {l1 l2 : List Nat} {u v : Nat} (hn : (l1 ++ v :: l2).Nodup) (hu : u ∈ l1) :
    (l1 ++ v :: l2).indexOf u < (l1 ++ v :: l2).indexOf v ∧
      (l1 ++ v :: l2).indexOf v < (l1 ++ v :: l2).length := by
  have hv : v ∉ l1 := fun hh => (List.nodup_append.1 hn).2.2 hh (List.mem_cons_self _ _)
  rw [List.indexOf_append_of_mem hu, List.indexOf_append_of_not_mem hv, List.indexOf_cons_self]
  have := List.indexOf_lt_length.2 hu
  simp
  omega

/-- The shape of the edge lists (targets and back-edge references) is not
changed by the sweep of `gen_incs`. -/
theorem sweep_shape {nodes : List (List To)} {L : List Nat} (hnd : L.Nodup)
    (hb : ∀ v ∈ L, v < nodes.length)
    (hcl : ∀ l1 v l2, L = l1 ++ v :: l2 → ∀ t ∈ nodes.getD v [], t.next ∈ l1) (u : Nat) :
    ((L.foldl (fun s it => incNode it s)
        (nodes, List.replicate nodes.length 0)).1.getD u []).map (fun t => (t.next, t.be)) =
      (nodes.getD u []).map (fun t => (t.next, t.be)) := by
  obtain ⟨h1, h2, h3, h4⟩ := sweep_inv nodes L hnd hb hcl
  by_cases hu : u ∈ L
  · have := h4 u hu
    split at this
    · rename_i he; rw [this.1, he]
    · have h5 := congrArg Prod.fst this
      simp only at h5
      rw [h5, stamp_shape]
  · rw [(h3 u hu).1]

theorem edge_of_shape {nodes nodes' : List (List To)}
    (h : ∀ u, (nodes'.getD u []).map (fun t => (t.next, t.be)) =
      (nodes.getD u []).map (fun t => (t.next, t.be))) (u v : Nat) :
    Edge nodes' u v ↔ Edge nodes u v := by
  have key : ∀ (a b : List To), a.map (fun t => (t.next, t.be)) = b.map (fun t => (t.next, t.be)) →
      (∃ t ∈ a, t.next = v) → ∃ t ∈ b, t.next = v := by
    intro a b hab ⟨t, ht, htv⟩
    have : (t.next, t.be) ∈ b.map (fun t => (t.next, t.be)) := by
      rw [← hab]; exact List.mem_map.2 ⟨t, ht, rfl⟩
    obtain ⟨t', ht', hh⟩ := List.mem_map.1 this
    exact ⟨t', ht', by rw [← htv]; exact congrArg Prod.fst hh⟩
  exact ⟨key _ _ (h u), key _ _ (h u).symm⟩

theorem nil_of_shape {a b : List To}
    (h : a.map (fun t => (t.next, t.be)) = b.map (fun t => (t.next, t.be))) :
    a = [] ↔ b = [] := by
  have := congrArg List.length h
  simp only [List.length_map] at this
  rw [← List.length_eq_zero, ← List.length_eq_zero (l := b), this]

/-- The processing order of `gen_incs`: every node comes after its successors. -/
theorem rooted_closure {cfg : CFG} (hwf : cfg.WF) {e x : Nat} {st : DfsState}
    {sorted : List Nat} (hB : Build cfg e x st sorted) (hr : cfg.Rooted e) :
    ∀ l1 v l2, sorted.reverse = l1 ++ v :: l2 →
      ∀ t ∈ (dagNodes (initNodes cfg) e x st).getD v [], t.next ∈ l1 := by
  intro m1 v m2 hsp t ht
  obtain ⟨h1, h2, h3, h4⟩ := build_facts hB
  have hs : sorted = m2.reverse ++ v :: m1.reverse := by
    have := congrArg List.reverse hsp
    simpa using this
  have hw : t.next < cfg.length := by
    have := dag_wf (initNodes_wf cfg hwf) h1 h2 hB.final v t ht
    rw [length_dagNodes, length_initNodes] at this
    exact this
  have hmem := rooted_complete hwf hB hr t.next hw
  have hnd := hB.nodup
  rw [hs] at hmem hnd
  have hv2 : v ∉ m2.reverse :=
    fun hh => (List.nodup_append.1 hnd).2.2 hh (List.mem_cons_self _ _)
  rcases List.mem_append.1 hmem with hm | hm
  · obtain ⟨p, q, hpq⟩ := List.append_of_mem hm
    have := hB.order p t.next (q ++ v :: m1.reverse) (by rw [hs, hpq]; simp) v ⟨t, ht, rfl⟩
    exact absurd (by rw [hpq]; exact List.mem_append_left _ this) hv2
  · rcases List.mem_cons.1 hm with hm | hm
    · have := hB.order m2.reverse t.next m1.reverse (by rw [hs, hm]) v ⟨t, ht, rfl⟩
      exact absurd this hv2
    · exact List.mem_reverse.1 hm

end BallLarus

namespace BallLarus

theorem gen_incs_nodes (g : Graph) (sorted : List Nat) :
    (gen_incs g sorted).nodes = (incSweep sorted g.nodes).1 := rfl

/-- For a rooted CFG the constructor yields a numbered DAG. -/
theorem rooted_numbered {cfg : CFG} (hwf : cfg.WF) {e x : Nat} {st : DfsState}
    {sorted : List Nat} (hB : Build cfg e x st sorted) (hr : cfg.Rooted e) :
    Numbered (gen_incs (dagGraph cfg e x st) sorted).nodes (pathCounts cfg e x st sorted) ∧
      (gen_incs (dagGraph cfg e x st) sorted).nodes.length = cfg.length ∧
      (gen_incs (dagGraph cfg e x st) sorted).numPath = pathCounts cfg e x st sorted e := by
  obtain ⟨h1, h2, h3, h4⟩ := build_facts hB
  have hlen : (dagNodes (initNodes cfg) e x st).length = cfg.length := by
    rw [length_dagNodes, length_initNodes]
  have hnd : sorted.reverse.Nodup := List.nodup_reverse.2 hB.nodup
  have hb : ∀ v ∈ sorted.reverse, v < (dagNodes (initNodes cfg) e x st).length := by
    intro v hv; rw [hlen]; exact hB.bound v (List.mem_reverse.1 hv)
  have hcl := rooted_closure hwf hB hr
  obtain ⟨s1, s2, s3, s4⟩ := sweep_inv _ _ hnd hb hcl
  have hshape := sweep_shape hnd hb hcl
  have hdwf := dag_wf (initNodes_wf cfg hwf) h1 h2 hB.final
  have hall : ∀ u, u < cfg.length → u ∈ sorted.reverse :=
    fun u hu => List.mem_reverse.2 (rooted_complete hwf hB hr u hu)
  rw [gen_incs_nodes]
  change Numbered (incSweep sorted (dagNodes (initNodes cfg) e x st)).1 _ ∧
    (incSweep sorted (dagNodes (initNodes cfg) e x st)).1.length = cfg.length ∧ _
  unfold pathCounts incSweep
  simp only [dagGraph]
  refine ⟨⟨?_, ?_, ?_, ?_⟩, by rw [s1, hlen], rfl⟩
  · intro u t ht
    rw [s1]
    obtain ⟨t', ht', hh⟩ := (edge_of_shape hshape u t.next).1 ⟨t, ht, rfl⟩
    rw [← hh]
    exact hdwf u t' ht'
  · refine ⟨fun u => cfg.length - 1 - sorted.indexOf u, fun u v huv => ?_, fun u => ?_⟩
    · have huv' := (edge_of_shape hshape u v).1 huv
      obtain ⟨t, ht, htv⟩ := huv'
      have hv : v < cfg.length := by
        have := hdwf u t ht; rw [htv, hlen] at this; exact this
      obtain ⟨a, b, hab⟩ := List.append_of_mem (rooted_complete hwf hB hr v hv)
      have hua := hB.order a v b hab u ⟨t, ht, htv⟩
      have hlen2 : sorted.length ≤ cfg.length := by
        have hsub : List.Subperm sorted (List.range cfg.length) :=
          List.subperm_of_subset hB.nodup (fun u hu => List.mem_range.2 (hB.bound u hu))
        simpa using hsub.length_le
      have := indexOf_split (hab ▸ hB.nodup) hua
      rw [← hab] at this
      beta_reduce
      omega
    · rw [s1, hlen]
      have := hB.he
      beta_reduce
      omega
  · intro u hu hnil
    rw [s1, hlen] at hu
    have := s4 u (hall u hu)
    rw [if_pos ((nil_of_shape (hshape u)).1 hnil)] at this
    exact this.2
  · intro u hu hne
    rw [s1, hlen] at hu
    have := s4 u (hall u hu)
    rw [if_neg (fun hh => hne ((nil_of_shape (hshape u)).2 hh))] at this
    have h5 := congrArg Prod.fst this
    simp only at h5
    rw [h5, stamp_idem, ← this]

end BallLarus

namespace BallLarus

/-! ## Path sums of a numbered DAG -/

/-- An edge list that carries its own increments, without overflow: the
intervals `[inc, inc + c next)` of its edges tile `[acc, acc + Σ c next)`. -/
theorem stamp_fix_range (c : Nat → Nat) (es : List To) :
    ∀ acc total, stamp c acc es = (es, total) →
      acc + (es.map (fun t => c t.next)).sum < W64 →
      total = acc + (es.map (fun t => c t.next)).sum ∧
        es.flatMap (fun t => (List.range (c t.next)).map (fun s => t.inc + s)) =
          (List.range (es.map (fun t => c t.next)).sum).map (fun s => acc + s) := by
  induction es with
  | nil =>
    intro acc total h _
    simp only [stamp, Prod.mk.injEq, true_and] at h
    simp [h]
  | cons t rest ih =>
    intro acc total h hlt
    simp only [stamp, Prod.mk.injEq, List.cons.injEq] at h
    obtain ⟨⟨h1, h2⟩, h3⟩ := h
    simp only [List.map_cons, List.sum_cons] at hlt ⊢
    have hinc : t.inc = acc := by
      have := congrArg To.inc h1
      simpa using this.symm
    rw [Nat.mod_eq_of_lt (by omega)] at h2 h3
    obtain ⟨i1, i2⟩ := ih (acc + c t.next) total (Prod.ext h2 h3) (by omega)
    refine ⟨by omega, ?_⟩
    rw [List.flatMap_cons, i2, List.range_add, List.map_append, List.map_map, hinc]
    congr 1
    apply List.map_congr_left
    intro s _
    simp only [Function.comp]
    omega

theorem length_flatMap_le {α β : Type} (l : List α) (f : α → List β) (a : α) (ha : a ∈ l) :
    (f a).length ≤ (l.flatMap f).length := by
  induction l with
  | nil => cases ha
  | cons b l ih =>
    rw [List.flatMap_cons, List.length_append]
    rcases List.mem_cons.1 ha with rfl | ha
    · omega
    · have := ih ha; omega

theorem flatMap_range_getD {α β : Type} (l : List α) (d : α) (f : α → List β) :
    (List.range l.length).flatMap (fun i => f (l.getD i d)) = l.flatMap f := by
  rw [List.flatMap_def, List.flatMap_def, map_range_getD l d f]

theorem isEmpty_eq_false {α : Type} {l : List α} (h : l ≠ []) : l.isEmpty = false := by
  cases l with
  | nil => exact absurd rfl h
  | cons a l => rfl

/-- The sums along the enumerated maximal paths from `u`, in the order of
enumeration, are `0, 1, ..., c u - 1`. -/
theorem paths_sums {nodes : List (List To)} {c : Nat → Nat}
    (hN : Numbered nodes c) (R : Nat → Nat) (hR : ∀ u v, Edge nodes u v → R v < R u)
    (f : Nat) : ∀ u, u < nodes.length → R u ≤ f →
      (maxPaths nodes f u).length < W64 →
      (maxPaths nodes f u).map (sumAlong nodes u) = List.range (c u) := by
  induction f with
  | zero =>
    intro u hu hRu _
    by_cases hux : nodes.getD u [] = []
    · rw [maxPaths, hux, hN.leaf u hu hux]
      rfl
    · obtain ⟨t, ht⟩ := List.exists_mem_of_ne_nil _ hux
      have := hR u t.next ⟨t, ht, rfl⟩
      omega
  | succ f ih =>
    intro u hu hRu hlen
    by_cases hux : nodes.getD u [] = []
    · rw [maxPaths, hux, hN.leaf u hu hux]
      rfl
    · have hne := hux
      have hst := hN.stamped u hu hne
      rw [maxPaths, isEmpty_eq_false hne] at hlen ⊢
      simp only [Bool.false_eq_true, if_false] at hlen ⊢
      rw [List.map_flatMap]
      have hconv : ∀ i, ((maxPaths nodes f
            ((nodes.getD u []).getD i (To.mk 0 0 none)).next).map (fun cs => i :: cs)).map
            (sumAlong nodes u) =
          (fun t : To => ((maxPaths nodes f t.next).map (sumAlong nodes t.next)).map
            (fun s => t.inc + s)) ((nodes.getD u []).getD i (To.mk 0 0 none)) := by
        intro i
        simp only [List.map_map]
        apply List.map_congr_left
        intro cs _
        simp [sumAlong]
      have hstep := flatMap_range_getD (nodes.getD u []) (To.mk 0 0 none)
        (fun t : To => ((maxPaths nodes f t.next).map (sumAlong nodes t.next)).map
            (fun s => t.inc + s))
      rw [List.flatMap_congr (fun i _ => hconv i), hstep]
      have hedge : ∀ t ∈ nodes.getD u [], (maxPaths nodes f t.next).map
          (sumAlong nodes t.next) = List.range (c t.next) := by
        intro t ht
        have h1 : t.next < nodes.length := hN.wf u t ht
        have h2 := hR u t.next ⟨t, ht, rfl⟩
        apply ih t.next h1 (by omega)
        obtain ⟨i, hi⟩ := List.getElem?_of_mem ht
        have hil : i < (nodes.getD u []).length := by
          by_contra hge
          rw [List.getElem?_eq_none (by omega)] at hi
          cases hi
        have hget : (nodes.getD u []).getD i (To.mk 0 0 none) = t := by
          rw [List.getD_eq_getElem?_getD, hi]; rfl
        have := length_flatMap_le (List.range (nodes.getD u []).length)
          (fun i => (maxPaths nodes f
            ((nodes.getD u []).getD i (To.mk 0 0 none)).next).map (fun cs => i :: cs)) i
          (List.mem_range.2 hil)
        simp only [List.length_map, hget] at this
        omega
      rw [List.flatMap_congr (fun t ht => by rw [hedge t ht])]
      have hsum : (List.map (fun t => c t.next) (nodes.getD u [])).sum =
          ((List.range (nodes.getD u []).length).flatMap (fun i => (maxPaths nodes f
            ((nodes.getD u []).getD i (To.mk 0 0 none)).next).map (fun cs => i :: cs))).length := by
        rw [List.length_flatMap]
        have hm : List.map (List.length ∘ fun i => (maxPaths nodes f
            ((nodes.getD u []).getD i (To.mk 0 0 none)).next).map (fun cs => i :: cs))
            (List.range (nodes.getD u []).length) =
            (nodes.getD u []).map (fun t => (maxPaths nodes f t.next).length) := by
          rw [← map_range_getD (nodes.getD u []) (To.mk 0 0 none)
            (fun t => (maxPaths nodes f t.next).length)]
          apply List.map_congr_left
          intro i _
          simp only [Function.comp, List.length_map]
        rw [hm]
        congr 1
        apply List.map_congr_left
        intro t ht
        have := congrArg List.length (hedge t ht)
        simpa using this.symm
      obtain ⟨h1, h2⟩ := stamp_fix_range c (nodes.getD u []) 0 (c u) hst (by omega)
      rw [h2, h1]
      simp

end BallLarus

namespace BallLarus

theorem walk_sum (nodes : List (List To)) (cs : List Nat) :
    ∀ u v s, walk nodes u cs = some (v, s) → s = sumAlong nodes u cs := by
  induction cs with
  | nil =>
    intro u v s h
    simp only [walk, Option.some.injEq, Prod.mk.injEq] at h
    rw [sumAlong, h.2]
  | cons i cs ih =>
    intro u v s h
    rw [walk] at h
    cases hi : (nodes.getD u [])[i]? with
    | none => rw [hi] at h; cases h
    | some t =>
      rw [hi] at h
      simp only at h
      cases hw : walk nodes t.next cs with
      | none => rw [hw] at h; cases h
      | some r =>
        rw [hw] at h
        simp only [Option.some.injEq, Prod.mk.injEq] at h
        have hget : (nodes.getD u []).getD i (To.mk 0 0 none) = t := by
          rw [List.getD_eq_getElem?_getD, hi]; rfl
        have := ih t.next r.1 r.2 hw
        rw [sumAlong, hget, ← this, h.2]

theorem getElem?_lt {α : Type} {l : List α} {i : Nat} {a : α} (h : l[i]? = some a) :
    i < l.length := by
  by_contra hge
  rw [List.getElem?_eq_none (by omega)] at h
  cases h

/-- A walk that ends at a node without edges is enumerated by `maxPaths`. -/
theorem walk_mem_maxPaths {nodes : List (List To)} (R : Nat → Nat)
    (hR : ∀ u v, Edge nodes u v → R v < R u) (f : Nat) :
    ∀ u cs v s, R u ≤ f → walk nodes u cs = some (v, s) → nodes.getD v [] = [] →
      cs ∈ maxPaths nodes f u := by
  induction f with
  | zero =>
    intro u cs v s hRu h hv
    cases cs with
    | nil =>
      simp only [walk, Option.some.injEq, Prod.mk.injEq] at h
      rw [maxPaths, h.1, hv]
      simp
    | cons i cs =>
      rw [walk] at h
      cases hi : (nodes.getD u [])[i]? with
      | none => rw [hi] at h; cases h
      | some t =>
        have := hR u t.next ⟨t, List.mem_iff_getElem?.2 ⟨i, hi⟩, rfl⟩
        omega
  | succ f ih =>
    intro u cs v s hRu h hv
    cases cs with
    | nil =>
      simp only [walk, Option.some.injEq, Prod.mk.injEq] at h
      rw [maxPaths, h.1, hv]
      simp
    | cons i cs =>
      rw [walk] at h
      cases hi : (nodes.getD u [])[i]? with
      | none => rw [hi] at h; cases h
      | some t =>
        rw [hi] at h
        simp only at h
        cases hw : walk nodes t.next cs with
        | none => rw [hw] at h; cases h
        | some r =>
          rw [hw] at h
          simp only [Option.some.injEq, Prod.mk.injEq] at h
          have hmem : t ∈ nodes.getD u [] := List.mem_iff_getElem?.2 ⟨i, hi⟩
          have hne : nodes.getD u [] ≠ [] := List.ne_nil_of_mem hmem
          have hget : (nodes.getD u []).getD i (To.mk 0 0 none) = t := by
            rw [List.getD_eq_getElem?_getD, hi]; rfl
          have hlt := hR u t.next ⟨t, hmem, rfl⟩
          rw [maxPaths, isEmpty_eq_false hne]
          simp only [Bool.false_eq_true, if_false, List.mem_flatMap, List.mem_range,
            List.mem_map]
          refine ⟨i, getElem?_lt hi, cs, ?_, rfl⟩
          rw [hget]
          exact ih t.next cs r.1 r.2 (by omega) (by rw [hw]) (by rw [h.1]; exact hv)

/-- Every path enumerated by `maxPaths` is a walk to a node without edges. -/
theorem maxPaths_walk (nodes : List (List To)) (f : Nat) :
    ∀ u cs, cs ∈ maxPaths nodes f u →
      ∃ v, walk nodes u cs = some (v, sumAlong nodes u cs) ∧ nodes.getD v [] = [] := by
  induction f with
  | zero =>
    intro u cs h
    rw [maxPaths] at h
    by_cases he : nodes.getD u [] = []
    · rw [he] at h
      simp at h
      subst h
      exact ⟨u, rfl, he⟩
    · rw [isEmpty_eq_false he] at h
      simp at h
  | succ f ih =>
    intro u cs h
    rw [maxPaths] at h
    by_cases he : nodes.getD u [] = []
    · rw [he] at h
      simp at h
      subst h
      exact ⟨u, rfl, he⟩
    · rw [isEmpty_eq_false he] at h
      simp only [Bool.false_eq_true, if_false, List.mem_flatMap, List.mem_range,
        List.mem_map] at h
      obtain ⟨i, hi, cs', hcs', rfl⟩ := h
      obtain ⟨v, hv1, hv2⟩ := ih _ cs' hcs'
      refine ⟨v, ?_, hv2⟩
      have hget : (nodes.getD u [])[i]? =
          some ((nodes.getD u []).getD i (To.mk 0 0 none)) := by
        rw [List.getD_eq_getElem _ _ hi, List.getElem?_eq_getElem hi]
      rw [walk, hget]
      simp only
      rw [hv1]
      rfl

/-- Beyond the rank of the node, more fuel does not change the enumeration. -/
theorem maxPaths_stable {nodes : List (List To)} (R : Nat → Nat)
    (hR : ∀ u v, Edge nodes u v → R v < R u) (f : Nat) :
    ∀ g u, R u ≤ f → R u ≤ g → maxPaths nodes f u = maxPaths nodes g u := by
  induction f with
  | zero =>
    intro g u hf _
    have he : nodes.getD u [] = [] := by
      by_contra hne
      obtain ⟨t, ht⟩ := List.exists_mem_of_ne_nil _ hne
      have := hR u t.next ⟨t, ht, rfl⟩
      omega
    cases g with
    | zero => rfl
    | succ g => rw [maxPaths, maxPaths, he]; rfl
  | succ f ih =>
    intro g u hf hg
    by_cases he : nodes.getD u [] = []
    · cases g with
      | zero => rw [maxPaths, maxPaths, he]; rfl
      | succ g => rw [maxPaths, maxPaths, he]; rfl
    · obtain ⟨t0, ht0⟩ := List.exists_mem_of_ne_nil _ he
      have h0 := hR u t0.next ⟨t0, ht0, rfl⟩
      cases g with
      | zero => omega
      | succ g =>
        rw [maxPaths, maxPaths, isEmpty_eq_false he]
        simp only [Bool.false_eq_true, if_false]
        apply List.flatMap_congr
        intro i hi
        have hil := List.mem_range.1 hi
        have hmem : (nodes.getD u []).getD i (To.mk 0 0 none) ∈ nodes.getD u [] :=
          getD_mem hil _
        have := hR u _ ⟨_, hmem, rfl⟩
        rw [ih g _ (by omega) (by omega)]

end BallLarus

namespace BallLarus

/-- With a single node without edges, the paths to that node are the maximal
paths. -/
theorem pathsToExit_eq_maxPaths {nodes : List (List To)} (hwf : NodesWF nodes) (x : Nat)
    (hsink : ∀ u, u < nodes.length → (nodes.getD u [] = [] ↔ u = x)) (f : Nat) :
    ∀ u, u < nodes.length → pathsToExit nodes x f u = maxPaths nodes f u := by
  induction f with
  | zero =>
    intro u hu
    rw [pathsToExit, maxPaths]
    by_cases hux : u = x
    · rw [if_pos hux, (hsink u hu).2 hux]; rfl
    · rw [if_neg hux, isEmpty_eq_false (fun hh => hux ((hsink u hu).1 hh))]; rfl
  | succ f ih =>
    intro u hu
    rw [pathsToExit, maxPaths]
    by_cases hux : u = x
    · rw [if_pos hux, (hsink u hu).2 hux]; rfl
    · rw [if_neg hux, isEmpty_eq_false (fun hh => hux ((hsink u hu).1 hh))]
      simp only [List.nil_append, Bool.false_eq_true, if_false]
      apply List.flatMap_congr
      intro i hi
      rw [ih _ (hwf u _ (getD_mem (List.mem_range.1 hi) _))]

/-- Main theorem of the numbering: in a numbered DAG without overflow at `u`,
the sums along the maximal paths from `u`, in the order of enumeration, are
`0, 1, ..., c u - 1`. -/
theorem numbered_sums {nodes : List (List To)} {c : Nat → Nat} (hN : Numbered nodes c)
    (u : Nat) (hu : u < nodes.length) (h64 : (maxPaths nodes nodes.length u).length < W64) :
    (maxPaths nodes nodes.length u).map (sumAlong nodes u) = List.range (c u) := by
  obtain ⟨R, hR1, hR2⟩ := hN.rank
  exact paths_sums hN R hR1 nodes.length u hu (Nat.le_of_lt (hR2 u)) h64

/-- The walks from `u` to a node without edges are the paths of `maxPaths`. -/
theorem numbered_mem {nodes : List (List To)} {c : Nat → Nat} (hN : Numbered nodes c)
    (u : Nat) (cs : List Nat) :
    cs ∈ maxPaths nodes nodes.length u ↔
      ∃ v s, walk nodes u cs = some (v, s) ∧ nodes.getD v [] = [] := by
  obtain ⟨R, hR1, hR2⟩ := hN.rank
  constructor
  · intro h
    obtain ⟨v, h1, h2⟩ := maxPaths_walk nodes _ u cs h
    exact ⟨v, _, h1, h2⟩
  · rintro ⟨v, s, h1, h2⟩
    exact walk_mem_maxPaths R hR1 _ u cs v s (Nat.le_of_lt (hR2 u)) h1 h2

/-- In a numbered DAG without overflow at `u`, the sum along a walk from `u` to
a node without edges is below `c u`, and two such walks with the same sum are
the same walk. -/
theorem numbered_inj {nodes : List (List To)} {c : Nat → Nat} (hN : Numbered nodes c)
    (u : Nat) (hu : u < nodes.length) (h64 : (maxPaths nodes nodes.length u).length < W64)
    (cs1 cs2 : List Nat) (v1 v2 s1 s2 : Nat)
    (h1 : walk nodes u cs1 = some (v1, s1)) (hv1 : nodes.getD v1 [] = [])
    (h2 : walk nodes u cs2 = some (v2, s2)) (hv2 : nodes.getD v2 [] = []) :
    s1 < c u ∧ (s1 = s2 → cs1 = cs2) := by
  have hs := numbered_sums hN u hu h64
  have m1 := (numbered_mem hN u cs1).2 ⟨v1, s1, h1, hv1⟩
  have m2 := (numbered_mem hN u cs2).2 ⟨v2, s2, h2, hv2⟩
  have e1 := walk_sum nodes cs1 u v1 s1 h1
  have e2 := walk_sum nodes cs2 u v2 s2 h2
  constructor
  · have : s1 ∈ (maxPaths nodes nodes.length u).map (sumAlong nodes u) :=
      List.mem_map.2 ⟨cs1, m1, e1.symm⟩
    rw [hs] at this
    exact List.mem_range.1 this
  · intro hss
    have hnd : ((maxPaths nodes nodes.length u).map (sumAlong nodes u)).Nodup := by
      rw [hs]; exact List.nodup_range _
    exact List.inj_on_of_nodup_map hnd m1 m2 (by rw [← e1, ← e2, hss])

end BallLarus

namespace BallLarus

/-! ## Properties of the graph after back-edge replacement -/

theorem loopCfg_rooted : loopCfg.Rooted 0 := by
  refine ⟨by decide, ?_, ?_⟩
  · intro u h
    unfold CFG.Succ loopCfg at h
    rcases u with _ | _ | _ | _ | u <;> simp at h
  · intro v hv
    have e01 : loopCfg.Succ 0 1 := by decide
    have e12 : loopCfg.Succ 1 2 := by decide
    have e13 : loopCfg.Succ 1 3 := by decide
    have r1 : Relation.ReflTransGen loopCfg.Succ 0 1 := Relation.ReflTransGen.single e01
    rcases v with _ | _ | _ | _ | v
    · exact Relation.ReflTransGen.refl
    · exact r1
    · exact r1.tail e12
    · exact r1.tail e13
    · have : loopCfg.length = 4 := rfl
      omega

theorem loopCfg_exit : loopCfg.SingleExit 3 := by
  refine ⟨by decide, ?_⟩
  intro i hi
  rcases i with _ | _ | _ | _ | i
  · decide
  · decide
  · decide
  · decide
  · have : loopCfg.length = 4 := rfl
    omega

theorem transGen_rank {nodes : List (List To)} (S : Nat → Prop) (R : Nat → Nat)
    (h : ∀ u v, S u → Edge nodes u v → S v ∧ R v < R u) (u v : Nat) (hu : S u)
    (huv : Relation.TransGen (Edge nodes) u v) : S v ∧ R v < R u := by
  induction huv with
  | single hab => exact h _ _ hu hab
  | tail _ hbc ih =>
    obtain ⟨h1, h2⟩ := h _ _ ih.1 hbc
    exact ⟨h1, by omega⟩

/-- C5, as stated, fails: the unreachable self-loop of `deadLoopCfg` is still a
cycle after `detect_replace_backedges`. -/
theorem dag_cycle_counterexample :
    ∃ g, Graph.dag deadLoopCfg = some g ∧ Relation.TransGen (Edge g.nodes) 1 1 :=
  ⟨_, rfl, Relation.TransGen.single ⟨To.mk 1 0 none, by decide, rfl⟩⟩

/-- C5, amended: for a well-formed CFG with a block without successors and a
block without predecessors, `detect_replace_backedges` returns a graph in which
no node reachable from the entry in the CFG lies on a cycle; when every block is
reachable from the entry the graph has no cycle. -/
theorem dag_acyclic_reachable (cfg : CFG) (hwf : cfg.WF)
    (hexit : ∃ i, i < cfg.length ∧ cfg.getD i [] = [])
    (hentry : ∃ i, i < cfg.length ∧ ∀ u, ¬ cfg.Succ u i) :
    ∃ g, Graph.dag cfg = some g ∧
      (∀ v, Relation.ReflTransGen cfg.Succ g.entrybb v →
        ¬ Relation.TransGen (Edge g.nodes) v v) ∧
      ((∀ v, v < cfg.length → Relation.ReflTransGen cfg.Succ g.entrybb v) →
        ∀ v, ¬ Relation.TransGen (Edge g.nodes) v v) := by
  obtain ⟨e, x, st, sorted, hB⟩ := build_exists cfg hwf hexit hentry
  obtain ⟨h1, h2, h3, h4⟩ := build_facts hB
  obtain ⟨R, hR⟩ := dag_rank (x := x) h1 h3 h4 hB.final
  have key : ∀ v, Relation.ReflTransGen cfg.Succ e v →
      ¬ Relation.TransGen (Edge (dagNodes (initNodes cfg) e x st)) v v := by
    intro v hv hcyc
    have hb : st.col v = 2 := dfs_reach_black hB.final v
      (Relation.ReflTransGen.mono (fun a b hab => (edge_initNodes cfg a b).2 hab) hv)
    have := (transGen_rank (fun u => st.col u = 2 ∨ u = x) R hR v v (Or.inl hb) hcyc).2
    omega
  refine ⟨dagGraph cfg e x st, hB.dagEq, key, fun hall v hcyc => ?_⟩
  have hv : v < cfg.length := by
    obtain ⟨w, hw⟩ := Relation.TransGen.head'_iff.1 hcyc
    have := edge_lt hw.1
    change v < (dagNodes (initNodes cfg) e x st).length at this
    rw [length_dagNodes, length_initNodes] at this
    exact this
  exact key v (hall v hv) hcyc

theorem dag_acyclic_reachable_witness :
    ∃ g, Graph.dag loopCfg = some g ∧ ¬ Relation.TransGen (Edge g.nodes) 2 2 := by
  obtain ⟨g, hg, h1, h2⟩ := dag_acyclic_reachable loopCfg (by decide)
    ⟨3, by decide, by decide⟩ ⟨0, loopCfg_rooted.1, loopCfg_rooted.2.1⟩
  have he : g.entrybb = 0 := by
    have : Graph.dag loopCfg = some
        (Graph.mk [[To.mk 1 0 none, To.mk 1 0 (some 0)], [To.mk 2 0 none, To.mk 3 0 none],
          [To.mk 3 0 (some 0)], []] [BackEdge.mk 2 1 0 0] 0 3 0) := by decide
    rw [this] at hg
    simp only [Option.some.injEq] at hg
    rw [← hg]
  exact ⟨g, hg, h1 2 (by rw [he]; exact loopCfg_rooted.2.2 2 (by decide))⟩

end BallLarus

namespace BallLarus

/-- C10, as stated, fails: for `deadBlockCfg` the result of `topological_sort`
is `[0]`, which misses the unreachable block 1. -/
theorem topological_sort_counterexample :
    ∃ g sorted, Graph.dag deadBlockCfg = some g ∧ topological_sort g = some sorted ∧
      1 < g.nodes.length ∧ 1 ∉ sorted :=
  ⟨_, [0], rfl, rfl, by decide, by decide⟩

/-- C10, amended: for a well-formed CFG with a block without successors in
which every block is reachable from the entry, `topological_sort` returns a
sequence on the transformed graph that starts with the entry, is a permutation
of the node indices `0..N-1`, and has `u` before `v` for every edge `u -> v`. -/
theorem topological_sort_rooted (cfg : CFG) (e : Nat) (hwf : cfg.WF) (hr : cfg.Rooted e)
    (hexit : ∃ i, i < cfg.length ∧ cfg.getD i [] = []) :
    ∃ g sorted, Graph.dag cfg = some g ∧ g.entrybb = e ∧
      topological_sort g = some sorted ∧
      sorted.head? = some e ∧ List.Perm sorted (List.range g.nodes.length) ∧
      ∀ u v, Edge g.nodes u v → ∃ l1 l2 l3, sorted = l1 ++ u :: l2 ++ v :: l3 := by
  obtain ⟨x, st, sorted, hB⟩ := build_rooted cfg hwf e hr hexit
  have hlen : (dagGraph cfg e x st).nodes.length = cfg.length := by
    rw [dagGraph, length_dagNodes, length_initNodes]
  obtain ⟨h1, h2, h3, h4⟩ := build_facts hB
  refine ⟨dagGraph cfg e x st, sorted, hB.dagEq, rfl, hB.topoEq, ?_, ?_, ?_⟩
  · obtain ⟨tl, htl⟩ := hB.head
    rw [htl]; rfl
  · rw [hlen]
    apply (List.perm_ext_iff_of_nodup hB.nodup (List.nodup_range _)).2
    intro v
    rw [List.mem_range]
    exact ⟨hB.bound v, rooted_complete hwf hB hr v⟩
  · intro u v huv
    have hv : v < cfg.length := by
      obtain ⟨t, ht, htv⟩ := huv
      have := dag_wf (initNodes_wf cfg hwf) h1 h2 hB.final u t ht
      rw [length_dagNodes, length_initNodes, htv] at this
      exact this
    obtain ⟨a, b, hab⟩ := List.append_of_mem (rooted_complete hwf hB hr v hv)
    obtain ⟨l1, l2, hl⟩ := List.append_of_mem (hB.order a v b hab u huv)
    exact ⟨l1, l2, b, by rw [hab, hl]⟩

theorem topological_sort_rooted_witness :
    ∃ g sorted, Graph.dag loopCfg = some g ∧ g.entrybb = 0 ∧
      topological_sort g = some sorted ∧
      sorted.head? = some 0 ∧ List.Perm sorted (List.range g.nodes.length) ∧
      ∀ u v, Edge g.nodes u v → ∃ l1 l2 l3, sorted = l1 ++ u :: l2 ++ v :: l3 :=
  topological_sort_rooted loopCfg 0 (by decide) loopCfg_rooted ⟨3, by decide, by decide⟩

/-- C8: for a well-formed CFG with a block without successors and a block
without predecessors, `detect_replace_backedges` returns a graph in which, for
every record `k` of `backedges` with source `u` and target `v`, no edge of `u`
leads to `v`, the edge list of `u` holds an edge to the exit with increment 0
that refers to record `k`, and the edge list of the entry holds an edge to `v`
with increment 0 that refers to record `k`. -/
theorem backedge_replacement (cfg : CFG) (hwf : cfg.WF)
    (hexit : ∃ i, i < cfg.length ∧ cfg.getD i [] = [])
    (hentry : ∃ i, i < cfg.length ∧ ∀ u, ¬ cfg.Succ u i) :
    ∃ g, Graph.dag cfg = some g ∧
      ∀ k b, g.backedges[k]? = some b →
        cfg.Succ b.src b.dest ∧
        (∀ t ∈ g.nodes.getD b.src [], t.next ≠ b.dest) ∧
        To.mk g.exitbb 0 (some k) ∈ g.nodes.getD b.src [] ∧
        To.mk b.dest 0 (some k) ∈ g.nodes.getD g.entrybb [] := by
  obtain ⟨e, x, st, sorted, hB⟩ := build_exists cfg hwf hexit hentry
  obtain ⟨h1, h2, h3, h4⟩ := build_facts hB
  refine ⟨dagGraph cfg e x st, hB.dagEq, fun k b hk => ?_⟩
  have hb : b ∈ st.backedges := List.mem_iff_getElem?.2 ⟨k, hk⟩
  obtain ⟨r1, r2, r3, r4, r5, _, _, _⟩ := hB.final.recs b hb
  change cfg.Succ b.src b.dest ∧
    (∀ t ∈ (dagNodes (initNodes cfg) e x st).getD b.src [], t.next ≠ b.dest) ∧
    To.mk x 0 (some k) ∈ (dagNodes (initNodes cfg) e x st).getD b.src [] ∧
    To.mk b.dest 0 (some k) ∈ (dagNodes (initNodes cfg) e x st).getD e []
  refine ⟨(edge_initNodes cfg _ _).1 r1, ?_, ?_, ?_⟩
  · intro t ht htd
    rcases (edge_dagNodes h1 hB.final b.src t.next).1 ⟨t, ht, rfl⟩ with
      ⟨t', _, hn, hh⟩ | ⟨_, _, _, hh⟩ | ⟨_, _, hh, _⟩
    · rw [hh, htd] at hn; exact hn r2
    · rw [htd] at hh; rw [hh] at r3; exact r3 h3
    · exact r4 hh.symm
  · rw [getD_dagNodes h1 hB.final]
    exact List.mem_append_right _
      ((mem_synthAt _ _ _ _ _ _).2 ⟨k, b, hk, Or.inl ⟨rfl, by simp⟩⟩)
  · rw [getD_dagNodes h1 hB.final]
    exact List.mem_append_right _
      ((mem_synthAt _ _ _ _ _ _).2 ⟨k, b, hk, Or.inr ⟨rfl, by simp⟩⟩)

theorem backedge_replacement_witness :
    ∃ g, Graph.dag loopCfg = some g ∧ g.backedges[0]? = some (BackEdge.mk 2 1 0 0) ∧
      loopCfg.Succ 2 1 ∧
      (∀ t ∈ g.nodes.getD 2 [], t.next ≠ 1) ∧
      To.mk g.exitbb 0 (some 0) ∈ g.nodes.getD 2 [] ∧
      To.mk 1 0 (some 0) ∈ g.nodes.getD g.entrybb [] := by
  obtain ⟨g, hg, h⟩ := backedge_replacement loopCfg (by decide) ⟨3, by decide, by decide⟩
    ⟨0, loopCfg_rooted.1, loopCfg_rooted.2.1⟩
  have hb : g.backedges[0]? = some (BackEdge.mk 2 1 0 0) := by
    have : Graph.dag loopCfg = some
        (Graph.mk [[To.mk 1 0 none, To.mk 1 0 (some 0)], [To.mk 2 0 none, To.mk 3 0 none],
          [To.mk 3 0 (some 0)], []] [BackEdge.mk 2 1 0 0] 0 3 0) := by decide
    rw [this] at hg
    simp only [Option.some.injEq] at hg
    rw [← hg]
    rfl
  exact ⟨g, hg, hb, h 0 _ hb⟩

end BallLarus

namespace BallLarus

/-! ## Properties of the numbering -/

theorem finalGraph_sink {cfg : CFG} {e x : Nat} {st : DfsState} {sorted : List Nat}
    (hB : Build cfg e x st sorted) (u : Nat) :
    (finalGraph cfg e x st sorted).nodes.getD u [] = [] ↔ cfg.getD u [] = [] := by
  obtain ⟨h1, h2, h3, h4⟩ := build_facts hB
  change (incSweep sorted (dagNodes (initNodes cfg) e x st)).1.getD u [] = [] ↔ _
  rw [nil_of_shape (incSweep_shape sorted _ u).2, dag_sink h1 hB.final, initNodes_nil_iff]

/-- The graph returned for a rooted CFG. -/
theorem rooted_final (cfg : CFG) (e : Nat) (hwf : cfg.WF) (hr : cfg.Rooted e)
    (hexit : ∃ i, i < cfg.length ∧ cfg.getD i [] = []) :
    ∃ x st sorted, Build cfg e x st sorted ∧
      Graph.ofCFG cfg = some (finalGraph cfg e x st sorted) ∧
      (finalGraph cfg e x st sorted).entrybb = e ∧
      (finalGraph cfg e x st sorted).exitbb = x ∧
      (finalGraph cfg e x st sorted).nodes.length = cfg.length ∧
      Numbered (finalGraph cfg e x st sorted).nodes (pathCounts cfg e x st sorted) ∧
      (finalGraph cfg e x st sorted).numPath = pathCounts cfg e x st sorted e := by
  obtain ⟨x, st, sorted, hB⟩ := build_rooted cfg hwf e hr hexit
  obtain ⟨h1, h2, h3⟩ := rooted_numbered hwf hB hr
  exact ⟨x, st, sorted, hB, hB.ofEq, rfl, rfl, h2, h1, h3⟩

/-- C3, as stated, fails: for `deadBranchCfg` the only path from the entry to
the exit has sum 0 while `numPath` is 0. -/
theorem path_sum_range_counterexample :
    ∃ g, Graph.ofCFG deadBranchCfg = some g ∧
      walk g.nodes g.entrybb [0] = some (g.exitbb, 0) ∧ ¬ 0 < g.numPath :=
  ⟨_, rfl, rfl, by decide⟩

/-- C3, amended: for a well-formed CFG with a block without successors in which
every block is reachable from the entry, and whose transformed DAG has fewer
than `2 ^ 64` maximal paths from the entry, the sum of `inc` along every
entry-to-exit path is below `numPath`, and two entry-to-exit paths that differ
as sequences of edge positions have different sums. -/
theorem path_sums_injective (cfg : CFG) (e : Nat) (hwf : cfg.WF) (hr : cfg.Rooted e)
    (hexit : ∃ i, i < cfg.length ∧ cfg.getD i [] = []) :
    ∃ g, Graph.ofCFG cfg = some g ∧ g.entrybb = e ∧
      ((maxPaths g.nodes g.nodes.length e).length < W64 →
        ∀ cs1 cs2 s1 s2, walk g.nodes e cs1 = some (g.exitbb, s1) →
          walk g.nodes e cs2 = some (g.exitbb, s2) →
          s1 < g.numPath ∧ (cs1 ≠ cs2 → s1 ≠ s2)) := by
  obtain ⟨x, st, sorted, hB, h1, h2, h3, h4, h5, h6⟩ := rooted_final cfg e hwf hr hexit
  refine ⟨_, h1, h2, fun h64 cs1 cs2 s1 s2 w1 w2 => ?_⟩
  have hx : (finalGraph cfg e x st sorted).nodes.getD x [] = [] :=
    (finalGraph_sink hB x).2 hB.sink
  rw [h3] at w1 w2
  obtain ⟨a, b⟩ := numbered_inj h5 e (by rw [h4]; exact hB.he) h64 cs1 cs2 x x s1 s2 w1 hx w2 hx
  rw [h6]
  exact ⟨a, fun hne hs => hne (b hs)⟩

theorem walk_sink {nodes : List (List To)} {u v s : Nat} {cs : List Nat}
    (hu : nodes.getD u [] = []) (h : walk nodes u cs = some (v, s)) :
    cs = [] ∧ v = u ∧ s = 0 := by
  cases cs with
  | nil =>
    simp only [walk, Option.some.injEq, Prod.mk.injEq] at h
    exact ⟨rfl, h.1.symm, h.2.symm⟩
  | cons i cs =>
    rw [walk, hu] at h
    simp at h

theorem walk_cons {nodes : List (List To)} {u v s i : Nat} {cs : List Nat}
    (h : walk nodes u (i :: cs) = some (v, s)) :
    ∃ t s', (nodes.getD u [])[i]? = some t ∧ walk nodes t.next cs = some (v, s') ∧
      s = t.inc + s' := by
  rw [walk] at h
  cases hi : (nodes.getD u [])[i]? with
  | none => rw [hi] at h; cases h
  | some t =>
    rw [hi] at h
    simp only at h
    cases hw : walk nodes t.next cs with
    | none => rw [hw] at h; cases h
    | some r =>
      rw [hw] at h
      simp only [Option.some.injEq, Prod.mk.injEq] at h
      exact ⟨t, r.2, rfl, by rw [← h.1, hw], h.2.symm⟩

/-- C2, as stated, fails: for `twoExitCfg` the value `numPath` is 2 but no path
from the entry to the exit has sum 0. -/
theorem path_sum_set_counterexample :
    ∃ g, Graph.ofCFG twoExitCfg = some g ∧ 0 < g.numPath ∧
      ¬ ∃ cs, walk g.nodes g.entrybb cs = some (g.exitbb, 0) := by
  refine ⟨Graph.mk [[To.mk 1 0 none, To.mk 2 1 none], [], []] [] 0 2 2, rfl, by decide, ?_⟩
  rintro ⟨cs, h⟩
  rcases cs with _ | ⟨i, cs⟩
  · revert h; decide
  · obtain ⟨t, s', h1, h2, h3⟩ := walk_cons h
    rcases i with _ | _ | i
    · simp only [List.getD_cons_zero, List.getElem?_cons_zero, Option.some.injEq] at h1
      subst h1
      have := (walk_sink (by rfl) h2).2.1
      revert this; decide
    · simp only [List.getD_cons_zero, List.getElem?_cons_succ, List.getElem?_cons_zero,
        Option.some.injEq] at h1
      subst h1
      simp only at h3
      omega
    · simp at h1

end BallLarus

namespace BallLarus

theorem loopCfg_graph : Graph.ofCFG loopCfg = some loopGraph := by decide

theorem eq_loopGraph {g : Graph} (h : Graph.ofCFG loopCfg = some g) : g = loopGraph := by
  rw [loopCfg_graph] at h
  simp only [Option.some.injEq] at h
  exact h.symm

theorem walk_lt {nodes : List (List To)} (hwf : NodesWF nodes) (cs : List Nat) :
    ∀ u v s, u < nodes.length → walk nodes u cs = some (v, s) → v < nodes.length := by
  induction cs with
  | nil =>
    intro u v s hu h
    simp only [walk, Option.some.injEq, Prod.mk.injEq] at h
    rw [← h.1]; exact hu
  | cons i cs ih =>
    intro u v s hu h
    obtain ⟨t, s', h1, h2, _⟩ := walk_cons h
    exact ih t.next v s' (hwf u t (List.mem_iff_getElem?.2 ⟨i, h1⟩)) h2

theorem path_sum_range_witness :
    ∃ g, Graph.ofCFG loopCfg = some g ∧ g.entrybb = 0 ∧
      (maxPaths g.nodes g.nodes.length 0).length < W64 ∧
      walk g.nodes 0 [0, 1] = some (g.exitbb, 1) ∧
      walk g.nodes 0 [1, 0, 0] = some (g.exitbb, 2) ∧
      1 < g.numPath ∧ ([0, 1] ≠ [1, 0, 0] → 1 ≠ 2) := by
  obtain ⟨g, hg, he, h⟩ := path_sums_injective loopCfg 0 (by decide) loopCfg_rooted
    ⟨3, by decide, by decide⟩
  have hgc := eq_loopGraph hg
  have h64 : (maxPaths g.nodes g.nodes.length 0).length < W64 := by rw [hgc]; decide
  have w1 : walk g.nodes 0 [0, 1] = some (g.exitbb, 1) := by rw [hgc]; decide
  have w2 : walk g.nodes 0 [1, 0, 0] = some (g.exitbb, 2) := by rw [hgc]; decide
  exact ⟨g, hg, he, h64, w1, w2, h h64 _ _ _ _ w1 w2⟩

/-- C2, amended: for a well-formed CFG in which every block is reachable from
the entry and the exit is the only block without successors, and whose
transformed DAG has fewer than `2 ^ 64` entry-to-exit paths, the sums of `inc`
over the entry-to-exit paths are exactly the numbers below `numPath`. -/
theorem path_sums_cover (cfg : CFG) (e x : Nat) (hwf : cfg.WF) (hr : cfg.Rooted e)
    (hs : cfg.SingleExit x) :
    ∃ g, Graph.ofCFG cfg = some g ∧ g.entrybb = e ∧ g.exitbb = x ∧
      ((pathsToExit g.nodes x g.nodes.length e).length < W64 →
        ∀ s, (∃ cs, walk g.nodes e cs = some (x, s)) ↔ s < g.numPath) := by
  obtain ⟨x', st, sorted, hB, h1, h2, h3, h4, h5, h6⟩ := rooted_final cfg e hwf hr
    ⟨x, hs.1, (hs.2 x hs.1).2 rfl⟩
  have hxx := build_single hB hs
  subst hxx
  have hsink : ∀ u, u < (finalGraph cfg e x' st sorted).nodes.length →
      ((finalGraph cfg e x' st sorted).nodes.getD u [] = [] ↔ u = x') := by
    intro u hu
    rw [finalGraph_sink hB u]
    exact hs.2 u (by rw [← h4]; exact hu)
  have heN : e < (finalGraph cfg e x' st sorted).nodes.length := by rw [h4]; exact hB.he
  refine ⟨_, h1, h2, h3, fun h64 s => ?_⟩
  rw [pathsToExit_eq_maxPaths h5.wf x' hsink _ e heN] at h64
  have hsum := numbered_sums h5 e heN h64
  rw [h6]
  constructor
  · rintro ⟨cs, hw⟩
    exact (numbered_inj h5 e heN h64 cs cs x' x' s s hw ((hsink x' (by rw [h4]; exact hs.1)).2 rfl)
      hw ((hsink x' (by rw [h4]; exact hs.1)).2 rfl)).1
  · intro hlt
    have : s ∈ ((maxPaths (finalGraph cfg e x' st sorted).nodes
        (finalGraph cfg e x' st sorted).nodes.length e).map
        (sumAlong (finalGraph cfg e x' st sorted).nodes e)) := by
      rw [hsum]; exact List.mem_range.2 hlt
    obtain ⟨cs, hcs, hcss⟩ := List.mem_map.1 this
    obtain ⟨v, hv1, hv2⟩ := maxPaths_walk _ _ e cs hcs
    have hvN := walk_lt h5.wf cs e v _ heN hv1
    rw [(hsink v hvN).1 hv2, hcss] at hv1
    exact ⟨cs, hv1⟩

theorem path_sums_cover_witness :
    ∃ g, Graph.ofCFG loopCfg = some g ∧ g.entrybb = 0 ∧ g.exitbb = 3 ∧
      (pathsToExit g.nodes 3 g.nodes.length 0).length < W64 ∧
      ∀ s, (∃ cs, walk g.nodes 0 cs = some (3, s)) ↔ s < g.numPath := by
  obtain ⟨g, hg, he, hx, h⟩ := path_sums_cover loopCfg 0 3 (by decide) loopCfg_rooted
    loopCfg_exit
  have hgc := eq_loopGraph hg
  have h64 : (pathsToExit g.nodes 3 g.nodes.length 0).length < W64 := by rw [hgc]; decide
  exact ⟨g, hg, he, hx, h64, h h64⟩

/-- C4, as stated, fails: for `twoExitCfg` the value `numPath` is 2 while the
enumeration finds the single path `[1]` from the entry to the exit. -/
theorem path_count_counterexample :
    ∃ g, Graph.ofCFG twoExitCfg = some g ∧ g.numPath = 2 ∧
      pathsToExit g.nodes g.exitbb g.nodes.length g.entrybb = [[1]] :=
  ⟨_, rfl, rfl, by decide⟩

/-- C4, amended: for a well-formed CFG in which every block is reachable from
the entry and the exit is the only block without successors, the enumeration
`pathsToExit` lists exactly the paths from the entry to the exit, and when there
are fewer than `2 ^ 64` of them it lists each once and `numPath` is their
number. -/
theorem path_count (cfg : CFG) (e x : Nat) (hwf : cfg.WF) (hr : cfg.Rooted e)
    (hs : cfg.SingleExit x) :
    ∃ g, Graph.ofCFG cfg = some g ∧ g.entrybb = e ∧ g.exitbb = x ∧
      (∀ cs, cs ∈ pathsToExit g.nodes x g.nodes.length e ↔
        ∃ s, walk g.nodes e cs = some (x, s)) ∧
      ((pathsToExit g.nodes x g.nodes.length e).length < W64 →
        (pathsToExit g.nodes x g.nodes.length e).Nodup ∧
          g.numPath = (pathsToExit g.nodes x g.nodes.length e).length) := by
  obtain ⟨x', st, sorted, hB, h1, h2, h3, h4, h5, h6⟩ := rooted_final cfg e hwf hr
    ⟨x, hs.1, (hs.2 x hs.1).2 rfl⟩
  have hxx := build_single hB hs
  subst hxx
  have hsink : ∀ u, u < (finalGraph cfg e x' st sorted).nodes.length →
      ((finalGraph cfg e x' st sorted).nodes.getD u [] = [] ↔ u = x') := by
    intro u hu
    rw [finalGraph_sink hB u]
    exact hs.2 u (by rw [← h4]; exact hu)
  have heN : e < (finalGraph cfg e x' st sorted).nodes.length := by rw [h4]; exact hB.he
  have hxN : x' < (finalGraph cfg e x' st sorted).nodes.length := by rw [h4]; exact hs.1
  have hpm := pathsToExit_eq_maxPaths h5.wf x' hsink
    (finalGraph cfg e x' st sorted).nodes.length e heN
  refine ⟨_, h1, h2, h3, fun cs => ?_, fun h64 => ?_⟩
  · rw [hpm, numbered_mem h5 e cs]
    constructor
    · rintro ⟨v, s, hw, hv⟩
      rw [(hsink v (walk_lt h5.wf cs e v s heN hw)).1 hv] at hw
      exact ⟨s, hw⟩
    · rintro ⟨s, hw⟩
      exact ⟨x', s, hw, (hsink x' hxN).2 rfl⟩
  · rw [hpm] at h64 ⊢
    have hsum := numbered_sums h5 e heN h64
    constructor
    · apply List.Nodup.of_map (sumAlong (finalGraph cfg e x' st sorted).nodes e)
      rw [hsum]; exact List.nodup_range _
    · have := congrArg List.length hsum
      rw [List.length_map, List.length_range] at this
      rw [h6, this]

theorem path_count_witness :
    ∃ g, Graph.ofCFG loopCfg = some g ∧ g.entrybb = 0 ∧ g.exitbb = 3 ∧
      (pathsToExit g.nodes 3 g.nodes.length 0).length < W64 ∧
      (pathsToExit g.nodes 3 g.nodes.length 0).Nodup ∧
      g.numPath = (pathsToExit g.nodes 3 g.nodes.length 0).length := by
  obtain ⟨g, hg, he, hx, _, h⟩ := path_count loopCfg 0 3 (by decide) loopCfg_rooted
    loopCfg_exit
  have hgc := eq_loopGraph hg
  have h64 : (pathsToExit g.nodes 3 g.nodes.length 0).length < W64 := by rw [hgc]; decide
  exact ⟨g, hg, he, hx, h64, h h64⟩

end BallLarus

namespace BallLarus

/-! ## The decoder -/

theorem getD_append_replicate_nil {α : Type} (l : List (List α)) (k u : Nat) :
    (l ++ List.replicate k []).getD u [] = l.getD u [] := by
  by_cases h : u < l.length
  · rw [List.getD_eq_getElem _ _ (by simp; omega), List.getD_eq_getElem _ _ h,
      List.getElem_append_left h]
  · rw [getD_ge (l := l) (by omega)]
    by_cases h2 : u < (l ++ List.replicate k []).length
    · rw [List.getD_eq_getElem _ _ h2, List.getElem_append_right (by omega)]
      simp
    · rw [getD_ge (by omega)]

theorem addEdge_spec (tos : List (List RTo)) (l : EdgeLine) :
    (addEdge tos l).length = max tos.length (l.src + 1) ∧
    ∀ u, (addEdge tos l).getD u [] =
      if u = l.src then tos.getD u [] ++ [RTo.mk l.dest l.inc l.fromBE] else tos.getD u [] := by
  unfold addEdge
  simp only
  by_cases h : tos.length ≤ l.src
  · rw [if_pos h]
    have hlen : (tos ++ List.replicate (l.src + 1 - tos.length) ([] : List RTo)).length =
        l.src + 1 := by simp; omega
    refine ⟨by rw [List.length_set, hlen]; omega, fun u => ?_⟩
    by_cases hu : u = l.src
    · subst hu
      rw [if_pos rfl, getD_set_self (by rw [hlen]; omega), getD_append_replicate_nil]
    · rw [if_neg hu, getD_set_other (Ne.symm hu), getD_append_replicate_nil]
  · rw [if_neg h]
    refine ⟨by rw [List.length_set]; omega, fun u => ?_⟩
    by_cases hu : u = l.src
    · subst hu
      rw [if_pos rfl, getD_set_self (by omega)]
    · rw [if_neg hu, getD_set_other (Ne.symm hu)]

/-- Reading back the lines of one source node. -/
theorem foldl_addEdge_node (n : Nat) (es : List To) :
    ∀ tos : List (List RTo),
      ((es.map (fun t => EdgeLine.mk n t.next t.inc t.be.isSome)).foldl addEdge tos).length =
        (if es = [] then tos.length else max tos.length (n + 1)) ∧
      ∀ u, ((es.map (fun t => EdgeLine.mk n t.next t.inc t.be.isSome)).foldl addEdge tos).getD u []
        = if u = n then tos.getD u [] ++ es.map To.line else tos.getD u [] := by
  induction es with
  | nil => intro tos; exact ⟨rfl, fun u => by split <;> simp⟩
  | cons t rest ih =>
    intro tos
    rw [List.map_cons, List.foldl_cons]
    obtain ⟨h1, h2⟩ := ih (addEdge tos (EdgeLine.mk n t.next t.inc t.be.isSome))
    obtain ⟨a1, a2⟩ := addEdge_spec tos (EdgeLine.mk n t.next t.inc t.be.isSome)
    simp only at a1 a2
    refine ⟨?_, fun u => ?_⟩
    · rw [h1, a1, if_neg (List.cons_ne_nil _ _)]
      split <;> omega
    · rw [h2 u, a2 u]
      split
      · simp [To.line]
      · rfl

/-- The table `tos` that the decoder builds from the artifact of `g`. -/
theorem parse_table (nodes : List (List To)) (n : Nat) :
    (((List.range n).flatMap (fun i => (nodes.getD i []).map
        (fun t => EdgeLine.mk i t.next t.inc t.be.isSome))).foldl addEdge []).length ≤ n ∧
    ∀ u, ((((List.range n).flatMap (fun i => (nodes.getD i []).map
        (fun t => EdgeLine.mk i t.next t.inc t.be.isSome))).foldl addEdge []).getD u [] =
        if u < n then (nodes.getD u []).map To.line else []) ∧
      (u < n → nodes.getD u [] ≠ [] →
        u < (((List.range n).flatMap (fun i => (nodes.getD i []).map
          (fun t => EdgeLine.mk i t.next t.inc t.be.isSome))).foldl addEdge []).length) := by
  induction n with
  | zero => exact ⟨by simp, fun u => ⟨by simp, fun h => by omega⟩⟩
  | succ n ih =>
    rw [List.range_succ, List.flatMap_append, List.foldl_append, List.flatMap_singleton]
    obtain ⟨h1, h2⟩ := ih
    obtain ⟨a1, a2⟩ := foldl_addEdge_node n (nodes.getD n [])
      (((List.range n).flatMap (fun i => (nodes.getD i []).map
        (fun t => EdgeLine.mk i t.next t.inc t.be.isSome))).foldl addEdge [])
    refine ⟨by rw [a1]; split <;> omega, fun u => ⟨?_, fun hu hne => ?_⟩⟩
    · rw [a2 u, (h2 u).1]
      by_cases hun : u = n
      · subst hun
        simp
      · rw [if_neg hun]
        by_cases hlt : u < n
        · rw [if_pos hlt, if_pos (by omega)]
        · rw [if_neg hlt, if_neg (by omega)]
    · rw [a1]
      by_cases hun : u = n
      · subst hun
        rw [if_neg hne]; omega
      · have := (h2 u).2 (by omega) hne
        split <;> omega

theorem ofGraph_tos (g : Graph) (u : Nat) (hne : g.nodes.getD u [] ≠ []) :
    (BallLarusRegen.ofGraph g).tos[u]? = some ((g.nodes.getD u []).map To.line) := by
  have hu : u < g.nodes.length := by
    by_contra hge
    exact hne (getD_ge (by omega) _)
  obtain ⟨_, h2⟩ := parse_table g.nodes g.nodes.length
  have h3 := (h2 u).2 hu hne
  have h4 := (h2 u).1
  rw [if_pos hu] at h4
  change (BallLarusRegen.ofGraph g).tos.getD u [] = _ at h4
  change u < (BallLarusRegen.ofGraph g).tos.length at h3
  rw [List.getD_eq_getElem _ _ h3] at h4
  rw [List.getElem?_eq_getElem h3, h4]

end BallLarus

namespace BallLarus

/-- The selection loop of `regeneratePath` on an edge list that carries its
increments: it returns the edge whose interval `[inc, inc + c next)` holds the
remaining identifier `p`. -/
theorem select_spec (c : Nat → Nat) (p : Nat) (es : List To) :
    ∀ (acc total : Nat) (b : To), stamp c acc es = (es, total) →
      acc + (es.map (fun t => c t.next)).sum < W64 → (∀ t ∈ es, 1 ≤ c t.next) →
      p < acc + (es.map (fun t => c t.next)).sum →
      ((b.inc ≤ p ∧ p < b.inc + c b.next ∧ p < acc) ∨
        (acc ≤ p ∧ (b.inc < acc ∨ es.head? = some b))) →
      ∃ t, selectEdge p (es.map To.line) b.line = t.line ∧ (t = b ∨ t ∈ es) ∧
        t.inc ≤ p ∧ p < t.inc + c t.next := by
  induction es with
  | nil =>
    intro acc total b _ _ _ hp hb
    simp only [List.map_nil, List.sum_nil, Nat.add_zero] at hp
    rcases hb with ⟨h1, h2, _⟩ | ⟨h1, _⟩
    · exact ⟨b, rfl, Or.inl rfl, h1, h2⟩
    · omega
  | cons t rest ih =>
    intro acc total b hst h64 hpos hp hb
    simp only [stamp, Prod.mk.injEq, List.cons.injEq] at hst
    obtain ⟨⟨h1, h2⟩, h3⟩ := hst
    simp only [List.map_cons, List.sum_cons] at h64 hp
    have hinc : t.inc = acc := by
      have := congrArg To.inc h1
      simpa using this.symm
    rw [Nat.mod_eq_of_lt (by omega)] at h2 h3
    have hct := hpos t (List.mem_cons_self _ _)
    have hrest : ∀ t ∈ rest, 1 ≤ c t.next := fun t ht => hpos t (List.mem_cons_of_mem _ ht)
    rw [List.map_cons, selectEdge]
    rcases hb with ⟨b1, b2, b3⟩ | ⟨b1, b2⟩
    · have hcond : ¬ (t.line.inc ≤ p ∧ t.line.inc > b.line.inc) := by
        intro hh
        have : t.line.inc = t.inc := rfl
        omega
      rw [if_neg hcond]
      obtain ⟨t', e1, e2, e3, e4⟩ := ih (acc + c t.next) total b (Prod.ext h2 h3) (by omega)
        hrest (by omega) (Or.inl ⟨b1, b2, by omega⟩)
      refine ⟨t', e1, ?_, e3, e4⟩
      rcases e2 with e2 | e2
      · exact Or.inl e2
      · exact Or.inr (List.mem_cons_of_mem _ e2)
    · have hbest : (if t.line.inc ≤ p ∧ t.line.inc > b.line.inc then t.line else b.line) =
          t.line := by
        rcases b2 with b2 | b2
        · rw [if_pos]
          have e1 : t.line.inc = t.inc := rfl
          have e2 : b.line.inc = b.inc := rfl
          omega
        · simp only [List.head?_cons, Option.some.injEq] at b2
          rw [b2]
          split <;> rfl
      rw [hbest]
      obtain ⟨t', e1, e2, e3, e4⟩ := ih (acc + c t.next) total t (Prod.ext h2 h3) (by omega)
        hrest (by omega) (by
          by_cases hlt : p < acc + c t.next
          · exact Or.inl ⟨by omega, by omega, hlt⟩
          · exact Or.inr ⟨by omega, Or.inl (by omega)⟩)
      refine ⟨t', e1, Or.inr ?_, e3, e4⟩
      rcases e2 with e2 | e2
      · rw [e2]; exact List.mem_cons_self _ _
      · exact List.mem_cons_of_mem _ e2

theorem length_maxPaths_succ (nodes : List (List To)) (f u : Nat)
    (hne : nodes.getD u [] ≠ []) :
    (maxPaths nodes (f + 1) u).length =
      ((nodes.getD u []).map (fun t => (maxPaths nodes f t.next).length)).sum := by
  rw [maxPaths, isEmpty_eq_false hne]
  simp only [Bool.false_eq_true, if_false]
  rw [List.length_flatMap, ← map_range_getD (nodes.getD u []) (To.mk 0 0 none)
    (fun t => (maxPaths nodes f t.next).length)]
  congr 1
  apply List.map_congr_left
  intro i _
  simp only [Function.comp, List.length_map]

theorem le_sum_of_mem_map {α : Type} (l : List α) (f : α → Nat) (a : α) (ha : a ∈ l) :
    f a ≤ (l.map f).sum :=
  List.single_le_sum (fun _ _ => Nat.zero_le _) _ (List.mem_map.2 ⟨a, ha, rfl⟩)

/-- Without overflow at `u`, there is none at the successors of `u`, and the
path count of `u` is the sum of the path counts of its successors. -/
theorem numbered_step {nodes : List (List To)} {c : Nat → Nat} (hN : Numbered nodes c)
    (u : Nat) (hu : u < nodes.length) (hne : nodes.getD u [] ≠ [])
    (h64 : (maxPaths nodes nodes.length u).length < W64) :
    (∀ t ∈ nodes.getD u [], (maxPaths nodes nodes.length t.next).length < W64) ∧
      ((nodes.getD u []).map (fun t => c t.next)).sum = c u ∧ c u < W64 := by
  obtain ⟨R, hR1, hR2⟩ := hN.rank
  obtain ⟨f, hf⟩ : ∃ f, nodes.length = f + 1 := ⟨nodes.length - 1, by omega⟩
  have hstab : ∀ t ∈ nodes.getD u [], maxPaths nodes f t.next =
      maxPaths nodes nodes.length t.next := by
    intro t ht
    have h1 := hR1 u t.next ⟨t, ht, rfl⟩
    have h2 := hR2 u
    exact maxPaths_stable R hR1 f _ t.next (by omega) (by omega)
  have hlen := length_maxPaths_succ nodes f u hne
  rw [← hf] at hlen
  have hsucc : ∀ t ∈ nodes.getD u [], (maxPaths nodes nodes.length t.next).length < W64 := by
    intro t ht
    have := le_sum_of_mem_map (nodes.getD u []) (fun t => (maxPaths nodes f t.next).length) t ht
    simp only at this
    rw [hstab t ht] at this
    omega
  have hcu := congrArg List.length (numbered_sums hN u hu h64)
  rw [List.length_map, List.length_range] at hcu
  refine ⟨hsucc, ?_, by omega⟩
  rw [← hcu, hlen]
  congr 1
  apply List.map_congr_left
  intro t ht
  have := congrArg List.length (numbered_sums hN t.next (hN.wf u t ht) (hsucc t ht))
  rw [List.length_map, List.length_range] at this
  rw [hstab t ht, this]

theorem maxPaths_ne_nil {nodes : List (List To)} (R : Nat → Nat)
    (hR : ∀ u v, Edge nodes u v → R v < R u) (f : Nat) :
    ∀ u, R u ≤ f → maxPaths nodes f u ≠ [] := by
  induction f with
  | zero =>
    intro u hu
    have he : nodes.getD u [] = [] := by
      by_contra hne
      obtain ⟨t, ht⟩ := List.exists_mem_of_ne_nil _ hne
      have := hR u t.next ⟨t, ht, rfl⟩
      omega
    rw [maxPaths, he]
    simp
  | succ f ih =>
    intro u hu
    by_cases he : nodes.getD u [] = []
    · rw [maxPaths, he]; simp
    · obtain ⟨t, ht⟩ := List.exists_mem_of_ne_nil _ he
      have h1 := hR u t.next ⟨t, ht, rfl⟩
      have h2 := ih t.next (by omega)
      intro hnil
      have h3 := length_maxPaths_succ nodes f u he
      rw [hnil] at h3
      have h4 := le_sum_of_mem_map (nodes.getD u []) (fun t => (maxPaths nodes f t.next).length)
        t ht
      simp only [List.length_nil] at h3
      have h5 : 0 < (maxPaths nodes f t.next).length := List.length_pos.2 h2
      simp only at h4
      omega

/-- Without overflow at `u`, the path count of `u` is positive. -/
theorem numbered_pos {nodes : List (List To)} {c : Nat → Nat} (hN : Numbered nodes c)
    (u : Nat) (hu : u < nodes.length) (h64 : (maxPaths nodes nodes.length u).length < W64) :
    1 ≤ c u := by
  obtain ⟨R, hR1, hR2⟩ := hN.rank
  have hcu := congrArg List.length (numbered_sums hN u hu h64)
  rw [List.length_map, List.length_range] at hcu
  have := List.length_pos.2 (maxPaths_ne_nil R hR1 nodes.length u (Nat.le_of_lt (hR2 u)))
  omega

end BallLarus

namespace BallLarus

theorem sub_mod_W64 (p i : Nat) (h1 : i ≤ p) (h2 : p < W64) :
    (p + W64 - i) % W64 = p - i := by
  have h3 : p + W64 - i = (p - i) + W64 := by omega
  rw [h3, Nat.add_mod_right, Nat.mod_eq_of_lt (by omega)]

/-- The loop of `regeneratePath` on the artifact of a numbered DAG with the
single sink `x`: started at `u` with an identifier below the path count of `u`,
it reaches `x` along a walk whose increments sum to the identifier. -/
theorem regenLoop_spec {g : Graph} {c : Nat → Nat} (hN : Numbered g.nodes c)
    (hsink : ∀ u, u < g.nodes.length → (g.nodes.getD u [] = [] ↔ u = g.exitbb))
    (R : Nat → Nat) (hR : ∀ u v, Edge g.nodes u v → R v < R u) (f : Nat) :
    ∀ (u p : Nat) (path : List Nat) (chosen : List RTo), u < g.nodes.length → R u < f →
      (maxPaths g.nodes g.nodes.length u).length < W64 → p < c u →
      ∃ cs path', regenLoop (BallLarusRegen.ofGraph g) f u p path chosen =
          some (path', chosen ++ (edgesAlong g.nodes u cs).map To.line) ∧
        walk g.nodes u cs = some (g.exitbb, p) := by
  induction f with
  | zero => intro u p path chosen _ h; omega
  | succ f ih =>
    intro u p path chosen hu hRu h64 hp
    have hex : (BallLarusRegen.ofGraph g).exitbb = g.exitbb := rfl
    by_cases hux : u = g.exitbb
    · refine ⟨[], path, ?_, ?_⟩
      · rw [regenLoop, hex, if_pos hux]
        simp [edgesAlong]
      · have : c u = 1 := hN.leaf u hu ((hsink u hu).2 hux)
        have hp0 : p = 0 := by omega
        rw [walk, hux, hp0]
    · have hne : g.nodes.getD u [] ≠ [] := fun hh => hux ((hsink u hu).1 hh)
      obtain ⟨hsucc, hsum, hcu⟩ := numbered_step hN u hu hne h64
      have hst := hN.stamped u hu hne
      have hpos : ∀ t ∈ g.nodes.getD u [], 1 ≤ c t.next :=
        fun t ht => numbered_pos hN t.next (hN.wf u t ht) (hsucc t ht)
      have htos := ofGraph_tos g u hne
      cases hes : g.nodes.getD u [] with
      | nil => exact absurd hes hne
      | cons t0 ts =>
        rw [hes] at hst hsum hpos htos
        obtain ⟨t, e1, e2, e3, e4⟩ := select_spec c p (t0 :: ts) 0 (c u) t0 hst
          (by rw [hsum]; omega) hpos (by rw [hsum]; omega) (Or.inr ⟨Nat.zero_le _, Or.inr rfl⟩)
        have htm : t ∈ g.nodes.getD u [] := by
          rw [hes]
          rcases e2 with e2 | e2
          · rw [e2]; exact List.mem_cons_self _ _
          · exact e2
        obtain ⟨i, hi⟩ := List.getElem?_of_mem htm
        have hget : (g.nodes.getD u []).getD i (To.mk 0 0 none) = t := by
          rw [List.getD_eq_getElem?_getD, hi]; rfl
        have hsub : (p + W64 - t.line.inc) % W64 = p - t.inc :=
          sub_mod_W64 p t.inc e3 (by omega)
        have hlt := hR u t.next ⟨t, htm, rfl⟩
        have hstep : ∃ path2, regenLoop (BallLarusRegen.ofGraph g) (f + 1) u p path chosen =
            regenLoop (BallLarusRegen.ofGraph g) f t.next (p - t.inc) path2
              (chosen ++ [t.line]) := by
          rw [regenLoop, hex, if_neg hux, htos]
          simp only [List.map_cons]
          rw [← List.map_cons, e1, hsub]
          exact ⟨_, rfl⟩
        obtain ⟨path2, hstep⟩ := hstep
        obtain ⟨cs', path', r1, r2⟩ := ih t.next (p - t.inc) path2
          (chosen ++ [t.line]) (hN.wf u t htm) (by omega) (hsucc t htm) (by omega)
        refine ⟨i :: cs', path', ?_, ?_⟩
        · rw [hstep, r1, edgesAlong, hget]
          simp
        · rw [walk, hi]
          simp only
          rw [r2]
          simp only [Option.some.injEq, Prod.mk.injEq, true_and]
          omega

end BallLarus

namespace BallLarus

/-- C1, as stated, fails: for `twoExitCfg` the identifier 0 is below `numPath`
but `regeneratePath` walks into block 1, which has no row in the table `tos`,
for every bound on the number of iterations. -/
theorem regenerate_counterexample :
    ∃ g, Graph.ofCFG twoExitCfg = some g ∧ 0 < g.numPath ∧
      ∀ fuel, regeneratePath (BallLarusRegen.ofGraph g) fuel 0 = none := by
  refine ⟨_, rfl, by decide, fun fuel => ?_⟩
  rcases fuel with _ | _ | fuel
  · rfl
  · rfl
  · rfl

end BallLarus

namespace BallLarus

/-! ## The fields of the back-edge records -/

theorem setField_get (e u : Nat) (bes : List BackEdge) (t : To) (k : Nat) :
    (setField e u bes t).length = bes.length ∧
    (setField e u bes t)[k]? = (bes[k]?).map (fun b => fieldStep e k u b t) := by
  unfold setField fieldStep
  cases hbe : t.be with
  | none => simp
  | some k' =>
    simp only
    cases hk' : bes[k']? with
    | none =>
      simp only [true_and]
      by_cases hkk : k' = k
      · subst hkk; simp [hk']
      · have : some k' ≠ some k := fun h => hkk (Option.some.inj h)
        simp [this]
    | some b' =>
      simp only
      have hlt : k' < bes.length := getElem?_lt hk'
      by_cases hkk : k' = k
      · subst hkk
        split
        · refine ⟨by simp, ?_⟩
          rw [List.getElem?_set_self hlt, hk']
          simp
        · refine ⟨by simp, ?_⟩
          rw [List.getElem?_set_self hlt, hk']
          simp
      · have hne : some k' ≠ some k := fun h => hkk (Option.some.inj h)
        split
        · refine ⟨by simp, ?_⟩
          rw [List.getElem?_set_ne hkk]
          simp [hne]
        · refine ⟨by simp, ?_⟩
          rw [List.getElem?_set_ne hkk]
          simp [hne]

theorem foldl_setField_get (e u : Nat) (es : List To) (k : Nat) :
    ∀ bes : List BackEdge, (es.foldl (setField e u) bes).length = bes.length ∧
      (es.foldl (setField e u) bes)[k]? = (bes[k]?).map (fun b => es.foldl (fieldStep e k u) b) := by
  induction es with
  | nil => intro bes; simp
  | cons t rest ih =>
    intro bes
    rw [List.foldl_cons]
    obtain ⟨h1, h2⟩ := ih (setField e u bes t)
    obtain ⟨a1, a2⟩ := setField_get e u bes t k
    refine ⟨h1.trans a1, ?_⟩
    rw [h2, a2]
    cases bes[k]? <;> simp

theorem setFields_get (e : Nat) (nodes : List (List To)) (k n : Nat) :
    ∀ bes : List BackEdge,
      ((List.range n).foldl (fun b src => (nodes.getD src []).foldl (setField e src) b)
        bes).length = bes.length ∧
      ((List.range n).foldl (fun b src => (nodes.getD src []).foldl (setField e src) b) bes)[k]? =
        (bes[k]?).map (fun b => (List.range n).foldl
          (fun b src => (nodes.getD src []).foldl (fieldStep e k src) b) b) := by
  induction n with
  | zero => intro bes; simp
  | succ n ih =>
    intro bes
    rw [List.range_succ, List.foldl_append]
    simp only [List.foldl_cons, List.foldl_nil]
    obtain ⟨h1, h2⟩ := ih bes
    obtain ⟨a1, a2⟩ := foldl_setField_get e n (nodes.getD n []) k
      ((List.range n).foldl (fun b src => (nodes.getD src []).foldl (setField e src) b) bes)
    refine ⟨a1.trans h1, ?_⟩
    rw [a2, h2]
    cases bes[k]? <;> simp [List.foldl_append]

theorem foldl_fieldStep_filter (e k u : Nat) (es : List To) :
    ∀ b : BackEdge, es.foldl (fieldStep e k u) b =
      (es.filter (fun t => t.be == some k)).foldl (fieldStep e k u) b := by
  induction es with
  | nil => intro b; rfl
  | cons t rest ih =>
    intro b
    rw [List.foldl_cons, List.filter_cons]
    by_cases h : t.be = some k
    · rw [if_pos (by simpa using h), List.foldl_cons, ih]
    · rw [if_neg (by simpa using h), ih]
      unfold fieldStep
      rw [if_neg h]

end BallLarus

namespace BallLarus

theorem filter_eq_nil_of_forall {α : Type} (p : α → Bool) (l : List α)
    (h : ∀ a ∈ l, p a = false) : l.filter p = [] := by
  rw [List.filter_eq_nil_iff]
  intro a ha
  rw [h a ha]
  simp

/-- The synthetic edges of `u` that refer to record `k0 + j`. -/
theorem filter_synthAt (e x u : Nat) (bes : List BackEdge) :
    ∀ (k0 j : Nat) (b : BackEdge), bes[j]? = some b →
      (synthAt e x u bes k0).filter (fun t => t.be == some (k0 + j)) =
        (if b.src = u then [To.mk x 0 (some (k0 + j))] else []) ++
          (if e = u then [To.mk b.dest 0 (some (k0 + j))] else []) := by
  induction bes with
  | nil => intro k0 j b h; simp at h
  | cons b0 rest ih =>
    intro k0 j b h
    rw [synthAt, List.filter_append, List.filter_append]
    cases j with
    | zero =>
      simp only [List.getElem?_cons_zero, Option.some.injEq] at h
      subst h
      have hrest : (synthAt e x u rest (k0 + 1)).filter (fun t => t.be == some (k0 + 0)) = [] := by
        apply filter_eq_nil_of_forall
        intro t ht
        obtain ⟨j', b', _, hh⟩ := (mem_synthAt _ _ _ _ _ _).1 ht
        have : t.be = some (k0 + 1 + j') := by
          rcases hh with hh | hh <;> rw [hh.2]
        rw [this]
        simp
        omega
      rw [hrest, List.append_nil]
      congr 1
      · split <;> simp
      · split <;> simp
    | succ j =>
      simp only [List.getElem?_cons_succ] at h
      have h1 : (if b0.src = u then [To.mk x 0 (some k0)] else []).filter
          (fun t => t.be == some (k0 + (j + 1))) = [] := by
        apply filter_eq_nil_of_forall
        intro t ht
        split at ht
        · simp at ht; rw [ht]; simp
        · cases ht
      have h2 : (if e = u then [To.mk b0.dest 0 (some k0)] else []).filter
          (fun t => t.be == some (k0 + (j + 1))) = [] := by
        apply filter_eq_nil_of_forall
        intro t ht
        split at ht
        · simp at ht; rw [ht]; simp
        · cases ht
      rw [h1, h2, List.nil_append, List.nil_append]
      have := ih (k0 + 1) j b h
      have he : k0 + 1 + j = k0 + (j + 1) := by omega
      rw [he] at this
      exact this

theorem filter_shape {a b : List To}
    (h : a.map (fun t => (t.next, t.be)) = b.map (fun t => (t.next, t.be))) (k : Nat) :
    (a.filter (fun t => t.be == some k)).map (fun t => (t.next, t.be)) =
      (b.filter (fun t => t.be == some k)).map (fun t => (t.next, t.be)) := by
  have key : ∀ l : List To, (l.filter (fun t => t.be == some k)).map (fun t => (t.next, t.be)) =
      (l.map (fun t => (t.next, t.be))).filter (fun p => p.2 == some k) := by
    intro l
    induction l with
    | nil => rfl
    | cons t rest ih =>
      rw [List.filter_cons, List.map_cons, List.filter_cons]
      split
      · rw [List.map_cons, ih]
      · exact ih
  rw [key a, key b, h]

theorem fold_fields (G : BackEdge → Nat → BackEdge) (s e : Nat) (hse : s ≠ e) (i r : Nat)
    (hs : ∀ b, G b s = { b with backedge_inc := i })
    (he : ∀ b, G b e = { b with backedge_reset := r })
    (ho : ∀ b u, u ≠ s → u ≠ e → G b u = b) (b0 : BackEdge) (n : Nat) :
    (List.range n).foldl G b0 =
      { b0 with
        backedge_inc := if s < n then i else b0.backedge_inc
        backedge_reset := if e < n then r else b0.backedge_reset } := by
  induction n with
  | zero => simp
  | succ n ih =>
    rw [List.range_succ, List.foldl_append, ih]
    simp only [List.foldl_cons, List.foldl_nil]
    have hn1 : n < n + 1 := by omega
    have hn2 : ¬ n < n := by omega
    by_cases h1 : n = s
    · subst h1
      have h3 : (e < n + 1) ↔ (e < n) := by omega
      rw [hs]
      simp only [h3, hn1, hn2, if_true, if_false]
    · by_cases h2 : n = e
      · subst h2
        have h3 : (s < n + 1) ↔ (s < n) := by omega
        rw [he]
        simp only [h3, hn1, hn2, if_true, if_false]
      · have h3 : (s < n + 1) ↔ (s < n) := by omega
        have h4 : (e < n + 1) ↔ (e < n) := by omega
        rw [ho _ n h1 h2]
        simp only [h3, h4]

end BallLarus

namespace BallLarus

theorem map_eq_singleton {a : List To} {p : Nat × Option Nat}
    (h : a.map (fun t => (t.next, t.be)) = [p]) :
    ∃ t, a = [t] ∧ t.next = p.1 ∧ t.be = p.2 := by
  cases a with
  | nil => simp at h
  | cons t rest =>
    simp only [List.map_cons, List.cons.injEq, List.map_eq_nil_iff] at h
    obtain ⟨h1, h2⟩ := h
    exact ⟨t, by rw [h2], by rw [← h1], by rw [← h1]⟩

/-- The edges of the final graph that refer to record `k`: one at the source of
the record, leading to the exit, and one at the entry, leading to the target. -/
theorem final_refs {cfg : CFG} {e x : Nat} {st : DfsState} {sorted : List Nat}
    (hB : Build cfg e x st sorted) (k : Nat) (b0 : BackEdge) (hk : st.backedges[k]? = some b0)
    (u : Nat) :
    (((finalGraph cfg e x st sorted).nodes.getD u []).filter (fun t => t.be == some k)).map
        (fun t => (t.next, t.be)) =
      (if b0.src = u then [(x, some k)] else []) ++ (if e = u then [(b0.dest, some k)] else []) := by
  obtain ⟨h1, h2, h3, h4⟩ := build_facts hB
  have hsh := (incSweep_shape sorted (dagNodes (initNodes cfg) e x st) u).2
  change (((incSweep sorted (dagNodes (initNodes cfg) e x st)).1.getD u []).filter
      (fun t => t.be == some k)).map (fun t => (t.next, t.be)) = _
  rw [filter_shape hsh k, getD_dagNodes h1 hB.final, List.filter_append]
  have hinit : (((initNodes cfg).getD u []).filter
      (fun t => !(st.er u).contains t.next)).filter (fun t => t.be == some k) = [] := by
    apply filter_eq_nil_of_forall
    intro t ht
    have ht' := (List.mem_filter.1 ht).1
    rw [getD_initNodes] at ht'
    obtain ⟨s, _, rfl⟩ := List.mem_map.1 ht'
    rfl
  have hsyn := filter_synthAt e x u st.backedges 0 k b0 hk
  rw [Nat.zero_add] at hsyn
  rw [hinit, List.nil_append, hsyn]
  split <;> split <;> rfl

/-- The fields of record `k` after `gen_incs`: source and target are those
that `dfs` recorded, `backedge_inc` is the increment of the only edge of the
source that refers to the record, `backedge_reset` that of the only such edge
of the entry. -/
theorem final_fields {cfg : CFG} {e x : Nat} {st : DfsState} {sorted : List Nat}
    (hB : Build cfg e x st sorted) (k : Nat) (b : BackEdge)
    (hk : (finalGraph cfg e x st sorted).backedges[k]? = some b) :
    ∃ b0, st.backedges[k]? = some b0 ∧ b.src = b0.src ∧ b.dest = b0.dest ∧
      (∃ t, ((finalGraph cfg e x st sorted).nodes.getD b0.src []).filter
          (fun t => t.be == some k) = [t] ∧ t.next = x ∧ b.backedge_inc = t.inc) ∧
      (∃ t, ((finalGraph cfg e x st sorted).nodes.getD e []).filter
          (fun t => t.be == some k) = [t] ∧ t.next = b0.dest ∧ b.backedge_reset = t.inc) := by
  obtain ⟨h1, h2, h3, h4⟩ := build_facts hB
  have hlen : (finalGraph cfg e x st sorted).nodes.length = cfg.length := by
    change (incSweep sorted (dagNodes (initNodes cfg) e x st)).1.length = _
    rw [(incSweep_shape sorted _ 0).1, length_dagNodes, length_initNodes]
  have hbk : (finalGraph cfg e x st sorted).backedges =
      setFields e (finalGraph cfg e x st sorted).nodes st.backedges := rfl
  rw [hbk, setFields, (setFields_get e _ k _ st.backedges).2] at hk
  cases hk0 : st.backedges[k]? with
  | none => rw [hk0] at hk; cases hk
  | some b0 =>
    rw [hk0] at hk
    simp only [Option.map_some', Option.some.injEq] at hk
    have hb0 : b0 ∈ st.backedges := List.mem_iff_getElem?.2 ⟨k, hk0⟩
    obtain ⟨_, _, _, r4, _, _, _, r8⟩ := hB.final.recs b0 hb0
    rw [length_initNodes] at r8
    have hrs := final_refs hB k b0 hk0 b0.src
    rw [if_pos rfl, if_neg (fun h => r4 h.symm), List.append_nil] at hrs
    obtain ⟨t, ht1, ht2, ht3⟩ := map_eq_singleton hrs
    have hre := final_refs hB k b0 hk0 e
    rw [if_neg r4, if_pos rfl, List.nil_append] at hre
    obtain ⟨t', ht1', ht2', ht3'⟩ := map_eq_singleton hre
    have hfold := fold_fields
      (fun b src => ((finalGraph cfg e x st sorted).nodes.getD src []).foldl (fieldStep e k src) b)
      b0.src e r4 t.inc t'.inc
      (by
        intro b'
        simp only
        rw [foldl_fieldStep_filter, ht1]
        simp only [List.foldl_cons, List.foldl_nil, fieldStep]
        rw [if_pos ht3, if_neg r4])
      (by
        intro b'
        simp only
        rw [foldl_fieldStep_filter, ht1']
        simp only [List.foldl_cons, List.foldl_nil, fieldStep]
        rw [if_pos ht3']
        simp)
      (by
        intro b' u hu1 hu2
        simp only
        have := final_refs hB k b0 hk0 u
        rw [if_neg (fun h => hu1 h.symm), if_neg (fun h => hu2 h.symm)] at this
        simp only [List.append_nil, List.map_eq_nil_iff] at this
        rw [foldl_fieldStep_filter, this]
        rfl)
      b0 (finalGraph cfg e x st sorted).nodes.length
    rw [hfold, hlen, if_pos r8, if_pos hB.he] at hk
    have hsrc : b.src = b0.src := by rw [← hk]
    have hdst : b.dest = b0.dest := by rw [← hk]
    have hinc : b.backedge_inc = t.inc := by rw [← hk]
    have hres : b.backedge_reset = t'.inc := by rw [← hk]
    exact ⟨b0, rfl, hsrc, hdst, ⟨t, ht1, ht2, hinc⟩, ⟨t', ht1', ht2', hres⟩⟩

/-- C9: for a well-formed CFG with a block without successors and a block
without predecessors the constructor returns a graph in which, for every record
`k` of `backedges`, exactly one edge of the source of the record refers to the
record, it leads to the exit and its increment is `backedge_inc`; and exactly
one edge of the entry refers to the record, it leads to the target of the
record and its increment is `backedge_reset`. -/
theorem backedge_fields (cfg : CFG) (hwf : cfg.WF)
    (hexit : ∃ i, i < cfg.length ∧ cfg.getD i [] = [])
    (hentry : ∃ i, i < cfg.length ∧ ∀ u, ¬ cfg.Succ u i) :
    ∃ g, Graph.ofCFG cfg = some g ∧
      ∀ k b, g.backedges[k]? = some b →
        (∃ t, (g.nodes.getD b.src []).filter (fun t => t.be == some k) = [t] ∧
          t.next = g.exitbb ∧ b.backedge_inc = t.inc) ∧
        (∃ t, (g.nodes.getD g.entrybb []).filter (fun t => t.be == some k) = [t] ∧
          t.next = b.dest ∧ b.backedge_reset = t.inc) := by
  obtain ⟨e, x, st, sorted, hB⟩ := build_exists cfg hwf hexit hentry
  refine ⟨finalGraph cfg e x st sorted, hB.ofEq, fun k b hk => ?_⟩
  obtain ⟨b0, _, hsrc, hdst, ha, hb⟩ := final_fields hB k b hk
  rw [hsrc, hdst]
  exact ⟨ha, hb⟩

theorem backedge_fields_witness :
    ∃ g, Graph.ofCFG loopCfg = some g ∧
      g.backedges[0]? = some (BackEdge.mk 2 1 0 2) ∧
      (∃ t, (g.nodes.getD 2 []).filter (fun t => t.be == some 0) = [t] ∧
        t.next = g.exitbb ∧ 0 = t.inc) ∧
      (∃ t, (g.nodes.getD g.entrybb []).filter (fun t => t.be == some 0) = [t] ∧
        t.next = 1 ∧ 2 = t.inc) := by
  obtain ⟨g, hg, h⟩ := backedge_fields loopCfg (by decide) ⟨3, by decide, by decide⟩
    ⟨0, loopCfg_rooted.1, loopCfg_rooted.2.1⟩
  have hgc := eq_loopGraph hg
  have hb : g.backedges[0]? = some (BackEdge.mk 2 1 0 2) := by rw [hgc]; rfl
  exact ⟨g, hg, hb, h 0 _ hb⟩

end BallLarus

namespace BallLarus

/-! ## Back-edge detection against the traversal with explicit ancestors -/

theorem sim_edges {cfg : CFG} (f : Nat) (A : List Nat) (curr : Nat)
    (hdfs : ∀ (st : DfsState) (s : AncState) (v : Nat) (st1 : DfsState),
      st.Good cfg.length → v < cfg.length → st.col v = 0 → Sim cfg.length st A s →
      dfs (initNodes cfg) f st v = some st1 →
      st1.Good cfg.length ∧ ∃ s1, ancDfs cfg f A s v = some s1 ∧ Sim cfg.length st1 A s1)
    (es : List To) :
    ∀ (st : DfsState) (s : AncState) (st' : DfsState), st.Good cfg.length →
      (∀ t ∈ es, t.next < cfg.length) → Sim cfg.length st A s →
      dfsEdges (dfs (initNodes cfg) f) curr es st = some st' →
      st'.Good cfg.length ∧
        ∃ s', ancEdges (ancDfs cfg f A) A curr (es.map (fun t => t.next)) s = some s' ∧
          Sim cfg.length st' A s' := by
  induction es with
  | nil =>
    intro st s st' hg _ hsim h
    simp only [dfsEdges, Option.some.injEq] at h
    subst h
    exact ⟨hg, s, rfl, hsim⟩
  | cons t rest ih =>
    intro st s st' hg hes hsim h
    have ht : t.next < cfg.length := hes t (List.mem_cons_self _ _)
    have hrest : ∀ t ∈ rest, t.next < cfg.length := fun t ht => hes t (List.mem_cons_of_mem _ ht)
    obtain ⟨s1, s2, s3⟩ := hsim
    rw [dfsEdges] at h
    rw [List.map_cons, ancEdges]
    by_cases h0 : st.color.getD t.next 0 ≠ 0
    · rw [if_pos h0] at h
      by_cases h1 : st.color.getD t.next 0 = 1
      · rw [if_pos h1] at h
        rw [if_pos ((s1 t.next ht).1 h1)]
        apply ih _ _ _ (good_record hg _ _) hrest ?_ h
        refine ⟨fun v hv => by rw [col_record]; exact s1 v hv,
          fun v hv => by rw [col_record]; exact s2 v hv, ?_⟩
        rw [backedges_record, s3]
        simp
      · rw [if_neg h1] at h
        rw [if_neg (fun hh => h1 ((s1 t.next ht).2 hh)), if_pos ((s2 t.next ht).1 h0)]
        exact ih _ _ _ hg hrest ⟨s1, s2, s3⟩ h
    · rw [if_neg h0] at h
      have hz : st.col t.next = 0 := by
        unfold DfsState.col; omega
      rw [if_neg (fun hh => by have := (s1 t.next ht).2 hh; omega),
        if_neg (fun hh => h0 ((s2 t.next ht).2 hh))]
      cases hd : dfs (initNodes cfg) f st t.next with
      | none => rw [hd] at h; cases h
      | some st1 =>
        rw [hd] at h
        obtain ⟨hg1, sa, ha1, ha2⟩ := hdfs st s t.next st1 hg ht hz ⟨s1, s2, s3⟩ hd
        rw [ha1]
        exact ih _ _ _ hg1 hrest ha2 h

/-- `dfs` and the traversal with explicit ancestors run in lockstep. -/
theorem sim_dfs {cfg : CFG} (hwf : cfg.WF) (f : Nat) :
    ∀ (A : List Nat) (st : DfsState) (s : AncState) (v : Nat) (st1 : DfsState),
      st.Good cfg.length → v < cfg.length → st.col v = 0 → Sim cfg.length st A s →
      dfs (initNodes cfg) f st v = some st1 →
      st1.Good cfg.length ∧ ∃ s1, ancDfs cfg f A s v = some s1 ∧ Sim cfg.length st1 A s1 := by
  induction f with
  | zero => intro A st s v st1 _ _ _ _ h; simp [dfs] at h
  | succ f ih =>
    intro A st s v st1 hg hv hz hsim h
    obtain ⟨s1, s2, s3⟩ := hsim
    rw [dfs] at h
    cases he : dfsEdges (dfs (initNodes cfg) f) v ((initNodes cfg).getD v []) (st.paint v 1) with
    | none => rw [he] at h; cases h
    | some st2 =>
      rw [he] at h
      simp only [Option.some.injEq] at h
      subst h
      have hpc : ∀ w, (st.paint v 1).col w = if w = v then 1 else st.col w := by
        intro w; rw [col_paint, hg.hc]; simp [hv]
      have hvA : v ∉ A := fun hh => by have := (s1 v hv).2 hh; omega
      have hsim1 : Sim cfg.length (st.paint v 1) (v :: A)
          { s with visited := v :: s.visited } := by
        refine ⟨fun w hw => ?_, fun w hw => ?_, s3⟩
        · rw [hpc, List.mem_cons]
          by_cases hwv : w = v
          · simp [hwv]
          · simp [hwv, s1 w hw]
        · rw [hpc]
          simp only [List.mem_cons]
          by_cases hwv : w = v
          · simp [hwv]
          · simp only [hwv, if_false, false_or]
            exact s2 w hw
      have hwfn := initNodes_wf cfg hwf
      obtain ⟨hg2, sa, ha1, b1, b2, b3⟩ := sim_edges f (v :: A) v (ih (v :: A))
        ((initNodes cfg).getD v []) (st.paint v 1) _ st2 (good_paint hg _ _ (by omega))
        (fun t ht => by have := hwfn v t ht; rw [length_initNodes] at this; exact this) hsim1 he
      have hmap : ((initNodes cfg).getD v []).map (fun t => t.next) = cfg.getD v [] := by
        rw [getD_initNodes, List.map_map]
        exact List.map_id _
      rw [hmap] at ha1
      refine ⟨good_paint hg2 _ _ (by omega), sa, by rw [ancDfs, ha1], ?_⟩
      have hpc2 : ∀ w, (st2.paint v 2).col w = if w = v then 2 else st2.col w := by
        intro w; rw [col_paint, hg2.hc]; simp [hv]
      refine ⟨fun w hw => ?_, fun w hw => ?_, b3⟩
      · rw [hpc2]
        by_cases hwv : w = v
        · rw [if_pos hwv, hwv]
          simp [hvA]
        · rw [if_neg hwv, b1 w hw, List.mem_cons]
          simp [hwv]
      · rw [hpc2]
        by_cases hwv : w = v
        · rw [if_pos hwv, hwv]
          have : st2.col v ≠ 0 := by
            have := (b1 v hv).2 (List.mem_cons_self _ _)
            omega
          simp [(b2 v hv).1 this]
        · rw [if_neg hwv]
          exact b2 w hw

end BallLarus

namespace BallLarus

/-- Every record made while the edges of a reachable node are examined has a
reachable source. -/
theorem run_reach {nodes : List (List To)} {e curr : Nat} {es : List To} {st st' : DfsState}
    (h : EdgesRun nodes curr es st st') :
    (∀ t ∈ es, t ∈ nodes.getD curr []) → Relation.ReflTransGen (Edge nodes) e curr →
    ∃ new, st'.backedges = st.backedges ++ new ∧
      ∀ b ∈ new, Relation.ReflTransGen (Edge nodes) e b.src := by
  induction h with
  | done => intro _ _; exact ⟨[], by simp, fun b hb => by cases hb⟩
  | back curr t rest st st' h1 hrun ih =>
    intro hes hr
    obtain ⟨new, hnew, hall⟩ := ih (fun t ht => hes t (List.mem_cons_of_mem _ ht)) hr
    refine ⟨BackEdge.mk curr t.next 0 0 :: new, by simp [hnew], fun b hb => ?_⟩
    rcases List.mem_cons.1 hb with rfl | hb
    · exact hr
    · exact hall b hb
  | skip curr t rest st st' h0 h1 hrun ih =>
    intro hes hr
    exact ih (fun t ht => hes t (List.mem_cons_of_mem _ ht)) hr
  | tree curr t rest st st1 st' h0 hrun1 hrun2 ih1 ih2 =>
    intro hes hr
    obtain ⟨new1, hnew1, hall1⟩ := ih1 (fun t ht => ht)
      (hr.tail ⟨t, hes t (List.mem_cons_self _ _), rfl⟩)
    obtain ⟨new2, hnew2, hall2⟩ := ih2 (fun t ht => hes t (List.mem_cons_of_mem _ ht)) hr
    refine ⟨new1 ++ new2, ?_, fun b hb => ?_⟩
    · rw [hnew2, backedges_paint, hnew1, backedges_paint, List.append_assoc]
    · rcases List.mem_append.1 hb with hb | hb
      · exact hall1 b hb
      · exact hall2 b hb

/-- C7 (back-edge detection): whenever the constructor can select an entry
and an exit, `detect_replace_backedges` returns, and its list `backedges` is,
in order and with multiplicity, the list of edges `u -> v` that the depth-first
traversal from the entry over the stored successor order reports because `v` is
`u` or an ancestor of `u`; both fields of each record are still zero, every
recorded edge is an edge of the CFG, and its source is reachable from the
entry. -/
theorem backedge_detection (cfg : CFG) (hwf : cfg.WF)
    (hexit : ∃ i, i < cfg.length ∧ cfg.getD i [] = [])
    (hentry : ∃ i, i < cfg.length ∧ ∀ u, ¬ cfg.Succ u i) :
    ∃ g s, Graph.dag cfg = some g ∧
      ancDfs cfg cfg.length [] (AncState.mk [] []) g.entrybb = some s ∧
      g.backedges = s.found.map (fun p => BackEdge.mk p.1 p.2 0 0) ∧
      ∀ p ∈ s.found, Relation.ReflTransGen cfg.Succ g.entrybb p.1 ∧ cfg.Succ p.1 p.2 := by
  obtain ⟨e, x, st0, sorted, hB⟩ := build_exists cfg hwf hexit hentry
  have hlen := length_initNodes cfg
  have hnwf := initNodes_wf cfg hwf
  have hnoin : ∀ u, ¬ Edge (initNodes cfg) u e :=
    fun u hu => hB.noin u ((edge_initNodes _ _ _).1 hu)
  obtain ⟨st, hst, hfin⟩ := dfs_top hnwf (by rw [hlen]; exact hB.he) hnoin
  have hdag : Graph.dag cfg = some (dagGraph cfg e x st) := by
    rw [Graph.dag, hB.initEq]
    simp only [detect_replace_backedges]
    have : dfsInit (Graph.mk (initNodes cfg) [] e x 0) = dfsStart (initNodes cfg).length := rfl
    rw [this, hst]
    rfl
  rw [hlen] at hst
  have hsim0 : Sim cfg.length (dfsStart cfg.length) [] (AncState.mk [] []) := by
    refine ⟨fun v _ => ?_, fun v _ => ?_, rfl⟩
    · rw [dfsStart_col]; simp
    · rw [dfsStart_col]; simp
  obtain ⟨_, s, hs1, _, _, hs4⟩ := sim_dfs hwf cfg.length [] (dfsStart cfg.length)
    (AncState.mk [] []) e st (dfsStart_good _) hB.he (dfsStart_col _ _) hsim0 hst
  refine ⟨dagGraph cfg e x st, s, hdag, hs1, hs4, ?_⟩
  obtain ⟨s', hrun, hs'⟩ := dfs_spec _ _ _ _ _ hst
  obtain ⟨new, hnew, hall⟩ := run_reach (e := e) hrun (fun t ht => ht) Relation.ReflTransGen.refl
  have hnew2 : st.backedges = new := by rw [hs', backedges_paint, hnew]; simp [dfsStart]
  intro p hp
  have hb : BackEdge.mk p.1 p.2 0 0 ∈ st.backedges := by
    rw [hs4]; exact List.mem_map.2 ⟨p, hp, rfl⟩
  constructor
  · have := hall _ (hnew2 ▸ hb)
    have hmono : ∀ u v, Edge (initNodes cfg) u v → cfg.Succ u v :=
      fun u v h => (edge_initNodes _ _ _).1 h
    exact Relation.ReflTransGen.mono hmono this
  · exact (edge_initNodes _ _ _).1 (hfin.recs _ hb).1

theorem backedge_detection_witness :
    ∃ g s, Graph.dag loopCfg = some g ∧
      ancDfs loopCfg loopCfg.length [] (AncState.mk [] []) g.entrybb = some s ∧
      g.backedges = s.found.map (fun p => BackEdge.mk p.1 p.2 0 0) ∧
      ∀ p ∈ s.found, Relation.ReflTransGen loopCfg.Succ g.entrybb p.1 ∧ loopCfg.Succ p.1 p.2 :=
  backedge_detection loopCfg (by decide) ⟨3, by decide, by decide⟩
    ⟨0, loopCfg_rooted.1, loopCfg_rooted.2.1⟩

end BallLarus

namespace BallLarus

/-! ## The loops of `instrument` -/

theorem getElem?_replaceSuccessorWith (d n : Nat) (term : List Target) (i : Nat) :
    (replaceSuccessorWith d n term)[i]? =
      (term[i]?).map (fun s => if s = Target.block d then Target.added n else s) := by
  unfold replaceSuccessorWith
  rw [List.getElem?_map]

theorem getElem?_append_left_some {α : Type} {l : List α} {n : Nat} {a : α} (l2 : List α)
    (h : l[n]? = some a) : (l ++ l2)[n]? = some a := by
  have hn : n < l.length := by
    by_contra hh
    rw [List.getElem?_eq_none (by omega)] at h
    cases h
  rw [List.getElem?_append_left hn, h]

theorem instrumentEdge_length (src : Nat) (F : Func) (t : To) :
    (instrumentEdge src F t).terms.length = F.terms.length := by
  unfold instrumentEdge
  split
  · simp
  · rfl

theorem instrumentEdge_other (src : Nat) (F : Func) (t : To) (u : Nat) (h : u ≠ src) :
    (instrumentEdge src F t).terms.getD u [] = F.terms.getD u [] := by
  unfold instrumentEdge
  split
  · exact getD_set_other (Ne.symm h) _ _
  · rfl

theorem instrumentEdge_added (src : Nat) (F : Func) (t : To) :
    ∃ l, (instrumentEdge src F t).added = F.added ++ l := by
  unfold instrumentEdge
  split
  · exact ⟨_, rfl⟩
  · exact ⟨[], by simp⟩

theorem foldl_instrumentEdge_other (src : Nat) (ts : List To) (u : Nat) (h : u ≠ src) :
    ∀ F : Func, (ts.foldl (instrumentEdge src) F).terms.length = F.terms.length ∧
      (ts.foldl (instrumentEdge src) F).terms.getD u [] = F.terms.getD u [] ∧
      ∃ l, (ts.foldl (instrumentEdge src) F).added = F.added ++ l := by
  induction ts with
  | nil => intro F; exact ⟨rfl, rfl, [], by simp⟩
  | cons t rest ih =>
    intro F
    obtain ⟨h1, h2, l, h3⟩ := ih (instrumentEdge src F t)
    obtain ⟨l0, h0⟩ := instrumentEdge_added src F t
    rw [List.foldl_cons]
    refine ⟨by rw [h1, instrumentEdge_length], by rw [h2, instrumentEdge_other _ _ _ _ h],
      l0 ++ l, by rw [h3, h0, List.append_assoc]⟩

/-- `SlotOK` survives changes that keep the terminator of `u` and extend `added`. -/
theorem slotOK_mono {F F' : Func} {T : List To} {u i v : Nat}
    (ht : F'.terms.getD u [] = F.terms.getD u []) (ha : ∃ l, F'.added = F.added ++ l)
    (h : SlotOK F T u i v) : SlotOK F' T u i v := by
  obtain ⟨l, hl⟩ := ha
  rcases h with ⟨h1, h2⟩ | ⟨n, t, h1, h2, h3⟩
  · exact Or.inl ⟨by rw [ht]; exact h1, h2⟩
  · exact Or.inr ⟨n, t, by rw [ht]; exact h1, by rw [hl]; exact getElem?_append_left_some _ h2, h3⟩

/-- One step of the inner loop of "Instrument normal edge". -/
theorem instrumentEdge_slot (u : Nat) (F : Func) (hu : u < F.terms.length) (T : List To)
    (t : To) (i v : Nat) (h : SlotOK F T u i v) :
    SlotOK (instrumentEdge u F t) (T ++ [t]) u i v := by
  unfold instrumentEdge
  split
  · rename_i hc
    rcases h with ⟨h1, h2⟩ | ⟨n, t', h1, h2, h3, h4⟩
    · by_cases hv : t.next = v
      · refine Or.inr ⟨F.added.length, t, ?_, ?_, by simp, hv, hc.2⟩
        · simp only
          rw [getD_set_self hu, getElem?_replaceSuccessorWith, h1, hv]
          simp
        · simp [hv]
      · refine Or.inl ⟨?_, ?_⟩
        · simp only
          rw [getD_set_self hu, getElem?_replaceSuccessorWith, h1]
          have : Target.block v ≠ Target.block t.next := by
            intro hh; injection hh with hh; exact hv hh.symm
          simp [this]
        · intro t' ht' a b
          rcases List.mem_append.1 ht' with ht' | ht'
          · exact h2 t' ht' a b
          · rw [List.mem_singleton] at ht'
            rw [ht'] at a
            exact absurd a hv
    · refine Or.inr ⟨n, t', ?_, ?_, List.mem_append_left _ h3, h4⟩
      · simp only
        rw [getD_set_self hu, getElem?_replaceSuccessorWith, h1]
        simp
      · exact getElem?_append_left_some _ h2
  · rename_i hc
    rcases h with ⟨h1, h2⟩ | ⟨n, t', h1, h2, h3, h4⟩
    · refine Or.inl ⟨h1, ?_⟩
      intro t' ht' a b
      rcases List.mem_append.1 ht' with ht' | ht'
      · exact h2 t' ht' a b
      · rw [List.mem_singleton] at ht'
        subst ht'
        by_contra hne
        exact hc ⟨by omega, b⟩
    · exact Or.inr ⟨n, t', h1, h2, List.mem_append_left _ h3, h4⟩

theorem foldl_instrumentEdge_slot (u : Nat) (ts : List To) (i v : Nat) :
    ∀ (F : Func) (T : List To), u < F.terms.length → SlotOK F T u i v →
      SlotOK (ts.foldl (instrumentEdge u) F) (T ++ ts) u i v := by
  induction ts with
  | nil => intro F T _ h; simpa using h
  | cons t rest ih =>
    intro F T hu h
    have := ih (instrumentEdge u F t) (T ++ [t]) (by rw [instrumentEdge_length]; exact hu)
      (instrumentEdge_slot u F hu T t i v h)
    rw [List.append_assoc] at this
    exact this

end BallLarus

namespace BallLarus

theorem initFunc_slot (cfg : CFG) (u i : Nat) :
    ((initFunc cfg).terms.getD u [])[i]? = ((cfg.getD u [])[i]?).map Target.block := by
  unfold initFunc
  simp only [List.getD_eq_getElem?_getD, List.getElem?_map]
  cases cfg[u]? with
  | none => simp
  | some ss => simp [List.getElem?_map]

theorem lt_of_slot {cfg : CFG} {u i v : Nat} (h : (cfg.getD u [])[i]? = some v) :
    u < cfg.length := by
  by_contra hh
  rw [getD_ge (by omega)] at h
  cases h

/-- The loop "Instrument normal edge" after `m` nodes. -/
theorem instrumentEdges_aux (cfg : CFG) (nodes : List (List To)) (m : Nat) :
    ((List.range m).foldl (fun F src => (nodes.getD src []).foldl (instrumentEdge src) F)
        (initFunc cfg)).terms.length = cfg.length ∧
      ∀ u i v, (cfg.getD u [])[i]? = some v →
        (u < m → SlotOK ((List.range m).foldl
          (fun F src => (nodes.getD src []).foldl (instrumentEdge src) F) (initFunc cfg))
            (nodes.getD u []) u i v) ∧
        (m ≤ u → (((List.range m).foldl
          (fun F src => (nodes.getD src []).foldl (instrumentEdge src) F)
            (initFunc cfg)).terms.getD u [])[i]? = some (Target.block v)) := by
  induction m with
  | zero =>
    refine ⟨by simp [initFunc], fun u i v h => ⟨fun hu => by omega, fun _ => ?_⟩⟩
    simp only [List.range_zero, List.foldl_nil]
    rw [initFunc_slot, h]
    rfl
  | succ m ih =>
    obtain ⟨hlen, hs⟩ := ih
    rw [List.range_succ, List.foldl_append, List.foldl_cons, List.foldl_nil]
    generalize (List.range m).foldl (fun F src => (nodes.getD src []).foldl (instrumentEdge src) F)
      (initFunc cfg) = Fm at hlen hs
    refine ⟨by rw [(foldl_instrumentEdge_other m _ (m + 1) (by omega) Fm).1, hlen],
      fun u i v h => ⟨fun hu => ?_, fun hu => ?_⟩⟩
    · by_cases hum : u = m
      · subst hum
        have := foldl_instrumentEdge_slot u (nodes.getD u []) i v Fm []
          (by rw [hlen]; exact lt_of_slot h)
          (Or.inl ⟨(hs u i v h).2 (Nat.le_refl _), fun t ht => by cases ht⟩)
        rw [List.nil_append] at this
        exact this
      · obtain ⟨_, h2, h3⟩ := foldl_instrumentEdge_other m (nodes.getD m []) u hum Fm
        exact slotOK_mono h2 h3 ((hs u i v h).1 (by omega))
    · obtain ⟨_, h2, _⟩ := foldl_instrumentEdge_other m (nodes.getD m []) u (by omega) Fm
      rw [h2]
      exact (hs u i v h).2 (by omega)

/-- The loop "Instrument normal edge": every slot of every terminator. -/
theorem instrumentEdges_slot (cfg : CFG) (nodes : List (List To))
    (hlen : nodes.length = cfg.length) (u i v : Nat) (h : (cfg.getD u [])[i]? = some v) :
    SlotOK (instrumentEdges nodes (initFunc cfg)) (nodes.getD u []) u i v :=
  ((instrumentEdges_aux cfg nodes nodes.length).2 u i v h).1 (by rw [hlen]; exact lt_of_slot h)

/-! ### The loop "Instrument back edge" -/

theorem instrumentBackedge_slot (F : Func) (b : BackEdge) (u i : Nat) :
    ((instrumentBackedge F b).terms.getD u [])[i]? =
      if u = b.src ∧ (F.terms.getD u [])[i]? = some (Target.block b.dest) then
        some (Target.added F.added.length)
      else (F.terms.getD u [])[i]? := by
  unfold instrumentBackedge
  simp only
  by_cases hu : u = b.src
  · rw [hu]
    by_cases hl : b.src < F.terms.length
    · rw [getD_set_self hl, getElem?_replaceSuccessorWith]
      cases hs : (F.terms.getD b.src [])[i]? with
      | none => simp
      | some s =>
        by_cases hsb : s = Target.block b.dest
        · simp [hsb]
        · simp [hsb]
    · rw [getD_set_ge (by omega)]
      have : F.terms.getD b.src [] = [] := getD_ge (by omega) _
      rw [this]
      simp
  · rw [getD_set_other (Ne.symm hu)]
    simp [hu]

theorem foldl_instrumentBackedge_added (bes : List BackEdge) (n : Nat) (a : NewBlock) :
    ∀ F : Func, F.added[n]? = some a → (bes.foldl instrumentBackedge F).added[n]? = some a := by
  induction bes with
  | nil => intro F h; exact h
  | cons b rest ih =>
    intro F h
    rw [List.foldl_cons]
    exact ih _ (getElem?_append_left_some _ h)

/-- A slot that leads to a created block is left alone. -/
theorem foldl_instrumentBackedge_keep (bes : List BackEdge) (u i n : Nat) :
    ∀ F : Func, (F.terms.getD u [])[i]? = some (Target.added n) →
      ((bes.foldl instrumentBackedge F).terms.getD u [])[i]? = some (Target.added n) := by
  induction bes with
  | nil => intro F h; exact h
  | cons b rest ih =>
    intro F h
    rw [List.foldl_cons]
    apply ih
    rw [instrumentBackedge_slot, h]
    simp

/-- A slot that leads to `v` is left alone when no record describes it. -/
theorem foldl_instrumentBackedge_block (bes : List BackEdge) (u i v : Nat) :
    ∀ F : Func, (F.terms.getD u [])[i]? = some (Target.block v) →
      (∀ b ∈ bes, ¬ (b.src = u ∧ b.dest = v)) →
      ((bes.foldl instrumentBackedge F).terms.getD u [])[i]? = some (Target.block v) := by
  induction bes with
  | nil => intro F h _; exact h
  | cons b rest ih =>
    intro F h hb
    rw [List.foldl_cons]
    apply ih _ _ (fun b' hb' => hb b' (List.mem_cons_of_mem _ hb'))
    rw [instrumentBackedge_slot, h, if_neg]
    rintro ⟨h1, h2⟩
    injection h2 with h2
    injection h2 with h2
    exact hb b (List.mem_cons_self _ _) ⟨h1.symm, h2.symm⟩

/-- A slot that leads to `v` and is described by a record leads to the
"increment_reset" block of such a record afterwards. -/
theorem foldl_instrumentBackedge_reset (bes : List BackEdge) (u i v : Nat) :
    ∀ F : Func, (F.terms.getD u [])[i]? = some (Target.block v) →
      (∃ b ∈ bes, b.src = u ∧ b.dest = v) →
      ∃ n b, ((bes.foldl instrumentBackedge F).terms.getD u [])[i]? = some (Target.added n) ∧
        (bes.foldl instrumentBackedge F).added[n]? =
          some (NewBlock.mk b.backedge_inc (some b.backedge_reset) v) ∧
        b ∈ bes ∧ b.src = u ∧ b.dest = v := by
  induction bes with
  | nil => intro F _ h; obtain ⟨b, hb, _⟩ := h; cases hb
  | cons b rest ih =>
    intro F h hex
    rw [List.foldl_cons]
    by_cases hm : b.src = u ∧ b.dest = v
    · refine ⟨F.added.length, b, ?_, ?_, List.mem_cons_self _ _, hm⟩
      · apply foldl_instrumentBackedge_keep
        rw [instrumentBackedge_slot, if_pos ⟨hm.1.symm, by rw [h, hm.2]⟩]
      · apply foldl_instrumentBackedge_added
        unfold instrumentBackedge
        simp [hm.2]
    · obtain ⟨b', hb', hb2⟩ := hex
      have hb'r : b' ∈ rest := by
        rcases List.mem_cons.1 hb' with rfl | h'
        · exact absurd hb2 hm
        · exact h'
      obtain ⟨n, b2, h1, h2, h3, h4⟩ := ih (instrumentBackedge F b) (by
        rw [instrumentBackedge_slot, h, if_neg]
        rintro ⟨h1, h2⟩
        injection h2 with h2
        injection h2 with h2
        exact hm ⟨h1.symm, h2.symm⟩) ⟨b', hb'r, hb2⟩
      exact ⟨n, b2, h1, h2, List.mem_cons_of_mem _ h3, h4⟩

end BallLarus

namespace BallLarus

/-! ## The terminators of the instrumented function -/

/-- The edges of the final graph, up to their increments. -/
theorem final_shape {cfg : CFG} {e x : Nat} {st : DfsState} {sorted : List Nat}
    (hB : Build cfg e x st sorted) (u : Nat) :
    ((finalGraph cfg e x st sorted).nodes.getD u []).map (fun t => (t.next, t.be)) =
      (((cfg.getD u []).filter (fun s => !(st.er u).contains s)).map (fun s => (s, none))) ++
        (synthAt e x u st.backedges 0).map (fun t => (t.next, t.be)) := by
  obtain ⟨h1, _, _, _⟩ := build_facts hB
  have hsh := (incSweep_shape sorted (dagNodes (initNodes cfg) e x st) u).2
  change ((incSweep sorted (dagNodes (initNodes cfg) e x st)).1.getD u []).map
    (fun t => (t.next, t.be)) = _
  rw [hsh, getD_dagNodes h1 hB.final, List.map_append, getD_initNodes, List.filter_map,
    List.map_map]
  rfl

theorem final_length (cfg : CFG) (e x : Nat) (st : DfsState) (sorted : List Nat) :
    (finalGraph cfg e x st sorted).nodes.length = cfg.length := by
  change (incSweep sorted (dagNodes (initNodes cfg) e x st)).1.length = _
  rw [(incSweep_shape sorted _ 0).1, length_dagNodes, length_initNodes]

/-- An edge of the final graph without a record is an edge of the CFG that `dfs`
did not mark. -/
theorem final_plain {cfg : CFG} {e x : Nat} {st : DfsState} {sorted : List Nat}
    (hB : Build cfg e x st sorted) (u : Nat) (t : To)
    (ht : t ∈ (finalGraph cfg e x st sorted).nodes.getD u []) (hbe : t.be = none) :
    t.next ∈ cfg.getD u [] ∧ t.next ∉ st.er u := by
  have hm : (t.next, t.be) ∈ ((finalGraph cfg e x st sorted).nodes.getD u []).map
      (fun t => (t.next, t.be)) := List.mem_map.2 ⟨t, ht, rfl⟩
  rw [final_shape hB u, List.mem_append] at hm
  rcases hm with hm | hm
  · obtain ⟨s, hs, hs2⟩ := List.mem_map.1 hm
    obtain ⟨hs3, hs4⟩ := List.mem_filter.1 hs
    injection hs2 with hs2 _
    rw [← hs2]
    exact ⟨hs3, by simpa using hs4⟩
  · obtain ⟨t', ht', ht2⟩ := List.mem_map.1 hm
    obtain ⟨j, b, _, hjb⟩ := (mem_synthAt e x u st.backedges 0 t').1 ht'
    injection ht2 with _ ht3
    rw [hbe] at ht3
    rcases hjb with ⟨_, rfl⟩ | ⟨_, rfl⟩ <;> cases ht3

/-- An edge of the CFG that `dfs` did not mark is an edge of the final graph
without a record. -/
theorem final_plain_exists {cfg : CFG} {e x : Nat} {st : DfsState} {sorted : List Nat}
    (hB : Build cfg e x st sorted) (u v : Nat) (hv : v ∈ cfg.getD u []) (hne : v ∉ st.er u) :
    ∃ t, t ∈ (finalGraph cfg e x st sorted).nodes.getD u [] ∧ t.next = v ∧ t.be = none := by
  have hm : (v, (none : Option Nat)) ∈ ((finalGraph cfg e x st sorted).nodes.getD u []).map
      (fun t => (t.next, t.be)) := by
    rw [final_shape hB u, List.mem_append]
    refine Or.inl (List.mem_map.2 ⟨v, List.mem_filter.2 ⟨hv, by simpa using hne⟩, rfl⟩)
  obtain ⟨t, ht, ht2⟩ := List.mem_map.1 hm
  injection ht2 with h1 h2
  exact ⟨t, ht, h1, h2⟩

/-- The records of the final graph are those of `dfs`, up to their fields. -/
theorem final_records {cfg : CFG} {e x : Nat} {st : DfsState} {sorted : List Nat}
    (hB : Build cfg e x st sorted) (k : Nat) (b0 : BackEdge) (hk : st.backedges[k]? = some b0) :
    ∃ b, (finalGraph cfg e x st sorted).backedges[k]? = some b ∧ b.src = b0.src ∧
      b.dest = b0.dest := by
  have hlen : (finalGraph cfg e x st sorted).backedges.length = st.backedges.length :=
    (setFields_get e (finalGraph cfg e x st sorted).nodes k _ st.backedges).1
  have hk1 : k < st.backedges.length := by
    by_contra hh
    rw [List.getElem?_eq_none (by omega)] at hk
    cases hk
  have hk2 : k < (finalGraph cfg e x st sorted).backedges.length := by omega
  refine ⟨(finalGraph cfg e x st sorted).backedges[k], List.getElem?_eq_getElem hk2, ?_⟩
  obtain ⟨b1, hb1, hs, hd, _⟩ := final_fields hB k _ (List.getElem?_eq_getElem hk2)
  rw [hk] at hb1
  injection hb1 with hb1
  rw [hs, hd, hb1]
  exact ⟨rfl, rfl⟩

end BallLarus

namespace BallLarus

/-- A slot of the instrumented function for an edge that `dfs` recorded: it
leads to an "increment_reset" block that adds the increment of an edge from the
source to the exit and stores the increment of an edge from the entry to the
target. -/
theorem instrument_back {cfg : CFG} {e x : Nat} {st : DfsState} {sorted : List Nat}
    (hB : Build cfg e x st sorted) (u i v : Nat) (h : (cfg.getD u [])[i]? = some v)
    (hv : v ∈ st.er u) :
    ∃ n t t', ((instrument (finalGraph cfg e x st sorted) cfg).terms.getD u [])[i]? =
        some (Target.added n) ∧
      (instrument (finalGraph cfg e x st sorted) cfg).added[n]? =
        some (NewBlock.mk t.inc (some t'.inc) v) ∧
      t ∈ (finalGraph cfg e x st sorted).nodes.getD u [] ∧ t.next = x ∧
      t' ∈ (finalGraph cfg e x st sorted).nodes.getD e [] ∧ t'.next = v ∧
      v ≠ e ∧ cfg.getD v [] ≠ [] ∧ u ≠ e ∧
      ∃ k b, (finalGraph cfg e x st sorted).backedges[k]? = some b ∧ b.src = u ∧ b.dest = v ∧
        t.be = some k ∧ t'.be = some k := by
  have hslot := instrumentEdges_slot cfg (finalGraph cfg e x st sorted).nodes
    (final_length cfg e x st sorted) u i v h
  have h1 : ((instrumentEdges (finalGraph cfg e x st sorted).nodes (initFunc cfg)).terms.getD
      u [])[i]? = some (Target.block v) := by
    rcases hslot with ⟨a, _⟩ | ⟨n, t, _, _, a, b, c⟩
    · exact a
    · have := (final_plain hB u t a c).2
      rw [b] at this
      exact absurd hv this
  obtain ⟨b0, hb0, hs0, hd0⟩ := hB.final.ers u v hv
  obtain ⟨k, hk⟩ := List.mem_iff_getElem?.1 hb0
  obtain ⟨b, hb, hs, hd⟩ := final_records hB k b0 hk
  obtain ⟨n, b', a1, a2, a3, a4, a5⟩ := foldl_instrumentBackedge_reset
    (finalGraph cfg e x st sorted).backedges u i v _ h1
    ⟨b, List.mem_iff_getElem?.2 ⟨k, hb⟩, by rw [hs, hs0], by rw [hd, hd0]⟩
  obtain ⟨k', hk'⟩ := List.mem_iff_getElem?.1 a3
  obtain ⟨b1, hb1, hs1, hd1, ⟨t, ht1, ht2, ht3⟩, ⟨t', ht1', ht2', ht3'⟩⟩ := final_fields hB k' b' hk'
  have hb1m : b1 ∈ st.backedges := List.mem_iff_getElem?.2 ⟨k', hb1⟩
  obtain ⟨_, _, r3, r4, r5, _⟩ := hB.final.recs b1 hb1m
  have htf : t ∈ ((finalGraph cfg e x st sorted).nodes.getD b1.src []).filter
      (fun t => t.be == some k') := by rw [ht1]; exact List.mem_singleton.2 rfl
  have htf' : t' ∈ ((finalGraph cfg e x st sorted).nodes.getD e []).filter
      (fun t => t.be == some k') := by rw [ht1']; exact List.mem_singleton.2 rfl
  have htm : t ∈ (finalGraph cfg e x st sorted).nodes.getD b1.src [] :=
    (List.mem_filter.1 htf).1
  have htm' : t' ∈ (finalGraph cfg e x st sorted).nodes.getD e [] :=
    (List.mem_filter.1 htf').1
  have hbe : t.be = some k' := eq_of_beq (List.mem_filter.1 htf).2
  have hbe' : t'.be = some k' := eq_of_beq (List.mem_filter.1 htf').2
  have hsu : b1.src = u := by rw [← hs1, a4]
  have hdv : b1.dest = v := by rw [← hd1, a5]
  rw [hsu] at htm r4
  rw [hdv] at ht2' r5 r3
  refine ⟨n, t, t', a1, ?_, htm, ht2, htm', ht2', r5, ?_, r4, k', b', hk', a4, a5, hbe, hbe'⟩
  · rw [← ht3, ← ht3']
    exact a2
  · intro hh
    exact r3 ((initNodes_nil_iff cfg v).2 hh)

/-- A slot of the instrumented function for an edge that `dfs` did not
record: it carries the increment of an edge of the final graph between the same
nodes, directly when that is 0 and through an "increment" block otherwise. -/
theorem instrument_fwd {cfg : CFG} {e x : Nat} {st : DfsState} {sorted : List Nat}
    (hB : Build cfg e x st sorted) (u i v : Nat) (h : (cfg.getD u [])[i]? = some v)
    (hv : v ∉ st.er u) :
    ∃ t, t ∈ (finalGraph cfg e x st sorted).nodes.getD u [] ∧ t.next = v ∧ t.be = none ∧
      ((((instrument (finalGraph cfg e x st sorted) cfg).terms.getD u [])[i]? =
          some (Target.block v) ∧ t.inc = 0) ∨
        ∃ n, ((instrument (finalGraph cfg e x st sorted) cfg).terms.getD u [])[i]? =
            some (Target.added n) ∧
          (instrument (finalGraph cfg e x st sorted) cfg).added[n]? =
            some (NewBlock.mk t.inc none v)) := by
  have hslot := instrumentEdges_slot cfg (finalGraph cfg e x st sorted).nodes
    (final_length cfg e x st sorted) u i v h
  rcases hslot with ⟨a, b⟩ | ⟨n, t, a, b, c, d, f⟩
  · obtain ⟨t, ht, ht2, ht3⟩ := final_plain_exists hB u v (List.mem_iff_getElem?.2 ⟨i, h⟩) hv
    refine ⟨t, ht, ht2, ht3, Or.inl ⟨?_, b t ht ht2 ht3⟩⟩
    apply foldl_instrumentBackedge_block _ _ _ _ _ a
    rintro b' hb' ⟨hs, hd⟩
    obtain ⟨k', hk'⟩ := List.mem_iff_getElem?.1 hb'
    obtain ⟨b1, hb1, hs1, hd1, _⟩ := final_fields hB k' b' hk'
    have := (hB.final.recs b1 (List.mem_iff_getElem?.2 ⟨k', hb1⟩)).2.1
    rw [← hs1, ← hd1, hs, hd] at this
    exact hv this
  · exact ⟨t, c, d, f, Or.inr ⟨n, foldl_instrumentBackedge_keep _ _ _ _ _ a,
      foldl_instrumentBackedge_added _ _ _ _ b⟩⟩

end BallLarus

namespace BallLarus

/-! ## Paths, extended at the end -/

theorem walk_append (nodes : List (List To)) (cs cs' : List Nat) :
    ∀ u v w s s', walk nodes u cs = some (v, s) → walk nodes v cs' = some (w, s') →
      walk nodes u (cs ++ cs') = some (w, s + s') := by
  induction cs with
  | nil =>
    intro u v w s s' h h'
    simp only [walk, Option.some.injEq, Prod.mk.injEq] at h
    obtain ⟨rfl, rfl⟩ := h
    simpa using h'
  | cons i cs ih =>
    intro u v w s s' h h'
    obtain ⟨t, s1, ht, hw, hs⟩ := walk_cons h
    have := ih t.next v w s1 s' hw h'
    rw [List.cons_append, walk, ht]
    simp only
    rw [this, hs, Nat.add_assoc]

theorem walk_single {nodes : List (List To)} {u j : Nat} {t : To}
    (h : (nodes.getD u [])[j]? = some t) : walk nodes u [j] = some (t.next, t.inc) := by
  rw [walk, h]
  simp [walk]

theorem getD_of_getElem? {α : Type} {l : List α} {j : Nat} {a : α} (h : l[j]? = some a)
    (d : α) : l.getD j d = a := by
  rw [List.getD_eq_getElem?_getD, h]
  rfl

theorem nodesAlong_append (nodes : List (List To)) (cs : List Nat) (j : Nat) :
    ∀ u v s t, walk nodes u cs = some (v, s) → (nodes.getD v [])[j]? = some t →
      nodesAlong nodes u (cs ++ [j]) = nodesAlong nodes u cs ++ [t.next] := by
  induction cs with
  | nil =>
    intro u v s t h ht
    simp only [walk, Option.some.injEq, Prod.mk.injEq] at h
    obtain ⟨rfl, rfl⟩ := h
    simp only [List.nil_append, nodesAlong, getD_of_getElem? ht, List.cons_append]
  | cons i cs ih =>
    intro u v s t h ht
    obtain ⟨t1, s1, ht1, hw, _⟩ := walk_cons h
    rw [List.cons_append, nodesAlong, nodesAlong, getD_of_getElem? ht1, ih _ _ _ _ hw ht]
    rfl

theorem edgesAlong_append (nodes : List (List To)) (cs : List Nat) (j : Nat) :
    ∀ u v s t, walk nodes u cs = some (v, s) → (nodes.getD v [])[j]? = some t →
      edgesAlong nodes u (cs ++ [j]) = edgesAlong nodes u cs ++ [t] := by
  induction cs with
  | nil =>
    intro u v s t h ht
    simp only [walk, Option.some.injEq, Prod.mk.injEq] at h
    obtain ⟨rfl, rfl⟩ := h
    simp only [List.nil_append, edgesAlong, getD_of_getElem? ht]
  | cons i cs ih =>
    intro u v s t h ht
    obtain ⟨t1, s1, ht1, hw, _⟩ := walk_cons h
    rw [List.cons_append, edgesAlong, edgesAlong, getD_of_getElem? ht1, ih _ _ _ _ hw ht]
    rfl

theorem length_edgesAlong (nodes : List (List To)) (cs : List Nat) :
    ∀ u, (edgesAlong nodes u cs).length = cs.length := by
  induction cs with
  | nil => intro u; rfl
  | cons i cs ih => intro u; simp only [edgesAlong, List.length_cons, ih]

/-- An element of a list extended by one element is an element of the list,
at the same position, or the new element at the new position. -/
theorem getElem?_snoc {α : Type} (es : List α) (t t0 : α) (j : Nat)
    (hj : (es ++ [t])[j]? = some t0) :
    (j < es.length ∧ es[j]? = some t0) ∨ (j = es.length ∧ t0 = t) := by
  by_cases hlt : j < es.length
  · rw [List.getElem?_append_left hlt] at hj
    exact Or.inl ⟨hlt, hj⟩
  · have hjl : j < (es ++ [t]).length := (List.getElem?_eq_some_iff.1 hj).1
    have hje : j = es.length := by
      simp only [List.length_append, List.length_singleton] at hjl
      omega
    subst hje
    rw [List.getElem?_append_right (Nat.le_refl _)] at hj
    simp only [Nat.sub_self, List.getElem?_cons_zero, Option.some.injEq] at hj
    exact Or.inr ⟨rfl, hj.symm⟩

/-- The ways in which a list with one more element at its end splits around
one of its elements. -/
theorem split_snoc {α : Type} (l l1 l2 : List α) (a c : α) (h : l ++ [a] = l1 ++ c :: l2) :
    (∃ l2', l2 = l2' ++ [a] ∧ l = l1 ++ c :: l2') ∨ (l2 = [] ∧ c = a ∧ l1 = l) := by
  rcases List.eq_nil_or_concat l2 with h2 | ⟨l2', z, h2⟩
  · subst h2
    have := List.append_inj' h rfl
    exact Or.inr ⟨rfl, (List.cons.inj this.2).1.symm, this.1.symm⟩
  · subst h2
    have h' : l ++ [a] = (l1 ++ c :: l2') ++ [z] := by rw [h]; simp
    have := List.append_inj' h' rfl
    have hz : a = z := (List.cons.inj this.2).1
    exact Or.inl ⟨l2', by rw [hz, List.concat_eq_append], this.1⟩

/-- The first block after a call does not change when the current segment
keeps its first block. -/
theorem next_congr (l2 : List (Nat × List Nat)) (seg seg' : List Nat)
    (h : seg'.head? = seg.head?) :
    ((l2.map (fun c => c.2) ++ [seg']).head?.bind List.head?) =
      ((l2.map (fun c => c.2) ++ [seg]).head?.bind List.head?) := by
  cases l2 with
  | nil => simpa using h
  | cons a l => rfl

/-- The first block after a call does not change when the current segment is
closed by a call. -/
theorem next_snoc (l2 : List (Nat × List Nat)) (seg seg' z : List Nat) (a : Nat)
    (h : seg'.head? = seg.head?) :
    (((l2 ++ [(a, seg')]).map (fun c => c.2) ++ [z]).head?.bind List.head?) =
      ((l2.map (fun c => c.2) ++ [seg]).head?.bind List.head?) := by
  cases l2 with
  | nil => simpa using h
  | cons a l => rfl

theorem nodesAlong_getLast (nodes : List (List To)) (cs : List Nat) :
    ∀ u v s, walk nodes u cs = some (v, s) → (nodesAlong nodes u cs).getLast? = some v := by
  induction cs with
  | nil =>
    intro u v s h
    simp only [walk, Option.some.injEq, Prod.mk.injEq] at h
    obtain ⟨rfl, rfl⟩ := h
    rfl
  | cons i cs ih =>
    intro u v s h
    obtain ⟨t1, s1, ht1, hw, _⟩ := walk_cons h
    have := ih _ _ _ hw
    rw [nodesAlong, getD_of_getElem? ht1]
    cases hn : nodesAlong nodes t1.next cs with
    | nil => rw [hn] at this; cases this
    | cons a l => rw [hn] at this; rw [List.getLast?_cons_cons]; exact this

/-- The sum along a path from `u` stays below the path count of `u`, which is
below `2 ^ 64`. -/
theorem numbered_below {nodes : List (List To)} {c : Nat → Nat} (hN : Numbered nodes c)
    (u : Nat) (hu : u < nodes.length) (h64 : (maxPaths nodes nodes.length u).length < W64)
    (cs : List Nat) (v s : Nat) (h : walk nodes u cs = some (v, s)) :
    s < c u ∧ c u < W64 := by
  obtain ⟨R, hR, hRb⟩ := hN.rank
  have hne := maxPaths_ne_nil R hR nodes.length v (Nat.le_of_lt (hRb v))
  obtain ⟨cs', hcs'⟩ := List.exists_mem_of_ne_nil _ hne
  obtain ⟨w, hw, hsink⟩ := maxPaths_walk nodes nodes.length v cs' hcs'
  have hfull := walk_append nodes cs cs' u v w s _ h hw
  have := (numbered_inj hN u hu h64 _ _ w w _ _ hfull hsink hfull hsink).1
  have hl := congrArg List.length (numbered_sums hN u hu h64)
  rw [List.length_map, List.length_range] at hl
  constructor
  · omega
  · rw [← hl]; exact h64

end BallLarus

namespace BallLarus

/-! ## Slots that the CFG does not have -/

theorem instrumentEdge_none (src : Nat) (F : Func) (t : To) (u i : Nat)
    (h : (F.terms.getD u [])[i]? = none) :
    ((instrumentEdge src F t).terms.getD u [])[i]? = none := by
  unfold instrumentEdge
  split
  · simp only
    by_cases hu : u = src
    · rw [← hu]
      by_cases hl : u < F.terms.length
      · rw [getD_set_self hl, getElem?_replaceSuccessorWith, h]
        rfl
      · rw [getD_set_ge (by omega)]
        exact h
    · rw [getD_set_other (Ne.symm hu)]
      exact h
  · exact h

theorem foldl_instrumentEdge_none (src : Nat) (ts : List To) (u i : Nat) :
    ∀ F : Func, (F.terms.getD u [])[i]? = none →
      ((ts.foldl (instrumentEdge src) F).terms.getD u [])[i]? = none := by
  induction ts with
  | nil => intro F h; exact h
  | cons t rest ih => intro F h; exact ih _ (instrumentEdge_none src F t u i h)

theorem instrumentEdges_none (nodes : List (List To)) (u i : Nat) (L : List Nat) :
    ∀ F : Func, (F.terms.getD u [])[i]? = none →
      ((L.foldl (fun F src => (nodes.getD src []).foldl (instrumentEdge src) F)
        F).terms.getD u [])[i]? = none := by
  induction L with
  | nil => intro F h; exact h
  | cons a rest ih => intro F h; exact ih _ (foldl_instrumentEdge_none a _ u i F h)

theorem foldl_instrumentBackedge_none (bes : List BackEdge) (u i : Nat) :
    ∀ F : Func, (F.terms.getD u [])[i]? = none →
      ((bes.foldl instrumentBackedge F).terms.getD u [])[i]? = none := by
  induction bes with
  | nil => intro F h; exact h
  | cons b rest ih =>
    intro F h
    apply ih
    rw [instrumentBackedge_slot, h]
    simp

/-- The terminators of the instrumented function have the slots of the CFG. -/
theorem instrument_none (g : Graph) (cfg : CFG) (u i : Nat) (h : (cfg.getD u [])[i]? = none) :
    (((instrument g cfg).terms.getD u [])[i]?) = none := by
  unfold instrument instrumentEdges
  apply foldl_instrumentBackedge_none
  apply instrumentEdges_none
  rw [initFunc_slot, h]
  rfl

end BallLarus

namespace BallLarus

/-! ## Runs of the instrumented function -/

theorem head?_append_of_ne_nil {α : Type} {l : List α} (h : l ≠ []) (l2 : List α) :
    (l ++ l2).head? = l.head? := by
  cases l with
  | nil => exact absurd rfl h
  | cons a l => rfl

/-- Invariant of a run: every call so far satisfies `CallPath`, with the last
block of the segment of the previous call and the first block executed after
the call; at a block with successors `path_register` holds the sum of a path
from the entry with the nodes of the segment executed so far, whose first edge
is synthetic exactly when the segment does not start at the entry and then
refers to a record from the last block before the segment to its first
block. -/
theorem exec_calls {cfg : CFG} {e x : Nat} {st : DfsState} {sorted : List Nat}
    (hB : Build cfg e x st sorted)
    (hN : Numbered (finalGraph cfg e x st sorted).nodes (pathCounts cfg e x st sorted))
    (hnp : (finalGraph cfg e x st sorted).numPath = pathCounts cfg e x st sorted e)
    (h64 : (maxPaths (finalGraph cfg e x st sorted).nodes
      (finalGraph cfg e x st sorted).nodes.length e).length < W64)
    (cs : List Nat) :
    ∀ (u : Nat) (s s' : RunState),
      (∀ l1 cl l2, s.calls = l1 ++ cl :: l2 →
        cl.1 < (finalGraph cfg e x st sorted).numPath ∧
        CallPath (finalGraph cfg e x st sorted).nodes (finalGraph cfg e x st sorted).backedges
          e x (l1.getLast?.bind (fun c => c.2.getLast?)) cl
          ((l2.map (fun c => c.2) ++ [s.seg]).head?.bind List.head?)) →
      (cfg.getD u [] ≠ [] → s.seg ≠ [] ∧
        ∃ p, walk (finalGraph cfg e x st sorted).nodes e p = some (u, s.reg) ∧
          nodesAlong (finalGraph cfg e x st sorted).nodes e p =
            (if s.seg.head? = some e then [] else [e]) ++ s.seg ∧
          ∀ j t, (edgesAlong (finalGraph cfg e x st sorted).nodes e p)[j]? = some t →
            (t.be ≠ none ↔ j = 0 ∧ s.seg.head? ≠ some e) ∧
            ∀ k, t.be = some k → ∃ b,
              (finalGraph cfg e x st sorted).backedges[k]? = some b ∧
              s.calls.getLast?.bind (fun c => c.2.getLast?) = some b.src ∧
              s.seg.head? = some b.dest) →
      exec (instrument (finalGraph cfg e x st sorted) cfg) x u cs s = some s' →
      ∀ l1 cl l2, s'.calls = l1 ++ cl :: l2 →
        cl.1 < (finalGraph cfg e x st sorted).numPath ∧
        CallPath (finalGraph cfg e x st sorted).nodes (finalGraph cfg e x st sorted).backedges
          e x (l1.getLast?.bind (fun c => c.2.getLast?)) cl
          ((l2.map (fun c => c.2) ++ [s'.seg]).head?.bind List.head?) := by
  have he : e < (finalGraph cfg e x st sorted).nodes.length := by
    rw [final_length]; exact hB.he
  have hsx : (finalGraph cfg e x st sorted).nodes.getD x [] = [] :=
    (finalGraph_sink hB x).2 hB.sink
  induction cs with
  | nil =>
    intro u s s' hc _ h
    simp only [exec, Option.some.injEq] at h
    subst h
    exact hc
  | cons i cs ih =>
    intro u s s' hc hp h
    rw [exec] at h
    cases hslot : (cfg.getD u [])[i]? with
    | none =>
      rw [instrument_none _ cfg u i hslot] at h
      cases h
    | some v =>
      have hune : cfg.getD u [] ≠ [] := by
        intro hh; rw [hh] at hslot; cases hslot
      have hux : u ≠ x := fun hh => hune (hh ▸ hB.sink)
      obtain ⟨hseg, p, hw, hna, hk⟩ := hp hune
      have hlen := length_edgesAlong (finalGraph cfg e x st sorted).nodes p e
      have hhead : p = [] → s.seg.head? = some e := by
        intro hp0
        rw [hp0] at hna
        by_contra hne
        rw [if_neg hne] at hna
        simp only [nodesAlong, List.singleton_append, List.cons.injEq, true_and] at hna
        exact hseg hna.symm
      have hu0 : p = [] → u = e := by
        intro hp0
        rw [hp0] at hw
        simp only [walk, Option.some.injEq, Prod.mk.injEq] at hw
        exact hw.1.symm
      have hlast : s.seg.getLast? = some u := by
        have h1 := nodesAlong_getLast _ p e u _ hw
        rw [hna, List.getLast?_append_of_ne_nil _ hseg] at h1
        exact h1
      have hl : s.seg.getLast? ≠ some x := by
        rw [hlast]
        intro hh
        exact hux (Option.some.inj hh)
      by_cases hv : v ∈ st.er u
      · obtain ⟨n, t, t', a1, a2, a3, a4, a5, a6, a7, a8, a9, k0, b0, c1, c2, c3, c4, c5⟩ :=
          instrument_back hB u i v hslot hv
        rw [a1] at h
        simp only at h
        rw [a2] at h
        simp only at h
        have hvx : v ≠ x := fun hh => a8 (hh ▸ hB.sink)
        obtain ⟨j, hj⟩ := List.mem_iff_getElem?.1 a3
        obtain ⟨j', hj'⟩ := List.mem_iff_getElem?.1 a5
        have hw1 := walk_append _ p [j] e u x s.reg t.inc hw (by rw [walk_single hj, a4])
        have hb := (numbered_inj hN e he h64 _ _ x x _ _ hw1 hsx hw1 hsx).1
        have hlt := (numbered_below hN e he h64 _ _ _ hw).2
        have hmod : (s.reg + t.inc) % W64 = s.reg + t.inc := Nat.mod_eq_of_lt (by omega)
        have hst : enter x v (runAdded (NewBlock.mk t.inc (some t'.inc) v) s) =
            RunState.mk t'.inc [v] (s.calls ++ [(s.reg + t.inc, s.seg)]) := by
          simp [enter, runAdded, hvx, hmod]
        rw [hst] at h
        have hprev : (s.calls ++ [(s.reg + t.inc, s.seg)]).getLast?.bind
            (fun c => c.2.getLast?) = some b0.src := by
          rw [List.getLast?_append_of_ne_nil _ (by simp), c2]
          exact hlast
        apply ih v _ s' ?_ ?_ h
        · intro l1 cl l2 hsplit
          rcases split_snoc _ _ _ _ _ hsplit with ⟨l2', rfl, hold⟩ | ⟨rfl, rfl, rfl⟩
          · have := hc l1 cl l2' hold
            rw [next_snoc l2' s.seg s.seg [v] _ rfl]
            exact this
          · refine ⟨by rw [hnp]; exact hb, p ++ [j], hw1, ?_, ?_⟩
            · rw [nodesAlong_append _ p j e u _ t hw hj, hna, a4]
              unfold padSegment
              simp only
              rw [if_neg hl]
            · rw [edgesAlong_append _ p j e u _ t hw hj]
              intro j0 t0 hj0
              dsimp only
              rcases getElem?_snoc _ _ _ _ hj0 with ⟨hlt0, hold⟩ | ⟨hj1, ht1⟩
              · obtain ⟨q1, q2⟩ := hk j0 t0 hold
                rw [hlen] at hlt0
                simp only [List.length_append, List.length_singleton]
                refine ⟨?_, fun k hk0 => ?_⟩
                · rw [q1]
                  constructor
                  · intro hh
                    exact Or.inl hh
                  · rintro (hh | hh)
                    · exact hh
                    · omega
                · obtain ⟨b, r1, r2, r3⟩ := q2 k hk0
                  have hj00 : j0 = 0 := (q1.1 (by rw [hk0]; simp)).1
                  exact ⟨b, r1, fun _ => ⟨r2, r3⟩, fun hh => absurd hj00 hh⟩
              · rw [hlen] at hj1
                subst ht1
                simp only [List.length_append, List.length_singleton]
                refine ⟨?_, fun k hk0 => ?_⟩
                · constructor
                  · intro _
                    exact Or.inr ⟨by omega, hl⟩
                  · intro _
                    rw [c4]
                    simp
                · rw [c4] at hk0
                  have hkk : k0 = k := Option.some.inj hk0
                  subst hkk
                  refine ⟨b0, c1, fun hh => ?_, fun _ => ⟨by rw [c2]; exact hlast, ?_⟩⟩
                  · rw [hj1] at hh
                    exact absurd (hu0 (List.length_eq_zero.1 hh)) a9
                  · rw [c3]
                    rfl
        · intro _
          refine ⟨by simp, [j'], ?_, ?_, ?_⟩
          · rw [walk_single hj', a6]
          · simp only [nodesAlong, getD_of_getElem? hj', a6, List.head?_cons, Option.some.injEq]
            rw [if_neg a7]
            rfl
          · intro j0 t0 hj0
            simp only [edgesAlong, getD_of_getElem? hj'] at hj0
            have hj00 : j0 = 0 := by
              have := (List.getElem?_eq_some_iff.1 hj0).1
              simp only [List.length_singleton] at this
              omega
            subst hj00
            simp only [List.getElem?_cons_zero, Option.some.injEq] at hj0
            subst hj0
            refine ⟨?_, fun k hk0 => ?_⟩
            · simp only [List.head?_cons, Option.some.injEq, true_and]
              constructor
              · intro _ hh
                exact a7 (Option.some.inj hh)
              · intro _
                rw [c5]
                simp
            · rw [c5] at hk0
              have hkk : k0 = k := Option.some.inj hk0
              subst hkk
              exact ⟨b0, c1, hprev, by rw [c3]; rfl⟩
      · obtain ⟨t, a1, a2, a3, a4⟩ := instrument_fwd hB u i v hslot hv
        obtain ⟨j, hj⟩ := List.mem_iff_getElem?.1 a1
        have hw1 := walk_append _ p [j] e u v s.reg t.inc hw (by rw [walk_single hj, a2])
        have hpre := numbered_below hN e he h64 _ _ _ hw1
        have hmod : (s.reg + t.inc) % W64 = s.reg + t.inc := Nat.mod_eq_of_lt (by omega)
        have hna1 : nodesAlong (finalGraph cfg e x st sorted).nodes e (p ++ [j]) =
            (if s.seg.head? = some e then [] else [e]) ++ s.seg ++ [v] := by
          rw [nodesAlong_append _ p j e u _ t hw hj, hna, a2]
        have hfirst : ¬ ((edgesAlong (finalGraph cfg e x st sorted).nodes e p).length = 0 ∧
            s.seg.head? ≠ some e) := by
          rintro ⟨h1, h2⟩
          rw [hlen] at h1
          exact h2 (hhead (List.length_eq_zero.1 h1))
        have hhd : (s.seg ++ [v]).head? = s.seg.head? := head?_append_of_ne_nil hseg _
        have key : ∀ s'', exec (instrument (finalGraph cfg e x st sorted) cfg) x v cs
            (enter x v (RunState.mk (s.reg + t.inc) s.seg s.calls)) = some s'' →
            ∀ l1 cl l2, s''.calls = l1 ++ cl :: l2 →
              cl.1 < (finalGraph cfg e x st sorted).numPath ∧
              CallPath (finalGraph cfg e x st sorted).nodes
                (finalGraph cfg e x st sorted).backedges
                e x (l1.getLast?.bind (fun c => c.2.getLast?)) cl
                ((l2.map (fun c => c.2) ++ [s''.seg]).head?.bind List.head?) := by
          intro s'' h''
          by_cases hvx : v = x
          · have hst : enter x v (RunState.mk (s.reg + t.inc) s.seg s.calls) =
                RunState.mk (s.reg + t.inc) [] (s.calls ++ [(s.reg + t.inc, s.seg ++ [v])]) := by
              simp [enter, hvx]
            rw [hst] at h''
            apply ih v _ s'' ?_ ?_ h''
            · intro l1 cl l2 hsplit
              rcases split_snoc _ _ _ _ _ hsplit with ⟨l2', rfl, hold⟩ | ⟨rfl, rfl, rfl⟩
              · have := hc l1 cl l2' hold
                rw [next_snoc l2' s.seg (s.seg ++ [v]) [] _ hhd]
                exact this
              · have hgl : (s.seg ++ [v]).getLast? = some x := by
                  rw [List.getLast?_append_of_ne_nil _ (by simp), hvx]
                  rfl
                have hw1x : walk (finalGraph cfg e x st sorted).nodes e (p ++ [j]) =
                    some (x, s.reg + t.inc) := by rw [hw1, hvx]
                refine ⟨by rw [hnp]; exact hpre.1, p ++ [j], hw1x, ?_, ?_⟩
                · rw [hna1]
                  unfold padSegment
                  simp only
                  rw [hhd, hgl]
                  simp
                · rw [edgesAlong_append _ p j e u _ t hw hj]
                  simp only [hhd, hgl]
                  intro j0 t0 hj0
                  rcases getElem?_snoc _ _ _ _ hj0 with ⟨hlt0, hold⟩ | ⟨hj1, ht1⟩
                  · obtain ⟨q1, q2⟩ := hk j0 t0 hold
                    refine ⟨?_, fun k hk0 => ?_⟩
                    · rw [q1]
                      constructor
                      · intro hh
                        exact Or.inl hh
                      · rintro (hh | hh)
                        · exact hh
                        · exact absurd rfl hh.2
                    · obtain ⟨b, r1, r2, r3⟩ := q2 k hk0
                      have hj00 : j0 = 0 := (q1.1 (by rw [hk0]; simp)).1
                      exact ⟨b, r1, fun _ => ⟨r2, r3⟩, fun hh => absurd hj00 hh⟩
                  · subst ht1
                    refine ⟨?_, fun k hk0 => ?_⟩
                    · constructor
                      · intro hh
                        exact absurd a3 hh
                      · rintro (hh | hh)
                        · exact absurd ⟨hj1 ▸ hh.1, hh.2⟩ hfirst
                        · exact absurd rfl hh.2
                    · rw [a3] at hk0
                      cases hk0
            · intro hh
              rw [hvx] at hh
              exact absurd hB.sink hh
          · have hst : enter x v (RunState.mk (s.reg + t.inc) s.seg s.calls) =
                RunState.mk (s.reg + t.inc) (s.seg ++ [v]) s.calls := by
              simp [enter, hvx]
            rw [hst] at h''
            apply ih v (RunState.mk (s.reg + t.inc) (s.seg ++ [v]) s.calls) s'' ?_ ?_ h''
            · intro l1 cl l2 hsplit
              have := hc l1 cl l2 hsplit
              simp only
              rw [next_congr l2 s.seg (s.seg ++ [v]) hhd]
              exact this
            · intro _
              refine ⟨by simp, p ++ [j], hw1, ?_, ?_⟩
              · rw [hna1]
                simp only
                rw [hhd, List.append_assoc]
              · rw [edgesAlong_append _ p j e u _ t hw hj]
                simp only [hhd]
                intro j0 t0 hj0
                rcases getElem?_snoc _ _ _ _ hj0 with ⟨hlt0, hold⟩ | ⟨hj1, ht1⟩
                · exact hk j0 t0 hold
                · subst ht1
                  refine ⟨?_, fun k hk0 => ?_⟩
                  · constructor
                    · intro hh
                      exact absurd a3 hh
                    · intro hh
                      exact absurd ⟨hj1 ▸ hh.1, hh.2⟩ hfirst
                  · rw [a3] at hk0
                    cases hk0
        rcases a4 with ⟨b1, b2⟩ | ⟨n, b1, b2⟩
        · rw [b1] at h
          simp only at h
          apply key s'
          rw [b2]
          exact h
        · rw [b1] at h
          simp only at h
          rw [b2] at h
          simp only at h
          apply key s'
          have : runAdded (NewBlock.mk t.inc none v) s =
              RunState.mk (s.reg + t.inc) s.seg s.calls := by
            simp [runAdded, hmod]
          rw [← this]
          exact h

end BallLarus

namespace BallLarus

/-- One step of a run: the run continues in the block that the CFG names. -/
theorem exec_cons {cfg : CFG} {e x : Nat} {st : DfsState} {sorted : List Nat}
    (hB : Build cfg e x st sorted) (u i v : Nat) (cs : List Nat) (s : RunState)
    (h : (cfg.getD u [])[i]? = some v) :
    ∃ s0, exec (instrument (finalGraph cfg e x st sorted) cfg) x u (i :: cs) s =
      exec (instrument (finalGraph cfg e x st sorted) cfg) x v cs (enter x v s0) := by
  rw [exec]
  by_cases hv : v ∈ st.er u
  · obtain ⟨n, t, t', a1, a2, _⟩ := instrument_back hB u i v h hv
    rw [a1]
    simp only
    rw [a2]
    exact ⟨_, rfl⟩
  · obtain ⟨t, _, _, _, a4⟩ := instrument_fwd hB u i v h hv
    rcases a4 with ⟨b1, _⟩ | ⟨n, b1, b2⟩
    · rw [b1]
      exact ⟨_, rfl⟩
    · rw [b1]
      simp only
      rw [b2]
      exact ⟨_, rfl⟩

/-- A run along a walk of the CFG returns, and its last step is the execution
of the block that the walk reaches. -/
theorem exec_total {cfg : CFG} {e x : Nat} {st : DfsState} {sorted : List Nat}
    (hB : Build cfg e x st sorted) (cs : List Nat) :
    ∀ (u v : Nat) (s0 : RunState), cfgWalk cfg u cs = some v →
      ∃ s1, exec (instrument (finalGraph cfg e x st sorted) cfg) x u cs (enter x u s0) =
        some (enter x v s1) := by
  induction cs with
  | nil =>
    intro u v s0 h
    simp only [cfgWalk, Option.some.injEq] at h
    subst h
    exact ⟨s0, rfl⟩
  | cons i cs ih =>
    intro u v s0 h
    rw [cfgWalk] at h
    cases hslot : (cfg.getD u [])[i]? with
    | none => rw [hslot] at h; cases h
    | some w =>
      rw [hslot] at h
      obtain ⟨s2, hs2⟩ := exec_cons hB u i w cs (enter x u s0) hslot
      rw [hs2]
      exact ih w v s2 h

end BallLarus

namespace BallLarus

/-- C6, as stated, fails: in `deadBranchCfg` block 2 is not reachable from the
entry and branches to block 1; the run along the only walk from the entry to
the exit calls `__increment_path_count` with 0, while `numPath` is 0. -/
theorem instrumented_run_counterexample :
    ∃ g s, Graph.ofCFG deadBranchCfg = some g ∧
      cfgWalk deadBranchCfg g.entrybb [0] = some g.exitbb ∧
      run g deadBranchCfg [0] = some s ∧ s.calls = [(0, [0, 1])] ∧ ¬ 0 < g.numPath :=
  ⟨_, _, rfl, rfl, rfl, rfl, by decide⟩

/-- C6, amended: for a well-formed CFG with a block without successors in which
every block is reachable from the entry, and whose transformed DAG has fewer
than `2 ^ 64` maximal paths from the entry, the run of the instrumented
function along any walk of the CFG from the entry returns; every value it
passes to `__increment_path_count` is below `numPath` and is the sum of `inc`
along a path of the DAG from the entry to the exit whose nodes are the blocks
executed since the previous call, with the entry in front after a back-edge and
the exit behind at a back-edge (`CallPath`): the first edge of that path is
synthetic exactly when the segment does not start at the entry, and then it
refers to a record from the last block of the previous segment to the first
block of this one; its last edge is synthetic exactly when the segment does
not end at the exit, and then it refers to a record from the last block of the
segment to the first block executed after the call; no other edge of it is
synthetic; and a run that reaches the exit ends with such a call. -/
theorem instrumented_run (cfg : CFG) (e : Nat) (hwf : cfg.WF) (hr : cfg.Rooted e)
    (hexit : ∃ i, i < cfg.length ∧ cfg.getD i [] = []) :
    ∃ g, Graph.ofCFG cfg = some g ∧ g.entrybb = e ∧
      ((maxPaths g.nodes g.nodes.length e).length < W64 →
        ∀ cs v, cfgWalk cfg e cs = some v →
          ∃ s, run g cfg cs = some s ∧
            (v = g.exitbb → ∃ r seg, s.calls.getLast? = some (r, seg ++ [g.exitbb])) ∧
            ∀ l1 cl l2, s.calls = l1 ++ cl :: l2 → cl.1 < g.numPath ∧
              CallPath g.nodes g.backedges e g.exitbb
                (l1.getLast?.bind (fun c => c.2.getLast?)) cl
                ((l2.map (fun c => c.2) ++ [s.seg]).head?.bind List.head?)) := by
  obtain ⟨x, st, sorted, hB, h1, h2, h3, h4, h5, h6⟩ := rooted_final cfg e hwf hr hexit
  refine ⟨finalGraph cfg e x st sorted, h1, h2, fun h64 cs v hwalk => ?_⟩
  obtain ⟨s1, hs1⟩ := exec_total hB cs e v (RunState.mk 0 [] []) hwalk
  have he : e < (finalGraph cfg e x st sorted).nodes.length := by
    rw [final_length]; exact hB.he
  refine ⟨enter x v s1, hs1, ?_, ?_⟩
  · intro hv
    change v = x at hv
    refine ⟨s1.reg, s1.seg, ?_⟩
    change (enter x v s1).calls.getLast? = some (s1.reg, s1.seg ++ [x])
    simp [enter, hv]
  · apply exec_calls hB h5 h6 h64 cs e (enter x e (RunState.mk 0 [] [])) _ ?_ ?_ hs1
    · intro l1 cl l2 hsplit
      by_cases hex : e = x
      · have hcalls : (enter x e (RunState.mk 0 [] [])).calls = [] ++ [(0, [e])] := by
          simp [enter, hex]
        rw [hcalls] at hsplit
        rcases split_snoc _ _ _ _ _ hsplit with ⟨l2', _, hold⟩ | ⟨rfl, rfl, rfl⟩
        · exact absurd hold (by simp)
        · refine ⟨?_, [], ?_, ?_, ?_⟩
          · have := numbered_pos h5 e he h64
            rw [h6]
            exact this
          · rw [← hex]; rfl
          · simp [nodesAlong, padSegment, hex]
          · intro j t hj
            simp [edgesAlong] at hj
      · have hcalls : (enter x e (RunState.mk 0 [] [])).calls = [] := by
          simp [enter, hex]
        rw [hcalls] at hsplit
        exact absurd hsplit (by simp)
    · intro hne
      have hex : e ≠ x := fun hh => hne (hh ▸ hB.sink)
      refine ⟨by simp [enter, hex], [], ?_, ?_, ?_⟩
      · simp [enter, hex, walk]
      · simp [enter, hex, nodesAlong]
      · intro j t hj
        simp [edgesAlong] at hj

theorem instrumented_run_witness :
    ∃ g s, Graph.ofCFG loopCfg = some g ∧ g.entrybb = 0 ∧
      (maxPaths g.nodes g.nodes.length 0).length < W64 ∧
      cfgWalk loopCfg 0 [0, 0, 0, 0, 0, 1] = some 3 ∧
      run g loopCfg [0, 0, 0, 0, 0, 1] = some s ∧
      s.calls = [(0, [0, 1, 2])] ++ (2, [1, 2]) :: [(3, [1, 3])] ∧
      2 < g.numPath ∧
      CallPath g.nodes g.backedges 0 g.exitbb
        (([(0, [0, 1, 2])] : List (Nat × List Nat)).getLast?.bind (fun c => c.2.getLast?))
        (2, [1, 2])
        ((([(3, [1, 3])] : List (Nat × List Nat)).map (fun c => c.2) ++ [s.seg]).head?.bind
          List.head?) := by
  obtain ⟨g, hg, he, h⟩ := instrumented_run loopCfg 0 (by decide) loopCfg_rooted
    ⟨3, by decide, by decide⟩
  have hgc := eq_loopGraph hg
  have h64 : (maxPaths g.nodes g.nodes.length 0).length < W64 := by rw [hgc]; decide
  have hw : cfgWalk loopCfg 0 [0, 0, 0, 0, 0, 1] = some 3 := by decide
  obtain ⟨s, hs, _, hc⟩ := h h64 _ _ hw
  have hcalls : s.calls = [(0, [0, 1, 2])] ++ (2, [1, 2]) :: [(3, [1, 3])] := by
    rw [hgc] at hs
    have : run loopGraph loopCfg [0, 0, 0, 0, 0, 1] =
        some (RunState.mk 3 [] [(0, [0, 1, 2]), (2, [1, 2]), (3, [1, 3])]) := by decide
    rw [this] at hs
    injection hs with hs
    rw [← hs]
    rfl
  obtain ⟨c1, c2⟩ := hc _ _ _ hcalls
  exact ⟨g, s, hg, he, h64, hw, hs, hcalls, c1, c2⟩

/-- `replaceSuccessorWith` redirects every successor equal to the target: in
`parallelCfg` both slots of the entry lead to the "increment" block of the
second edge, so both runs report the path number 1 and none reports 0. -/
theorem parallel_edges_share_block :
    ∃ g, Graph.ofCFG parallelCfg = some g ∧ g.numPath = 2 ∧
      (run g parallelCfg [0]).map (fun s => s.calls) = some [(1, [0, 1])] ∧
      (run g parallelCfg [1]).map (fun s => s.calls) = some [(1, [0, 1])] :=
  ⟨_, rfl, rfl, rfl, rfl⟩

end BallLarus

namespace BallLarus

/-! ## Scenarios and selection of entry and exit -/

/-- C15, as stated, fails: for the simple loop the constructor computes a
`numPath` different from 1. -/
theorem simple_loop_counterexample :
    ∃ g, Graph.ofCFG loopCfg = some g ∧ g.numPath ≠ 1 :=
  ⟨_, rfl, by decide⟩

/-- C15, amended: for the simple loop (entry 0, loop header 1, body 2, exit 3)
the constructor records the back-edge from 2 to 1 and computes `numPath = 4`,
the number of paths from the entry to the exit of the transformed DAG. -/
theorem simple_loop_num_paths :
    ∃ g, Graph.ofCFG loopCfg = some g ∧ g.entrybb = 0 ∧ g.exitbb = 3 ∧
      g.backedges.map (fun b => (b.src, b.dest)) = [(2, 1)] ∧ g.numPath = 4 ∧
      pathsToExit g.nodes g.exitbb g.nodes.length g.entrybb =
        [[0, 0, 0], [0, 1], [1, 0, 0], [1, 1]] :=
  ⟨_, rfl, rfl, rfl, rfl, rfl, by decide⟩

/-- C16: for the CFG of a single block without successors the constructor
yields entry and exit 0, no edges, no records and `numPath = 1`; and a decoder
whose entry is its exit returns the path that consists of the entry alone, for
every identifier. -/
theorem exit_equals_entry (r : BallLarusRegen) (fuel p : Nat) (h : r.entrybb = r.exitbb) :
    Graph.ofCFG singleCfg = some (Graph.mk [[]] [] 0 0 1) ∧
      regeneratePath r (fuel + 1) p = some [r.entrybb] := by
  refine ⟨by decide, ?_⟩
  simp [regeneratePath, regenRun, regenLoop, h]

theorem exit_equals_entry_witness :
    (BallLarusRegen.ofGraph (Graph.mk [[]] [] 0 0 1)).entrybb =
        (BallLarusRegen.ofGraph (Graph.mk [[]] [] 0 0 1)).exitbb ∧
      Graph.ofCFG singleCfg = some (Graph.mk [[]] [] 0 0 1) ∧
      regeneratePath (BallLarusRegen.ofGraph (Graph.mk [[]] [] 0 0 1)) (0 + 1) 0 = some [0] :=
  ⟨rfl, exit_equals_entry (BallLarusRegen.ofGraph (Graph.mk [[]] [] 0 0 1)) 0 0 rfl⟩

theorem find?_range_min (p : Nat → Bool) (n : Nat) :
    ∀ e, (List.range n).find? p = some e → ∀ j, j < e → p j = false := by
  induction n with
  | zero => intro e h; simp at h
  | succ n ih =>
    intro e h j hj
    rw [List.range_succ, List.find?_append] at h
    cases hf : (List.range n).find? p with
    | some e' =>
      rw [hf] at h
      simp only [Option.or, Option.some.injEq] at h
      subst h
      exact ih e' hf j hj
    | none =>
      rw [hf] at h
      simp only [Option.or] at h
      have he : e = n := by
        have := List.mem_of_find?_eq_some h
        simpa using this
      have hall := List.find?_eq_none.1 hf j (by simpa using (by omega : j < n))
      simpa using hall

end BallLarus

namespace BallLarus

/-- The entry that the constructor selects is the first node without
predecessors. -/
theorem build_entry_min {cfg : CFG} {e x : Nat} {st : DfsState} {sorted : List Nat}
    (hB : Build cfg e x st sorted) (j : Nat) (hj : j < cfg.length)
    (hin : ∀ u, ¬ cfg.Succ u j) : e ≤ j := by
  by_contra hlt
  have hinit := hB.initEq
  unfold Graph.init at hinit
  cases hx : findExit (initNodes cfg) with
  | none => rw [hx] at hinit; cases hinit
  | some x' =>
    cases he : findEntry (countInDegree (initNodes cfg)) with
    | none => rw [hx, he] at hinit; cases hinit
    | some e' =>
      rw [hx, he] at hinit
      simp only [Option.some.injEq, Graph.mk.injEq, true_and] at hinit
      obtain ⟨he', _⟩ := hinit
      subst he'
      have hmin := find?_range_min _ _ _ he j (by omega)
      have hlen := length_initNodes cfg
      have hd := getD_countInDegree (initNodes cfg) j (by rw [hlen]; exact hj)
      have hz : indeg (initNodes cfg) j = 0 := by
        by_contra hne
        obtain ⟨u, hu⟩ := (indeg_pos_iff (initNodes cfg) j).1 (by omega)
        exact hin u ((edge_initNodes cfg u j).1 hu)
      rw [hd, hz] at hmin
      simp at hmin

/-- C19: for a well-formed CFG with a block without successors and a block
without predecessors the constructor returns a graph whose exit is the largest
index of a block without successors and whose entry is the smallest index of a
block without predecessors in the CFG. -/
theorem entry_exit_selection (cfg : CFG) (hwf : cfg.WF)
    (hexit : ∃ i, i < cfg.length ∧ cfg.getD i [] = [])
    (hentry : ∃ i, i < cfg.length ∧ ∀ u, ¬ cfg.Succ u i) :
    ∃ g, Graph.ofCFG cfg = some g ∧
      g.exitbb < cfg.length ∧ cfg.getD g.exitbb [] = [] ∧
      (∀ j, j < cfg.length → cfg.getD j [] = [] → j ≤ g.exitbb) ∧
      g.entrybb < cfg.length ∧ (∀ u, ¬ cfg.Succ u g.entrybb) ∧
      (∀ j, j < cfg.length → (∀ u, ¬ cfg.Succ u j) → g.entrybb ≤ j) := by
  obtain ⟨e, x, st, sorted, hB⟩ := build_exists cfg hwf hexit hentry
  refine ⟨finalGraph cfg e x st sorted, hB.ofEq, hB.hx, hB.sink, ?_, hB.he, hB.noin,
    fun j hj hin => build_entry_min hB j hj hin⟩
  intro j hj hs
  by_contra hlt
  exact hB.last j (Nat.lt_of_not_le hlt) hj hs

theorem entry_exit_selection_witness :
    ∃ g, Graph.ofCFG twoExitCfg = some g ∧
      g.exitbb < twoExitCfg.length ∧ twoExitCfg.getD g.exitbb [] = [] ∧
      (∀ j, j < twoExitCfg.length → twoExitCfg.getD j [] = [] → j ≤ g.exitbb) ∧
      g.entrybb < twoExitCfg.length ∧ (∀ u, ¬ twoExitCfg.Succ u g.entrybb) ∧
      (∀ j, j < twoExitCfg.length → (∀ u, ¬ twoExitCfg.Succ u j) → g.entrybb ≤ j) :=
  entry_exit_selection twoExitCfg (by decide) ⟨1, by decide, by decide⟩
    ⟨0, by decide, fun u => by
      unfold CFG.Succ twoExitCfg
      rcases u with _ | _ | _ | u <;> simp [List.getD]⟩

end BallLarus

namespace BallLarus

/-- C20, as stated, fails: in the two-block CFG A -> A, A -> B every block has
a predecessor, so the constructor finds no entry and returns no graph. -/
theorem self_loop_counterexample :
    selfLoopCfg.Succ 0 0 ∧ findEntry (countInDegree (initNodes selfLoopCfg)) = none ∧
      Graph.ofCFG selfLoopCfg = none :=
  ⟨by decide, by decide, by decide⟩

/-- C20, amended: for a well-formed CFG with a block without successors and a
block without predecessors, and a self-loop on a block `u` reachable from the
entry, the constructor records the self-loop as a back-edge, leaves no edge
from `u` to `u` in the graph, and adds an edge from `u` to the exit and an edge
from the entry to `u` that refer to the record. -/
theorem self_loop_replaced (cfg : CFG) (hwf : cfg.WF)
    (hexit : ∃ i, i < cfg.length ∧ cfg.getD i [] = [])
    (hentry : ∃ i, i < cfg.length ∧ ∀ u, ¬ cfg.Succ u i)
    (u : Nat) (hu : cfg.Succ u u) :
    ∃ g, Graph.ofCFG cfg = some g ∧
      (Relation.ReflTransGen cfg.Succ g.entrybb u →
        (∃ k b, g.backedges[k]? = some b ∧ b.src = u ∧ b.dest = u ∧
          (∃ t ∈ g.nodes.getD u [], t.next = g.exitbb ∧ t.be = some k) ∧
          (∃ t ∈ g.nodes.getD g.entrybb [], t.next = u ∧ t.be = some k)) ∧
        ¬ Edge g.nodes u u) := by
  obtain ⟨e, x, st, sorted, hB⟩ := build_exists cfg hwf hexit hentry
  refine ⟨finalGraph cfg e x st sorted, hB.ofEq, fun hreach => ?_⟩
  have hreach' : Relation.ReflTransGen (Edge (initNodes cfg)) e u :=
    Relation.ReflTransGen.mono (fun a b h => (edge_initNodes cfg a b).2 h) hreach
  have hblack := dfs_reach_black hB.final u hreach'
  obtain ⟨r, M, hr⟩ := hB.final.ranked
  have hmem : To.mk u 0 none ∈ (initNodes cfg).getD u [] := by
    rw [getD_initNodes]
    exact List.mem_map.2 ⟨u, hu, rfl⟩
  have her : u ∈ st.er u := by
    rcases ((hr u hblack).2 _ hmem).2 with h | ⟨_, h⟩
    · exact h
    · exact absurd h (Nat.lt_irrefl _)
  obtain ⟨b0, hb0, hs0, hd0⟩ := hB.final.ers u u her
  obtain ⟨k, hk⟩ := List.mem_iff_getElem?.1 hb0
  obtain ⟨b, hb, hs, hd⟩ := final_records hB k b0 hk
  obtain ⟨b1, hb1, _, _, ⟨t, ht1, ht2, _⟩, ⟨t', ht1', ht2', _⟩⟩ := final_fields hB k b hb
  rw [hk] at hb1
  injection hb1 with hb1
  subst hb1
  have htm : t ∈ ((finalGraph cfg e x st sorted).nodes.getD b0.src []).filter
      (fun t => t.be == some k) := by rw [ht1]; exact List.mem_singleton.2 rfl
  have htm' : t' ∈ ((finalGraph cfg e x st sorted).nodes.getD e []).filter
      (fun t => t.be == some k) := by rw [ht1']; exact List.mem_singleton.2 rfl
  obtain ⟨m1, m2⟩ := List.mem_filter.1 htm
  obtain ⟨m1', m2'⟩ := List.mem_filter.1 htm'
  rw [hs0] at m1
  rw [hd0] at ht2'
  refine ⟨⟨k, b, hb, by rw [hs, hs0], by rw [hd, hd0], ⟨t, m1, ht2, by simpa using m2⟩,
    ⟨t', m1', ht2', by simpa using m2'⟩⟩, ?_⟩
  rintro ⟨t2, ht2m, ht2n⟩
  have hm : (t2.next, t2.be) ∈ ((finalGraph cfg e x st sorted).nodes.getD u []).map
      (fun t => (t.next, t.be)) := List.mem_map.2 ⟨t2, ht2m, rfl⟩
  rw [final_shape hB u, List.mem_append] at hm
  rcases hm with hm | hm
  · obtain ⟨s, hs1, hs2⟩ := List.mem_map.1 hm
    obtain ⟨_, hs4⟩ := List.mem_filter.1 hs1
    injection hs2 with hs2 _
    rw [hs2, ht2n] at hs4
    have : ¬ u ∈ st.er u := by simpa using hs4
    exact this her
  · obtain ⟨t3, ht3, ht3e⟩ := List.mem_map.1 hm
    obtain ⟨j, b', _, hjb⟩ := (mem_synthAt e x u st.backedges 0 t3).1 ht3
    injection ht3e with hn _
    rcases hjb with ⟨_, rfl⟩ | ⟨heu, _⟩
    · simp only at hn
      rw [ht2n] at hn
      have := hB.sink
      rw [hn] at this
      unfold CFG.Succ at hu
      rw [this] at hu
      cases hu
    · exact hB.noin u (heu ▸ hu)

theorem self_loop_replaced_witness :
    innerSelfLoopCfg.Succ 1 1 ∧
    ∃ g, Graph.ofCFG innerSelfLoopCfg = some g ∧ g.entrybb = 0 ∧
      (∃ k b, g.backedges[k]? = some b ∧ b.src = 1 ∧ b.dest = 1 ∧
        (∃ t ∈ g.nodes.getD 1 [], t.next = g.exitbb ∧ t.be = some k) ∧
        (∃ t ∈ g.nodes.getD g.entrybb [], t.next = 1 ∧ t.be = some k)) ∧
      ¬ Edge g.nodes 1 1 := by
  obtain ⟨g, hg, h⟩ := self_loop_replaced innerSelfLoopCfg (by decide)
    ⟨2, by decide, by decide⟩
    ⟨0, by decide, fun u => by
      unfold CFG.Succ innerSelfLoopCfg
      rcases u with _ | _ | _ | u <;> simp [List.getD]⟩ 1 (by decide)
  have h0 : (Graph.ofCFG innerSelfLoopCfg).map (fun g => g.entrybb) = some 0 := by decide
  rw [hg] at h0
  have he : g.entrybb = 0 := by simpa using h0
  have hreach : Relation.ReflTransGen innerSelfLoopCfg.Succ g.entrybb 1 := by
    rw [he]
    exact Relation.ReflTransGen.single (by decide)
  exact ⟨by decide, g, hg, he, h hreach⟩

end BallLarus

namespace BallLarus

/-! ## The selection loop of `regeneratePath` -/

/-- The selection loop started from an edge within the remaining identifier
ends with the largest increment within the remaining identifier. -/
theorem select_greedy (p : Nat) (ts : List RTo) :
    ∀ best : RTo, best.inc ≤ p →
      (selectEdge p ts best).inc ≤ p ∧
        (selectEdge p ts best = best ∨ selectEdge p ts best ∈ ts) ∧
        best.inc ≤ (selectEdge p ts best).inc ∧
        ∀ t ∈ ts, t.inc ≤ p → t.inc ≤ (selectEdge p ts best).inc := by
  induction ts with
  | nil => intro best h; exact ⟨h, Or.inl rfl, Nat.le_refl _, fun t ht => by cases ht⟩
  | cons t rest ih =>
    intro best h
    rw [selectEdge]
    by_cases hc : t.inc ≤ p ∧ t.inc > best.inc
    · rw [if_pos hc]
      obtain ⟨a1, a2, a3, a4⟩ := ih t hc.1
      refine ⟨a1, ?_, by omega, ?_⟩
      · rcases a2 with a2 | a2
        · exact Or.inr (by rw [a2]; exact List.mem_cons_self _ _)
        · exact Or.inr (List.mem_cons_of_mem _ a2)
      · intro t' ht' hle
        rcases List.mem_cons.1 ht' with rfl | ht'
        · exact a3
        · exact a4 t' ht' hle
    · rw [if_neg hc]
      obtain ⟨a1, a2, a3, a4⟩ := ih best h
      refine ⟨a1, ?_, a3, ?_⟩
      · rcases a2 with a2 | a2
        · exact Or.inl a2
        · exact Or.inr (List.mem_cons_of_mem _ a2)
      · intro t' ht' hle
        rcases List.mem_cons.1 ht' with rfl | ht'
        · have : t'.inc ≤ best.inc := by
            by_contra hh
            exact hc ⟨hle, by omega⟩
          omega
        · exact a4 t' ht' hle

/-- C18, as stated, fails: the selection starts from the first edge whatever
its increment; with the edges of increments 5 and 3 and the remaining
identifier 4 the edge chosen has increment 5. -/
theorem greedy_choice_counterexample :
    chosenEdges (BallLarusRegen.mk 6 0 1 [[RTo.mk 1 5 false, RTo.mk 1 3 false]]) 2 4 =
        some [RTo.mk 1 5 false] ∧ ¬ (5 ≤ 4) :=
  ⟨by decide, by decide⟩

/-- C18, amended: at a step of `regeneratePath` in a node other than the exit
whose first edge has an increment within the remaining identifier `p`, the
edge chosen is one of the edges of the node, its increment is at most `p`, no
edge of the node has a larger increment that is at most `p`, and the loop
continues from the target of the chosen edge with `p` less the increment. -/
theorem greedy_choice (r : BallLarusRegen) (fuel curr p : Nat) (path : List Nat)
    (chosen : List RTo) (t0 : RTo) (ts : List RTo) (hp : p < W64) (hc : curr ≠ r.exitbb)
    (ht : r.tos[curr]? = some (t0 :: ts)) (h0 : t0.inc ≤ p) :
    ∃ c, c ∈ t0 :: ts ∧ c.inc ≤ p ∧ (∀ t ∈ t0 :: ts, t.inc ≤ p → t.inc ≤ c.inc) ∧
      ∃ path', regenLoop r (fuel + 1) curr p path chosen =
        regenLoop r fuel c.dest (p - c.inc) path' (chosen ++ [c]) := by
  obtain ⟨a1, a2, a3, a4⟩ := select_greedy p (t0 :: ts) t0 h0
  refine ⟨selectEdge p (t0 :: ts) t0, ?_, a1, a4, ?_⟩
  · rcases a2 with a2 | a2
    · rw [a2]; exact List.mem_cons_self _ _
    · exact a2
  · rw [regenLoop, if_neg hc, ht]
    simp only
    rw [sub_mod_W64 p _ a1 hp]
    exact ⟨_, rfl⟩

theorem greedy_choice_witness :
    (4 : Nat) < W64 ∧ (0 : Nat) ≠ 3 ∧
      (BallLarusRegen.ofGraph loopGraph).tos[0]? = some [RTo.mk 1 0 false, RTo.mk 1 2 true] ∧
      ∃ c, c ∈ [RTo.mk 1 0 false, RTo.mk 1 2 true] ∧ c.inc ≤ 3 ∧
        (∀ t ∈ [RTo.mk 1 0 false, RTo.mk 1 2 true], t.inc ≤ 3 → t.inc ≤ c.inc) ∧
        ∃ path', regenLoop (BallLarusRegen.ofGraph loopGraph) (4 + 1) 0 3 [] [] =
          regenLoop (BallLarusRegen.ofGraph loopGraph) 4 c.dest (3 - c.inc) path' ([] ++ [c]) :=
  ⟨by decide, by decide, by decide,
    greedy_choice (BallLarusRegen.ofGraph loopGraph) 4 0 3 [] [] (RTo.mk 1 0 false)
      [RTo.mk 1 2 true] (by decide) (by decide) (by decide) (by decide)⟩

end BallLarus

namespace BallLarus

/-! ## Increments as sums of path counts -/

/-- A list that `stamp` leaves unchanged carries the running sums of the path
counts of the targets. -/
theorem stamp_inc (c : Nat → Nat) (es : List To) :
    ∀ acc total, stamp c acc es = (es, total) →
      acc + (es.map (fun t => c t.next)).sum < W64 →
      ∀ j t, es[j]? = some t → t.inc = acc + ((es.take j).map (fun t => c t.next)).sum := by
  induction es with
  | nil => intro acc total _ _ j t h; simp at h
  | cons t0 rest ih =>
    intro acc total h hlt j t hj
    simp only [List.map_cons, List.sum_cons] at hlt
    rw [stamp] at h
    simp only [Prod.mk.injEq, List.cons.injEq] at h
    obtain ⟨⟨h1, h2⟩, h3⟩ := h
    have hmod : (acc + c t0.next) % W64 = acc + c t0.next := Nat.mod_eq_of_lt (by omega)
    rw [hmod] at h2 h3
    cases j with
    | zero =>
      simp only [List.getElem?_cons_zero, Option.some.injEq] at hj
      subst hj
      rw [← h1]
      simp
    | succ j =>
      simp only [List.getElem?_cons_succ] at hj
      have := ih (acc + c t0.next) total (Prod.ext h2 h3) (by omega) j t hj
      rw [this]
      simp only [List.take_succ_cons, List.map_cons, List.sum_cons]
      omega

/-- The path count of a numbered DAG is the number of maximal paths. -/
theorem numbered_count {nodes : List (List To)} {c : Nat → Nat} (hN : Numbered nodes c)
    (u : Nat) (hu : u < nodes.length) (h64 : (maxPaths nodes nodes.length u).length < W64) :
    c u = (maxPaths nodes nodes.length u).length := by
  have hl := congrArg List.length (numbered_sums hN u hu h64)
  rw [List.length_map, List.length_range] at hl
  exact hl.symm

/-- In a numbered DAG in which every node other than `e` has a predecessor, the
bound on the number of maximal paths from `e` holds for every node. -/
theorem numbered_bound {nodes : List (List To)} {c : Nat → Nat} (hN : Numbered nodes c)
    (e : Nat) (h64 : (maxPaths nodes nodes.length e).length < W64)
    (hpred : ∀ v, v < nodes.length → v ≠ e → ∃ u, Edge nodes u v) :
    ∀ v, v < nodes.length → (maxPaths nodes nodes.length v).length < W64 := by
  obtain ⟨R, hR, hRb⟩ := hN.rank
  have key : ∀ k v, v < nodes.length → nodes.length - R v ≤ k →
      (maxPaths nodes nodes.length v).length < W64 := by
    intro k
    induction k with
    | zero =>
      intro v hv hk
      have := hRb v
      omega
    | succ k ih =>
      intro v hv hk
      by_cases hve : v = e
      · rw [hve]; exact h64
      · obtain ⟨u, t, ht, htn⟩ := hpred v hv hve
        have hu : u < nodes.length := by
          by_contra hh
          rw [getD_ge (by omega)] at ht
          cases ht
        have hlt := hR u v ⟨t, ht, htn⟩
        have hbu := ih u hu (by have := hRb u; omega)
        have hne : nodes.getD u [] ≠ [] := by
          intro hh; rw [hh] at ht; cases ht
        have := (numbered_step hN u hu hne hbu).1 t ht
        rw [htn] at this
        exact this
  intro v hv
  exact key _ v hv (Nat.le_refl _)

/-- C17, as stated, fails: in `deadJoinCfg` block 1 has no successors, so its
path count is 1, but `topological_sort` never reaches it because of the edge
from the unreachable block 2, and the second edge of the entry gets the
increment 0. -/
theorem prefix_sum_counterexample :
    ∃ g, Graph.ofCFG deadJoinCfg = some g ∧
      g.nodes.getD 0 [] = [To.mk 1 0 none, To.mk 3 0 none] ∧ g.nodes.getD 1 [] = [] ∧
      (maxPaths g.nodes g.nodes.length 1).length = 1 ∧ (0 : Nat) ≠ 1 :=
  ⟨_, rfl, rfl, rfl, by decide, by decide⟩

/-- C17, amended: for a well-formed CFG with a block without successors in which
every block is reachable from the entry, and whose transformed DAG has fewer
than `2 ^ 64` maximal paths from the entry, the increment of every edge is the
sum of the path counts of the targets of the edges stored before it at the same
node, where the path count of a node is the number of its maximal paths: 1 for
a node without edges and the sum of the path counts of the targets of its
edges otherwise. -/
theorem prefix_sum_increments (cfg : CFG) (e : Nat) (hwf : cfg.WF) (hr : cfg.Rooted e)
    (hexit : ∃ i, i < cfg.length ∧ cfg.getD i [] = []) :
    ∃ g, Graph.ofCFG cfg = some g ∧ g.entrybb = e ∧
      ((maxPaths g.nodes g.nodes.length e).length < W64 →
        ∀ u, u < g.nodes.length →
          (g.nodes.getD u [] = [] → (maxPaths g.nodes g.nodes.length u).length = 1) ∧
          (g.nodes.getD u [] ≠ [] → (maxPaths g.nodes g.nodes.length u).length =
            ((g.nodes.getD u []).map
              (fun s => (maxPaths g.nodes g.nodes.length s.next).length)).sum) ∧
          ∀ j t, (g.nodes.getD u [])[j]? = some t →
            t.inc = (((g.nodes.getD u []).take j).map
              (fun s => (maxPaths g.nodes g.nodes.length s.next).length)).sum) := by
  obtain ⟨x, st, sorted, hB, h1, h2, h3, h4, h5, h6⟩ := rooted_final cfg e hwf hr hexit
  refine ⟨finalGraph cfg e x st sorted, h1, h2, fun h64 u hu => ?_⟩
  have hshape : ∀ u, ((finalGraph cfg e x st sorted).nodes.getD u []).map
      (fun t => (t.next, t.be)) =
      ((dagNodes (initNodes cfg) e x st).getD u []).map (fun t => (t.next, t.be)) :=
    fun u => (incSweep_shape sorted (dagNodes (initNodes cfg) e x st) u).2
  have hpred : ∀ v, v < (finalGraph cfg e x st sorted).nodes.length → v ≠ e →
      ∃ u, Edge (finalGraph cfg e x st sorted).nodes u v := by
    intro v hv hve
    obtain ⟨w, hw⟩ := rooted_pred hB hr v (by rw [← h4]; exact hv) hve
    exact ⟨w, (edge_of_shape hshape w v).2 hw⟩
  have hb := numbered_bound h5 e h64 hpred
  have hcount : ∀ v, v < (finalGraph cfg e x st sorted).nodes.length →
      pathCounts cfg e x st sorted v =
        (maxPaths (finalGraph cfg e x st sorted).nodes
          (finalGraph cfg e x st sorted).nodes.length v).length :=
    fun v hv => numbered_count h5 v hv (hb v hv)
  have hmap : (List.map (fun s => pathCounts cfg e x st sorted s.next)
      ((finalGraph cfg e x st sorted).nodes.getD u [])) =
      List.map (fun s => (maxPaths (finalGraph cfg e x st sorted).nodes
        (finalGraph cfg e x st sorted).nodes.length s.next).length)
        ((finalGraph cfg e x st sorted).nodes.getD u []) := by
    apply List.map_congr_left
    intro t ht
    exact hcount t.next (h5.wf u t ht)
  refine ⟨fun hs => ?_, fun hne => ?_, fun j t hj => ?_⟩
  · rw [← hcount u hu]
    exact h5.leaf u hu hs
  · rw [← hcount u hu, ← (numbered_step h5 u hu hne (hb u hu)).2.1, hmap]
  · have hne : (finalGraph cfg e x st sorted).nodes.getD u [] ≠ [] := by
      intro hh; rw [hh] at hj; cases hj
    obtain ⟨_, hsum, hlt⟩ := numbered_step h5 u hu hne (hb u hu)
    have := stamp_inc _ _ 0 _ (h5.stamped u hu hne) (by rw [Nat.zero_add, hsum]; exact hlt) j t hj
    rw [this, Nat.zero_add, List.map_take, List.map_take, hmap]

theorem prefix_sum_increments_witness :
    ∃ g, Graph.ofCFG loopCfg = some g ∧ g.entrybb = 0 ∧
      (maxPaths g.nodes g.nodes.length 0).length < W64 ∧ 1 < g.nodes.length ∧
      (g.nodes.getD 1 [])[1]? = some (To.mk 3 1 none) ∧
      (To.mk 3 1 none).inc = (((g.nodes.getD 1 []).take 1).map
        (fun s => (maxPaths g.nodes g.nodes.length s.next).length)).sum := by
  obtain ⟨g, hg, he, h⟩ := prefix_sum_increments loopCfg 0 (by decide) loopCfg_rooted
    ⟨3, by decide, by decide⟩
  have hgc := eq_loopGraph hg
  have h64 : (maxPaths g.nodes g.nodes.length 0).length < W64 := by rw [hgc]; decide
  have hu : 1 < g.nodes.length := by rw [hgc]; decide
  have hj : (g.nodes.getD 1 [])[1]? = some (To.mk 3 1 none) := by rw [hgc]; decide
  exact ⟨g, hg, he, h64, hu, hj, (h h64 1 hu).2.2 1 _ hj⟩

end BallLarus

namespace BallLarus

/-! ## The blocks that `regeneratePath` reports -/

theorem select_mem (p : Nat) (ts : List RTo) :
    ∀ best : RTo, selectEdge p ts best = best ∨ selectEdge p ts best ∈ ts := by
  induction ts with
  | nil => intro best; exact Or.inl rfl
  | cons t rest ih =>
    intro best
    rw [selectEdge]
    split
    · rcases ih t with h | h
      · exact Or.inr (by rw [h]; exact List.mem_cons_self _ _)
      · exact Or.inr (List.mem_cons_of_mem _ h)
    · rcases ih best with h | h
      · exact Or.inl h
      · exact Or.inr (List.mem_cons_of_mem _ h)

theorem select_mem_cons (p : Nat) (t0 : RTo) (ts : List RTo) :
    selectEdge p (t0 :: ts) t0 ∈ t0 :: ts := by
  rcases select_mem p (t0 :: ts) t0 with h | h
  · rw [h]; exact List.mem_cons_self _ _
  · exact h

/-- The loop of `regeneratePath` from a node other than the entry, in a decoder
without edges into the entry: the targets of the chosen edges are appended,
except the exit when it is reached by a synthetic edge. -/
theorem regenLoop_report (r : BallLarusRegen)
    (hin : ∀ u, ∀ t ∈ r.tos.getD u [], t.dest ≠ r.entrybb) (f : Nat) :
    ∀ (curr p : Nat) (path : List Nat) (chosen : List RTo) (path' : List Nat)
      (chosen' : List RTo), curr ≠ r.entrybb →
      regenLoop r f curr p path chosen = some (path', chosen') →
      ∃ cs, chosen' = chosen ++ cs ∧ RWalk r curr cs ∧
        path' = path ++ cs.dropLast.map (fun c => c.dest) ++
          (match cs.getLast? with
            | some cl => if cl.fromBE = false then [r.exitbb] else []
            | none => []) := by
  induction f with
  | zero => intro curr p path chosen path' chosen' _ h; simp [regenLoop] at h
  | succ f ih =>
    intro curr p path chosen path' chosen' hce h
    rw [regenLoop] at h
    by_cases hx : curr = r.exitbb
    · rw [if_pos hx] at h
      simp only [Option.some.injEq, Prod.mk.injEq] at h
      obtain ⟨rfl, rfl⟩ := h
      exact ⟨[], by simp, hx, by simp⟩
    · rw [if_neg hx] at h
      cases ht : r.tos[curr]? with
      | none => rw [ht] at h; cases h
      | some row =>
        rw [ht] at h
        cases row with
        | nil => cases h
        | cons t0 ts =>
          simp only at h
          have hrow : r.tos.getD curr [] = t0 :: ts := by
            rw [List.getD_eq_getElem?_getD, ht]; rfl
          have hmem : selectEdge p (t0 :: ts) t0 ∈ r.tos.getD curr [] := by
            rw [hrow]; exact select_mem_cons p t0 ts
          generalize selectEdge p (t0 :: ts) t0 = c at h hmem
          have hce' : ¬ (curr = r.entrybb ∧ c.fromBE = false) := fun hh => hce hh.1
          simp only [if_neg hce'] at h
          obtain ⟨cs, h1, h2, h3⟩ := ih _ _ _ _ _ _ (hin curr c hmem) h
          refine ⟨c :: cs, by rw [h1]; simp, ⟨hx, hmem, h2⟩, ?_⟩
          rw [h3]
          cases cs with
          | nil =>
            have hd : c.dest = r.exitbb := h2
            simp only [List.dropLast_nil, List.map_nil, List.append_nil, List.getLast?_nil,
              List.dropLast_single, List.getLast?_singleton]
            by_cases hb : c.fromBE = false
            · simp [hb, hd]
            · simp [hb, hd]
          | cons c' rest =>
            have hd : c.dest ≠ r.exitbb := h2.1
            simp only [hd, ne_eq, not_false_eq_true, true_or, if_true, List.dropLast_cons₂,
              List.map_cons, List.getLast?_cons_cons, List.append_assoc, List.cons_append,
              List.nil_append]

end BallLarus

namespace BallLarus

/-- The test `curr == entrybb && !fromBE` of `regeneratePath` runs in every
iteration: in `reentryRegen`, a table with an edge into the entry, which the
encoder never writes, the walk for identifier 3 visits the nodes 0, 1, 0, 2
and the vector returned holds the entry twice at its second visit. -/
theorem reentry_report :
    reentryRegen.entrybb ≠ reentryRegen.exitbb ∧
      regenRun reentryRegen 4 3 =
        some ([0, 1, 0, 0, 2], [RTo.mk 1 3 false, RTo.mk 0 0 false, RTo.mk 2 0 false]) ∧
      [0, 1, 0, 0, 2] ≠
        0 :: [RTo.mk 1 3 false, RTo.mk 0 0 false, RTo.mk 2 0 false].map (fun c => c.dest) :=
  ⟨by decide, by decide, by decide⟩

/-- The vector of `regeneratePath` on a decoder whose entry is not its exit and
in which no edge leads to the entry: it consists of the entry, present iff the
first chosen edge is not synthetic, then the targets of the chosen edges other
than the last, in order, then the exit, present iff the last chosen edge,
which leads to the exit, is not synthetic; the chosen edges form a walk from
the entry that stops at its first visit of the exit. -/
theorem regenRun_report (r : BallLarusRegen) (fuel p : Nat) (path : List Nat)
    (chosen : List RTo) (hne : r.entrybb ≠ r.exitbb)
    (hin : ∀ u, ∀ t ∈ r.tos.getD u [], t.dest ≠ r.entrybb)
    (h : regenRun r fuel p = some (path, chosen)) :
    ∃ c0 cl, chosen.head? = some c0 ∧ chosen.getLast? = some cl ∧ cl.dest = r.exitbb ∧
      RWalk r r.entrybb chosen ∧
      path = (if c0.fromBE = false then [r.entrybb] else []) ++
        chosen.dropLast.map (fun c => c.dest) ++
        (if cl.fromBE = false then [r.exitbb] else []) := by
  unfold regenRun at h
  cases fuel with
  | zero => simp [regenLoop] at h
  | succ f =>
    rw [regenLoop, if_neg hne] at h
    cases ht : r.tos[r.entrybb]? with
    | none => rw [ht] at h; cases h
    | some row =>
      rw [ht] at h
      cases row with
      | nil => cases h
      | cons t0 ts =>
        simp only at h
        have hrow : r.tos.getD r.entrybb [] = t0 :: ts := by
          rw [List.getD_eq_getElem?_getD, ht]; rfl
        have hmem : selectEdge p (t0 :: ts) t0 ∈ r.tos.getD r.entrybb [] := by
          rw [hrow]; exact select_mem_cons p t0 ts
        generalize selectEdge p (t0 :: ts) t0 = c at h hmem
        split at h
        · cases h
        · rename_i pr hl
          simp only [if_neg hne, Option.some.injEq, Prod.mk.injEq] at h
          obtain ⟨hp1, hp2⟩ := h
          obtain ⟨cs, h1, h2, h3⟩ := regenLoop_report r hin f _ _ _ _ pr.1 pr.2
            (hin r.entrybb c hmem) hl
          rw [← hp1, ← hp2, h1, h3]
          simp only [List.nil_append, List.singleton_append, true_and]
          cases cs with
          | nil =>
            have hd : c.dest = r.exitbb := h2
            refine ⟨c, c, rfl, rfl, hd, ⟨hne, hmem, h2⟩, ?_⟩
            by_cases hb : c.fromBE = false
            · simp [hb, hd]
            · simp [hb, hd]
          | cons c' rest =>
            have hd : c.dest ≠ r.exitbb := h2.1
            obtain ⟨cl, hcl⟩ : ∃ cl, (c' :: rest).getLast? = some cl :=
              ⟨(c' :: rest).getLast (by simp), List.getLast?_eq_getLast _ _⟩
            have hlast : ∀ (cur : Nat) (l : List RTo), RWalk r cur l → ∀ x, l.getLast? = some x →
                x.dest = r.exitbb := by
              intro cur l
              induction l generalizing cur with
              | nil => intro _ x hx; cases hx
              | cons a l ihl =>
                intro hw x hx
                cases l with
                | nil =>
                  simp only [List.getLast?_singleton, Option.some.injEq] at hx
                  rw [← hx]
                  exact hw.2.2
                | cons b l' =>
                  rw [List.getLast?_cons_cons] at hx
                  exact ihl a.dest hw.2.2 x hx
            refine ⟨c, cl, rfl, by rw [List.getLast?_cons_cons]; exact hcl,
              hlast _ _ h2 cl hcl, ⟨hne, hmem, h2⟩, ?_⟩
            rw [hcl]
            by_cases hb : c.fromBE = false
            · simp [hb, hd]
            · simp [hb, hd]

end BallLarus

namespace BallLarus

/-- C13, as stated, fails: `twoEntryCfg` has two blocks without predecessors,
0 and 3, and the pass instruments it all the same: it creates an "increment"
block for the edge from 0 to 2, and the run through that edge calls
`__increment_path_count`. -/
theorem malformed_counterexample :
    (∀ u, ¬ twoEntryCfg.Succ u 0) ∧ (∀ u, ¬ twoEntryCfg.Succ u 3) ∧
      ∃ g, Graph.ofCFG twoEntryCfg = some g ∧
        (instrument g twoEntryCfg).added = [NewBlock.mk 1 none 2] ∧
        instrument g twoEntryCfg ≠ initFunc twoEntryCfg ∧
        (run g twoEntryCfg [1, 0]).map (fun s => s.calls) = some [(1, [0, 2, 5])] := by
  refine ⟨?_, ?_, _, rfl, rfl, by decide, rfl⟩
  · intro u
    unfold CFG.Succ twoEntryCfg
    rcases u with _ | _ | _ | _ | _ | _ | u <;> simp [List.getD]
  · intro u
    unfold CFG.Succ twoEntryCfg
    rcases u with _ | _ | _ | _ | _ | _ | u <;> simp [List.getD]

/-- C13, amended: the pass does not reject a CFG with several blocks without
predecessors. For every well-formed CFG with a block without successors and at
least one block without predecessors the constructor returns a graph, its
entry is the first block without predecessors, and every run of the
instrumented function from that entry to the exit calls
`__increment_path_count`. -/
theorem malformed_not_rejected (cfg : CFG) (hwf : cfg.WF)
    (hexit : ∃ i, i < cfg.length ∧ cfg.getD i [] = [])
    (hentry : ∃ i, i < cfg.length ∧ ∀ u, ¬ cfg.Succ u i) :
    ∃ g, Graph.ofCFG cfg = some g ∧
      (∀ j, j < cfg.length → (∀ u, ¬ cfg.Succ u j) → g.entrybb ≤ j) ∧
      ∀ cs, cfgWalk cfg g.entrybb cs = some g.exitbb →
        ∃ s, run g cfg cs = some s ∧ s.calls ≠ [] := by
  obtain ⟨e, x, st, sorted, hB⟩ := build_exists cfg hwf hexit hentry
  refine ⟨finalGraph cfg e x st sorted, hB.ofEq, fun j hj hin => build_entry_min hB j hj hin,
    fun cs hcs => ?_⟩
  obtain ⟨s1, hs1⟩ := exec_total hB cs e x (RunState.mk 0 [] []) hcs
  refine ⟨enter x x s1, hs1, ?_⟩
  simp [enter]

theorem malformed_not_rejected_witness :
    ∃ g s, Graph.ofCFG twoEntryCfg = some g ∧ g.entrybb = 0 ∧
      cfgWalk twoEntryCfg g.entrybb [1, 0] = some g.exitbb ∧
      run g twoEntryCfg [1, 0] = some s ∧ s.calls ≠ [] := by
  obtain ⟨g, hg, _, h⟩ := malformed_not_rejected twoEntryCfg (by decide)
    ⟨5, by decide, by decide⟩
    ⟨3, by decide, fun u => by
      unfold CFG.Succ twoEntryCfg
      rcases u with _ | _ | _ | _ | _ | _ | u <;> simp [List.getD]⟩
  have h0 : (Graph.ofCFG twoEntryCfg).map (fun g => (g.entrybb, g.exitbb)) = some (0, 5) := by
    decide
  rw [hg] at h0
  simp only [Option.map_some', Option.some.injEq, Prod.mk.injEq] at h0
  have hw : cfgWalk twoEntryCfg g.entrybb [1, 0] = some g.exitbb := by
    rw [h0.1, h0.2]; decide
  obtain ⟨s, hs, hc⟩ := h [1, 0] hw
  exact ⟨g, s, hg, h0.1, hw, hs, hc⟩

end BallLarus

namespace BallLarus

/-! ## The loops of `output` -/

theorem countP_lt_of_imp {α : Type} (p q : α → Bool) (l : List α)
    (himp : ∀ x ∈ l, p x = true → q x = true) (hex : ∃ x ∈ l, q x = true ∧ p x = false) :
    l.countP p < l.countP q := by
  induction l with
  | nil => obtain ⟨x, hx, _⟩ := hex; cases hx
  | cons a l ih =>
    have hle : l.countP p ≤ l.countP q :=
      List.countP_mono_left (fun x hx => himp x (List.mem_cons_of_mem _ hx))
    obtain ⟨x, hx, hq, hp⟩ := hex
    rw [List.countP_cons, List.countP_cons]
    rcases List.mem_cons.1 hx with rfl | hx
    · simp [hq, hp]; omega
    · have := ih (fun x hx => himp x (List.mem_cons_of_mem _ hx)) ⟨x, hx, hq, hp⟩
      by_cases hpa : p a = true
      · simp [hpa, himp a (List.mem_cons_self _ _) hpa]; omega
      · by_cases hqa : q a = true
        · simp [hpa, hqa]; omega
        · simp [hpa, hqa]; omega

/-- The loop that skips the observed identifiers stops at the first
identifier from `n` on that is not a key of the map. -/
theorem skipObserved_spec (observed : List (Nat × Nat))
    (hkeys : ∀ kv ∈ observed, kv.1 + 1 < W64) (f : Nat) :
    ∀ n, observed.countP (fun kv => decide (n ≤ kv.1)) < f →
      ∃ m, skipObserved observed f n = some m ∧ n ≤ m ∧
        observed.any (fun kv => kv.1 == m) = false ∧
        ∀ i, n ≤ i → i < m → observed.any (fun kv => kv.1 == i) = true := by
  induction f with
  | zero => intro n h; omega
  | succ f ih =>
    intro n h
    rw [skipObserved]
    by_cases hk : observed.any (fun kv => kv.1 == n) = true
    · rw [if_pos hk]
      obtain ⟨kv, hkv, hkn⟩ := List.any_eq_true.1 hk
      have hkn' : kv.1 = n := by simpa using hkn
      have hmod : (n + 1) % W64 = n + 1 :=
        Nat.mod_eq_of_lt (by have := hkeys kv hkv; omega)
      rw [hmod]
      have hlt : observed.countP (fun kv => decide (n + 1 ≤ kv.1)) <
          observed.countP (fun kv => decide (n ≤ kv.1)) := by
        apply countP_lt_of_imp
        · intro x _ hx
          simp only [decide_eq_true_eq] at hx ⊢
          omega
        · exact ⟨kv, hkv, by simp [hkn'], by simp [hkn']⟩
      obtain ⟨m, h1, h2, h3, h4⟩ := ih (n + 1) (by omega)
      refine ⟨m, h1, by omega, h3, fun i hi1 hi2 => ?_⟩
      by_cases hin : i = n
      · rw [hin]; exact hk
      · exact h4 i (by omega) hi2
    · rw [if_neg hk]
      exact ⟨n, rfl, Nat.le_refl _, Bool.eq_false_iff.2 hk, fun i h1 h2 => by omega⟩

end BallLarus

namespace BallLarus

theorem printRecord_some (threshold : Nat) (s : OutState) (pathId : Nat) (path : List Nat)
    (cnt : Nat) (h : path ≠ []) :
    printRecord threshold s pathId path cnt =
      some (OutState.mk (s.records ++ [Record.mk pathId path cnt])
        (s.currColdPaths + (if cnt ≥ threshold then 0 else 1))) := by
  cases path with
  | nil => exact absurd rfl h
  | cons a l => rfl

/-- The first loop of `output`: one record per entry of the map, and one unit
of `currColdPaths` per count below the threshold. -/
theorem outputObserved_spec (r : BallLarusRegen) (fuel threshold : Nat)
    (observed : List (Nat × Nat))
    (hreg : ∀ kv ∈ observed, ∃ path, regeneratePath r fuel kv.1 = some path ∧ path ≠ []) :
    ∀ s, ∃ s', outputObserved r fuel threshold observed s = some s' ∧
      s'.records = s.records ++ observed.map
        (fun kv => Record.mk kv.1 ((regeneratePath r fuel kv.1).getD []) kv.2) ∧
      s'.currColdPaths = s.currColdPaths +
        observed.countP (fun kv => decide (kv.2 < threshold)) := by
  induction observed with
  | nil => intro s; exact ⟨s, rfl, by simp, by simp⟩
  | cons kv rest ih =>
    intro s
    obtain ⟨path, hp, hne⟩ := hreg kv (List.mem_cons_self _ _)
    obtain ⟨s', h1, h2, h3⟩ := ih (fun kv hkv => hreg kv (List.mem_cons_of_mem _ hkv))
      (OutState.mk (s.records ++ [Record.mk kv.1 path kv.2])
        (s.currColdPaths + (if kv.2 ≥ threshold then 0 else 1)))
    refine ⟨s', ?_, ?_, ?_⟩
    · rw [outputObserved, hp]
      simp only
      rw [printRecord_some _ _ _ _ _ hne]
      exact h1
    · rw [h2]
      simp [hp]
    · rw [h3, List.countP_cons]
      by_cases hc : kv.2 < threshold
      · have : ¬ kv.2 ≥ threshold := by omega
        simp [hc, this]
        omega
      · have : kv.2 ≥ threshold := by omega
        simp [hc, this]

/-- The second loop of `output` for a threshold of at least 1: it samples the
identifiers below `numPath` that are not keys of the map, in increasing order,
until `currColdPaths` reaches `numColdPaths`. -/
theorem sampleCold_spec (r : BallLarusRegen) (fuel threshold numColdPaths : Nat)
    (observed : List (Nat × Nat)) (hth : 1 ≤ threshold) (hnp : r.numPath < W64)
    (hkeys : ∀ kv ∈ observed, kv.1 + 1 < W64)
    (hreg : ∀ i, i < r.numPath → ∃ path, regeneratePath r fuel i = some path ∧ path ≠ [])
    (f : Nat) :
    ∀ (n : Nat) (s : OutState), n ≤ r.numPath → r.numPath - n < f →
      ∃ s', sampleCold r fuel threshold numColdPaths observed f n s = some s' ∧
        s'.records = s.records ++
          ((((List.range' n (r.numPath - n)).filter
            (fun i => !observed.any (fun kv => kv.1 == i))).take
              (numColdPaths - s.currColdPaths)).map
            (fun i => Record.mk i ((regeneratePath r fuel i).getD []) 0)) := by
  induction f with
  | zero => intro n s _ h; omega
  | succ f ih =>
    intro n s hn hf
    rw [sampleCold]
    by_cases hc : s.currColdPaths < numColdPaths
    · rw [if_pos hc]
      obtain ⟨m, h1, h2, h3, h4⟩ := skipObserved_spec observed hkeys (observed.length + 1) n
        (by have := List.countP_le_length (fun kv : Nat × Nat => decide (n ≤ kv.1))
              (l := observed); omega)
      rw [h1]
      simp only
      have hsplit : List.range' n (r.numPath - n) =
          List.range' n (min m r.numPath - n) ++
            List.range' (min m r.numPath) (r.numPath - min m r.numPath) := by
        have := List.range'_append_1 n (min m r.numPath - n) (r.numPath - min m r.numPath)
        rw [show n + (min m r.numPath - n) = min m r.numPath by omega] at this
        rw [this]
        congr 1
        omega
      have hfirst : (List.range' n (min m r.numPath - n)).filter
          (fun i => !observed.any (fun kv => kv.1 == i)) = [] := by
        apply filter_eq_nil_of_forall
        intro i hi
        rw [List.mem_range'_1] at hi
        rw [h4 i hi.1 (by omega)]
        rfl
      by_cases hm : m ≥ r.numPath
      · rw [if_pos hm]
        refine ⟨s, rfl, ?_⟩
        rw [hsplit, List.filter_append, hfirst, Nat.min_eq_right hm, Nat.sub_self]
        simp
      · rw [if_neg hm]
        have hmlt : m < r.numPath := by omega
        obtain ⟨path, hp, hne⟩ := hreg m hmlt
        rw [hp]
        simp only
        rw [printRecord_some _ _ _ _ _ hne]
        simp only
        have hmod : (m + 1) % W64 = m + 1 := Nat.mod_eq_of_lt (by omega)
        rw [hmod]
        have h0 : ¬ (0 ≥ threshold) := by omega
        rw [if_neg h0]
        obtain ⟨s', a1, a2⟩ := ih (m + 1)
          (OutState.mk (s.records ++ [Record.mk m path 0]) (s.currColdPaths + 1)) (by omega)
          (by omega)
        refine ⟨s', a1, ?_⟩
        rw [a2, hsplit, List.filter_append, hfirst, Nat.min_eq_left (by omega)]
        have hr : List.range' m (r.numPath - m) =
            m :: List.range' (m + 1) (r.numPath - (m + 1)) := by
          rw [show r.numPath - m = (r.numPath - (m + 1)) + 1 by omega, List.range'_succ]
        rw [hr, List.filter_cons]
        simp only [h3, Bool.not_false, if_true, List.nil_append]
        rw [show numColdPaths - s.currColdPaths = (numColdPaths - (s.currColdPaths + 1)) + 1
          by omega, List.take_succ_cons, List.map_cons, hp]
        simp
    · rw [if_neg hc]
      refine ⟨s, rfl, ?_⟩
      rw [show numColdPaths - s.currColdPaths = 0 by omega]
      simp

end BallLarus

namespace BallLarus

/-- C12, as stated, fails: with `hot_path_threshold = 0` a record with count 0
is classified as hot and `currColdPaths` never grows; for the artifact of the
simple loop, an empty map and `numColdPaths = 1`, `output` writes four records
with count 0. -/
theorem cold_path_sampling_counterexample :
    (output (BallLarusRegen.ofGraph loopGraph) 4 0 1 []).map
        (fun s => s.records.map (fun x => (x.pathId, x.cnt))) =
      some [(0, 0), (1, 0), (2, 0), (3, 0)] ∧ ¬ ([(0, 0), (1, 0), (2, 0), (3, 0)].length ≤ 1) :=
  ⟨by decide, by decide⟩

/-- C12, amended: for `hot_path_threshold` at least 1, a map that does not hold
the identifier `2 ^ 64 - 1`, and a decoder on which `regeneratePath` returns a
non-empty vector for every key of the map and every identifier below
`numPath`, `output(numColdPaths)` returns; it writes one record per entry of the
map and then records with count 0 for the identifiers below `numPath` that are
not keys of the map, taken in increasing order, as many as `numColdPaths` less
the number of entries with a count below the threshold allows. Hence the
sampled identifiers are strictly increasing, below `numPath`, not keys, and at
most `numColdPaths` many. -/
theorem cold_path_sampling (r : BallLarusRegen) (fuel threshold numColdPaths : Nat)
    (observed : List (Nat × Nat)) (hth : 1 ≤ threshold) (hnp : r.numPath < W64)
    (hkeys : ∀ kv ∈ observed, kv.1 + 1 < W64)
    (hreg : ∀ i, (i < r.numPath ∨ ∃ kv ∈ observed, kv.1 = i) →
      ∃ path, regeneratePath r fuel i = some path ∧ path ≠ []) :
    ∃ s ids, output r fuel threshold numColdPaths observed = some s ∧
      s.records =
        observed.map (fun kv => Record.mk kv.1 ((regeneratePath r fuel kv.1).getD []) kv.2) ++
          ids.map (fun i => Record.mk i ((regeneratePath r fuel i).getD []) 0) ∧
      ids = ((List.range r.numPath).filter
          (fun i => !observed.any (fun kv => kv.1 == i))).take
        (numColdPaths - observed.countP (fun kv => decide (kv.2 < threshold))) ∧
      ids.length ≤ numColdPaths ∧ ids.Pairwise (fun a b => a < b) ∧
      ∀ i ∈ ids, i < r.numPath ∧ ∀ kv ∈ observed, kv.1 ≠ i := by
  obtain ⟨s1, h1, h2, h3⟩ := outputObserved_spec r fuel threshold observed
    (fun kv hkv => hreg kv.1 (Or.inr ⟨kv, hkv, rfl⟩)) (OutState.mk [] 0)
  obtain ⟨s2, a1, a2⟩ := sampleCold_spec r fuel threshold numColdPaths observed hth hnp hkeys
    (fun i hi => hreg i (Or.inl hi)) (r.numPath + 1) 0 s1 (Nat.zero_le _) (by omega)
  simp only [Nat.zero_add] at h3
  rw [Nat.sub_zero, ← List.range_eq_range', h3] at a2
  refine ⟨s2, _, ?_, ?_, rfl, ?_, ?_, ?_⟩
  · rw [output, h1]
    exact a1
  · rw [a2, h2]
    rfl
  · exact Nat.le_trans (List.length_take_le _ _) (Nat.sub_le _ _)
  · exact ((List.pairwise_lt_range _).sublist (List.filter_sublist _)).sublist
      (List.take_sublist _ _)
  · intro i hi
    have hf := List.mem_of_mem_take hi
    obtain ⟨hr, hk⟩ := List.mem_filter.1 hf
    refine ⟨List.mem_range.1 hr, fun kv hkv hkn => ?_⟩
    have : observed.any (fun kv => kv.1 == i) = true :=
      List.any_eq_true.2 ⟨kv, hkv, by simp [hkn]⟩
    rw [this] at hk
    cases hk

theorem cold_path_sampling_witness :
    (1 : Nat) ≤ 1 ∧ (BallLarusRegen.ofGraph loopGraph).numPath < W64 ∧
      ∃ s ids, output (BallLarusRegen.ofGraph loopGraph) 4 1 3 [(2, 1), (0, 5)] = some s ∧
        s.records =
          [(2, 1), (0, 5)].map (fun kv => Record.mk kv.1
              ((regeneratePath (BallLarusRegen.ofGraph loopGraph) 4 kv.1).getD []) kv.2) ++
            ids.map (fun i => Record.mk i
              ((regeneratePath (BallLarusRegen.ofGraph loopGraph) 4 i).getD []) 0) ∧
        ids = [1, 3] ∧ ids.length ≤ 3 := by
  have hnp : (BallLarusRegen.ofGraph loopGraph).numPath = 4 := rfl
  have hreg : ∀ i, (i < (BallLarusRegen.ofGraph loopGraph).numPath ∨
      ∃ kv ∈ [((2 : Nat), (1 : Nat)), (0, 5)], kv.1 = i) →
      ∃ path, regeneratePath (BallLarusRegen.ofGraph loopGraph) 4 i = some path ∧ path ≠ [] := by
    intro i h
    have hi : i < 4 := by
      rcases h with h | ⟨kv, hkv, rfl⟩
      · rw [hnp] at h; exact h
      · simp only [List.mem_cons, List.mem_singleton, List.not_mem_nil, or_false] at hkv
        rcases hkv with rfl | rfl <;> decide
    interval_cases i
    · exact ⟨[0, 1, 2], by decide, by decide⟩
    · exact ⟨[0, 1, 3], by decide, by decide⟩
    · exact ⟨[1, 2], by decide, by decide⟩
    · exact ⟨[1, 3], by decide, by decide⟩
  obtain ⟨s, ids, h1, h2, h3, h4, _⟩ := cold_path_sampling (BallLarusRegen.ofGraph loopGraph)
    4 1 3 [(2, 1), (0, 5)] (by decide) (by rw [hnp]; decide)
    (by
      intro kv hkv
      simp only [List.mem_cons, List.mem_singleton, List.not_mem_nil, or_false] at hkv
      rcases hkv with rfl | rfl <;> decide)
    hreg
  have hids : ids = [1, 3] := by
    rw [h3, hnp]
    decide
  exact ⟨by decide, by rw [hnp]; decide, s, ids, h1, h2, hids, h4⟩

end BallLarus

namespace BallLarus

/-! ## Decimal numbers written and read back -/

theorem digitChar_spec : ∀ m, m < 10 →
    (Nat.digitChar m).isDigit = true ∧ (Nat.digitChar m).toNat - 48 = m ∧
      isSpace (Nat.digitChar m) = false ∧ Nat.digitChar m ≠ newline := by
  decide

theorem toDigitsCore_spec (fuel : Nat) :
    ∀ n ds, n < fuel →
      ∃ l, Nat.toDigitsCore 10 fuel n ds = l ++ ds ∧ l ≠ [] ∧
        (∀ c ∈ l, c.isDigit = true ∧ isSpace c = false ∧ c ≠ newline) ∧
        l.foldl (fun acc c => 10 * acc + (c.toNat - 48)) 0 = n := by
  induction fuel with
  | zero => intro n ds h; omega
  | succ fuel ih =>
    intro n ds h
    have hd := digitChar_spec (n % 10) (Nat.mod_lt _ (by omega))
    rw [Nat.toDigitsCore]
    by_cases h0 : n / 10 = 0
    · rw [if_pos h0]
      refine ⟨[Nat.digitChar (n % 10)], rfl, by simp, ?_, ?_⟩
      · intro c hc
        rw [List.mem_singleton] at hc
        rw [hc]
        exact ⟨hd.1, hd.2.2.1, hd.2.2.2⟩
      · simp only [List.foldl_cons, List.foldl_nil, hd.2.1]
        omega
    · rw [if_neg h0]
      obtain ⟨l, h1, h2, h3, h4⟩ := ih (n / 10) (Nat.digitChar (n % 10) :: ds) (by omega)
      refine ⟨l ++ [Nat.digitChar (n % 10)], by rw [h1]; simp, by simp, ?_, ?_⟩
      · intro c hc
        rcases List.mem_append.1 hc with hc | hc
        · exact h3 c hc
        · rw [List.mem_singleton] at hc
          rw [hc]
          exact ⟨hd.1, hd.2.2.1, hd.2.2.2⟩
      · rw [List.foldl_append, h4]
        simp only [List.foldl_cons, List.foldl_nil, hd.2.1]
        omega

/-- The decimal digits of `n`: not empty, digits only, with the value `n`. -/
theorem decimal_spec (n : Nat) :
    decimal n ≠ [] ∧ (∀ c ∈ decimal n, c.isDigit = true ∧ isSpace c = false ∧ c ≠ newline) ∧
      (decimal n).foldl (fun acc c => 10 * acc + (c.toNat - 48)) 0 = n := by
  obtain ⟨l, h1, h2, h3, h4⟩ := toDigitsCore_spec (n + 1) n [] (by omega)
  have : decimal n = l := by
    unfold decimal Nat.toDigits
    rw [h1, List.append_nil]
  rw [this]
  exact ⟨h2, h3, h4⟩

theorem dropWhile_append_stop {α : Type} (p : α → Bool) (l : List α) (a : α) (rest : List α)
    (hl : ∀ c ∈ l, p c = true) (ha : p a = false) :
    (l ++ a :: rest).dropWhile p = a :: rest := by
  induction l with
  | nil => simp [List.dropWhile, ha]
  | cons c l ih =>
    rw [List.cons_append, List.dropWhile_cons, if_pos (hl c (List.mem_cons_self _ _))]
    exact ih (fun c hc => hl c (List.mem_cons_of_mem _ hc))

theorem dropWhile_append_all {α : Type} (p : α → Bool) (l rest : List α)
    (hl : ∀ c ∈ l, p c = true) :
    (l ++ rest).dropWhile p = rest.dropWhile p := by
  induction l with
  | nil => rfl
  | cons c l ih =>
    rw [List.cons_append, List.dropWhile_cons, if_pos (hl c (List.mem_cons_self _ _))]
    exact ih (fun c hc => hl c (List.mem_cons_of_mem _ hc))

theorem takeWhile_append_all {α : Type} (p : α → Bool) (l rest : List α)
    (hl : ∀ c ∈ l, p c = true) :
    (l ++ rest).takeWhile p = l ++ rest.takeWhile p := by
  induction l with
  | nil => rfl
  | cons c l ih =>
    rw [List.cons_append, List.takeWhile_cons, if_pos (hl c (List.mem_cons_self _ _)),
      ih (fun c hc => hl c (List.mem_cons_of_mem _ hc))]
    rfl

/-- Reading back a written number, in front of text that does not start with
a digit and behind white space. -/
theorem readNat_decimal (pre : List Char) (n : Nat) (rest : List Char)
    (hpre : ∀ c ∈ pre, isSpace c = true) (hn : n < W64)
    (hrest : rest.takeWhile Char.isDigit = []) :
    readNat (pre ++ decimal n ++ rest) = some (n, rest) := by
  obtain ⟨h1, h2, h3⟩ := decimal_spec n
  have hdrop : (pre ++ decimal n ++ rest).dropWhile isSpace = decimal n ++ rest := by
    rw [List.append_assoc, dropWhile_append_all _ _ _ hpre]
    cases hd : decimal n with
    | nil => exact absurd hd h1
    | cons c l =>
      rw [List.cons_append, List.dropWhile_cons]
      have := (h2 c (by rw [hd]; exact List.mem_cons_self _ _)).2.1
      simp [this]
  have htake : (decimal n ++ rest).takeWhile Char.isDigit = decimal n := by
    rw [takeWhile_append_all _ _ _ (fun c hc => (h2 c hc).1), hrest, List.append_nil]
  have hdrop2 : (decimal n ++ rest).dropWhile Char.isDigit = rest := by
    rw [dropWhile_append_all _ _ _ (fun c hc => (h2 c hc).1)]
    cases rest with
    | nil => rfl
    | cons c r =>
      rw [List.takeWhile_cons] at hrest
      rw [List.dropWhile_cons]
      split at hrest
      · cases hrest
      · rename_i hc
        rw [if_neg hc]
  unfold readNat
  simp only [hdrop, htake, hdrop2, h3]
  rw [if_neg h1, if_pos hn]

end BallLarus

namespace BallLarus

/-! ## One edge line written and read back -/

theorem readChar_cons (c : Char) (rest : List Char) (hc : isSpace c = false) :
    readChar (c :: rest) = some (c, rest) := by
  unfold readChar
  rw [List.dropWhile_cons]
  simp [hc]

theorem readEdgeLine_text (a b c : Nat) (w : List Char) (ha : a < W64) (hb : b < W64)
    (hc : c < W64) (hw : readWord (' ' :: w) = some (w, [])) :
    readEdgeLine (decimal a ++ ',' :: ' ' :: (decimal b ++ ',' :: ' ' ::
        (decimal c ++ ',' :: ' ' :: w))) =
      some (EdgeLine.mk a b c (decide (w = "true".toList))) := by
  have hcomma : isSpace ',' = false := by decide
  have hblank : ∀ x ∈ [' '], isSpace x = true := by decide
  have hstop : ∀ rest : List Char, (',' :: rest).takeWhile Char.isDigit = [] := by
    intro rest
    rw [List.takeWhile_cons]
    have : Char.isDigit ',' = false := by decide
    simp [this]
  have h1 := readNat_decimal [] a (',' :: ' ' :: (decimal b ++ ',' :: ' ' ::
    (decimal c ++ ',' :: ' ' :: w))) (fun x hx => by cases hx) ha (hstop _)
  have h2 := readNat_decimal [' '] b (',' :: ' ' :: (decimal c ++ ',' :: ' ' :: w))
    hblank hb (hstop _)
  have h3 := readNat_decimal [' '] c (',' :: ' ' :: w) hblank hc (hstop _)
  simp only [List.nil_append, List.singleton_append, List.cons_append] at h1 h2 h3
  unfold readEdgeLine
  rw [h1]
  simp only
  rw [readChar_cons _ _ hcomma]
  simp only
  rw [h2]
  simp only
  rw [readChar_cons _ _ hcomma]
  simp only
  rw [h3]
  simp only
  rw [readChar_cons _ _ hcomma]
  simp only
  rw [hw]

/-- The line written for an edge is read back as that edge. -/
theorem readEdgeLine_edgeText (i : Nat) (t : To) (hi : i < W64) (hn : t.next < W64)
    (hc : t.inc < W64) :
    readEdgeLine (edgeText i t) = some (EdgeLine.mk i t.next t.inc t.be.isSome) := by
  have hsep : ", ".toList = [',', ' '] := rfl
  cases hbe : t.be.isSome with
  | true =>
    have := readEdgeLine_text i t.next t.inc "true".toList hi hn hc (by decide)
    unfold edgeText
    rw [hbe, hsep]
    simp only [List.append_assoc, List.cons_append, List.nil_append, if_true]
    rw [this]
    simp
  | false =>
    have := readEdgeLine_text i t.next t.inc "false".toList hi hn hc (by decide)
    unfold edgeText
    rw [hbe, hsep]
    simp only [List.append_assoc, List.cons_append, List.nil_append, Bool.false_eq_true,
      if_false]
    rw [this]
    simp only [Option.some.injEq, EdgeLine.mk.injEq, true_and, decide_eq_false_iff_not]
    decide

theorem edgeText_clean (i : Nat) (t : To) :
    edgeText i t ≠ [] ∧ ∀ c ∈ edgeText i t, c ≠ newline := by
  obtain ⟨h1, h2, _⟩ := decimal_spec i
  obtain ⟨_, h3, _⟩ := decimal_spec t.next
  obtain ⟨_, h4, _⟩ := decimal_spec t.inc
  constructor
  · unfold edgeText
    simp [h1]
  · intro c hc
    unfold edgeText at hc
    simp only [List.mem_append] at hc
    rcases hc with ((((((hc | hc) | hc) | hc) | hc) | hc) | hc)
    · exact (h2 c hc).2.2
    · have : ∀ x ∈ ", ".toList, x ≠ newline := by decide
      exact this c hc
    · exact (h3 c hc).2.2
    · have : ∀ x ∈ ", ".toList, x ≠ newline := by decide
      exact this c hc
    · exact (h4 c hc).2.2
    · have : ∀ x ∈ ", ".toList, x ≠ newline := by decide
      exact this c hc
    · split at hc
      · have : ∀ x ∈ "true".toList, x ≠ newline := by decide
        exact this c hc
      · have : ∀ x ∈ "false".toList, x ≠ newline := by decide
        exact this c hc

end BallLarus

namespace BallLarus

/-! ## Lines -/

theorem splitLines_append (l rest : List Char) (hl : ∀ c ∈ l, c ≠ newline) :
    splitLines (l ++ newline :: rest) = l :: splitLines rest := by
  induction l with
  | nil => simp [splitLines]
  | cons c l ih =>
    rw [List.cons_append, splitLines, if_neg (hl c (List.mem_cons_self _ _)),
      ih (fun c hc => hl c (List.mem_cons_of_mem _ hc))]

theorem splitLines_lines (ls : List (List Char)) (rest : List Char)
    (hls : ∀ l ∈ ls, ∀ c ∈ l, c ≠ newline) :
    splitLines (ls.flatMap (fun l => l ++ [newline]) ++ rest) = ls ++ splitLines rest := by
  induction ls with
  | nil => rfl
  | cons l ls ih =>
    rw [List.flatMap_cons, List.append_assoc, List.append_assoc, List.singleton_append,
      splitLines_append l _ (hls l (List.mem_cons_self _ _)),
      ih (fun l hl => hls l (List.mem_cons_of_mem _ hl))]
    rfl

/-- The loop that reads the edge lines, on the lines written for the edges
`ps` followed by an empty line. -/
theorem readEdges_lines (ps : List (Nat × To)) (more : List (List Char))
    (hps : ∀ p ∈ ps, p.1 < W64 ∧ p.2.next < W64 ∧ p.2.inc < W64) :
    ∀ tos, readEdges (ps.map (fun p => edgeText p.1 p.2) ++ [] :: more) tos =
      some ((ps.map (fun p => EdgeLine.mk p.1 p.2.next p.2.inc p.2.be.isSome)).foldl
        addEdge tos) := by
  induction ps with
  | nil => intro tos; simp [readEdges]
  | cons p ps ih =>
    intro tos
    obtain ⟨h1, h2, h3⟩ := hps p (List.mem_cons_self _ _)
    rw [List.map_cons, List.cons_append, readEdges, if_neg (edgeText_clean p.1 p.2).1,
      readEdgeLine_edgeText p.1 p.2 h1 h2 h3]
    simp only
    rw [ih (fun p hp => hps p (List.mem_cons_of_mem _ hp))]
    rfl

theorem afterColon_spec (q s : List Char) (hq : ∀ c ∈ q, (c != ':') = true) :
    afterColon (q ++ ':' :: ' ' :: s) = some s := by
  have hmem : ':' ∈ q ++ ':' :: ' ' :: s := by simp
  have htake : (q ++ ':' :: ' ' :: s).takeWhile (fun c => c != ':') = q := by
    rw [takeWhile_append_all _ _ _ hq]
    simp [List.takeWhile]
  unfold afterColon
  simp only [hmem, if_true, htake]
  rw [if_neg (by simp), List.drop_append_eq_append_drop]
  simp

/-- A header line written and read back. -/
theorem readHeader_spec (q : List Char) (n : Nat) (hq : ∀ c ∈ q, (c != ':') = true)
    (hn : n < W64) : readHeader (q ++ ':' :: ' ' :: decimal n) = some n := by
  unfold readHeader
  rw [afterColon_spec q _ hq]
  have := readNat_decimal [] n [] (fun c hc => by cases hc) hn rfl
  simp only [List.nil_append, List.append_nil] at this
  simp only
  rw [this]
  rfl

end BallLarus

namespace BallLarus

/-! ## The artifact written and read back -/

theorem edges_text (nodes : List (List To)) (n : Nat) :
    (List.range n).flatMap (fun i => (nodes.getD i []).flatMap (writeEdge i)) =
      (((List.range n).flatMap (fun i => (nodes.getD i []).map (fun t => (i, t)))).map
        (fun p => edgeText p.1 p.2)).flatMap (fun l => l ++ [newline]) := by
  rw [List.flatMap_map, List.flatMap_assoc]
  apply List.flatMap_congr
  intro i _
  rw [List.flatMap_map]
  rfl

theorem edges_lines (nodes : List (List To)) (n : Nat) :
    (List.range n).flatMap (fun i => (nodes.getD i []).map
        (fun t => EdgeLine.mk i t.next t.inc t.be.isSome)) =
      ((List.range n).flatMap (fun i => (nodes.getD i []).map (fun t => (i, t)))).map
        (fun p => EdgeLine.mk p.1 p.2.next p.2.inc p.2.be.isSome) := by
  rw [List.map_flatMap]
  apply List.flatMap_congr
  intro i _
  rw [List.map_map]
  rfl

theorem header_clean (q : List Char) (n : Nat) (hq : ∀ c ∈ q, c ≠ newline) :
    ∀ c ∈ q ++ decimal n, c ≠ newline := by
  intro c hc
  rcases List.mem_append.1 hc with hc | hc
  · exact hq c hc
  · exact ((decimal_spec n).2.1 c hc).2.2

/-- The text of the artifact, line by line. -/
theorem splitLines_writeOutput (g : Graph) (blocks : List (List (List Char))) :
    ∃ more, splitLines (writeOutput g blocks) =
      ("Num of Possible Paths: ".toList ++ decimal g.numPath) ::
      ("Entry Basic Block: ".toList ++ decimal g.entrybb) ::
      ("Exit Basic Block: ".toList ++ decimal g.exitbb) ::
      "DAG Edges:".toList ::
      ((((List.range g.nodes.length).flatMap
          (fun i => (g.nodes.getD i []).map (fun t => (i, t)))).map
        (fun p => edgeText p.1 p.2)) ++ [] :: more) := by
  refine ⟨splitLines ("Basic Blocks:".toList ++ [newline] ++
    (List.range g.nodes.length).flatMap (fun i => writeBlock i (blocks.getD i []))), ?_⟩
  have hform : writeOutput g blocks =
      ("Num of Possible Paths: ".toList ++ decimal g.numPath) ++ newline ::
        (("Entry Basic Block: ".toList ++ decimal g.entrybb) ++ newline ::
          (("Exit Basic Block: ".toList ++ decimal g.exitbb) ++ newline ::
            ("DAG Edges:".toList ++ newline ::
              ((List.range g.nodes.length).flatMap
                  (fun i => (g.nodes.getD i []).flatMap (writeEdge i)) ++
                newline :: ("Basic Blocks:".toList ++ [newline] ++
                  (List.range g.nodes.length).flatMap
                    (fun i => writeBlock i (blocks.getD i []))))))) := by
    unfold writeOutput
    simp only [List.append_assoc, List.singleton_append, List.cons_append, List.nil_append]
  rw [hform,
    splitLines_append _ _ (header_clean _ _ (by decide)),
    splitLines_append _ _ (header_clean _ _ (by decide)),
    splitLines_append _ _ (header_clean _ _ (by decide)),
    splitLines_append _ _ (by decide),
    edges_text, splitLines_lines _ _ (by
      intro l hl
      obtain ⟨p, _, rfl⟩ := List.mem_map.1 hl
      exact (edgeText_clean p.1 p.2).2)]
  rw [splitLines, if_pos rfl]

/-- C14: for every graph whose numbers are values of `uint64_t` and every text
of the blocks, the constructor of `BallLarusRegen` applied to the text that
`writeOutput` writes recovers `numPath`, the entry and the exit, and for every
node with edges the list of its edges in stored order, each with its target,
its increment and the flag that says whether it refers to a record. -/
theorem artifact_round_trip (g : Graph) (blocks : List (List (List Char))) (hfit : g.Fits) :
    ∃ r, BallLarusRegen.read (writeOutput g blocks) = some r ∧
      r.numPath = g.numPath ∧ r.entrybb = g.entrybb ∧ r.exitbb = g.exitbb ∧
      ∀ u, g.nodes.getD u [] ≠ [] →
        r.tos[u]? = some ((g.nodes.getD u []).map
          (fun t => RTo.mk t.next t.inc t.be.isSome)) := by
  obtain ⟨f1, f2, f3, f4, f5⟩ := hfit
  obtain ⟨more, hlines⟩ := splitLines_writeOutput g blocks
  have hps : ∀ p ∈ (List.range g.nodes.length).flatMap
      (fun i => (g.nodes.getD i []).map (fun t => (i, t))),
      p.1 < W64 ∧ p.2.next < W64 ∧ p.2.inc < W64 := by
    intro p hp
    obtain ⟨i, hi, hp⟩ := List.mem_flatMap.1 hp
    obtain ⟨t, ht, rfl⟩ := List.mem_map.1 hp
    have := List.mem_range.1 hi
    exact ⟨by simp only; omega, f5 i t ht⟩
  have hedges := readEdges_lines _ more hps []
  rw [← edges_lines] at hedges
  have h1 : readHeader ("Num of Possible Paths: ".toList ++ decimal g.numPath) =
      some g.numPath := readHeader_spec "Num of Possible Paths".toList _ (by decide) f1
  have h2 : readHeader ("Entry Basic Block: ".toList ++ decimal g.entrybb) =
      some g.entrybb := readHeader_spec "Entry Basic Block".toList _ (by decide) f2
  have h3 : readHeader ("Exit Basic Block: ".toList ++ decimal g.exitbb) =
      some g.exitbb := readHeader_spec "Exit Basic Block".toList _ (by decide) f3
  refine ⟨BallLarusRegen.ofGraph g, ?_, rfl, rfl, rfl, fun u hu => ofGraph_tos g u hu⟩
  unfold BallLarusRegen.read
  rw [hlines]
  simp only [h1, h2, h3, hedges]
  rfl

theorem artifact_round_trip_witness :
    loopGraph.Fits ∧
    ∃ r, BallLarusRegen.read (writeOutput loopGraph
        [["br label %1".toList], [], ["br label %1".toList], ["ret void".toList]]) = some r ∧
      r.numPath = 4 ∧ r.entrybb = 0 ∧ r.exitbb = 3 ∧
      r.tos[1]? = some [RTo.mk 2 0 false, RTo.mk 3 1 false] := by
  have hfit : loopGraph.Fits := by
    refine ⟨by decide, by decide, by decide, by decide, ?_⟩
    intro u t ht
    unfold loopGraph at ht
    rcases u with _ | _ | _ | _ | u
    · simp [List.getD] at ht
      rcases ht with rfl | rfl <;> decide
    · simp [List.getD] at ht
      rcases ht with rfl | rfl <;> decide
    · simp [List.getD] at ht
      subst ht
      decide
    · simp [List.getD] at ht
    · simp [List.getD] at ht
  obtain ⟨r, h1, h2, h3, h4, h5⟩ := artifact_round_trip loopGraph
    [["br label %1".toList], [], ["br label %1".toList], ["ret void".toList]] hfit
  exact ⟨hfit, r, h1, h2, h3, h4, h5 1 (by decide)⟩

end BallLarus

namespace BallLarus

/-! ## Termination of `regeneratePath` -/

/-- More iterations do not change the result of the loop. -/
theorem regenLoop_mono (r : BallLarusRegen) (f : Nat) :
    ∀ (u p : Nat) (path : List Nat) (chosen : List RTo) (res : List Nat × List RTo),
      regenLoop r f u p path chosen = some res →
      regenLoop r (f + 1) u p path chosen = some res := by
  induction f with
  | zero => intro u p path chosen res h; simp [regenLoop] at h
  | succ f ih =>
    intro u p path chosen res h
    rw [regenLoop] at h
    rw [regenLoop]
    by_cases hx : u = r.exitbb
    · rw [if_pos hx] at h ⊢
      exact h
    · rw [if_neg hx] at h ⊢
      cases ht : r.tos[u]? with
      | none => rw [ht] at h; cases h
      | some row =>
        rw [ht] at h
        cases row with
        | nil => cases h
        | cons t0 ts =>
          simp only at h ⊢
          exact ih _ _ _ _ _ h

theorem regenLoop_mono_le (r : BallLarusRegen) (f f' : Nat) (hle : f ≤ f')
    (u p : Nat) (path : List Nat) (chosen : List RTo) (res : List Nat × List RTo)
    (h : regenLoop r f u p path chosen = some res) :
    regenLoop r f' u p path chosen = some res := by
  induction hle with
  | refl => exact h
  | step _ ih => exact regenLoop_mono r _ _ _ _ _ _ ih

theorem regenRun_mono_le (r : BallLarusRegen) (f f' : Nat) (hle : f ≤ f') (p : Nat)
    (res : List Nat × List RTo) (h : regenRun r f p = some res) :
    regenRun r f' p = some res := by
  unfold regenRun at h ⊢
  cases hl : regenLoop r f r.entrybb p [] [] with
  | none => rw [hl] at h; cases h
  | some pr =>
    rw [hl] at h
    rw [regenLoop_mono_le r f f' hle _ _ _ _ _ hl]
    exact h

/-- The loop of `regeneratePath` returns when it starts in a set of nodes that
is closed under the edges of the table, on which every node other than the
exit has a non-empty row and a rank decreases along every edge: it selects at
most as many edges as the rank of the start, and it only appends to the path. -/
theorem regenLoop_total (r : BallLarusRegen) (S : Nat → Prop) (R : Nat → Nat)
    (hrow : ∀ u, S u → u ≠ r.exitbb → ∃ t0 ts, r.tos[u]? = some (t0 :: ts))
    (hstep : ∀ u, S u → ∀ t ∈ r.tos.getD u [], S t.dest ∧ R t.dest < R u) (f : Nat) :
    ∀ (u p : Nat) (path : List Nat) (chosen : List RTo), S u → R u < f →
      ∃ l cs, regenLoop r f u p path chosen = some (path ++ l, chosen ++ cs) ∧
        cs.length ≤ R u ∧ RWalk r u cs ∧ ∀ c ∈ cs, S c.dest := by
  induction f with
  | zero => intro u p path chosen _ h; omega
  | succ f ih =>
    intro u p path chosen hS hR
    rw [regenLoop]
    by_cases hx : u = r.exitbb
    · rw [if_pos hx]
      exact ⟨[], [], by simp, Nat.zero_le _, hx, fun c hc => by cases hc⟩
    · rw [if_neg hx]
      obtain ⟨t0, ts, ht⟩ := hrow u hS hx
      rw [ht]
      simp only
      have hrowD : r.tos.getD u [] = t0 :: ts := by
        rw [List.getD_eq_getElem?_getD, ht]; rfl
      have hmem : selectEdge p (t0 :: ts) t0 ∈ r.tos.getD u [] := by
        rw [hrowD]; exact select_mem_cons p t0 ts
      generalize selectEdge p (t0 :: ts) t0 = c at hmem
      obtain ⟨hSc, hRc⟩ := hstep u hS c hmem
      obtain ⟨l, cs, h1, h2, h3, h4⟩ := ih c.dest ((p + W64 - c.inc) % W64)
        (if c.dest ≠ r.exitbb ∨ c.fromBE = false then
          (if u = r.entrybb ∧ c.fromBE = false then path ++ [r.entrybb] else path) ++ [c.dest]
        else if u = r.entrybb ∧ c.fromBE = false then path ++ [r.entrybb] else path)
        (chosen ++ [c]) hSc (by omega)
      rw [h1]
      refine ⟨(if u = r.entrybb ∧ c.fromBE = false then [r.entrybb] else []) ++
        (if c.dest ≠ r.exitbb ∨ c.fromBE = false then [c.dest] else []) ++ l, c :: cs, ?_,
        by simp only [List.length_cons]; omega, ⟨hx, hmem, h3⟩, ?_⟩
      · congr 1
        simp only [Prod.mk.injEq]
        constructor
        · split <;> split <;> simp
        · simp
      · intro c' hc'
        rcases List.mem_cons.1 hc' with rfl | hc'
        · exact hSc
        · exact h4 c' hc'

end BallLarus

namespace BallLarus

/-- The loop of `regeneratePath` only appends to the path. -/
theorem regenLoop_append (r : BallLarusRegen) (f : Nat) :
    ∀ (u p : Nat) (path : List Nat) (chosen : List RTo) (res : List Nat × List RTo),
      regenLoop r f u p path chosen = some res → ∃ l, res.1 = path ++ l := by
  induction f with
  | zero => intro u p path chosen res h; simp [regenLoop] at h
  | succ f ih =>
    intro u p path chosen res h
    rw [regenLoop] at h
    by_cases hx : u = r.exitbb
    · rw [if_pos hx] at h
      simp only [Option.some.injEq] at h
      exact ⟨[], by rw [← h]; simp⟩
    · rw [if_neg hx] at h
      cases ht : r.tos[u]? with
      | none => rw [ht] at h; cases h
      | some row =>
        rw [ht] at h
        cases row with
        | nil => cases h
        | cons t0 ts =>
          simp only at h
          obtain ⟨l, hl⟩ := ih _ _ _ _ _ h
          generalize selectEdge p (t0 :: ts) t0 = c at hl
          rw [hl]
          split
          · split
            · exact ⟨r.entrybb :: c.dest :: l, by simp⟩
            · exact ⟨c.dest :: l, by simp⟩
          · split
            · exact ⟨r.entrybb :: l, by simp⟩
            · exact ⟨l, rfl⟩

/-- The vector returned is not empty when no synthetic edge leads from the
entry to the exit. -/
theorem regenRun_nonempty (r : BallLarusRegen) (f p : Nat) (res : List Nat × List RTo)
    (hsyn : ∀ t ∈ r.tos.getD r.entrybb [], t.fromBE = true → t.dest ≠ r.exitbb)
    (h : regenRun r f p = some res) : res.1 ≠ [] := by
  unfold regenRun at h
  cases hl : regenLoop r f r.entrybb p [] [] with
  | none => rw [hl] at h; cases h
  | some pr =>
    rw [hl] at h
    simp only [Option.some.injEq] at h
    rw [← h]
    by_cases hex : r.entrybb = r.exitbb
    · simp [hex]
    · simp only [if_neg hex]
      cases f with
      | zero => simp [regenLoop] at hl
      | succ f =>
        rw [regenLoop, if_neg hex] at hl
        cases ht : r.tos[r.entrybb]? with
        | none => rw [ht] at hl; cases hl
        | some row =>
          rw [ht] at hl
          cases row with
          | nil => cases hl
          | cons t0 ts =>
            simp only at hl
            have hrowD : r.tos.getD r.entrybb [] = t0 :: ts := by
              rw [List.getD_eq_getElem?_getD, ht]; rfl
            have hmem : selectEdge p (t0 :: ts) t0 ∈ r.tos.getD r.entrybb [] := by
              rw [hrowD]; exact select_mem_cons p t0 ts
            generalize selectEdge p (t0 :: ts) t0 = c at hl hmem
            obtain ⟨l, hl2⟩ := regenLoop_append r f _ _ _ _ _ hl
            rw [hl2]
            cases hb : c.fromBE with
            | false => simp
            | true =>
              have := hsyn c hmem hb
              simp [this]

theorem ofGraph_row (g : Graph) (u : Nat) :
    (BallLarusRegen.ofGraph g).tos.getD u [] =
      if u < g.nodes.length then (g.nodes.getD u []).map To.line else [] :=
  ((parse_table g.nodes g.nodes.length).2 u).1

end BallLarus

namespace BallLarus

/-- An edge of the parsed table is the line of an edge of the graph. -/
theorem ofGraph_mem (g : Graph) (u : Nat) (t : RTo)
    (ht : t ∈ (BallLarusRegen.ofGraph g).tos.getD u []) :
    ∃ t', t' ∈ g.nodes.getD u [] ∧ t = t'.line := by
  rw [ofGraph_row] at ht
  split at ht
  · obtain ⟨t', h1, h2⟩ := List.mem_map.1 ht
    exact ⟨t', h1, h2.symm⟩
  · cases ht

/-- The edges of the final graph and of the graph after back-edge replacement
are the same. -/
theorem final_edge {cfg : CFG} {e x : Nat} {st : DfsState} {sorted : List Nat} (u v : Nat) :
    Edge (finalGraph cfg e x st sorted).nodes u v ↔
      Edge (dagNodes (initNodes cfg) e x st) u v :=
  edge_of_shape
    (fun u => (incSweep_shape sorted (dagNodes (initNodes cfg) e x st) u).2) u v

/-- In the table parsed from the artifact the blocks that `dfs` finished,
together with the exit, are closed under the edges, which strictly decrease a
rank. -/
theorem final_step {cfg : CFG} {e x : Nat} {st : DfsState} {sorted : List Nat}
    (hwf : cfg.WF) (hB : Build cfg e x st sorted) :
    ∃ R0 : Nat → Nat, ∀ u, (st.col u = 2 ∨ u = x) →
      ∀ t ∈ (BallLarusRegen.ofGraph (finalGraph cfg e x st sorted)).tos.getD u [],
        ((st.col t.dest = 2 ∨ t.dest = x) ∧ t.dest < cfg.length) ∧ R0 t.dest < R0 u := by
  obtain ⟨he, hx, hxs, hin⟩ := build_facts hB
  obtain ⟨R0, hR0⟩ := dag_rank (x := x) he hxs hin hB.final
  refine ⟨R0, fun u hu t ht => ?_⟩
  obtain ⟨t', h1, rfl⟩ := ofGraph_mem _ u t ht
  have hedge : Edge (dagNodes (initNodes cfg) e x st) u t'.next :=
    (final_edge u t'.next).1 ⟨t', h1, rfl⟩
  obtain ⟨a1, a2⟩ := hR0 u t'.next hu hedge
  obtain ⟨t2, ht2, ht2n⟩ := hedge
  have := dag_wf (initNodes_wf cfg hwf) he hx hB.final u t2 ht2
  rw [length_dagNodes, length_initNodes, ht2n] at this
  exact ⟨⟨a1, this⟩, a2⟩

/-- No edge of the parsed table leads to the entry. -/
theorem final_noin {cfg : CFG} {e x : Nat} {st : DfsState} {sorted : List Nat}
    (hB : Build cfg e x st sorted) (u : Nat) (t : RTo)
    (ht : t ∈ (BallLarusRegen.ofGraph (finalGraph cfg e x st sorted)).tos.getD u []) :
    t.dest ≠ e := by
  obtain ⟨he, hx, hxs, hin⟩ := build_facts hB
  obtain ⟨t', h1, rfl⟩ := ofGraph_mem _ u t ht
  intro hh
  have hE : Edge (finalGraph cfg e x st sorted).nodes u e := ⟨t', h1, hh⟩
  exact dag_noin he hxs hin hB.final u ((final_edge u e).1 hE)

/-- A walk of the decoder along edges that decrease a rank visits no node twice. -/
theorem rwalk_nodup (r : BallLarusRegen) (S : Nat → Prop) (R : Nat → Nat)
    (hstep : ∀ u, S u → ∀ t ∈ r.tos.getD u [], S t.dest ∧ R t.dest < R u) :
    ∀ (cs : List RTo) (u : Nat), S u → RWalk r u cs →
      (∀ c ∈ cs, R c.dest < R u) ∧ (u :: cs.map (fun c => c.dest)).Nodup := by
  intro cs
  induction cs with
  | nil => intro u _ _; exact ⟨fun c hc => (by cases hc), by simp⟩
  | cons c cs ih =>
    intro u hu hw
    obtain ⟨_, hmem, hrest⟩ := hw
    obtain ⟨hS, hlt⟩ := hstep u hu c hmem
    obtain ⟨h1, h2⟩ := ih c.dest hS hrest
    have hall : ∀ c' ∈ c :: cs, R c'.dest < R u := by
      intro c' hc'
      rcases List.mem_cons.1 hc' with rfl | hc'
      · exact hlt
      · exact Nat.lt_trans (h1 c' hc') hlt
    refine ⟨hall, ?_⟩
    rw [List.map_cons, List.nodup_cons]
    refine ⟨?_, h2⟩
    intro hm
    obtain ⟨c', hc', hcu⟩ := List.mem_map.1 (by simpa using hm : u ∈ (c :: cs).map (fun c => c.dest))
    have := hall c' hc'
    rw [hcu] at this
    omega

/-- On the artifact of a CFG whose exit is its only block without successors,
`regeneratePath` returns for every identifier within as many iterations as
there are blocks: it selects fewer edges than there are blocks, along a walk
from the entry to the exit inside the table, and the vector it returns is not
empty. -/
theorem regen_returns {cfg : CFG} {e x : Nat} {st : DfsState} {sorted : List Nat}
    (hwf : cfg.WF) (hB : Build cfg e x st sorted) (hs : cfg.SingleExit x) (p : Nat) :
    ∃ path chosen,
      regenRun (BallLarusRegen.ofGraph (finalGraph cfg e x st sorted)) cfg.length p =
        some (path, chosen) ∧
      chosen.length ≤ cfg.length - 1 ∧ path ≠ [] ∧
      RWalk (BallLarusRegen.ofGraph (finalGraph cfg e x st sorted)) e chosen ∧
      ∀ c ∈ chosen, c.dest < cfg.length := by
  obtain ⟨he, hx, hxs, hin⟩ := build_facts hB
  obtain ⟨R0, hR0⟩ := dag_rank (x := x) he hxs hin hB.final
  have hlen := final_length cfg e x st sorted
  have hwfd : ∀ u, ∀ t ∈ (dagNodes (initNodes cfg) e x st).getD u [], t.next < cfg.length := by
    intro u t ht
    have := dag_wf (initNodes_wf cfg hwf) he hx hB.final u t ht
    rwa [length_dagNodes, length_initNodes] at this
  have hshape : ∀ u, ((finalGraph cfg e x st sorted).nodes.getD u []).map
      (fun t => (t.next, t.be)) =
      ((dagNodes (initNodes cfg) e x st).getD u []).map (fun t => (t.next, t.be)) :=
    fun u => (incSweep_shape sorted (dagNodes (initNodes cfg) e x st) u).2
  have hrowmem : ∀ u, ∀ t ∈ (BallLarusRegen.ofGraph (finalGraph cfg e x st sorted)).tos.getD u [],
      ∃ t', t' ∈ (finalGraph cfg e x st sorted).nodes.getD u [] ∧ t = t'.line := by
    intro u t ht
    rw [ofGraph_row] at ht
    split at ht
    · obtain ⟨t', h1, h2⟩ := List.mem_map.1 ht
      exact ⟨t', h1, h2.symm⟩
    · cases ht
  have hstep0 : ∀ u, (st.col u = 2 ∨ u = x) →
      ∀ t ∈ (BallLarusRegen.ofGraph (finalGraph cfg e x st sorted)).tos.getD u [],
        ((st.col t.dest = 2 ∨ t.dest = x) ∧ t.dest < cfg.length) ∧ R0 t.dest < R0 u := by
    intro u hu t ht
    obtain ⟨t', h1, rfl⟩ := hrowmem u t ht
    have hedge : Edge (dagNodes (initNodes cfg) e x st) u t'.next :=
      (edge_of_shape hshape u t'.next).1 ⟨t', h1, rfl⟩
    obtain ⟨a1, a2⟩ := hR0 u t'.next hu hedge
    obtain ⟨t2, ht2, ht2n⟩ := hedge
    have := hwfd u t2 ht2
    rw [ht2n] at this
    exact ⟨⟨a1, this⟩, a2⟩
  have hrank : ∀ u v, (st.col v = 2 ∨ v = x) → v < cfg.length → R0 v < R0 u →
      (List.range cfg.length).countP
          (fun w => decide ((st.col w = 2 ∨ w = x) ∧ R0 w < R0 v)) <
        (List.range cfg.length).countP
          (fun w => decide ((st.col w = 2 ∨ w = x) ∧ R0 w < R0 u)) := by
    intro u v hv hvn hlt
    apply countP_lt_of_imp
    · intro w _ hw
      simp only [decide_eq_true_eq] at hw ⊢
      exact ⟨hw.1, by omega⟩
    · exact ⟨v, List.mem_range.2 hvn, by simp [hv, hlt], by simp⟩
  have hSe : (st.col e = 2 ∨ e = x) ∧ e < cfg.length := ⟨Or.inl hB.final.entry, hB.he⟩
  have hRe : (List.range cfg.length).countP
      (fun w => decide ((st.col w = 2 ∨ w = x) ∧ R0 w < R0 e)) < cfg.length := by
    have := countP_lt_of_imp
      (fun w => decide ((st.col w = 2 ∨ w = x) ∧ R0 w < R0 e)) (fun _ => true)
      (List.range cfg.length) (fun _ _ _ => rfl) ⟨e, List.mem_range.2 hB.he, rfl, by simp⟩
    simpa using this
  obtain ⟨l, cs, h1, h2, h3, h4⟩ := regenLoop_total
    (BallLarusRegen.ofGraph (finalGraph cfg e x st sorted))
    (fun u => (st.col u = 2 ∨ u = x) ∧ u < cfg.length)
    (fun u => (List.range cfg.length).countP
      (fun w => decide ((st.col w = 2 ∨ w = x) ∧ R0 w < R0 u)))
    (by
      intro u hu hux
      have hne : (finalGraph cfg e x st sorted).nodes.getD u [] ≠ [] := by
        intro hh
        exact hux ((hs.2 u hu.2).1 ((finalGraph_sink hB u).1 hh))
      rw [ofGraph_tos _ u hne]
      cases hrow : (finalGraph cfg e x st sorted).nodes.getD u [] with
      | nil => exact absurd hrow hne
      | cons t ts => exact ⟨t.line, ts.map To.line, rfl⟩)
    (by
      intro u hu t ht
      obtain ⟨a1, a2⟩ := hstep0 u hu.1 t ht
      exact ⟨a1, hrank u t.dest a1.1 a1.2 a2⟩)
    cfg.length e p [] [] hSe hRe
  simp only [List.nil_append] at h1
  have hrun : regenRun (BallLarusRegen.ofGraph (finalGraph cfg e x st sorted)) cfg.length p =
      some (if e = x then l ++ [e] else l, cs) := by
    unfold regenRun
    rw [show (BallLarusRegen.ofGraph (finalGraph cfg e x st sorted)).entrybb = e from rfl, h1]
    rfl
  refine ⟨_, cs, hrun, by omega, ?_, h3, fun c hc => (h4 c hc).2⟩
  apply regenRun_nonempty _ _ _ _ ?_ hrun
  intro t ht hbe
  obtain ⟨t', ht', rfl⟩ := hrowmem _ t ht
  change t'.next ≠ x
  have hm : (t'.next, t'.be) ∈ ((finalGraph cfg e x st sorted).nodes.getD e []).map
      (fun t => (t.next, t.be)) := List.mem_map.2 ⟨t', ht', rfl⟩
  rw [final_shape hB e, List.mem_append] at hm
  have hsome : t'.be.isSome = true := hbe
  rcases hm with hm | hm
  · obtain ⟨s, _, hs2⟩ := List.mem_map.1 hm
    injection hs2 with _ hs3
    rw [← hs3] at hsome
    cases hsome
  · obtain ⟨t3, ht3, ht3e⟩ := List.mem_map.1 hm
    obtain ⟨j, b, hjb, hcase⟩ := (mem_synthAt e x e st.backedges 0 t3).1 ht3
    have hbm : b ∈ st.backedges := List.mem_iff_getElem?.2 ⟨j, hjb⟩
    obtain ⟨_, _, r3, r4, _⟩ := hB.final.recs b hbm
    injection ht3e with hn _
    rcases hcase with ⟨hsrc, _⟩ | ⟨_, rfl⟩
    · exact absurd hsrc r4
    · simp only at hn
      rw [← hn]
      intro hh
      rw [hh] at r3
      exact r3 hxs

end BallLarus

namespace BallLarus

/-- Every block other than the exit has a non-empty row in the table parsed
from the artifact, when the exit is the only block without successors. -/
theorem final_rows {cfg : CFG} {e x : Nat} {st : DfsState} {sorted : List Nat}
    (hB : Build cfg e x st sorted) (hs : cfg.SingleExit x) (u : Nat) (hu : u < cfg.length)
    (hux : u ≠ x) :
    ∃ t0 ts, (BallLarusRegen.ofGraph (finalGraph cfg e x st sorted)).tos[u]? =
      some (t0 :: ts) := by
  have hne : (finalGraph cfg e x st sorted).nodes.getD u [] ≠ [] := by
    intro hh
    exact hux ((hs.2 u hu).1 ((finalGraph_sink hB u).1 hh))
  rw [ofGraph_tos _ u hne]
  cases hrow : (finalGraph cfg e x st sorted).nodes.getD u [] with
  | nil => exact absurd hrow hne
  | cons t ts => exact ⟨t.line, ts.map To.line, rfl⟩

/-- C21: for a well-formed CFG in which every block is reachable from the entry
and the exit is the only block without successors, the loop of
`regeneratePath` on the artifact of the encoder terminates for every
identifier `p`, also beyond `numPath`: it selects at most `N - 1` edges, one
per iteration, and any bound of `N` tests of the loop condition is enough for
it to return. -/
theorem regenerate_terminates (cfg : CFG) (e x : Nat) (hwf : cfg.WF) (hr : cfg.Rooted e)
    (hs : cfg.SingleExit x) :
    ∃ g, Graph.ofCFG cfg = some g ∧ g.entrybb = e ∧ g.exitbb = x ∧
      ∀ p, ∃ path chosen, chosen.length ≤ g.nodes.length - 1 ∧
        ∀ fuel, g.nodes.length ≤ fuel →
          regenRun (BallLarusRegen.ofGraph g) fuel p = some (path, chosen) ∧
          regeneratePath (BallLarusRegen.ofGraph g) fuel p = some path := by
  obtain ⟨x', st, sorted, hB⟩ := build_rooted cfg hwf e hr ⟨x, hs.1, (hs.2 x hs.1).2 rfl⟩
  have hxx := build_single hB hs
  subst hxx
  have hlen := final_length cfg e x' st sorted
  refine ⟨finalGraph cfg e x' st sorted, hB.ofEq, rfl, rfl, fun p => ?_⟩
  obtain ⟨path, chosen, h1, h2, _, _, _⟩ := regen_returns hwf hB hs p
  refine ⟨path, chosen, by rw [hlen]; exact h2, fun fuel hfuel => ?_⟩
  have hrun := regenRun_mono_le _ _ fuel (by rw [← hlen]; exact hfuel) p _ h1
  exact ⟨hrun, by rw [regeneratePath, hrun]; rfl⟩

theorem regenerate_terminates_witness :
    ∃ g, Graph.ofCFG loopCfg = some g ∧ g.entrybb = 0 ∧ g.exitbb = 3 ∧ g.numPath ≤ 7 ∧
      ∃ path chosen, chosen.length ≤ g.nodes.length - 1 ∧
        regenRun (BallLarusRegen.ofGraph g) 4 7 = some (path, chosen) ∧
        regeneratePath (BallLarusRegen.ofGraph g) 4 7 = some path := by
  obtain ⟨g, hg, he, hx, h⟩ := regenerate_terminates loopCfg 0 3 (by decide) loopCfg_rooted
    loopCfg_exit
  obtain ⟨path, chosen, h1, h2⟩ := h 7
  have hgc := eq_loopGraph hg
  exact ⟨g, hg, he, hx, by rw [hgc]; decide, path, chosen, h1,
    h2 4 (by rw [hgc]; decide)⟩

/-- C22, as stated, fails: for `twoExitCfg` the identifier 0 is below
`numPath`, the table `tos` parsed from the artifact has a single row, and the
first iteration of `regeneratePath` moves to block 1, which is not the exit
and has no row: the access `tos[1][0]` is outside the table, and the model
returns nothing for every bound on the number of iterations. -/
theorem index_safety_counterexample :
    ∃ g, Graph.ofCFG twoExitCfg = some g ∧ 0 < g.numPath ∧ g.exitbb = 2 ∧
      (BallLarusRegen.ofGraph g).tos.length = 1 ∧
      (∃ t0 ts, (BallLarusRegen.ofGraph g).tos[g.entrybb]? = some (t0 :: ts) ∧
        (selectEdge 0 (t0 :: ts) t0).dest = 1) ∧
      (BallLarusRegen.ofGraph g).tos[1]? = none ∧
      ∀ fuel, regenRun (BallLarusRegen.ofGraph g) fuel 0 = none := by
  refine ⟨_, rfl, by decide, by decide, by decide, ⟨_, _, rfl, by decide⟩, by decide,
    fun fuel => ?_⟩
  rcases fuel with _ | _ | fuel
  · rfl
  · rfl
  · rfl

/-- C22, amended: for a well-formed CFG with an entry in which the exit is the
only block without successors, and every identifier `p` below `numPath`,
`regeneratePath` on the artifact of the encoder returns; every block other
than the exit that it visits (the entry and the destination of every selected
edge) has a non-empty row in the parsed table, so `tos[curr][0]` is valid, and
the returned vector is not empty, so `path[0]` is valid. -/
theorem index_safety (cfg : CFG) (x : Nat) (hwf : cfg.WF)
    (hentry : ∃ i, i < cfg.length ∧ ∀ u, ¬ cfg.Succ u i) (hs : cfg.SingleExit x) :
    ∃ g, Graph.ofCFG cfg = some g ∧ g.exitbb = x ∧
      ∀ p, p < g.numPath → ∃ path chosen,
        (∀ fuel, g.nodes.length ≤ fuel →
          regenRun (BallLarusRegen.ofGraph g) fuel p = some (path, chosen)) ∧
        RWalk (BallLarusRegen.ofGraph g) g.entrybb chosen ∧
        (∀ u ∈ g.entrybb :: chosen.map RTo.dest, u ≠ x →
          ∃ t0 ts, (BallLarusRegen.ofGraph g).tos[u]? = some (t0 :: ts)) ∧
        path ≠ [] := by
  obtain ⟨e, x', st, sorted, hB⟩ := build_exists cfg hwf ⟨x, hs.1, (hs.2 x hs.1).2 rfl⟩ hentry
  have hxx := build_single hB hs
  subst hxx
  have hlen := final_length cfg e x' st sorted
  refine ⟨finalGraph cfg e x' st sorted, hB.ofEq, rfl, fun p _ => ?_⟩
  obtain ⟨path, chosen, h1, _, h3, h4, h5⟩ := regen_returns hwf hB hs p
  refine ⟨path, chosen, fun fuel hfuel => ?_, h4, ?_, h3⟩
  · exact regenRun_mono_le _ _ fuel (by rw [← hlen]; exact hfuel) p _ h1
  · intro u hu hux
    have hlt : u < cfg.length := by
      rcases List.mem_cons.1 hu with rfl | hu
      · exact hB.he
      · obtain ⟨c, hc, rfl⟩ := List.mem_map.1 hu
        exact h5 c hc
    exact final_rows hB hs u hlt hux

theorem index_safety_witness :
    ∃ g, Graph.ofCFG loopCfg = some g ∧ g.exitbb = 3 ∧ 2 < g.numPath ∧
      ∃ path chosen,
        regenRun (BallLarusRegen.ofGraph g) 4 2 = some (path, chosen) ∧
        RWalk (BallLarusRegen.ofGraph g) g.entrybb chosen ∧
        (∃ t0 ts, (BallLarusRegen.ofGraph g).tos[g.entrybb]? = some (t0 :: ts)) ∧
        (∀ u ∈ chosen.map RTo.dest, u ≠ 3 →
          ∃ t0 ts, (BallLarusRegen.ofGraph g).tos[u]? = some (t0 :: ts)) ∧
        path ≠ [] := by
  obtain ⟨g, hg, hx, h⟩ := index_safety loopCfg 3 (by decide)
    ⟨0, by decide, loopCfg_rooted.2.1⟩ loopCfg_exit
  have hgc := eq_loopGraph hg
  have hp : 2 < g.numPath := by rw [hgc]; decide
  obtain ⟨path, chosen, h1, h2, h3, h4⟩ := h 2 hp
  exact ⟨g, hg, hx, hp, path, chosen, h1 4 (by rw [hgc]; decide), h2,
    h3 g.entrybb (List.mem_cons_self _ _) (by rw [hgc]; decide),
    fun u hu => h3 u (List.mem_cons_of_mem _ hu), h4⟩

end BallLarus

namespace BallLarus

/-! ## Records and marked edges

Every edge examined while its target is gray pushes one record, and the edges
that the erase loop removes are the edges with such a target. -/

/-- The counting invariant of the loop of `dfs`: a white node has no record and
an empty set `toErase`; a black node has as many records as marked edges; a
gray node other than `curr` is not touched; for `curr` the run pushes one
record for every edge of `es` with a gray target and marks these targets. -/
theorem run_count {nodes : List (List To)} (hwf : NodesWF nodes)
    {curr : Nat} {es : List To} {st st' : DfsState}
    (h : EdgesRun nodes curr es st st') :
    st.Good nodes.length → curr < nodes.length → (∀ t ∈ es, t ∈ nodes.getD curr []) →
    st.col curr = 1 →
    (∀ u, st.col u = 0 → st.backedges.countP (fun b => b.src == u) = 0 ∧ st.er u = []) →
    (∀ u, st.col u = 2 → st.backedges.countP (fun b => b.src == u) =
      (nodes.getD u []).countP (fun t => (st.er u).contains t.next)) →
    (∀ u, st'.col u = 0 → st'.backedges.countP (fun b => b.src == u) = 0 ∧ st'.er u = []) ∧
    (∀ u, st'.col u = 2 → st'.backedges.countP (fun b => b.src == u) =
      (nodes.getD u []).countP (fun t => (st'.er u).contains t.next)) ∧
    (∀ u, st.col u = 1 → u ≠ curr →
      st'.backedges.countP (fun b => b.src == u) = st.backedges.countP (fun b => b.src == u) ∧
      st'.er u = st.er u) ∧
    st'.backedges.countP (fun b => b.src == curr) =
      st.backedges.countP (fun b => b.src == curr) +
        es.countP (fun t => decide (st.col t.next = 1)) ∧
    (∀ v, v ∈ st'.er curr ↔ v ∈ st.er curr ∨ (st.col v = 1 ∧ ∃ t ∈ es, t.next = v)) := by
  induction h with
  | done curr st =>
    intro _ _ _ _ hw hb
    exact ⟨hw, hb, fun u _ _ => ⟨rfl, rfl⟩, by simp, fun v => by simp⟩
  | back curr t rest st st' h1 hrun ih =>
    intro hg hc hes hcur hw hb
    have hne : ∀ u, st.col u ≠ 1 → u ≠ curr := fun u hu he => hu (he ▸ hcur)
    have hrec : ∀ u, u ≠ curr →
        (st.record curr t.next).backedges.countP (fun b => b.src == u) =
          st.backedges.countP (fun b => b.src == u) := by
      intro u hu
      rw [backedges_record, List.countP_append]
      simp [List.countP_cons, Ne.symm hu]
    have her : ∀ u, u ≠ curr → (st.record curr t.next).er u = st.er u := by
      intro u hu
      rw [er_record, if_neg (fun hh => hu hh.1)]
    obtain ⟨a1, a2, a3, a4, a5⟩ := ih (good_record hg _ _) hc
      (fun t ht => hes t (List.mem_cons_of_mem _ ht)) hcur
      (fun u hu => by
        have := hne u (by rw [col_record] at hu; omega)
        rw [hrec u this, her u this]
        exact hw u hu)
      (fun u hu => by
        have := hne u (by rw [col_record] at hu; omega)
        rw [hrec u this, her u this]
        exact hb u hu)
    refine ⟨a1, a2, fun u hu huc => ?_, ?_, fun v => ?_⟩
    · have := a3 u hu huc
      rw [hrec u huc, her u huc] at this
      exact this
    · rw [a4, backedges_record, List.countP_append, List.countP_cons]
      simp only [col_record]
      simp [h1]
      omega
    · rw [a5, er_record, if_pos ⟨rfl, by rw [hg.he]; exact hc⟩, List.mem_insert_iff]
      simp only [col_record]
      constructor
      · rintro ((hv | hv) | ⟨hv, t', ht', hv'⟩)
        · exact Or.inr ⟨hv ▸ h1, t, List.mem_cons_self _ _, hv.symm⟩
        · exact Or.inl hv
        · exact Or.inr ⟨hv, t', List.mem_cons_of_mem _ ht', hv'⟩
      · rintro (hv | ⟨hv, t', ht', hv'⟩)
        · exact Or.inl (Or.inr hv)
        · rcases List.mem_cons.1 ht' with hh | ht'
          · exact Or.inl (Or.inl (by rw [← hv', hh]))
          · exact Or.inr ⟨hv, t', ht', hv'⟩
  | skip curr t rest st st' h0 h1 hrun ih =>
    intro hg hc hes hcur hw hb
    obtain ⟨a1, a2, a3, a4, a5⟩ := ih hg hc (fun t ht => hes t (List.mem_cons_of_mem _ ht))
      hcur hw hb
    refine ⟨a1, a2, a3, ?_, fun v => ?_⟩
    · rw [a4, List.countP_cons]
      simp [h1]
    · rw [a5]
      constructor
      · rintro (hv | ⟨hv, t', ht', hv'⟩)
        · exact Or.inl hv
        · exact Or.inr ⟨hv, t', List.mem_cons_of_mem _ ht', hv'⟩
      · rintro (hv | ⟨hv, t', ht', hv'⟩)
        · exact Or.inl hv
        · rcases List.mem_cons.1 ht' with hh | ht'
          · rw [← hv', hh] at hv
            exact absurd hv h1
          · exact Or.inr ⟨hv, t', ht', hv'⟩
  | tree curr t rest st st1 st' h0 hrun1 hrun2 ih1 ih2 =>
    intro hg hc hes hcur hw hb
    have hn : t.next < nodes.length := hwf curr t (hes t (List.mem_cons_self _ _))
    have hgp : (st.paint t.next 1).Good nodes.length := good_paint hg _ _ (by omega)
    have hg1 : st1.Good nodes.length := run_good hrun1 hgp
    have hcomp := EdgesRun.tree curr t [] st st1 _ h0 hrun1 (EdgesRun.done _ _)
    have hpc : ∀ x, (st.paint t.next 1).col x = if x = t.next then 1 else st.col x := by
      intro x; rw [col_paint, hg.hc]; simp [hn]
    have hpc2 : ∀ x, (st1.paint t.next 2).col x = if x = t.next then 2 else st1.col x := by
      intro x; rw [col_paint, hg1.hc]; simp [hn]
    have htc : curr ≠ t.next := fun hh => by rw [← hh] at h0; omega
    obtain ⟨w0, e0⟩ := hw t.next h0
    obtain ⟨b1, b2, b3, b4, b5⟩ := ih1 hgp hn (fun t ht => ht) (by rw [hpc, if_pos rfl])
      (fun u hu => by
        rw [hpc] at hu
        split at hu
        · omega
        · exact hw u hu)
      (fun u hu => by
        rw [hpc] at hu
        split at hu
        · omega
        · exact hb u hu)
    have hP : st1.backedges.countP (fun b => b.src == t.next) =
        (nodes.getD t.next []).countP (fun t' => (st1.er t.next).contains t'.next) := by
      rw [b4]
      have hz : (st.paint t.next 1).backedges.countP (fun b => b.src == t.next) = 0 := w0
      rw [hz, Nat.zero_add]
      apply List.countP_congr
      intro t' ht'
      have he0 : (st.paint t.next 1).er t.next = [] := e0
      simp only [decide_eq_true_eq, List.contains_iff_exists_mem_beq, beq_iff_eq]
      constructor
      · intro hh
        exact ⟨t'.next, (b5 _).2 (Or.inr ⟨hh, t', ht', rfl⟩), rfl⟩
      · rintro ⟨a, ha, rfl⟩
        rcases (b5 _).1 ha with hh | ⟨hh, _⟩
        · rw [he0] at hh
          cases hh
        · exact hh
    have hcur1 : st1.col curr = 1 :=
      (run_gray hrun1 curr).2 (by rw [hpc, if_neg htc]; exact hcur)
    obtain ⟨c1, c2, c3, c4, c5⟩ := ih2 (good_paint hg1 _ _ (by omega)) hc
      (fun t ht => hes t (List.mem_cons_of_mem _ ht))
      (by rw [hpc2, if_neg htc]; exact hcur1)
      (fun u hu => by
        rw [hpc2] at hu
        split at hu
        · omega
        · exact b1 u hu)
      (fun u hu => by
        rw [hpc2] at hu
        split at hu
        · rename_i hh
          rw [hh]
          exact hP
        · exact b2 u hu)
    have hgray : ∀ v, (st1.paint t.next 2).col v = 1 ↔ st.col v = 1 := fun v => run_gray hcomp v
    have i1 := b3 curr (by rw [hpc, if_neg htc]; exact hcur) htc
    refine ⟨c1, c2, fun u hu huc => ?_, ?_, fun v => ?_⟩
    · have hut : u ≠ t.next := fun hh => by rw [hh] at hu; omega
      have j1 := b3 u (by rw [hpc, if_neg hut]; exact hu) hut
      have j2 := c3 u ((hgray u).2 hu) huc
      exact ⟨j2.1.trans j1.1, j2.2.trans j1.2⟩
    · rw [c4]
      have k1 : (st1.paint t.next 2).backedges.countP (fun b => b.src == curr) =
          st.backedges.countP (fun b => b.src == curr) := i1.1
      have k2 : rest.countP (fun t' => decide ((st1.paint t.next 2).col t'.next = 1)) =
          rest.countP (fun t' => decide (st.col t'.next = 1)) :=
        List.countP_congr (fun t' _ => by simp only [decide_eq_true_eq]; exact hgray _)
      rw [k1, k2, List.countP_cons]
      simp [h0]
    · rw [c5]
      have k3 : (st1.paint t.next 2).er curr = st.er curr := i1.2
      rw [k3, hgray]
      constructor
      · rintro (hv | ⟨hv, t', ht', hv'⟩)
        · exact Or.inl hv
        · exact Or.inr ⟨hv, t', List.mem_cons_of_mem _ ht', hv'⟩
      · rintro (hv | ⟨hv, t', ht', hv'⟩)
        · exact Or.inl hv
        · rcases List.mem_cons.1 ht' with hh | ht'
          · rw [← hv', hh] at hv
            omega
          · exact Or.inr ⟨hv, t', ht', hv'⟩

end BallLarus

namespace BallLarus

/-- When the outermost call of `dfs` returns, every node is the source of as
many records as it has edges marked for erasure. -/
theorem dfs_count {nodes : List (List To)} (hwf : NodesWF nodes) {e : Nat}
    (he : e < nodes.length) {st : DfsState}
    (h : dfs nodes nodes.length (dfsStart nodes.length) e = some st) (u : Nat) :
    st.backedges.countP (fun b => b.src == u) =
      (nodes.getD u []).countP (fun t => (st.er u).contains t.next) := by
  obtain ⟨s, hrun, rfl⟩ := dfs_spec nodes _ _ _ _ h
  have hg0 := dfsStart_good nodes.length
  have hgp : ((dfsStart nodes.length).paint e 1).Good nodes.length :=
    good_paint hg0 _ _ (by omega)
  have hpc : ∀ x, ((dfsStart nodes.length).paint e 1).col x = if x = e then 1 else 0 := by
    intro x; rw [col_paint, hg0.hc, dfsStart_col]; simp [he]
  obtain ⟨a1, a2, _, a4, a5⟩ := run_count hwf hrun hgp he (fun t ht => ht)
    (by rw [hpc, if_pos rfl])
    (fun u _ => ⟨rfl, dfsStart_er _ _⟩)
    (fun u hu => by rw [hpc] at hu; split at hu <;> omega)
  have hgs := run_good hrun hgp
  change s.backedges.countP (fun b => b.src == u) =
    (nodes.getD u []).countP (fun t => (s.er u).contains t.next)
  by_cases hue : u = e
  · subst hue
    rw [a4]
    have hz : ((dfsStart nodes.length).paint u 1).backedges.countP (fun b => b.src == u) = 0 :=
      rfl
    rw [hz, Nat.zero_add]
    apply List.countP_congr
    intro t' ht'
    have he0 : ((dfsStart nodes.length).paint u 1).er u = [] := dfsStart_er _ _
    simp only [decide_eq_true_eq, List.contains_iff_exists_mem_beq, beq_iff_eq]
    constructor
    · intro hh
      exact ⟨t'.next, (a5 _).2 (Or.inr ⟨hh, t', ht', rfl⟩), rfl⟩
    · rintro ⟨a, ha, rfl⟩
      rcases (a5 _).1 ha with hh | ⟨hh, _⟩
      · rw [he0] at hh
        cases hh
      · exact hh
  · have hle := hgs.hle u
    have hng : s.col u ≠ 1 := by
      intro hh
      have := (run_gray hrun u).1 hh
      rw [hpc, if_neg hue] at this
      omega
    rcases (by omega : s.col u = 0 ∨ s.col u = 2) with h0 | h2
    · obtain ⟨w, e0⟩ := a1 u h0
      rw [w, e0]
      simp
    · exact a2 u h2

theorem sum_indicator (a N : Nat) :
    ((List.range N).map (fun u => if a = u then 1 else 0)).sum = if a < N then 1 else 0 := by
  induction N with
  | zero => simp
  | succ N ih =>
    rw [List.range_succ, List.map_append, List.sum_append, ih]
    simp only [List.map_cons, List.map_nil, List.sum_cons, List.sum_nil]
    split_ifs <;> omega

/-- Each record has one source. -/
theorem sum_countP_src (bes : List BackEdge) (N : Nat) (h : ∀ b ∈ bes, b.src < N) :
    ((List.range N).map (fun u => bes.countP (fun b => b.src == u))).sum = bes.length := by
  induction bes with
  | nil => simp
  | cons b rest ih =>
    have hf : (fun u => (b :: rest).countP (fun b => b.src == u)) =
        fun u => rest.countP (fun b => b.src == u) + (if b.src = u then 1 else 0) := by
      funext u
      rw [List.countP_cons]
      simp
    rw [hf, List.sum_map_add, ih (fun b' hb' => h b' (List.mem_cons_of_mem _ hb')),
      sum_indicator, if_pos (h b (List.mem_cons_self _ _))]
    rfl

/-- The loop "Insert new edges from the backedges" appends two edges per record. -/
theorem sum_synthAt (e x N : Nat) (he : e < N) (bes : List BackEdge)
    (h : ∀ b ∈ bes, b.src < N) (k : Nat) :
    ((List.range N).map (fun u => (synthAt e x u bes k).length)).sum = 2 * bes.length := by
  induction bes generalizing k with
  | nil => simp [synthAt]
  | cons b rest ih =>
    have hf : (fun u => (synthAt e x u (b :: rest) k).length) =
        fun u => (if b.src = u then 1 else 0) +
          ((if e = u then 1 else 0) + (synthAt e x u rest (k + 1)).length) := by
      funext u
      rw [synthAt, List.length_append, List.length_append]
      congr 1
      · split <;> rfl
      · congr 1
        split <;> rfl
    rw [hf, List.sum_map_add, List.sum_map_add,
      ih (fun b' hb' => h b' (List.mem_cons_of_mem _ hb')),
      sum_indicator, sum_indicator, if_pos (h b (List.mem_cons_self _ _)), if_pos he]
    simp only [List.length_cons]
    omega

/-- The number of edges after the erase and insert loops is the number before
plus the number of records. -/
theorem dag_edge_count {nodes : List (List To)} (hwf : NodesWF nodes) {e x : Nat}
    (he : e < nodes.length) {st : DfsState}
    (h : dfs nodes nodes.length (dfsStart nodes.length) e = some st)
    (hf : DfsFinal nodes e st) :
    ((dagNodes nodes e x st).map List.length).sum =
      (nodes.map List.length).sum + st.backedges.length := by
  have h1 : ((dagNodes nodes e x st).map List.length).sum =
      ((List.range nodes.length).map (fun u =>
        ((nodes.getD u []).filter (fun t => !(st.er u).contains t.next)).length +
          (synthAt e x u st.backedges 0).length)).sum := by
    rw [← map_range_getD (dagNodes nodes e x st) [] List.length, length_dagNodes]
    congr 1
    apply List.map_congr_left
    intro u _
    rw [getD_dagNodes he hf, List.length_append]
  have h2 : (nodes.map List.length).sum =
      ((List.range nodes.length).map (fun u =>
        ((nodes.getD u []).filter (fun t => !(st.er u).contains t.next)).length +
          st.backedges.countP (fun b => b.src == u))).sum := by
    rw [← map_range_getD nodes [] List.length]
    congr 1
    apply List.map_congr_left
    intro u _
    rw [dfs_count hwf he h u, ← List.countP_eq_length_filter,
      List.length_eq_countP_add_countP (fun t => (st.er u).contains t.next) (nodes.getD u [])]
    rw [Nat.add_comm]
    congr 1
    apply List.countP_congr
    intro t _
    simp
  rw [h1, h2, List.sum_map_add, List.sum_map_add,
    sum_synthAt e x nodes.length he st.backedges (fun b hb => (hf.recs b hb).2.2.2.2.2.2.2) 0,
    sum_countP_src st.backedges nodes.length (fun b hb => (hf.recs b hb).2.2.2.2.2.2.2)]
  omega

end BallLarus

namespace BallLarus

/-- C23: for a well-formed CFG with a block without successors and a block
without predecessors, `detect_replace_backedges` turns the edge list of every
node `u` into the edges of `u` that are not detected back-edges (no record has
their source and target), in their original order and unchanged, with
increment 0 and no record, followed by synthetic edges only, each with
increment 0 and a record whose source is `u` or with `u` the entry; a node
that is neither the entry nor the source of a record has no synthetic edge;
and the number of edges afterwards is the number before plus the number of
records. -/
theorem backedge_frame (cfg : CFG) (hwf : cfg.WF)
    (hexit : ∃ i, i < cfg.length ∧ cfg.getD i [] = [])
    (hentry : ∃ i, i < cfg.length ∧ ∀ u, ¬ cfg.Succ u i) :
    ∃ g0 g, Graph.init cfg = some g0 ∧ detect_replace_backedges g0 = some g ∧
      (∀ u, ∃ syn,
        g.nodes.getD u [] =
          (g0.nodes.getD u []).filter
            (fun t => !g.backedges.any (fun b => b.src == u && b.dest == t.next)) ++ syn ∧
        (∀ t ∈ g0.nodes.getD u [], t.inc = 0 ∧ t.be = none) ∧
        (∀ t ∈ syn, t.inc = 0 ∧ ∃ k b, t.be = some k ∧ g.backedges[k]? = some b ∧
          ((b.src = u ∧ t.next = g.exitbb) ∨ (u = g.entrybb ∧ t.next = b.dest))) ∧
        (u ≠ g.entrybb → (∀ b ∈ g.backedges, b.src ≠ u) → syn = [])) ∧
      (g.nodes.map List.length).sum = (g0.nodes.map List.length).sum + g.backedges.length := by
  obtain ⟨e, x, st0, sorted, hB⟩ := build_exists cfg hwf hexit hentry
  obtain ⟨he, hx, hxs, hin⟩ := build_facts hB
  have hnwf := initNodes_wf cfg hwf
  obtain ⟨st, hst, hfin⟩ := dfs_top hnwf he hin
  have hdet : detect_replace_backedges (Graph.mk (initNodes cfg) [] e x 0) =
      some (dagGraph cfg e x st) := by
    simp only [detect_replace_backedges]
    have : dfsInit (Graph.mk (initNodes cfg) [] e x 0) = dfsStart (initNodes cfg).length := rfl
    rw [this, hst]
    rfl
  refine ⟨_, dagGraph cfg e x st, hB.initEq, hdet, fun u => ?_, dag_edge_count hnwf he hst hfin⟩
  refine ⟨synthAt e x u st.backedges 0, ?_, ?_, ?_, ?_⟩
  · change (dagNodes (initNodes cfg) e x st).getD u [] = _
    rw [getD_dagNodes he hfin]
    congr 1
    apply List.filter_congr
    intro t ht
    congr 1
    rw [Bool.eq_iff_iff]
    simp only [List.contains_iff_exists_mem_beq, beq_iff_eq, List.any_eq_true,
      Bool.and_eq_true]
    constructor
    · rintro ⟨a, ha, rfl⟩
      obtain ⟨b, hb, h1, h2⟩ := hfin.ers u _ ha
      exact ⟨b, hb, h1, h2⟩
    · rintro ⟨b, hb, h1, h2⟩
      have := (hfin.recs b hb).2.1
      rw [h1, h2] at this
      exact ⟨_, this, rfl⟩
  · intro t ht
    change t ∈ (initNodes cfg).getD u [] at ht
    rw [getD_initNodes] at ht
    obtain ⟨s, _, rfl⟩ := List.mem_map.1 ht
    exact ⟨rfl, rfl⟩
  · intro t ht
    obtain ⟨j, b, hj, hcase⟩ := (mem_synthAt e x u st.backedges 0 t).1 ht
    rcases hcase with ⟨h1, rfl⟩ | ⟨h1, rfl⟩
    · exact ⟨rfl, j, b, by simp, hj, Or.inl ⟨h1, rfl⟩⟩
    · exact ⟨rfl, j, b, by simp, hj, Or.inr ⟨h1.symm, rfl⟩⟩
  · intro hue hsrc
    apply List.eq_nil_iff_forall_not_mem.2
    intro t ht
    obtain ⟨j, b, hj, hcase⟩ := (mem_synthAt e x u st.backedges 0 t).1 ht
    rcases hcase with ⟨h1, _⟩ | ⟨h1, _⟩
    · exact hsrc b (List.mem_iff_getElem?.2 ⟨j, hj⟩) h1
    · exact hue h1.symm

theorem backedge_frame_witness :
    ∃ g0 g, Graph.init loopCfg = some g0 ∧ detect_replace_backedges g0 = some g ∧
      g.backedges = [BackEdge.mk 2 1 0 0] ∧
      (∃ syn, g.nodes.getD 1 [] =
          (g0.nodes.getD 1 []).filter
            (fun t => !g.backedges.any (fun b => b.src == 1 && b.dest == t.next)) ++ syn ∧
        syn = []) ∧
      (∃ syn, g.nodes.getD 2 [] =
          (g0.nodes.getD 2 []).filter
            (fun t => !g.backedges.any (fun b => b.src == 2 && b.dest == t.next)) ++ syn ∧
        ∀ t ∈ syn, t.inc = 0 ∧ ∃ k b, t.be = some k ∧ g.backedges[k]? = some b ∧
          ((b.src = 2 ∧ t.next = g.exitbb) ∨ (2 = g.entrybb ∧ t.next = b.dest))) ∧
      (g.nodes.map List.length).sum = 4 + 1 := by
  obtain ⟨g0, g, h0, hg, hall, hsum⟩ := backedge_frame loopCfg (by decide)
    ⟨3, by decide, by decide⟩ ⟨0, loopCfg_rooted.1, loopCfg_rooted.2.1⟩
  have e0 : g0 = Graph.mk [[To.mk 1 0 none], [To.mk 2 0 none, To.mk 3 0 none],
      [To.mk 1 0 none], []] [] 0 3 0 := by
    have : Graph.init loopCfg = some (Graph.mk [[To.mk 1 0 none],
        [To.mk 2 0 none, To.mk 3 0 none], [To.mk 1 0 none], []] [] 0 3 0) := by decide
    rw [this] at h0
    simp only [Option.some.injEq] at h0
    exact h0.symm
  have e1 : g = Graph.mk [[To.mk 1 0 none, To.mk 1 0 (some 0)],
      [To.mk 2 0 none, To.mk 3 0 none], [To.mk 3 0 (some 0)], []]
      [BackEdge.mk 2 1 0 0] 0 3 0 := by
    have : detect_replace_backedges g0 = some (Graph.mk [[To.mk 1 0 none, To.mk 1 0 (some 0)],
        [To.mk 2 0 none, To.mk 3 0 none], [To.mk 3 0 (some 0)], []]
        [BackEdge.mk 2 1 0 0] 0 3 0) := by rw [e0]; decide
    rw [this] at hg
    simp only [Option.some.injEq] at hg
    exact hg.symm
  obtain ⟨syn1, a1, _, _, a4⟩ := hall 1
  obtain ⟨syn2, b1, _, b3, _⟩ := hall 2
  refine ⟨g0, g, h0, hg, by rw [e1], ⟨syn1, a1, a4 (by rw [e1]; decide) ?_⟩, ⟨syn2, b1, b3⟩, ?_⟩
  · rw [e1]
    decide
  · rw [hsum, e0, e1]
    rfl

end BallLarus

namespace BallLarus

/-- C11: on the artifact that the encoder writes for a well-formed CFG with a
block without successors and a block without predecessors, when the entry is
not the exit, the vector that `regeneratePath` returns is the sequence of the
nodes on the walk it chooses, in order: the entry, present iff the first
chosen edge is not synthetic, then the targets of the chosen edges other than
the last, then the exit, present iff the edge chosen into the exit is not
synthetic. The walk starts at the entry, stops at the exit and visits no node
twice, so every other visited node appears exactly once. When the exit is the
only block without successors the call returns for every identifier. -/
theorem regenerate_report (cfg : CFG) (hwf : cfg.WF)
    (hexit : ∃ i, i < cfg.length ∧ cfg.getD i [] = [])
    (hentry : ∃ i, i < cfg.length ∧ ∀ u, ¬ cfg.Succ u i) :
    ∃ g, Graph.ofCFG cfg = some g ∧
      (g.entrybb ≠ g.exitbb → ∀ fuel p path chosen,
        regenRun (BallLarusRegen.ofGraph g) fuel p = some (path, chosen) →
        ∃ c0 cl, chosen.head? = some c0 ∧ chosen.getLast? = some cl ∧
          cl.dest = g.exitbb ∧
          RWalk (BallLarusRegen.ofGraph g) g.entrybb chosen ∧
          (g.entrybb :: chosen.map (fun c => c.dest)).Nodup ∧
          path = (if c0.fromBE = false then [g.entrybb] else []) ++
            chosen.dropLast.map (fun c => c.dest) ++
            (if cl.fromBE = false then [g.exitbb] else [])) ∧
      (cfg.SingleExit g.exitbb → ∀ p, ∃ path chosen, ∀ fuel, g.nodes.length ≤ fuel →
        regenRun (BallLarusRegen.ofGraph g) fuel p = some (path, chosen)) := by
  obtain ⟨e, x, st, sorted, hB⟩ := build_exists cfg hwf hexit hentry
  refine ⟨finalGraph cfg e x st sorted, hB.ofEq, ?_, ?_⟩
  · intro hne fuel p path chosen hrun
    obtain ⟨c0, cl, h1, h2, h3, h4, h5⟩ := regenRun_report
      (BallLarusRegen.ofGraph (finalGraph cfg e x st sorted)) fuel p path chosen hne
      (fun u t ht => final_noin hB u t ht) hrun
    obtain ⟨R0, hR0⟩ := final_step hwf hB
    have hnd := (rwalk_nodup (BallLarusRegen.ofGraph (finalGraph cfg e x st sorted))
      (fun u => st.col u = 2 ∨ u = x) R0
      (fun u hu t ht => ⟨(hR0 u hu t ht).1.1, (hR0 u hu t ht).2⟩) chosen e
      (Or.inl hB.final.entry) h4).2
    exact ⟨c0, cl, h1, h2, h3, h4, hnd, h5⟩
  · intro hs p
    have hs' : cfg.SingleExit x := hs
    obtain ⟨path, chosen, h1, _⟩ := regen_returns hwf hB hs' p
    refine ⟨path, chosen, fun fuel hfuel => ?_⟩
    have hlen := final_length cfg e x st sorted
    exact regenRun_mono_le _ _ fuel (by rw [← hlen]; exact hfuel) p _ h1

theorem regenerate_report_witness :
    ∃ g, Graph.ofCFG loopCfg = some g ∧ g.entrybb ≠ g.exitbb ∧
      regenRun (BallLarusRegen.ofGraph g) 4 2 =
        some ([1, 2], [RTo.mk 1 2 true, RTo.mk 2 0 false, RTo.mk 3 0 true]) ∧
      (∃ c0 cl, [RTo.mk 1 2 true, RTo.mk 2 0 false, RTo.mk 3 0 true].head? = some c0 ∧
        [RTo.mk 1 2 true, RTo.mk 2 0 false, RTo.mk 3 0 true].getLast? = some cl ∧
        cl.dest = g.exitbb ∧
        RWalk (BallLarusRegen.ofGraph g) g.entrybb
          [RTo.mk 1 2 true, RTo.mk 2 0 false, RTo.mk 3 0 true] ∧
        (g.entrybb ::
          [RTo.mk 1 2 true, RTo.mk 2 0 false, RTo.mk 3 0 true].map (fun c => c.dest)).Nodup ∧
        [1, 2] = (if c0.fromBE = false then [g.entrybb] else []) ++
          [RTo.mk 1 2 true, RTo.mk 2 0 false, RTo.mk 3 0 true].dropLast.map (fun c => c.dest) ++
          (if cl.fromBE = false then [g.exitbb] else [])) ∧
      ∃ path chosen, regenRun (BallLarusRegen.ofGraph g) 4 7 = some (path, chosen) := by
  obtain ⟨g, hg, h1, h2⟩ := regenerate_report loopCfg (by decide) ⟨3, by decide, by decide⟩
    ⟨0, loopCfg_rooted.1, loopCfg_rooted.2.1⟩
  have hgc := eq_loopGraph hg
  have hne : g.entrybb ≠ g.exitbb := by rw [hgc]; decide
  have hrun : regenRun (BallLarusRegen.ofGraph g) 4 2 =
      some ([1, 2], [RTo.mk 1 2 true, RTo.mk 2 0 false, RTo.mk 3 0 true]) := by
    rw [hgc]; decide
  have hs : loopCfg.SingleExit g.exitbb := by rw [hgc]; exact loopCfg_exit
  obtain ⟨path, chosen, h3⟩ := h2 hs 7
  exact ⟨g, hg, hne, hrun, h1 hne 4 2 _ _ hrun, path, chosen, h3 4 (by rw [hgc]; decide)⟩

end BallLarus

namespace BallLarus

/-! ## The increments without reachability

`gen_incs` visits the nodes of `sorted` only; a node that `topological_sort`
did not reach keeps the count 0 and the increments 0. -/

/-- The sweep of `gen_incs` over a list of distinct nodes in which no node comes
before one of its successors. -/
theorem sweep_order (nodes : List (List To)) (L : List Nat) :
    L.Nodup → (∀ v ∈ L, v < nodes.length) →
    (∀ l1 v l2, L = l1 ++ v :: l2 → ∀ t ∈ nodes.getD v [], t.next ∉ v :: l2) →
    (∀ u, u ∉ L →
      (L.foldl (fun s it => incNode it s) (nodes, List.replicate nodes.length 0)).2.getD u 0 =
        0) ∧
    ∀ u ∈ L,
      if nodes.getD u [] = [] then
        (L.foldl (fun s it => incNode it s) (nodes, List.replicate nodes.length 0)).2.getD u 0
          = 1
      else
        ((L.foldl (fun s it => incNode it s) (nodes, List.replicate nodes.length 0)).1.getD u [],
          (L.foldl (fun s it => incNode it s) (nodes, List.replicate nodes.length 0)).2.getD u 0)
          = stamp (fun v =>
            (L.foldl (fun s it => incNode it s)
              (nodes, List.replicate nodes.length 0)).2.getD v 0) 0 (nodes.getD u []) := by
  suffices hmain : L.Nodup → (∀ v ∈ L, v < nodes.length) →
      (∀ l1 v l2, L = l1 ++ v :: l2 → ∀ t ∈ nodes.getD v [], t.next ∉ v :: l2) →
      (L.foldl (fun s it => incNode it s) (nodes, List.replicate nodes.length 0)).1.length =
        nodes.length ∧
      (L.foldl (fun s it => incNode it s) (nodes, List.replicate nodes.length 0)).2.length =
        nodes.length ∧
      (∀ u, u ∉ L →
        (L.foldl (fun s it => incNode it s) (nodes, List.replicate nodes.length 0)).1.getD u [] =
          nodes.getD u [] ∧
        (L.foldl (fun s it => incNode it s) (nodes, List.replicate nodes.length 0)).2.getD u 0 =
          0) ∧
      ∀ u ∈ L,
        if nodes.getD u [] = [] then
          (L.foldl (fun s it => incNode it s) (nodes, List.replicate nodes.length 0)).2.getD u 0
            = 1
        else
          ((L.foldl (fun s it => incNode it s)
              (nodes, List.replicate nodes.length 0)).1.getD u [],
            (L.foldl (fun s it => incNode it s)
              (nodes, List.replicate nodes.length 0)).2.getD u 0)
            = stamp (fun v =>
              (L.foldl (fun s it => incNode it s)
                (nodes, List.replicate nodes.length 0)).2.getD v 0) 0 (nodes.getD u []) by
    intro a b c
    obtain ⟨_, _, h3, h4⟩ := hmain a b c
    exact ⟨fun u hu => (h3 u hu).2, h4⟩
  induction L using List.reverseRecOn with
  | nil =>
    intro _ _ _
    refine ⟨rfl, by simp, fun u _ => ⟨rfl, getD_replicate_self _ _ _⟩, fun u hu => by cases hu⟩
  | append_singleton L v ih =>
    intro hnd hb hcl
    have hnd' : L.Nodup := (List.nodup_append.1 hnd).1
    have hvL : v ∉ L := fun hh => (List.nodup_append.1 hnd).2.2 hh (List.mem_singleton_self v)
    obtain ⟨h1, h2, h3, h4⟩ := ih hnd' (fun w hw => hb w (List.mem_append_left _ hw))
      (fun l1 w l2 hsp t ht hm => hcl l1 w (l2 ++ [v]) (by rw [hsp]; simp) t ht (by
        rcases List.mem_cons.1 hm with hm | hm
        · rw [hm]; exact List.mem_cons_self _ _
        · exact List.mem_cons_of_mem _ (List.mem_append_left _ hm)))
    have hv : v < nodes.length := hb v (by simp)
    have hsucc : ∀ t ∈ nodes.getD v [], t.next ≠ v := by
      intro t ht hh
      exact hcl L v [] rfl t ht (by rw [hh]; exact List.mem_cons_self _ _)
    rw [List.foldl_append]
    simp only [List.foldl_cons, List.foldl_nil]
    generalize L.foldl (fun s it => incNode it s) (nodes, List.replicate nodes.length 0) = r
      at h1 h2 h3 h4 ⊢
    obtain ⟨nd, np⟩ := r
    simp only at h1 h2 h3 h4
    have hndv : nd.getD v [] = nodes.getD v [] := (h3 v hvL).1
    obtain ⟨a1, a2, a3, a4⟩ := incNode_spec v nd np (by omega) (by omega) (by
      intro t ht hh
      rw [hndv] at ht
      exact hsucc t ht hh)
    refine ⟨by rw [a1, h1], by rw [a2, h2], fun u hu => ?_, fun u hu => ?_⟩
    · have hu1 : u ∉ L := fun hh => hu (List.mem_append_left _ hh)
      have hu2 : u ≠ v := fun hh => hu (by rw [hh]; simp)
      rw [(a3 u hu2).1, (a3 u hu2).2]
      exact h3 u hu1
    · rcases List.mem_append.1 hu with hu | hu
      · have hu2 : u ≠ v := fun hh => hvL (hh ▸ hu)
        have := h4 u hu
        rw [(a3 u hu2).1, (a3 u hu2).2]
        split
        · rename_i he; rw [if_pos he] at this; exact this
        · rename_i he
          rw [if_neg he] at this
          rw [this]
          apply stamp_congr
          intro t ht
          obtain ⟨l1, l2, hsp⟩ := List.append_of_mem hu
          have htl : t.next ∉ u :: (l2 ++ [v]) :=
            hcl l1 u (l2 ++ [v]) (by rw [hsp]; simp) t ht
          have : t.next ≠ v := by
            intro hh
            apply htl
            rw [hh]
            exact List.mem_cons_of_mem _ (List.mem_append_right _ (List.mem_singleton_self v))
          exact ((a3 t.next this).2).symm
      · simp at hu
        subst hu
        rw [hndv] at a4
        split
        · rename_i he
          rw [if_pos he] at a4
          exact a4.2
        · rename_i he
          rw [if_neg he] at a4
          exact a4

/-- In the processing order of `gen_incs` no node comes before one of its
successors. -/
theorem sorted_order {cfg : CFG} {e x : Nat} {st : DfsState} {sorted : List Nat}
    (hB : Build cfg e x st sorted) :
    ∀ l1 v l2, sorted.reverse = l1 ++ v :: l2 →
      ∀ t ∈ (dagNodes (initNodes cfg) e x st).getD v [], t.next ∉ v :: l2 := by
  intro m1 v m2 hsp t ht hmem
  have hs : sorted = m2.reverse ++ v :: m1.reverse := by
    have := congrArg List.reverse hsp
    simpa using this
  have hnd := hB.nodup
  rw [hs] at hnd
  have hv2 : v ∉ m2.reverse :=
    fun hh => (List.nodup_append.1 hnd).2.2 hh (List.mem_cons_self _ _)
  rcases List.mem_cons.1 hmem with hm | hm
  · have := hB.order m2.reverse t.next m1.reverse (by rw [hs, hm]) v ⟨t, ht, rfl⟩
    exact hv2 this
  · obtain ⟨p, q, hpq⟩ := List.append_of_mem (List.mem_reverse.2 hm)
    have := hB.order p t.next (q ++ v :: m1.reverse) (by rw [hs, hpq]; simp) v ⟨t, ht, rfl⟩
    exact hv2 (by rw [hpq]; exact List.mem_append_left _ this)

/-- The path counts and increments that `gen_incs` leaves: 0 at a node outside
`sorted`, 1 at a node of `sorted` without edges, and at any other node of
`sorted` the prefix sums modulo `2 ^ 64` of the counts of the targets. -/
theorem final_counts {cfg : CFG} {e x : Nat} {st : DfsState} {sorted : List Nat}
    (hB : Build cfg e x st sorted) :
    (∀ u, u ∉ sorted → pathCounts cfg e x st sorted u = 0) ∧
    ∀ u ∈ sorted,
      if (finalGraph cfg e x st sorted).nodes.getD u [] = [] then
        pathCounts cfg e x st sorted u = 1
      else
        stamp (pathCounts cfg e x st sorted) 0 ((finalGraph cfg e x st sorted).nodes.getD u []) =
          ((finalGraph cfg e x st sorted).nodes.getD u [], pathCounts cfg e x st sorted u) := by
  have hlen : (dagNodes (initNodes cfg) e x st).length = cfg.length := by
    rw [length_dagNodes, length_initNodes]
  have hnd : sorted.reverse.Nodup := List.nodup_reverse.2 hB.nodup
  have hb : ∀ v ∈ sorted.reverse, v < (dagNodes (initNodes cfg) e x st).length := by
    intro v hv; rw [hlen]; exact hB.bound v (List.mem_reverse.1 hv)
  obtain ⟨s3, s4⟩ := sweep_order _ _ hnd hb (sorted_order hB)
  have hshape : ∀ u, ((finalGraph cfg e x st sorted).nodes.getD u []).map
      (fun t => (t.next, t.be)) =
      ((dagNodes (initNodes cfg) e x st).getD u []).map (fun t => (t.next, t.be)) :=
    fun u => (incSweep_shape sorted (dagNodes (initNodes cfg) e x st) u).2
  refine ⟨fun u hu => s3 u (fun hh => hu (List.mem_reverse.1 hh)), fun u hu => ?_⟩
  have := s4 u (List.mem_reverse.2 hu)
  split
  · rename_i hnil
    rw [if_pos ((nil_of_shape (hshape u)).1 hnil)] at this
    exact this
  · rename_i hne
    rw [if_neg (fun hh => hne ((nil_of_shape (hshape u)).2 hh))] at this
    have h5 := congrArg Prod.fst this
    simp only at h5
    change stamp (pathCounts cfg e x st sorted) 0
      ((incSweep sorted (dagNodes (initNodes cfg) e x st)).1.getD u []) =
      ((incSweep sorted (dagNodes (initNodes cfg) e x st)).1.getD u [], _)
    unfold pathCounts incSweep
    rw [h5, stamp_idem, ← this]

end BallLarus

namespace BallLarus

/-! ## Decoding with counts modulo `2 ^ 64` -/

theorem stamp_lt (c : Nat → Nat) (es : List To) :
    ∀ acc, acc < W64 → (stamp c acc es).2 < W64 := by
  induction es with
  | nil => intro acc h; exact h
  | cons t rest ih =>
    intro acc _
    simp only [stamp]
    exact ih _ (Nat.mod_lt _ (by decide))

theorem stamp_zero (c : Nat → Nat) (es : List To) (h : ∀ t ∈ es, c t.next = 0) :
    (stamp c 0 es).2 = 0 := by
  induction es with
  | nil => rfl
  | cons t rest ih =>
    simp only [stamp]
    rw [h t (List.mem_cons_self _ _)]
    exact ih (fun t ht => h t (List.mem_cons_of_mem _ ht))

/-- The selection loop of `regeneratePath` on an edge list that carries its
increments, which are prefix sums modulo `2 ^ 64`: when the loop has seen the
edges before `es` and holds `b`, the edge it returns either has the remaining
identifier inside its interval (or a target with count 0), or has an
increment below the final sum, which is at most the identifier. -/
theorem select_wrap (c : Nat → Nat) (p : Nat) (hp : p < W64) (es : List To) :
    ∀ (acc total : Nat) (b : To), stamp c acc es = (es, total) → b.inc ≤ p →
      ((p < b.inc + c b.next ∨ c b.next = 0) ∨
        (acc ≤ p ∧ (b.inc < acc ∨ es.head? = some b))) →
      ∃ t, selectEdge p (es.map To.line) b.line = t.line ∧ (t = b ∨ t ∈ es) ∧
        t.inc ≤ p ∧
        ((p < t.inc + c t.next ∨ c t.next = 0) ∨ (t.inc < total ∧ total ≤ p)) := by
  induction es with
  | nil =>
    intro acc total b hst hbp hb
    simp only [stamp, Prod.mk.injEq, true_and] at hst
    refine ⟨b, rfl, Or.inl rfl, hbp, ?_⟩
    rcases hb with hb | ⟨h1, h2 | h2⟩
    · exact Or.inl hb
    · exact Or.inr ⟨by omega, by omega⟩
    · cases h2
  | cons t rest ih =>
    intro acc total b hst hbp hb
    simp only [stamp, Prod.mk.injEq, List.cons.injEq] at hst
    obtain ⟨⟨h1, h2⟩, h3⟩ := hst
    have hinc : t.inc = acc := by
      have := congrArg To.inc h1
      simpa using this.symm
    have hnext : ∀ (b' : To), b'.inc ≤ p →
        ((p < b'.inc + c b'.next ∨ c b'.next = 0) ∨ b' = t) →
        ((p < b'.inc + c b'.next ∨ c b'.next = 0) ∨
          ((acc + c t.next) % W64 ≤ p ∧
            (b'.inc < (acc + c t.next) % W64 ∨ rest.head? = some b'))) := by
      intro b' hb'p hb'
      by_cases hg : p < b'.inc + c b'.next ∨ c b'.next = 0
      · exact Or.inl hg
      · rcases hb' with hb' | hb'
        · exact absurd hb' hg
        · subst hb'
          have hmod : (b'.inc + c b'.next) % W64 = b'.inc + c b'.next :=
            Nat.mod_eq_of_lt (by omega)
          rw [← hinc, hmod]
          exact Or.inr ⟨by omega, Or.inl (by omega)⟩
    rw [List.map_cons, selectEdge]
    by_cases hcond : t.line.inc ≤ p ∧ t.line.inc > b.line.inc
    · rw [if_pos hcond]
      have e1 : t.line.inc = t.inc := rfl
      obtain ⟨t', f1, f2, f3, f4⟩ := ih ((acc + c t.next) % W64) total t (Prod.ext h2 h3)
        (by omega) (hnext t (by omega) (Or.inr rfl))
      refine ⟨t', f1, Or.inr ?_, f3, f4⟩
      rcases f2 with f2 | f2
      · rw [f2]; exact List.mem_cons_self _ _
      · exact List.mem_cons_of_mem _ f2
    · rw [if_neg hcond]
      have e1 : t.line.inc = t.inc := rfl
      have e2 : b.line.inc = b.inc := rfl
      have hb' : (p < b.inc + c b.next ∨ c b.next = 0) ∨ b = t := by
        rcases hb with hb | ⟨k1, k2 | k2⟩
        · exact Or.inl hb
        · exact absurd ⟨by omega, by omega⟩ hcond
        · simp only [List.head?_cons, Option.some.injEq] at k2
          exact Or.inr k2.symm
      obtain ⟨t', f1, f2, f3, f4⟩ := ih ((acc + c t.next) % W64) total b (Prod.ext h2 h3)
        hbp (hnext b hbp hb')
      refine ⟨t', f1, ?_, f3, f4⟩
      rcases f2 with f2 | f2
      · exact Or.inl f2
      · exact Or.inr (List.mem_cons_of_mem _ f2)

/-- The loop of `regeneratePath` on the artifact of a graph in which the nodes
of `S` are closed under the edges, which decrease a rank, have the exit as
their only sink and carry increments that are prefix sums modulo `2 ^ 64` of
the counts `c`: started at a node of `S` with an identifier below the count of
the node, or with any identifier when that count is 0, it reaches the exit
along a walk whose increments sum to the identifier. -/
theorem regenLoop_wrap {g : Graph} {c : Nat → Nat} (S : Nat → Prop) (R : Nat → Nat)
    (hstep : ∀ u, S u → ∀ t ∈ g.nodes.getD u [], S t.next ∧ R t.next < R u)
    (hsink : ∀ u, S u → (g.nodes.getD u [] = [] ↔ u = g.exitbb))
    (hst : ∀ u, S u → g.nodes.getD u [] ≠ [] →
      stamp c 0 (g.nodes.getD u []) = (g.nodes.getD u [], c u))
    (hleaf : c g.exitbb = 1) (f : Nat) :
    ∀ (u p : Nat) (path : List Nat) (chosen : List RTo), S u → R u < f → p < W64 →
      (p < c u ∨ c u = 0) →
      ∃ cs path', regenLoop (BallLarusRegen.ofGraph g) f u p path chosen =
          some (path', chosen ++ (edgesAlong g.nodes u cs).map To.line) ∧
        walk g.nodes u cs = some (g.exitbb, p) := by
  induction f with
  | zero => intro u p path chosen _ h; omega
  | succ f ih =>
    intro u p path chosen hu hRu hpW hp
    have hex : (BallLarusRegen.ofGraph g).exitbb = g.exitbb := rfl
    by_cases hux : u = g.exitbb
    · refine ⟨[], path, ?_, ?_⟩
      · rw [regenLoop, hex, if_pos hux]
        simp [edgesAlong]
      · have hp0 : p = 0 := by
          rw [hux, hleaf] at hp
          omega
        rw [walk, hux, hp0]
    · have hne : g.nodes.getD u [] ≠ [] := fun hh => hux ((hsink u hu).1 hh)
      have hstu := hst u hu hne
      have htos := ofGraph_tos g u hne
      cases hes : g.nodes.getD u [] with
      | nil => exact absurd hes hne
      | cons t0 ts =>
        rw [hes] at hstu htos
        have ht0 : t0.inc = 0 := by
          simp only [stamp, Prod.mk.injEq, List.cons.injEq] at hstu
          have := congrArg To.inc hstu.1.1
          simpa using this.symm
        obtain ⟨t, e1, e2, e3, e4⟩ := select_wrap c p hpW (t0 :: ts) 0 (c u) t0 hstu
          (by omega) (Or.inr ⟨Nat.zero_le _, Or.inr rfl⟩)
        have hgood : p < t.inc + c t.next ∨ c t.next = 0 := by
          rcases e4 with e4 | e4
          · exact e4
          · omega
        have htm : t ∈ g.nodes.getD u [] := by
          rw [hes]
          rcases e2 with e2 | e2
          · rw [e2]; exact List.mem_cons_self _ _
          · exact e2
        obtain ⟨i, hi⟩ := List.getElem?_of_mem htm
        have hget : (g.nodes.getD u []).getD i (To.mk 0 0 none) = t := by
          rw [List.getD_eq_getElem?_getD, hi]; rfl
        have hsub : (p + W64 - t.line.inc) % W64 = p - t.inc :=
          sub_mod_W64 p t.inc e3 hpW
        obtain ⟨hSt, hlt⟩ := hstep u hu t htm
        have hstep1 : ∃ path2, regenLoop (BallLarusRegen.ofGraph g) (f + 1) u p path chosen =
            regenLoop (BallLarusRegen.ofGraph g) f t.next (p - t.inc) path2
              (chosen ++ [t.line]) := by
          rw [regenLoop, hex, if_neg hux, htos]
          simp only [List.map_cons]
          rw [← List.map_cons, e1, hsub]
          exact ⟨_, rfl⟩
        obtain ⟨path2, hstep1⟩ := hstep1
        obtain ⟨cs', path', r1, r2⟩ := ih t.next (p - t.inc) path2
          (chosen ++ [t.line]) hSt (by omega) (by omega) (by omega)
        refine ⟨i :: cs', path', ?_, ?_⟩
        · rw [hstep1, r1, edgesAlong, hget]
          simp
        · rw [walk, hi]
          simp only
          rw [r2]
          simp only [Option.some.injEq, Prod.mk.injEq, true_and]
          omega

end BallLarus

namespace BallLarus

/-- In the final graph the blocks that `dfs` finished, together with the exit,
are closed under the edges, which strictly decrease a rank. -/
theorem final_rank {cfg : CFG} {e x : Nat} {st : DfsState} {sorted : List Nat}
    (hwf : cfg.WF) (hB : Build cfg e x st sorted) :
    ∃ R0 : Nat → Nat, ∀ u, (st.col u = 2 ∨ u = x) →
      ∀ t ∈ (finalGraph cfg e x st sorted).nodes.getD u [],
        ((st.col t.next = 2 ∨ t.next = x) ∧ t.next < cfg.length) ∧ R0 t.next < R0 u := by
  obtain ⟨he, hx, hxs, hin⟩ := build_facts hB
  obtain ⟨R0, hR0⟩ := dag_rank (x := x) he hxs hin hB.final
  refine ⟨R0, fun u hu t ht => ?_⟩
  have hE : Edge (finalGraph cfg e x st sorted).nodes u t.next := ⟨t, ht, rfl⟩
  have hedge : Edge (dagNodes (initNodes cfg) e x st) u t.next := (final_edge u t.next).1 hE
  obtain ⟨a1, a2⟩ := hR0 u t.next hu hedge
  obtain ⟨t2, ht2, ht2n⟩ := hedge
  have := dag_wf (initNodes_wf cfg hwf) he hx hB.final u t2 ht2
  rw [length_dagNodes, length_initNodes, ht2n] at this
  exact ⟨⟨a1, this⟩, a2⟩

/-- A rank on the nodes below `N` can be taken below `N`. -/
theorem rank_compress (N : Nat) (P : Nat → Prop) (R0 : Nat → Nat) :
    ∃ R : Nat → Nat, (∀ u v, P v → v < N → R0 v < R0 u → R v < R u) ∧
      ∀ u, P u → u < N → R u < N := by
  classical
  refine ⟨fun u => (List.range N).countP (fun w => decide (P w ∧ R0 w < R0 u)), ?_, ?_⟩
  · intro u v hv hvn hlt
    apply countP_lt_of_imp
    · intro w _ hw
      simp only [decide_eq_true_eq] at hw ⊢
      exact ⟨hw.1, by omega⟩
    · exact ⟨v, List.mem_range.2 hvn, by simp [hv, hlt], by simp⟩
  · intro u hu hun
    have := countP_lt_of_imp
      (fun w => decide (P w ∧ R0 w < R0 u)) (fun _ => true)
      (List.range N) (fun _ _ _ => rfl) ⟨u, List.mem_range.2 hun, rfl, by simp⟩
    simpa using this

/-- Every count is a value of `uint64_t`. -/
theorem counts_lt {cfg : CFG} {e x : Nat} {st : DfsState} {sorted : List Nat}
    (hB : Build cfg e x st sorted) (u : Nat) : pathCounts cfg e x st sorted u < W64 := by
  obtain ⟨h1, h2⟩ := final_counts hB
  by_cases hu : u ∈ sorted
  · have := h2 u hu
    split at this
    · rw [this]; decide
    · have h3 := congrArg Prod.snd this
      simp only at h3
      rw [← h3]
      exact stamp_lt _ _ 0 (by decide)
  · rw [h1 u hu]; decide

/-- When `topological_sort` does not reach the exit, the only block without
successors, every count is 0. -/
theorem counts_zero {cfg : CFG} {e x : Nat} {st : DfsState} {sorted : List Nat}
    (hB : Build cfg e x st sorted) (hs : cfg.SingleExit x) (hx : x ∉ sorted) (u : Nat) :
    pathCounts cfg e x st sorted u = 0 := by
  obtain ⟨h1, h2⟩ := final_counts hB
  have key : ∀ k, ∀ u ∈ sorted, sorted.length - sorted.indexOf u ≤ k →
      pathCounts cfg e x st sorted u = 0 := by
    intro k
    induction k with
    | zero =>
      intro u hu hk
      have := List.indexOf_lt_length.2 hu
      omega
    | succ k ih =>
      intro u hu hk
      have hun : u < cfg.length := hB.bound u hu
      have hne : (finalGraph cfg e x st sorted).nodes.getD u [] ≠ [] := by
        intro hh
        have := (hs.2 u hun).1 ((finalGraph_sink hB u).1 hh)
        exact hx (this ▸ hu)
      have h3 := h2 u hu
      rw [if_neg hne] at h3
      have h4 := congrArg Prod.snd h3
      simp only at h4
      rw [← h4]
      apply stamp_zero
      intro t ht
      by_cases hts : t.next ∈ sorted
      · obtain ⟨a, b, hab⟩ := List.append_of_mem hts
        have hE : Edge (finalGraph cfg e x st sorted).nodes u t.next := ⟨t, ht, rfl⟩
        have hua := hB.order a t.next b hab u ((final_edge u t.next).1 hE)
        have := indexOf_split (hab ▸ hB.nodup) hua
        rw [← hab] at this
        exact ih t.next hts (by omega)
      · exact h1 t.next hts
  by_cases hu : u ∈ sorted
  · exact key _ u hu (Nat.le_refl _)
  · exact h1 u hu

/-- When `topological_sort` reaches the exit, the only block without
successors, it reaches every block that `dfs` finished. -/
theorem sorted_all {cfg : CFG} {e x : Nat} {st : DfsState} {sorted : List Nat}
    (hwf : cfg.WF) (hB : Build cfg e x st sorted) (hs : cfg.SingleExit x) (hx : x ∈ sorted)
    (u : Nat) (hu : st.col u = 2 ∨ u = x) (hun : u < cfg.length) : u ∈ sorted := by
  obtain ⟨R0, hR0⟩ := final_rank hwf hB
  have key : ∀ n u, R0 u ≤ n → (st.col u = 2 ∨ u = x) → u < cfg.length → u ∈ sorted := by
    intro n
    induction n with
    | zero =>
      intro u hn hu hun
      by_cases hux : u = x
      · rw [hux]; exact hx
      · have hne : (finalGraph cfg e x st sorted).nodes.getD u [] ≠ [] := by
          intro hh
          exact hux ((hs.2 u hun).1 ((finalGraph_sink hB u).1 hh))
        obtain ⟨t, ht⟩ := List.exists_mem_of_ne_nil _ hne
        have := (hR0 u hu t ht).2
        omega
    | succ n ih =>
      intro u hn hu hun
      by_cases hux : u = x
      · rw [hux]; exact hx
      · have hne : (finalGraph cfg e x st sorted).nodes.getD u [] ≠ [] := by
          intro hh
          exact hux ((hs.2 u hun).1 ((finalGraph_sink hB u).1 hh))
        obtain ⟨t, ht⟩ := List.exists_mem_of_ne_nil _ hne
        obtain ⟨⟨a1, a2⟩, a3⟩ := hR0 u hu t ht
        have hts := ih t.next (by omega) a1 a2
        obtain ⟨a, b, hab⟩ := List.append_of_mem hts
        have hE : Edge (finalGraph cfg e x st sorted).nodes u t.next := ⟨t, ht, rfl⟩
        have hua := hB.order a t.next b hab u ((final_edge u t.next).1 hE)
        rw [hab]
        exact List.mem_append_left _ hua
  exact key _ u (Nat.le_refl _) hu hun

/-- The round trip on the artifact of a CFG whose exit is its only block
without successors: for every identifier below `numPath` the loop of
`regeneratePath` returns within `N` iterations and the edges it selects are
those of a path from the entry to the exit whose increments sum to the
identifier. -/
theorem round_trip {cfg : CFG} {e x : Nat} {st : DfsState} {sorted : List Nat}
    (hwf : cfg.WF) (hB : Build cfg e x st sorted) (hs : cfg.SingleExit x) (p : Nat)
    (hp : p < (finalGraph cfg e x st sorted).numPath) :
    ∃ cs path', regenLoop (BallLarusRegen.ofGraph (finalGraph cfg e x st sorted)) cfg.length
        e p [] [] =
          some (path', (edgesAlong (finalGraph cfg e x st sorted).nodes e cs).map To.line) ∧
      walk (finalGraph cfg e x st sorted).nodes e cs = some (x, p) := by
  have hpe : p < pathCounts cfg e x st sorted e := hp
  have hx : x ∈ sorted := by
    by_contra hx
    rw [counts_zero hB hs hx e] at hpe
    omega
  obtain ⟨h1, h2⟩ := final_counts hB
  obtain ⟨R0, hR0⟩ := final_rank hwf hB
  obtain ⟨R, hR1, hR2⟩ := rank_compress cfg.length (fun u => st.col u = 2 ∨ u = x) R0
  have hSe : (st.col e = 2 ∨ e = x) ∧ e < cfg.length := ⟨Or.inl hB.final.entry, hB.he⟩
  have hxnil : (finalGraph cfg e x st sorted).nodes.getD x [] = [] :=
    (finalGraph_sink hB x).2 hB.sink
  obtain ⟨cs, path', r1, r2⟩ := regenLoop_wrap
    (fun u => (st.col u = 2 ∨ u = x) ∧ u < cfg.length) R
    (fun u hu t ht => by
      obtain ⟨⟨a1, a2⟩, a3⟩ := hR0 u hu.1 t ht
      exact ⟨⟨a1, a2⟩, hR1 u t.next a1 a2 a3⟩)
    (fun u hu => by
      rw [finalGraph_sink hB u]
      exact hs.2 u hu.2)
    (fun u hu hne => by
      have := h2 u (sorted_all hwf hB hs hx u hu.1 hu.2)
      rw [if_neg hne] at this
      exact this)
    (by
      have := h2 x hx
      rw [if_pos hxnil] at this
      exact this)
    cfg.length e p [] [] hSe (hR2 e hSe.1 hSe.2)
    (Nat.lt_trans hpe (counts_lt hB e)) (Or.inl hpe)
  refine ⟨cs, path', ?_, r2⟩
  rw [r1]
  rfl

end BallLarus

namespace BallLarus

/-- C1, amended: for a well-formed CFG with a block without predecessors in
which the exit is the only block without successors, `regeneratePath` run on
the artifact of the encoder returns for every identifier `p` below `numPath`
(within `N` iterations), and the edges it selects are the edges of a path from
the entry to the exit whose increments sum to `p`. Neither reachability of
every block nor a bound on the number of paths is assumed. -/
theorem regenerate_round_trip (cfg : CFG) (x : Nat) (hwf : cfg.WF)
    (hentry : ∃ i, i < cfg.length ∧ ∀ u, ¬ cfg.Succ u i) (hs : cfg.SingleExit x) :
    ∃ g, Graph.ofCFG cfg = some g ∧ g.exitbb = x ∧
      ∀ p, p < g.numPath → ∀ fuel, g.nodes.length ≤ fuel →
        ∃ path cs, regeneratePath (BallLarusRegen.ofGraph g) fuel p = some path ∧
          chosenEdges (BallLarusRegen.ofGraph g) fuel p =
            some ((edgesAlong g.nodes g.entrybb cs).map To.line) ∧
          walk g.nodes g.entrybb cs = some (x, p) := by
  obtain ⟨e, x', st, sorted, hB⟩ := build_exists cfg hwf ⟨x, hs.1, (hs.2 x hs.1).2 rfl⟩ hentry
  have hxx := build_single hB hs
  subst hxx
  have hlen := final_length cfg e x' st sorted
  refine ⟨finalGraph cfg e x' st sorted, hB.ofEq, rfl, fun p hp fuel hfuel => ?_⟩
  obtain ⟨cs, path', r1, r2⟩ := round_trip hwf hB hs p hp
  have r1' := regenLoop_mono_le _ _ fuel (by rw [← hlen]; exact hfuel) _ _ _ _ _ r1
  have hen : (BallLarusRegen.ofGraph (finalGraph cfg e x' st sorted)).entrybb = e := rfl
  have hrun : regenRun (BallLarusRegen.ofGraph (finalGraph cfg e x' st sorted)) fuel p =
      some (if (BallLarusRegen.ofGraph (finalGraph cfg e x' st sorted)).entrybb =
          (BallLarusRegen.ofGraph (finalGraph cfg e x' st sorted)).exitbb
        then path' ++ [(BallLarusRegen.ofGraph (finalGraph cfg e x' st sorted)).entrybb]
        else path',
        (edgesAlong (finalGraph cfg e x' st sorted).nodes e cs).map To.line) := by
    rw [regenRun, hen, r1']
  refine ⟨_, cs, by rw [regeneratePath, hrun]; rfl, ?_, r2⟩
  rw [chosenEdges, hrun]
  rfl

theorem regenerate_round_trip_witness :
    ∃ g, Graph.ofCFG [[1, 2], [3], [3], [], [4]] = some g ∧ g.exitbb = 3 ∧
      1 < g.numPath ∧ g.nodes.length ≤ 5 ∧
      ∃ path cs, regeneratePath (BallLarusRegen.ofGraph g) 5 1 = some path ∧
        chosenEdges (BallLarusRegen.ofGraph g) 5 1 =
          some ((edgesAlong g.nodes g.entrybb cs).map To.line) ∧
        walk g.nodes g.entrybb cs = some (3, 1) := by
  have hs : CFG.SingleExit [[1, 2], [3], [3], [], [4]] 3 := by
    refine ⟨by decide, ?_⟩
    intro i hi
    rcases i with _ | _ | _ | _ | _ | i
    · decide
    · decide
    · decide
    · decide
    · decide
    · simp only [List.length_cons, List.length_nil] at hi
      omega
  have hentry : ∃ i, i < List.length ([[1, 2], [3], [3], [], [4]] : CFG) ∧
      ∀ u, ¬ CFG.Succ [[1, 2], [3], [3], [], [4]] u i := by
    refine ⟨0, by decide, ?_⟩
    intro u h
    unfold CFG.Succ at h
    rcases u with _ | _ | _ | _ | _ | u <;> simp at h
  obtain ⟨g, hg, hx, h⟩ := regenerate_round_trip [[1, 2], [3], [3], [], [4]] 3 (by decide)
    hentry hs
  have hgc : Graph.ofCFG [[1, 2], [3], [3], [], [4]] =
      some (Graph.mk [[To.mk 1 0 none, To.mk 2 1 none], [To.mk 3 0 none], [To.mk 3 0 none], [],
        [To.mk 4 0 none]] [] 0 3 2) := by decide
  have hge : g = Graph.mk [[To.mk 1 0 none, To.mk 2 1 none], [To.mk 3 0 none],
      [To.mk 3 0 none], [], [To.mk 4 0 none]] [] 0 3 2 := by
    rw [hgc] at hg
    simp only [Option.some.injEq] at hg
    exact hg.symm
  have hp : 1 < g.numPath := by rw [hge]; decide
  have hf : g.nodes.length ≤ 5 := by rw [hge]; decide
  exact ⟨g, hg, hx, hp, hf, h 1 hp 5 hf⟩

end BallLarus
